import Mathlib

/-!
# SyNAPSE reorder engine: dependency oracle and decision-graph rewriting

A shallow embedding of `tools/synapse/modules/module.cpp` (the dependency
oracle, candidate enumeration and `reorder_bdd`).  Decision-graph nodes live
in a heap (a list of nodes addressed by index); a `shared_ptr` is an
`Option Ptr`.  Assertions, null dereferences and exhausted loop budgets are
explicit faults.
-/

namespace Synapse

/-! ## Faults -/

/-- Ways in which the C++ code stops without returning a value. -/
inductive Fault
  | assertion
  | null_deref
  | out_of_fuel
  deriving DecidableEq, Repr

deriving instance DecidableEq for Except

/-! ## Symbolic expressions -/

/-- Modelled from the spec: the symbolic expression type `klee::Expr` is not part of the
sources; only the constructors the core builds or inspects are kept (constants, array reads,
concatenation, and the `Eq`/`Not`/`And` of the expression builder). -/
inductive Expr
  | Constant (value : Nat) (width : Nat)
  | Read (array : String) (index : Expr)
  | Concat (l : Expr) (r : Expr)
  | Eq (l : Expr) (r : Expr)
  | Not (e : Expr)
  | And (l : Expr) (r : Expr)
  deriving DecidableEq, Repr

instance : Inhabited Expr := ⟨Expr.Constant 0 0⟩

/-- Modelled from the spec: bit-width carried by an expression (`getWidth`, an `unsigned`). -/
def Expr.rawWidth : Expr → Nat
  | .Constant _ w => w
  | .Read _ _ => 8
  | .Concat l r => l.rawWidth + r.rawWidth
  | .Eq _ _ => 1
  | .Not e => e.rawWidth
  | .And l _ => l.rawWidth

/-- Modelled from the spec: `getWidth()` returns an `unsigned` (32 bits). -/
def Expr.getWidth (e : Expr) : Nat := e.rawWidth % 2 ^ 32

/-- Modelled from the spec: `RetrieveSymbols::get_retrieved_strings`, the labels of all
symbolic arrays an expression reads (its free symbols). -/
def retrieved_strings : Expr → List String
  | .Constant _ _ => []
  | .Read a i => a :: retrieved_strings i
  | .Concat l r => retrieved_strings l ++ retrieved_strings r
  | .Eq l r => retrieved_strings l ++ retrieved_strings r
  | .Not e => retrieved_strings e
  | .And l r => retrieved_strings l ++ retrieved_strings r

/-- Modelled from the spec: `RetrieveSymbols::get_retrieved_packet_chunks`, all read
expressions on the array `packet_chunks` referenced by an expression. -/
def retrieved_packet_chunks : Expr → List Expr
  | .Constant _ _ => []
  | .Read a i =>
    (if a = "packet_chunks" then [Expr.Read a i] else []) ++ retrieved_packet_chunks i
  | .Concat l r => retrieved_packet_chunks l ++ retrieved_packet_chunks r
  | .Eq l r => retrieved_packet_chunks l ++ retrieved_packet_chunks r
  | .Not e => retrieved_packet_chunks e
  | .And l r => retrieved_packet_chunks l ++ retrieved_packet_chunks r

/-- Modelled from the spec: `get_bytes_read(chunk, bytes_read)`, the byte offsets (each an
`unsigned`) a chunk expression reads; `none` is the `success = false` outcome, for an
expression that is not a concatenation of reads at constant offsets. -/
def get_bytes_read : Expr → Option (List Nat)
  | .Read _ (.Constant v _) => some [v % 2 ^ 32]
  | .Concat l r =>
    match get_bytes_read l, get_bytes_read r with
    | some a, some b => some (a ++ b)
    | _, _ => none
  | _ => none

/-- A `klee::ConstraintManager`: the constraints of one call path. -/
abbrev ConstraintManager := List Expr

/-! ## Calls, symbols, nodes -/

/-- One call argument: `expr` is the value passed, `in_` the dereferenced input (`arg.in`). -/
structure arg_t where
  expr : Option Expr
  in_ : Option Expr
  deriving DecidableEq, Repr

/-- A call: function name and argument map (`std::map<std::string, arg_t>`). -/
structure call_t where
  function_name : String
  args : List (String × arg_t)
  deriving DecidableEq, Repr

/-- A generated symbol. -/
structure symbol_t where
  label : String
  expr : Expr
  deriving DecidableEq, Repr

/-- The external collaborators of the core: the SMT adapter `BDD::solver_toolbox` and
`BDD::SymbolFactory::should_ignore`.  They are opaque to the core and are parameters here. -/
structure Toolbox where
  are_exprs_always_equal : Expr → Expr → Bool
  are_exprs_always_equal_pc : Expr → Expr → ConstraintManager → ConstraintManager → Bool
  are_exprs_always_not_equal_pc : Expr → Expr → ConstraintManager → ConstraintManager → Bool
  are_calls_equal : call_t → call_t → Bool
  should_ignore : String → Bool

/-- A node address (the target of a `BDDNode_ptr`). -/
abbrev Ptr := Nat

/-- `BDD::Node::NodeType`. -/
inductive NodeType
  | CALL
  | BRANCH
  | RETURN_INIT
  | RETURN_PROCESS
  | RETURN_RAW
  deriving DecidableEq, Repr

/-- Modelled from the spec: a decision-graph node (`BDD::Node` and its subclasses are not
part of the sources).  `next` is the successor of a Call and the `on_true` successor of a
Branch (`get_candidates` tests `current->get_next()->get_next()` before it looks at the
children of a Branch successor, so `get_next()` of a Branch is its `on_true` side);
`on_false`, `condition` are read for Branch nodes only, `call` and `generated_symbols` for
Call nodes only. -/
structure Node where
  id : Nat
  type : NodeType
  next : Option Ptr
  prev : Option Ptr
  on_false : Option Ptr
  call : call_t
  condition : Expr
  constraints : List ConstraintManager
  generated_symbols : List symbol_t
  deriving DecidableEq, Repr

instance : Inhabited Node :=
  ⟨⟨0, NodeType.RETURN_RAW, none, none, none, ⟨"", []⟩, default, [], []⟩⟩

/-- The node store. -/
abbrev Heap := List Node

/-- Dereference of a non-null pointer. -/
def Heap.node (h : Heap) (p : Ptr) : Node := h.getD p default

/-! ## Side-effect and reorder tables -/

def fn_has_side_effects_lookup : List (String × Bool) :=
  [("current_time", true),
   ("map_get", false),
   ("vector_borrow", false),
   ("vector_return", true),
   ("rte_ether_addr_hash", false),
   ("packet_borrow_next_chunk", true),
   ("expire_items_single_map", true),
   ("packet_get_unread_length", true),
   ("packet_return_chunk", true),
   ("packet_borrow_next_chunk", true),
   ("map_put", true),
   ("dchain_allocate_new_index", true),
   ("dchain_is_index_allocated", false),
   ("dchain_rejuvenate_index", true)]

def fn_cannot_reorder_lookup : List String :=
  ["current_time", "packet_return_chunk", "nf_set_rte_ipv4_udptcp_checksum"]

def fn_has_side_effects (fn : String) : Except Fault Bool :=
  match fn_has_side_effects_lookup.lookup fn with
  | none => .error .assertion
  | some b => .ok b

def node_has_side_effects (node : Node) : Except Fault Bool :=
  if node.type = NodeType.BRANCH then .ok true
  else if node.type = NodeType.CALL then fn_has_side_effects node.call.function_name
  else .ok false

def fn_can_be_reordered (fn : String) : Bool :=
  !(fn_cannot_reorder_lookup.contains fn)

/-! ## I/O dependencies -/

def get_readLSB_base (chunk : Expr) : Except Fault Nat :=
  match get_bytes_read chunk with
  | none => .error .assertion
  | some [] => .error .assertion
  | some (b :: bs) => .ok ((b :: bs).foldl (fun min read => if read < min then read else min) b)

def read_in_chunk (read : Expr) (chunk : Expr) : Except Fault Bool :=
  match get_readLSB_base chunk with
  | .error e => .error e
  | .ok base =>
    let size := chunk.getWidth / 8
    match read with
    | .Read _ (.Constant v _) =>
      let index := v % 2 ^ 64
      .ok (decide (index ≥ base) && decide (index < (base + size) % 2 ^ 64))
    | _ => .error .assertion

/-- First loop of `are_all_symbols_known`: `none` is the early `return false`, `some pd` the
value of `packet_dependencies` when the loop ends. -/
def known_labels_loop (tb : Toolbox) (known_symbols : List symbol_t) :
    List String → Bool → Option Bool
  | [], packet_dependencies => some packet_dependencies
  | symbol :: rest, packet_dependencies =>
    if tb.should_ignore symbol then
      known_labels_loop tb known_symbols rest packet_dependencies
    else if known_symbols.any (fun s => decide (s.label = symbol)) then
      known_labels_loop tb known_symbols rest
        (if symbol = "packet_chunks" then true else packet_dependencies)
    else none

/-- Inner loop of `are_all_symbols_known`: is `dep` inside some known packet chunk. -/
def packet_dep_filled (dep : Expr) : List symbol_t → Except Fault Bool
  | [] => .ok false
  | known :: rest =>
    if known.label = "packet_chunks" then
      match read_in_chunk dep known.expr with
      | .error e => .error e
      | .ok true => .ok true
      | .ok false => packet_dep_filled dep rest
    else packet_dep_filled dep rest

/-- Second loop of `are_all_symbols_known`. -/
def packet_deps_loop (known_symbols : List symbol_t) : List Expr → Except Fault Bool
  | [] => .ok true
  | dep :: rest =>
    match packet_dep_filled dep known_symbols with
    | .error e => .error e
    | .ok false => .ok false
    | .ok true => packet_deps_loop known_symbols rest

def are_all_symbols_known (tb : Toolbox) (expr : Expr) (known_symbols : List symbol_t) :
    Except Fault Bool :=
  let dependencies_str := retrieved_strings expr
  if dependencies_str.length = 0 then .ok true
  else
    match known_labels_loop tb known_symbols dependencies_str false with
    | none => .ok false
    | some false => .ok true
    | some true => packet_deps_loop known_symbols (retrieved_packet_chunks expr)

/-- The test `!e.isNull() && !are_all_symbols_known(e, symbols)` of the argument loop;
`true` means the loop goes on. -/
def arg_expr_known (tb : Toolbox) (symbols : List symbol_t) : Option Expr → Except Fault Bool
  | none => .ok true
  | some e => are_all_symbols_known tb e symbols

/-- Argument loop of `are_io_dependencies_met`. -/
def args_known_loop (tb : Toolbox) (symbols : List symbol_t) :
    List (String × arg_t) → Except Fault Bool
  | [] => .ok true
  | arg_pair :: rest =>
    match arg_expr_known tb symbols arg_pair.2.expr with
    | .error e => .error e
    | .ok false => .ok false
    | .ok true =>
      match arg_expr_known tb symbols arg_pair.2.in_ with
      | .error e => .error e
      | .ok false => .ok false
      | .ok true => args_known_loop tb symbols rest

/-- The overload `are_io_dependencies_met(node, symbols)`. -/
def are_io_dependencies_met (tb : Toolbox) (node : Node) (symbols : List symbol_t) :
    Except Fault Bool :=
  if node.type = NodeType.BRANCH then are_all_symbols_known tb node.condition symbols
  else if node.type = NodeType.CALL then args_known_loop tb symbols node.call.args
  else .ok false

/-- Walk of `get_all_generated_symbols` along the predecessor links. -/
def generated_symbols_walk (h : Heap) : Nat → Option Ptr → List symbol_t
  | 0, _ => []
  | _ + 1, none => []
  | fuel + 1, some p =>
    (if (h.node p).type = NodeType.CALL then (h.node p).generated_symbols else [])
      ++ generated_symbols_walk h fuel (h.node p).prev

/-- Modelled from the spec: `Node::get_all_generated_symbols`, the symbols generated by the
Call nodes on the path from the root to the node (the node included). -/
def get_all_generated_symbols (h : Heap) (p : Ptr) : List symbol_t :=
  generated_symbols_walk h h.length (some p)

/-- The overload `are_io_dependencies_met(current_node, next_node)`. -/
def are_io_dependencies_met_node (tb : Toolbox) (h : Heap) (current_node next_node : Ptr) :
    Except Fault Bool :=
  are_io_dependencies_met tb (h.node next_node) (get_all_generated_symbols h current_node)

/-- The overload `are_io_dependencies_met(current_node, expr)`. -/
def are_io_dependencies_met_expr (tb : Toolbox) (h : Heap) (current_node : Ptr) (expr : Expr) :
    Except Fault Bool :=
  are_all_symbols_known tb expr (get_all_generated_symbols h current_node)

/-! ## Read/write dependencies -/

/-- State of the key comparison loop: the pairs `always_eq` and `always_diff`. -/
structure key_cmp_t where
  always_eq : Bool × Bool
  always_diff : Bool × Bool
  deriving DecidableEq, Repr

/-- One iteration of the body of the nested loop over `before_constraints` and
`after_constraints` in `map_can_reorder` and `vector_can_reorder`. -/
def key_cmp_step (tb : Toolbox) (before_key after_key : Expr) (st : key_cmp_t)
    (c : ConstraintManager × ConstraintManager) : Except Fault key_cmp_t :=
  let always_eq_local := tb.are_exprs_always_equal_pc before_key after_key c.1 c.2
  let always_eq := if !st.always_eq.1 then (true, always_eq_local) else st.always_eq
  if always_eq.2 ≠ always_eq_local then .error .assertion
  else
    let always_diff_local := tb.are_exprs_always_not_equal_pc before_key after_key c.1 c.2
    let always_diff := if !st.always_diff.1 then (true, always_diff_local) else st.always_diff
    if always_diff.2 ≠ always_diff_local then .error .assertion
    else .ok ⟨always_eq, always_diff⟩

/-- The nested loop, over the pairs `(c1, c2)` in iteration order. -/
def key_cmp_loop (tb : Toolbox) (before_key after_key : Expr) :
    List (ConstraintManager × ConstraintManager) → key_cmp_t → Except Fault key_cmp_t
  | [], st => .ok st
  | c :: rest, st =>
    match key_cmp_step tb before_key after_key st c with
    | .error e => .error e
    | .ok st1 => key_cmp_loop tb before_key after_key rest st1

/-- The pairs `(c1, c2)` visited by `for (c1 : before_constraints) for (c2 : after_constraints)`. -/
def constraint_pairs (before_constraints after_constraints : List ConstraintManager) :
    List (ConstraintManager × ConstraintManager) :=
  before_constraints.flatMap (fun c1 => after_constraints.map (fun c2 => (c1, c2)))

/-- Common tail of `map_can_reorder` and `vector_can_reorder`, from the declaration of
`always_eq` on; `io_node` is the node whose generated symbols the guard is checked against. -/
def key_cmp_decide (tb : Toolbox) (h : Heap) (io_node : Ptr) (before after : Node)
    (before_key after_key : Expr) (condition : Option Expr) :
    Except Fault (Bool × Option Expr) :=
  match key_cmp_loop tb before_key after_key
      (constraint_pairs before.constraints after.constraints) ⟨(false, false), (false, false)⟩ with
  | .error e => .error e
  | .ok st =>
    if st.always_eq.2 then .ok (false, condition)
    else if st.always_diff.2 then .ok (true, condition)
    else
      let guard := Expr.Not (Expr.Eq before_key after_key)
      match are_io_dependencies_met_expr tb h io_node guard with
      | .error e => .error e
      | .ok r => .ok (r, some guard)

/-- The result is the returned `bool` and the value of the reference parameter `condition`
when the function returns. -/
def map_can_reorder (tb : Toolbox) (h : Heap) (_current before after : Ptr)
    (condition : Option Expr) : Except Fault (Bool × Option Expr) :=
  let b := h.node before
  let a := h.node after
  if b.type ≠ a.type ∨ b.type ≠ NodeType.CALL then .ok (true, condition)
  else
    match b.call.args.lookup "map", a.call.args.lookup "map" with
    | some before_map_arg, some after_map_arg =>
      match before_map_arg.expr, after_map_arg.expr with
      | some before_map, some after_map =>
        if !tb.are_exprs_always_equal before_map after_map then .ok (true, condition)
        else
          match fn_has_side_effects b.call.function_name with
          | .error e => .error e
          | .ok se_before =>
            match (if se_before then .ok true else fn_has_side_effects a.call.function_name) with
            | .error e => .error e
            | .ok false => .ok (true, condition)
            | .ok true =>
              match b.call.args.lookup "key", a.call.args.lookup "key" with
              | some before_key_arg, some after_key_arg =>
                match before_key_arg.in_, after_key_arg.in_ with
                | some before_key, some after_key =>
                  key_cmp_decide tb h before b a before_key after_key condition
                | _, _ => .error .assertion
              | _, _ => .ok (false, condition)
      | _, _ => .error .assertion
    | _, _ => .ok (true, condition)

def dchain_can_reorder (tb : Toolbox) (h : Heap) (_current before after : Ptr)
    (condition : Option Expr) : Except Fault (Bool × Option Expr) :=
  let b := h.node before
  let a := h.node after
  if b.type ≠ a.type ∨ b.type ≠ NodeType.CALL then .ok (true, condition)
  else
    match fn_has_side_effects b.call.function_name with
    | .error e => .error e
    | .ok se_before =>
      match (if se_before then .ok true else fn_has_side_effects a.call.function_name) with
      | .error e => .error e
      | .ok false => .ok (true, condition)
      | .ok true =>
        match b.call.args.lookup "dchain", a.call.args.lookup "dchain" with
        | some before_dchain_arg, some after_dchain_arg =>
          match before_dchain_arg.expr, after_dchain_arg.expr with
          | some before_dchain, some after_dchain =>
            if !tb.are_exprs_always_equal before_dchain after_dchain then .ok (true, condition)
            else .ok (false, condition)
          | _, _ => .error .assertion
        | _, _ => .ok (true, condition)

def vector_can_reorder (tb : Toolbox) (h : Heap) (current before after : Ptr)
    (condition : Option Expr) : Except Fault (Bool × Option Expr) :=
  let b := h.node before
  let a := h.node after
  if b.type ≠ a.type ∨ b.type ≠ NodeType.CALL then .ok (true, condition)
  else
    match fn_has_side_effects b.call.function_name with
    | .error e => .error e
    | .ok se_before =>
      match (if se_before then .ok true else fn_has_side_effects a.call.function_name) with
      | .error e => .error e
      | .ok false => .ok (true, condition)
      | .ok true =>
        match b.call.args.lookup "vector", a.call.args.lookup "vector" with
        | some before_vector_arg, some after_vector_arg =>
          match before_vector_arg.expr, after_vector_arg.expr with
          | some before_vector, some after_vector =>
            if !tb.are_exprs_always_equal before_vector after_vector then .ok (true, condition)
            else
              -- the iterators returned by `find("index")` are dereferenced unchecked
              match b.call.args.lookup "index", a.call.args.lookup "index" with
              | some before_index_arg, some after_index_arg =>
                match before_index_arg.expr, after_index_arg.expr with
                | some before_index, some after_index =>
                  key_cmp_decide tb h current b a before_index after_index condition
                | _, _ => .error .assertion
              | _, _ => .error .null_deref
          | _, _ => .error .assertion
        | _, _ => .ok (true, condition)

/-- The `while (node->get_id() != current_node->get_id())` loop of
`are_rw_dependencies_met`; `none` is the early `return false`, `some cs` the vector
`all_conditions` when the loop ends. -/
def rw_hazard_loop (tb : Toolbox) (h : Heap) (current_node next_node : Ptr) :
    Nat → Option Ptr → List Expr → Except Fault (Option (List Expr))
  | 0, _, _ => .error .out_of_fuel
  | _ + 1, none, _ => .error .assertion
  | fuel + 1, some node, all_conditions =>
    if (h.node node).id = (h.node current_node).id then .ok (some all_conditions)
    else
      match map_can_reorder tb h current_node node next_node none with
      | .error e => .error e
      | .ok (false, _) => .ok none
      | .ok (true, c1) =>
        match dchain_can_reorder tb h current_node node next_node c1 with
        | .error e => .error e
        | .ok (false, _) => .ok none
        | .ok (true, c2) =>
          match vector_can_reorder tb h current_node node next_node c2 with
          | .error e => .error e
          | .ok (false, _) => .ok none
          | .ok (true, local_condition) =>
            rw_hazard_loop tb h current_node next_node fuel (h.node node).prev
              (match local_condition with
               | some c => all_conditions ++ [c]
               | none => all_conditions)

/-- The final `while (all_conditions.size())` loop of `are_rw_dependencies_met`: each round
reads `all_conditions[0]` and removes the last element. -/
def conjoin_loop : Nat → Expr → List Expr → Expr
  | 0, condition, _ => condition
  | _ + 1, condition, [] => condition
  | fuel + 1, condition, c0 :: rest =>
    conjoin_loop fuel (Expr.And condition c0) (c0 :: rest).dropLast

/-- The result is the returned `bool` and the value of the reference parameter `condition`
when the function returns. -/
def are_rw_dependencies_met (tb : Toolbox) (h : Heap) (current_node next_node : Ptr)
    (condition : Option Expr) : Except Fault (Bool × Option Expr) :=
  match rw_hazard_loop tb h current_node next_node (h.length + 1) (h.node next_node).prev [] with
  | .error e => .error e
  | .ok none => .ok (false, condition)
  | .ok (some []) => .ok (true, condition)
  | .ok (some (c0 :: rest)) =>
    .ok (true, some (conjoin_loop (c0 :: rest).length c0 (c0 :: rest).dropLast))

/-! ## Future-branch check -/

/-- The work-list loop of `is_called_in_all_future_branches`; `siblings` is the reference
parameter, returned with the result. -/
def future_branches_loop (tb : Toolbox) (h : Heap) (target : Ptr) :
    Nat → List (Option Ptr) → List Nat → Except Fault (Bool × List Nat)
  | 0, _, _ => .error .out_of_fuel
  | _ + 1, [], siblings => .ok (true, siblings)
  | _ + 1, none :: _, siblings => .ok (false, siblings)
  | fuel + 1, some node :: rest, siblings =>
    let n := h.node node
    let t := h.node target
    if n.type = NodeType.CALL ∧ t.type = NodeType.CALL ∧ tb.are_calls_equal n.call t.call then
      future_branches_loop tb h target fuel rest (siblings.insert n.id)
    else if ¬ (n.type = NodeType.CALL ∧ t.type = NodeType.CALL) ∧
        n.type = NodeType.BRANCH ∧ t.type = NodeType.BRANCH ∧
        tb.are_exprs_always_equal n.condition t.condition then
      future_branches_loop tb h target fuel rest (siblings.insert n.id)
    else if n.type = NodeType.BRANCH then
      future_branches_loop tb h target fuel (rest ++ [n.next, n.on_false]) siblings
    else
      future_branches_loop tb h target fuel (n.next :: rest) siblings

def is_called_in_all_future_branches (tb : Toolbox) (h : Heap) (fuel : Nat)
    (start target : Ptr) (siblings : List Nat) : Except Fault (Bool × List Nat) :=
  future_branches_loop tb h target fuel [some start] siblings

/-! ## Candidate enumeration -/

structure candidate_t where
  node : Option Ptr
  siblings : List Nat
  extra_condition : Option Expr
  condition : Option Expr
  deriving DecidableEq, Repr

/-- The constructor `candidate_t(_node)`. -/
def candidate_t.of_node (node : Option Ptr) : candidate_t := ⟨node, [], none, none⟩

/-- The constructor `candidate_t(_node, _condition, _negate)`. -/
def candidate_t.of_node_cond (node : Option Ptr) (condition : Expr) (negate : Bool) :
    candidate_t :=
  ⟨node, [], none, some (if negate then Expr.Not condition else condition)⟩

/-- The constructor `candidate_t(candidate, _node)`. -/
def candidate_t.from_candidate (candidate : candidate_t) (node : Option Ptr) : candidate_t :=
  ⟨node, [], none, candidate.condition⟩

/-- The constructor `candidate_t(candidate, _node, _condition, _negate)`. -/
def candidate_t.from_candidate_cond (candidate : candidate_t) (node : Option Ptr)
    (condition : Expr) (negate : Bool) : candidate_t :=
  let rhs := if negate then Expr.Not condition else condition
  ⟨node, [], none,
    some (match candidate.condition with
          | some c => Expr.And c rhs
          | none => rhs)⟩

/-- The checks of one round of the `while (candidates.size())` loop of `get_candidates`, from
the sibling lookup on: `none` is a `continue`, `some c` the candidate pushed to
`viable_candidates`. -/
def candidate_checks (tb : Toolbox) (h : Heap) (fuel : Nat) (current_node : Ptr)
    (candidate : candidate_t) (cn : Ptr) (viable_candidates : List candidate_t)
    (check_future_branches : Bool) : Except Fault (Option candidate_t) :=
  let n := h.node cn
  if viable_candidates.any (fun c => c.siblings.contains n.id) then .ok none
  else
    match are_io_dependencies_met_node tb h current_node cn with
    | .error e => .error e
    | .ok false => .ok none
    | .ok true =>
      match (if n.type = NodeType.CALL then
              (if !fn_can_be_reordered n.call.function_name then .ok none
               else
                 match are_rw_dependencies_met tb h current_node cn candidate.extra_condition with
                 | .error e => .error e
                 | .ok (false, _) => .ok none
                 | .ok (true, extra) => .ok (some { candidate with extra_condition := extra }))
             else .ok (some candidate) : Except Fault (Option candidate_t)) with
      | .error e => .error e
      | .ok none => .ok none
      | .ok (some candidate1) =>
        match (if !check_future_branches then .ok (true, candidate1.siblings)
               else
                 match node_has_side_effects n with
                 | .error e => .error e
                 | .ok false => .ok (true, candidate1.siblings)
                 | .ok true =>
                   is_called_in_all_future_branches tb h fuel current_node cn
                     candidate1.siblings : Except Fault (Bool × List Nat)) with
        | .error e => .error e
        | .ok (false, _) => .ok none
        | .ok (true, siblings) =>
          .ok (some { candidate1 with siblings := siblings.insert n.id })

/-- The `while (candidates.size())` loop of `get_candidates`. -/
def get_candidates_loop (tb : Toolbox) (h : Heap) (fuel0 : Nat) (current_node : Ptr) :
    Nat → List candidate_t → List candidate_t → Bool → Except Fault (List candidate_t)
  | 0, _, _, _ => .error .out_of_fuel
  | _ + 1, [], viable_candidates, _ => .ok viable_candidates
  | fuel + 1, candidate :: rest, viable_candidates, check_future_branches =>
    match candidate.node with
    | none => .error .null_deref
    | some cn =>
      let n := h.node cn
      let candidates :=
        if n.type = NodeType.BRANCH then
          rest ++ [candidate_t.from_candidate_cond candidate n.next n.condition false,
                   candidate_t.from_candidate_cond candidate n.on_false n.condition true]
        else
          match n.next with
          | some q => rest ++ [candidate_t.from_candidate candidate (some q)]
          | none => rest
      let cfb := if n.type = NodeType.BRANCH then true else check_future_branches
      match candidate_checks tb h fuel0 current_node candidate cn viable_candidates cfb with
      | .error e => .error e
      | .ok none => get_candidates_loop tb h fuel0 current_node fuel candidates viable_candidates cfb
      | .ok (some c) =>
        get_candidates_loop tb h fuel0 current_node fuel candidates (viable_candidates ++ [c]) cfb

/-- The function `get_candidates`; `fuel` bounds the rounds of its work-list loops. -/
def get_candidates (tb : Toolbox) (h : Heap) (fuel : Nat) (current_node : Ptr) :
    Except Fault (List candidate_t) :=
  match (h.node current_node).next with
  | none => .ok []
  | some next =>
    if (h.node next).next = none ∨ (h.node current_node).type = NodeType.BRANCH then .ok []
    else if (h.node next).type = NodeType.BRANCH then
      get_candidates_loop tb h fuel current_node fuel
        [candidate_t.of_node_cond (h.node next).next (h.node next).condition false,
         candidate_t.of_node_cond (h.node next).on_false (h.node next).condition true]
        [] true
    else
      get_candidates_loop tb h fuel current_node fuel
        [candidate_t.of_node (h.node next).next] [] false

/-! ## Node operations -/

/-- Modelled from the spec: `Node::replace_next` (and `Branch::replace_on_true`). -/
def Heap.replace_next (h : Heap) (p : Ptr) (q : Option Ptr) : Heap :=
  h.set p { h.node p with next := q }

/-- Modelled from the spec: `Node::replace_prev`. -/
def Heap.replace_prev (h : Heap) (p : Ptr) (q : Option Ptr) : Heap :=
  h.set p { h.node p with prev := q }

/-- Modelled from the spec: `Branch::replace_on_false`. -/
def Heap.replace_on_false (h : Heap) (p : Ptr) (q : Option Ptr) : Heap :=
  h.set p { h.node p with on_false := q }

/-- Modelled from the spec: `Node::update_id`. -/
def Heap.update_id (h : Heap) (p : Ptr) (id : Nat) : Heap :=
  h.set p { h.node p with id := id }

/-- Allocation of a new node (`std::make_shared`). -/
def Heap.alloc (h : Heap) (n : Node) : Heap × Ptr := (h ++ [n], h.length)

/-- Modelled from the spec: `Node::clone()` without recursion, a copy of the node with the
same id and the same links. -/
def Heap.clone (h : Heap) (p : Ptr) : Heap × Ptr := h.alloc (h.node p)

/-- `replace_prev` on a possibly null pointer. -/
def Heap.replace_prev_of (h : Heap) (q : Option Ptr) (p : Ptr) : Heap :=
  match q with
  | none => h
  | some c => h.replace_prev c (some p)

/-- The copy of a node, linked to the copies of its successors. -/
def clone_node (n : Node) (next1 on_false1 : Option Ptr) : Node :=
  { n with next := next1, on_false := on_false1 }

/-- Modelled from the spec: `Node::clone(true)`, the deep copy of the subtree below a node:
every node of the subtree is copied with its id, the copies are linked to each other, and
the copy of the root keeps the predecessor of the original; `fuel` bounds the depth. -/
def clone_rec : Nat → Heap → Ptr → Except Fault (Heap × Ptr)
  | 0, _, _ => .error .out_of_fuel
  | fuel + 1, h, p =>
    let n := h.node p
    match (match n.next with
           | none => .ok (h, none)
           | some q =>
             match clone_rec fuel h q with
             | .error e => .error e
             | .ok (h1, q1) => .ok (h1, some q1) : Except Fault (Heap × Option Ptr)) with
    | .error e => .error e
    | .ok (h1, next1) =>
      match (if n.type = NodeType.BRANCH then
               match n.on_false with
               | none => .ok (h1, none)
               | some q =>
                 match clone_rec fuel h1 q with
                 | .error e => .error e
                 | .ok (h2, q2) => .ok (h2, some q2)
             else .ok (h1, n.on_false) : Except Fault (Heap × Option Ptr)) with
      | .error e => .error e
      | .ok (h2, on_false2) =>
        let p1 := h2.length
        let h3 := h2 ++ [clone_node n next1 on_false2]
        let h4 := h3.replace_prev_of next1 p1
        let h5 := if n.type = NodeType.BRANCH then h4.replace_prev_of on_false2 p1 else h4
        .ok (h5, p1)

/-- Pre-order stamping of ids below `p`, starting with `new_id`; returns the next unused
value. -/
def stamp_ids : Nat → Heap → Ptr → Nat → Except Fault (Heap × Nat)
  | 0, _, _, _ => .error .out_of_fuel
  | fuel + 1, h, p, new_id =>
    let h0 := h.update_id p new_id
    match (match (h.node p).next with
           | none => .ok (h0, new_id + 1)
           | some q => stamp_ids fuel h0 q (new_id + 1) : Except Fault (Heap × Nat)) with
    | .error e => .error e
    | .ok (h1, id1) =>
      if (h.node p).type = NodeType.BRANCH then
        match (h.node p).on_false with
        | none => .ok (h1, id1)
        | some q => stamp_ids fuel h1 q id1
      else .ok (h1, id1)

/-- Modelled from the spec: `recursive_update_ids(from)`: every node of the subtree gets a
fresh id greater than `from`, and the counter passed by reference ends past the largest. -/
def recursive_update_ids (fuel : Nat) (h : Heap) (p : Ptr) (new_id : Nat) :
    Except Fault (Heap × Nat) :=
  stamp_ids fuel h p (new_id + 1)

/-- Modelled from the spec: the decision graph, its node store, its id counter
(`get_id`, `set_id`, `get_and_inc_id`) and its two roots. -/
structure BDD where
  nodes : Heap
  id : Nat
  init : Option Ptr
  process : Option Ptr
  deriving DecidableEq, Repr

/-! ## The rewrite -/

/-- The local `struct aux_t` of `reorder_bdd`; the one-argument constructor leaves
`branch_decision` uninitialised, which reads as `false` here. -/
structure aux_t where
  node : Option Ptr
  branch_decision : Bool
  branch_decision_set : Bool
  deriving DecidableEq, Repr

/-- The successor a spliced-out sibling `sib` is replaced with: the side chosen by the branch
decision of the leaf if the sibling is a Branch, its `next` otherwise. -/
def splice_successor (h : Heap) (sib : Ptr) (leaf : aux_t) : Except Fault (Option Ptr) :=
  if (h.node sib).type = NodeType.BRANCH then
    if !leaf.branch_decision_set then .error .assertion
    else .ok (if leaf.branch_decision then (h.node sib).next else (h.node sib).on_false)
  else .ok (h.node sib).next

/-- The statements `branch->replace_on_true(next); next->replace_prev(node);` and their
likes: link `node` to `nxt` on the side given by `on_false_side`, and back. -/
def relink (h : Heap) (node : Ptr) (on_false_side : Bool) (nxt : Option Ptr) :
    Except Fault Heap :=
  let h1 := if on_false_side then h.replace_on_false node nxt else h.replace_next node nxt
  match nxt with
  | none => .error .null_deref
  | some q => .ok (h1.replace_prev q (some node))

/-- One side of a Branch leaf in the sibling pass of `reorder_bdd`. -/
def dedup_side (h : Heap) (node : Ptr) (leaf : aux_t) (child : Ptr) (found : Bool)
    (on_false_side : Bool) : Except Fault Heap :=
  if found then
    match splice_successor h child leaf with
    | .error e => .error e
    | .ok nxt => relink h node on_false_side nxt
  else .ok h

/-- The `while (leaves.size())` loop of `reorder_bdd`. -/
def dedup_loop (siblings : List Nat) : Nat → Heap → List aux_t → Except Fault Heap
  | 0, _, _ => .error .out_of_fuel
  | _ + 1, h, [] => .ok h
  | fuel + 1, h, leaf :: rest =>
    match leaf.node with
    | none => dedup_loop siblings fuel h rest
    | some node =>
      if (h.node node).type = NodeType.BRANCH then
        match (h.node node).next, (h.node node).on_false with
        | some on_true, some on_false =>
          let found_on_true := siblings.contains (h.node on_true).id
          let found_on_false := siblings.contains (h.node on_false).id
          match dedup_side h node leaf on_true found_on_true false with
          | .error e => .error e
          | .ok h1 =>
            match dedup_side h1 node leaf on_false found_on_false true with
            | .error e => .error e
            | .ok h2 =>
              dedup_loop siblings fuel h2
                (rest ++ [⟨(h2.node node).next, leaf.branch_decision, true⟩,
                          ⟨(h2.node node).on_false, leaf.branch_decision, true⟩])
        | _, _ => .error .null_deref
      else
        match (h.node node).next with
        | none => dedup_loop siblings fuel h rest
        | some next =>
          if siblings.contains (h.node next).id then
            match splice_successor h next leaf with
            | .error e => .error e
            | .ok next_next =>
              match relink h node false next_next with
              | .error e => .error e
              | .ok h1 => dedup_loop siblings fuel h1 ({ leaf with node := next_next } :: rest)
          else dedup_loop siblings fuel h ({ leaf with node := some next } :: rest)

/-- The function `reorder_bdd` on the decision graph of the plan; `fuel` bounds the rounds
of the sibling pass and the depth of the recursive clones and id updates. -/
def reorder_bdd (fuel : Nat) (bdd : BDD) (node : Ptr) (candidate : candidate_t) :
    Except Fault BDD :=
  let id := bdd.id
  match candidate.node with
  | none => .error .null_deref
  | some cand =>
    let (h0, candidate_clone) := bdd.nodes.clone cand
    match (h0.node node).next with
    | none => .error .assertion
    | some old_next =>
      match (match candidate.extra_condition with
             | some extra_condition =>
               match clone_rec fuel h0 old_next with
               | .error e => .error e
               | .ok (h1, old_next_cloned) =>
                 match recursive_update_ids fuel h1 old_next_cloned id with
                 | .error e => .error e
                 | .ok (h2, id1) =>
                   let (h3, branch) := h2.alloc
                     ⟨id1, NodeType.BRANCH, none, none, none, ⟨"", []⟩, extra_condition, [], []⟩
                   let h4 := h3.replace_next branch (some candidate_clone)
                   let h5 := h4.replace_on_false branch (some old_next_cloned)
                   let h6 := h5.replace_prev candidate_clone (some branch)
                   let h7 := h6.replace_prev old_next_cloned (some branch)
                   let h8 := h7.replace_next node (some branch)
                   let h9 := h8.replace_prev branch (some node)
                   .ok (h9, id1, id1 + 1)
             | none =>
               let h1 := h0.replace_next node (some candidate_clone)
               let h2 := h1.replace_prev candidate_clone (some node)
               .ok (h2, id, bdd.id) : Except Fault (Heap × Nat × Nat)) with
      | .error e => .error e
      | .ok (h1, id1, counter1) =>
        match (if (h1.node candidate_clone).type = NodeType.BRANCH then
                 match clone_rec fuel h1 old_next with
                 | .error e => .error e
                 | .ok (h2, old_next_on_false) =>
                   let h3 := h2.replace_next candidate_clone (some old_next)
                   let h4 := h3.replace_on_false candidate_clone (some old_next_on_false)
                   let h5 := h4.replace_prev old_next (some candidate_clone)
                   let h6 := h5.replace_prev old_next_on_false (some candidate_clone)
                   .ok (h6, [⟨some old_next, true, true⟩, ⟨some old_next_on_false, false, true⟩])
               else
                 let h2 := h1.replace_next candidate_clone (some old_next)
                 let h3 := h2.replace_prev old_next (some candidate_clone)
                 .ok (h3, [⟨some old_next, false, false⟩]) :
               Except Fault (Heap × List aux_t)) with
        | .error e => .error e
        | .ok (h2, leaves) =>
          match dedup_loop candidate.siblings fuel h2 leaves with
          | .error e => .error e
          | .ok h3 =>
            if (h3.node candidate_clone).type = NodeType.BRANCH then
              match (h3.node candidate_clone).on_false with
              | none => .error .null_deref
              | some on_false =>
                match recursive_update_ids fuel h3 on_false id1 with
                | .error e => .error e
                | .ok (h4, id2) => .ok { bdd with nodes := h4, id := id2 }
            else .ok { bdd with nodes := h3, id := counter1 }

/-! ## Execution of a decision graph -/

/-- The calls executed from a node on, for one concrete input: `input` gives the truth value
of every branch condition; execution ends at a return node (or at a null link). -/
def run (h : Heap) (input : Expr → Bool) : Nat → Option Ptr → List call_t
  | 0, _ => []
  | _ + 1, none => []
  | fuel + 1, some p =>
    let n := h.node p
    if n.type = NodeType.CALL then n.call :: run h input fuel n.next
    else if n.type = NodeType.BRANCH then
      run h input fuel (if input n.condition then n.next else n.on_false)
    else []

/-- The `while (nodes.size())` loop of `ExecutionPlan::replace_node_in_bdd`, with the final
`assert(false && "Node not found in BDD")`.  The decision graph is the state: the result is
the outcome and the graph the function leaves behind. -/
def replace_node_loop (bdd : BDD) (target : Ptr) (target_id : Nat) :
    Nat → List (Option Ptr) → Except Fault Unit × BDD
  | 0, _ => (.error .out_of_fuel, bdd)
  | _ + 1, [] => (.error .assertion, bdd)
  | _ + 1, none :: _ => (.error .assertion, bdd)
  | fuel + 1, some node :: rest =>
    let n := bdd.nodes.node node
    if n.id = target_id then
      match n.prev with
      | none => (.ok (), { bdd with process := some target })
      | some prev =>
        if (bdd.nodes.node prev).type = NodeType.BRANCH then
          match (bdd.nodes.node prev).next with
          | none => (.error .null_deref, bdd)
          | some on_true =>
            if (bdd.nodes.node on_true).id = target_id then
              (.ok (), { bdd with nodes := bdd.nodes.replace_next prev (some target) })
            else
              (.ok (), { bdd with nodes := bdd.nodes.replace_on_false prev (some target) })
        else (.ok (), { bdd with nodes := bdd.nodes.replace_next prev (some target) })
    else if n.type = NodeType.BRANCH then
      replace_node_loop bdd target target_id fuel (rest ++ [n.next, n.on_false])
    else
      match n.next with
      | some q => replace_node_loop bdd target target_id fuel (rest ++ [some q])
      | none => replace_node_loop bdd target target_id fuel rest

/-- The function `ExecutionPlan::replace_node_in_bdd(target)`; `fuel` bounds the rounds of
its work-list loop. -/
def replace_node_in_bdd (fuel : Nat) (bdd : BDD) (target : Option Ptr) :
    Except Fault Unit × BDD :=
  match target with
  | none => (.error .assertion, bdd)
  | some t => replace_node_loop bdd t (bdd.nodes.node t).id fuel [bdd.process]

/-! ## Execution plans, `get_reordered` and `Module::process_node` -/

/-- Modelled from the spec: `Target`, the tag of a platform (an enumeration, read as a
number). -/
abbrev Target := Nat

/-- Modelled from the spec: the part of an `ExecutionPlan` the reorder engine reads and
writes: the decision graph, the decision-graph node of the active leaf (`get_next_node`),
the counter of reordered nodes (an `int`, negative when unlimited; it is incremented only
when negative), the scratch memo from node ids to expressions (most recent entry first) and
the current platform (`std::pair<bool, Target>`).  A plan is a value: `clone(true)` is the
plan itself, with the same addresses in the copied node store. -/
structure ExecutionPlan where
  bdd : BDD
  next_node : Option Ptr
  reordered_nodes : Int
  memo : List (Nat × Expr)
  current_platform : Option Target
  deriving DecidableEq

/-- Search of the node store for an id, in allocation order, from address `i` on. -/
def find_id (id : Nat) : Heap → Ptr → Option Ptr
  | [], _ => none
  | n :: rest, i => if n.id = id then some i else find_id id rest (i + 1)

/-- Modelled from the spec: `BDD::get_node_by_id(id)`, which "returns the node with that id
or fails if absent". -/
def BDD.get_node_by_id (bdd : BDD) (id : Nat) : Except Fault Ptr :=
  match find_id id bdd.nodes 0 with
  | some p => .ok p
  | none => .error .assertion

/-- Modelled from the spec: `ExecutionPlan::memorize(key, value)`, an entry of the scratch
memo `node_id → expression`. -/
def ExecutionPlan.memorize (ep : ExecutionPlan) (key : Nat) (value : Expr) : ExecutionPlan :=
  { ep with memo := (key, value) :: ep.memo }

/-- Modelled from the spec: `ExecutionPlan::replace_active_leaf_node(next, false)`. -/
def ExecutionPlan.replace_active_leaf_node (ep : ExecutionPlan) (next : Option Ptr) :
    ExecutionPlan :=
  { ep with next_node := next }

/-- Modelled from the spec: `ExecutionPlan::inc_reordered_nodes()`. -/
def ExecutionPlan.inc_reordered_nodes (ep : ExecutionPlan) : ExecutionPlan :=
  { ep with reordered_nodes := ep.reordered_nodes + 1 }

/-- The body of the loop `for (auto candidate : candidates)` of `get_reordered`: the plan
pushed to `reordered` for one candidate. -/
def reordered_variant (fuel : Nat) (ep : ExecutionPlan) (current_node : Ptr)
    (candidate : candidate_t) : Except Fault ExecutionPlan :=
  let ep_cloned := ep
  match ep_cloned.bdd.get_node_by_id (ep.bdd.nodes.node current_node).id with
  | .error e => .error e
  | .ok current_node_clone =>
    match candidate.node with
    | none => .error .null_deref
    | some cn =>
      match ep_cloned.bdd.get_node_by_id (ep.bdd.nodes.node cn).id with
      | .error e => .error e
      | .ok candidate_node_clone =>
        let candidate1 := { candidate with node := some candidate_node_clone }
        let ep1 :=
          match candidate1.condition with
          | some c => ep_cloned.memorize (ep_cloned.bdd.nodes.node candidate_node_clone).id c
          | none => ep_cloned
        match reorder_bdd fuel ep1.bdd current_node_clone candidate1 with
        | .error e => .error e
        | .ok bdd1 =>
          let ep2 := { ep1 with bdd := bdd1 }
          let next := (bdd1.nodes.node current_node_clone).next
          .ok (ep2.replace_active_leaf_node next).inc_reordered_nodes

/-- The loop `for (auto candidate : candidates)` of `get_reordered`. -/
def reordered_variants (fuel : Nat) (ep : ExecutionPlan) (current_node : Ptr) :
    List candidate_t → Except Fault (List ExecutionPlan)
  | [] => .ok []
  | candidate :: rest =>
    match reordered_variant fuel ep current_node candidate with
    | .error e => .error e
    | .ok v =>
      match reordered_variants fuel ep current_node rest with
      | .error e => .error e
      | .ok vs => .ok (v :: vs)

/-- The function `get_reordered`; `fuelc` bounds the loops of `get_candidates` and `fuel`
those of `reorder_bdd`.  The logging of the candidates has no effect and is left out. -/
def get_reordered (tb : Toolbox) (fuelc fuel : Nat) (ep : ExecutionPlan) :
    Except Fault (List ExecutionPlan) :=
  if ep.reordered_nodes ≥ 0 then .ok []
  else
    match ep.next_node with
    | none => .ok []
    | some next_node =>
      match (ep.bdd.nodes.node next_node).prev with
      | none => .ok []
      | some current_node =>
        if (ep.bdd.nodes.node current_node).type = NodeType.BRANCH then .ok []
        else
          match get_candidates tb ep.bdd.nodes fuelc current_node with
          | .error e => .error e
          | .ok candidates => reordered_variants fuel ep current_node candidates

/-- `processing_result_t`: the module built for the node, if any, and the successor plans;
`M` is the type of the module records. -/
structure processing_result_t (M : Type) where
  module : Option M
  next_eps : List ExecutionPlan

/-- A `Module`: its target and its four virtual handlers, which are specific to the module
and external to the core. -/
structure Module (M : Type) where
  target : Target
  process_branch : ExecutionPlan → Ptr → Except Fault (processing_result_t M)
  process_call : ExecutionPlan → Ptr → Except Fault (processing_result_t M)
  process_return_init : ExecutionPlan → Ptr → Except Fault (processing_result_t M)
  process_return_process : ExecutionPlan → Ptr → Except Fault (processing_result_t M)

/-- The function `can_process_platform`. -/
def can_process_platform (ep : ExecutionPlan) (target : Target) : Bool :=
  match ep.current_platform with
  | none => true
  | some t => decide (t = target)

/-- The `switch (node->get_type())` of `Module::process_node`. -/
def Module.dispatch {M : Type} (m : Module M) (ep : ExecutionPlan) (node : Ptr) :
    Except Fault (processing_result_t M) :=
  match (ep.bdd.nodes.node node).type with
  | NodeType.CALL => m.process_call ep node
  | NodeType.BRANCH => m.process_branch ep node
  | NodeType.RETURN_INIT => m.process_return_init ep node
  | NodeType.RETURN_PROCESS => m.process_return_process ep node
  | NodeType.RETURN_RAW => .error .assertion

/-- The loop `for (auto ep : result.next_eps)` of `Module::process_node`: the plans of
`get_reordered` for every plan of the handler, in order. -/
def reordered_of_all (tb : Toolbox) (fuelc fuel : Nat) :
    List ExecutionPlan → Except Fault (List ExecutionPlan)
  | [] => .ok []
  | ep :: rest =>
    match get_reordered tb fuelc fuel ep with
    | .error e => .error e
    | .ok ep_reordered =>
      match reordered_of_all tb fuelc fuel rest with
      | .error e => .error e
      | .ok reordered => .ok (ep_reordered ++ reordered)

/-- The function `Module::process_node`. -/
def Module.process_node {M : Type} (tb : Toolbox) (fuelc fuel : Nat) (m : Module M)
    (ep : ExecutionPlan) (node : Option Ptr) : Except Fault (processing_result_t M) :=
  match node with
  | none => .error .assertion
  | some n =>
    match (if can_process_platform ep m.target then m.dispatch ep n
           else .ok ⟨none, []⟩ : Except Fault (processing_result_t M)) with
    | .error e => .error e
    | .ok result =>
      match reordered_of_all tb fuelc fuel result.next_eps with
      | .error e => .error e
      | .ok reordered => .ok { result with next_eps := result.next_eps ++ reordered }

/-! ## Concrete inputs and specification predicates -/

/-- A small sound instance of the external collaborators, used by the concrete examples:
equality is syntactic, two constants of different value are never equal, no symbol but
`VIGOR_DEVICE` is ignorable. -/
def example_toolbox : Toolbox where
  are_exprs_always_equal e1 e2 := decide (e1 = e2)
  are_exprs_always_equal_pc e1 e2 _ _ := decide (e1 = e2)
  are_exprs_always_not_equal_pc e1 e2 _ _ :=
    match e1, e2 with
    | .Constant v1 _, .Constant v2 _ => decide (v1 ≠ v2)
    | _, _ => false
  are_calls_equal c1 c2 := decide (c1 = c2)
  should_ignore s := decide (s = "VIGOR_DEVICE")

/-- A Call node. -/
def mk_call (id : Nat) (fn : String) (args : List (String × arg_t))
    (constraints : List ConstraintManager) (generated : List symbol_t)
    (prev next : Option Ptr) : Node :=
  ⟨id, NodeType.CALL, next, prev, none, ⟨fn, args⟩, default, constraints, generated⟩

/-- A ReturnProcess node. -/
def mk_return (id : Nat) (prev : Option Ptr) : Node :=
  ⟨id, NodeType.RETURN_PROCESS, none, prev, none, ⟨"", []⟩, default, [[]], []⟩

/-- A Branch node. -/
def mk_branch (id : Nat) (condition : Expr) (prev on_true on_false : Option Ptr) : Node :=
  ⟨id, NodeType.BRANCH, on_true, prev, on_false, ⟨"", []⟩, condition, [[]], []⟩

/-- An argument passed by value. -/
def value_arg (v : Nat) : arg_t := ⟨some (Expr.Constant v 64), none⟩

/-- A pointer argument with a dereferenced input. -/
def input_arg (v : Nat) (input : Expr) : arg_t := ⟨some (Expr.Constant v 64), some input⟩

/-- The symbol `label`, read at offset 0. -/
def sym (label : String) : Expr := Expr.Read label (Expr.Constant 0 32)

/-- Both nodes are Calls. -/
def both_calls (h : Heap) (before after : Ptr) : Prop :=
  (h.node before).type = NodeType.CALL ∧ (h.node after).type = NodeType.CALL

instance (h : Heap) (before after : Ptr) : Decidable (both_calls h before after) := by
  unfold both_calls; infer_instance

/-- At least one of the two calls has side effects, as the code evaluates it (the second
function is looked up only when the first has none). -/
def some_side_effect (h : Heap) (before after : Ptr) : Prop :=
  fn_has_side_effects (h.node before).call.function_name = .ok true ∨
  (fn_has_side_effects (h.node before).call.function_name = .ok false ∧
   fn_has_side_effects (h.node after).call.function_name = .ok true)

/-- Both calls carry the argument `name` with a non-null `expr`, and the two are
always-equal. -/
def same_object (tb : Toolbox) (h : Heap) (name : String) (before after : Ptr) : Prop :=
  ∃ ba aa be ae, (h.node before).call.args.lookup name = some ba ∧
    (h.node after).call.args.lookup name = some aa ∧ ba.expr = some be ∧ aa.expr = some ae ∧
    tb.are_exprs_always_equal be ae = true

/-- The solver gives the answers `e` (always equal) and `d` (always different) for the two
keys under every pair of path constraints of the two nodes, and there is such a pair. -/
def consistent_answers (tb : Toolbox) (h : Heap) (before after : Ptr) (k1 k2 : Expr)
    (e d : Bool) : Prop :=
  constraint_pairs (h.node before).constraints (h.node after).constraints ≠ [] ∧
  (∀ c ∈ constraint_pairs (h.node before).constraints (h.node after).constraints,
    tb.are_exprs_always_equal_pc k1 k2 c.1 c.2 = e) ∧
  (∀ c ∈ constraint_pairs (h.node before).constraints (h.node after).constraints,
    tb.are_exprs_always_not_equal_pc k1 k2 c.1 c.2 = d)

/-- The expressions a node reads: the condition of a Branch, every `args[_].expr` and
`args[_].in` of a Call. -/
def read_exprs (n : Node) : List Expr :=
  if n.type = NodeType.BRANCH then [n.condition]
  else if n.type = NodeType.CALL then
    n.call.args.flatMap (fun a => a.2.expr.toList ++ a.2.in_.toList)
  else []

/-- A Branch on the ignorable symbol `VIGOR_DEVICE`. -/
def device_branch : Node :=
  mk_branch 5 (Expr.Eq (sym "VIGOR_DEVICE") (Expr.Constant 0 8)) none none none

/-- A two-byte packet chunk at offsets 14 and 15. -/
def chunk_14_15 : Expr :=
  Expr.Concat (Expr.Read "packet_chunks" (Expr.Constant 15 32))
    (Expr.Read "packet_chunks" (Expr.Constant 14 32))

/-- `A → X → H → N → return`: `X` generates the symbol `hash`, `H` is a `map_put` keyed by it
and `N` a `map_get` on the same map. -/
def late_symbol_heap : Heap :=
  [mk_call 10 "map_get" [("map", value_arg 9)] [[]] [] none (some 1),
   mk_call 11 "rte_ether_addr_hash" [("obj", value_arg 50)] [[]] [⟨"hash", sym "hash"⟩]
     (some 0) (some 2),
   mk_call 12 "map_put" [("key", input_arg 100 (sym "hash")), ("map", value_arg 2)] [[]] []
     (some 1) (some 3),
   mk_call 13 "map_get" [("key", input_arg 101 (Expr.Constant 7 32)), ("map", value_arg 2)] [[]] []
     (some 2) (some 4),
   mk_return 14 (some 3)]

/-- `A → H1 → H2 → N → return`: two `map_put` hazards with keys `k1`, `k2` between `A` and the
`map_get` `N` on the same map. -/
def two_guards_heap : Heap :=
  [mk_call 10 "map_get" [("map", value_arg 9)] [[]] [⟨"k1", sym "k1"⟩, ⟨"k2", sym "k2"⟩]
     none (some 1),
   mk_call 11 "map_put" [("key", input_arg 100 (sym "k1")), ("map", value_arg 2)] [[]] []
     (some 0) (some 2),
   mk_call 12 "map_put" [("key", input_arg 100 (sym "k2")), ("map", value_arg 2)] [[]] []
     (some 1) (some 3),
   mk_call 13 "map_get" [("key", input_arg 101 (Expr.Constant 7 32)), ("map", value_arg 2)] [[]] []
     (some 2) (some 4),
   mk_return 14 (some 3)]

/-- `A → H → N → return`: `H` reads the index allocator that `N` writes. -/
def dchain_heap : Heap :=
  [mk_call 10 "map_get" [("map", value_arg 9)] [[]] [] none (some 1),
   mk_call 11 "dchain_is_index_allocated" [("dchain", value_arg 5), ("index", value_arg 1)]
     [[]] [] (some 0) (some 2),
   mk_call 12 "dchain_rejuvenate_index" [("dchain", value_arg 5), ("index", value_arg 1)]
     [[]] [] (some 1) (some 3),
   mk_return 13 (some 2)]

/-- Two `map_put` calls on the same map with the same key and no path constraints. -/
def equal_keys_heap : Heap :=
  [mk_call 10 "map_get" [("map", value_arg 1)] [] [] none (some 1),
   mk_call 11 "map_put" [("key", input_arg 100 (Expr.Constant 5 32)), ("map", value_arg 2)] [] []
     (some 0) (some 2),
   mk_call 12 "map_put" [("key", input_arg 101 (Expr.Constant 5 32)), ("map", value_arg 2)] [] []
     (some 1) (some 3),
   mk_return 13 (some 2)]

/-- Two `map_put` calls on the same map, each under one path constraint, with keys `k1`
and `k2`. -/
def two_puts_heap (k1 k2 : Expr) : Heap :=
  [mk_call 10 "map_get" [("map", value_arg 1)] [[]] [] none (some 1),
   mk_call 11 "map_put" [("key", input_arg 100 k1), ("map", value_arg 2)] [[]] []
     (some 0) (some 2),
   mk_call 12 "map_put" [("key", input_arg 101 k2), ("map", value_arg 2)] [[]] []
     (some 1) (some 3),
   mk_return 13 (some 2)]

/-- `A → H → N → return`: two vector calls on the same vector with indices `i1` and `i2`,
under the path-constraint lists `cs`. -/
def two_vector_calls_heap (i1 i2 : Expr) (cs : List ConstraintManager) : Heap :=
  [mk_call 10 "map_get" [("map", value_arg 1)] [[]] [⟨"i", sym "i"⟩] none (some 1),
   mk_call 11 "vector_return" [("index", ⟨some i1, none⟩), ("vector", value_arg 3)] cs []
     (some 0) (some 2),
   mk_call 12 "vector_borrow" [("index", ⟨some i2, none⟩), ("vector", value_arg 3)] cs []
     (some 1) (some 3),
   mk_return 13 (some 2)]


/-! ## Graph predicates and concrete graphs -/

/-- The forward successors of a node: `next` (the `on_true` side of a Branch) and, for a
Branch, `on_false`. -/
def Heap.succs (h : Heap) (p : Ptr) : List Ptr :=
  (h.node p).next.toList ++
    (if (h.node p).type = NodeType.BRANCH then (h.node p).on_false.toList else [])

/-- The nodes reachable from `r` along forward links. -/
inductive Heap.reachable (h : Heap) (r : Ptr) : Ptr → Prop
  | refl : Heap.reachable h r r
  | step (p q : Ptr) : Heap.reachable h r p → q ∈ h.succs p → Heap.reachable h r q

/-- A call of `packet_get_unread_length(p)`. -/
def unread_length_call (id : Nat) (prev next : Option Ptr) : Node :=
  mk_call id "packet_get_unread_length" [("p", value_arg 7)] [[]] [] prev next

/-- `A → Br(c){ on_true: G1 → G2 → return; on_false: G3 → return }` where `G1`, `G2`, `G3`
are three equal calls; all ids are distinct. -/
def repeated_call_heap : Heap :=
  [mk_call 10 "map_get" [("map", value_arg 1)] [[]] [] none (some 1),
   mk_branch 11 (sym "c") (some 0) (some 2) (some 5),
   unread_length_call 12 (some 1) (some 3),
   unread_length_call 13 (some 2) (some 4),
   mk_return 14 (some 3),
   unread_length_call 15 (some 1) (some 6),
   mk_return 16 (some 5)]

/-- `A → B → C → return`: a `map_get` followed by two `map_put` on two different maps. -/
def swap_heap : Heap :=
  [mk_call 10 "map_get" [("map", value_arg 1)] [[]] [] none (some 1),
   mk_call 11 "map_put" [("key", input_arg 100 (Expr.Constant 5 32)), ("map", value_arg 2)]
     [[]] [] (some 0) (some 2),
   mk_call 12 "map_put" [("key", input_arg 101 (Expr.Constant 6 32)), ("map", value_arg 3)]
     [[]] [] (some 1) (some 3),
   mk_return 13 (some 2)]

/-- `A → B → T → P → return`: two `map_get`, a `current_time` and a `map_put`. -/
def time_heap : Heap :=
  [mk_call 10 "map_get" [("map", value_arg 1)] [[]] [] none (some 1),
   mk_call 11 "map_get" [("map", value_arg 2)] [[]] [] (some 0) (some 2),
   mk_call 12 "current_time" [] [[]] [] (some 1) (some 3),
   mk_call 13 "map_put" [("key", input_arg 101 (Expr.Constant 6 32)), ("map", value_arg 3)]
     [[]] [] (some 2) (some 4),
   mk_return 14 (some 3)]

/-- The straight line `A: a → B: b → term` of two Calls and a terminal. -/
def straight_line_heap (a b : call_t) (gen : List symbol_t) : Heap :=
  [mk_call 10 a.function_name a.args [[]] gen none (some 1),
   mk_call 11 b.function_name b.args [[]] [] (some 0) (some 2),
   mk_return 12 (some 1)]

/-- The straight line `A: map_get(m, k1) → X: map_get(m2, k2) →
B: dchain_is_index_allocated(d, i) → term`. -/
def straight_line3_heap (m k1 m2 k2 d i : arg_t) (gen : List symbol_t) : Heap :=
  [mk_call 10 "map_get" [("map", m), ("key", k1)] [[]] gen none (some 1),
   mk_call 11 "map_get" [("map", m2), ("key", k2)] [[]] [] (some 0) (some 2),
   mk_call 12 "dchain_is_index_allocated" [("dchain", d), ("index", i)] [[]] []
     (some 1) (some 3),
   mk_return 13 (some 2)]

/-- `A → Br(c){ on_true: P1 → T1; on_false: P2 → T2 }` where `P1` and `P2` are two
`map_put` calls. -/
def branch_put_heap (a : call_t) (gen : List symbol_t) (c : Expr)
    (args1 args2 : List (String × arg_t)) : Heap :=
  [mk_call 10 a.function_name a.args [[]] gen none (some 1),
   mk_branch 11 c (some 0) (some 2) (some 4),
   mk_call 12 "map_put" args1 [[]] [] (some 1) (some 3),
   mk_return 13 (some 2),
   mk_call 14 "map_put" args2 [[]] [] (some 1) (some 5),
   mk_return 15 (some 4)]

/-- The graph `swap_heap` with one more node, outside the graph, that carries the id 12 of
the second `map_put`. -/
def replace_heap : Heap :=
  swap_heap ++
    [mk_call 12 "map_put" [("key", input_arg 101 (Expr.Constant 7 32)), ("map", value_arg 3)]
      [[]] [] none (some 3)]

/-- The graph `swap_heap` with one more node, outside the graph, whose id 99 is the id of no
node of the graph. -/
def stranger_heap : Heap :=
  swap_heap ++ [mk_call 99 "map_get" [("map", value_arg 3)] [[]] [] none none]

/-- A plan on the graph `A → Br(c){ P1 → T1; P2 → T2 }` whose active leaf is at the Branch,
with an unlimited number of reordered nodes. -/
def example_plan : ExecutionPlan :=
  ⟨⟨branch_put_heap ⟨"map_get", [("map", value_arg 1)]⟩ [] (sym "c")
      [("map", value_arg 3)] [("map", value_arg 3)], 16, none, some 0⟩,
    some 1, -1, [], none⟩

/-- A module of target 1 whose Call handler places the node and produces the plan it was
given; the other handlers decline. -/
def example_module : Module Nat :=
  ⟨1, fun _ _ => .ok ⟨none, []⟩, fun ep _ => .ok ⟨some 7, [ep]⟩,
    fun _ _ => .ok ⟨none, []⟩, fun _ _ => .ok ⟨none, []⟩⟩

/-! ## Well-formed decision graphs -/

/-- Forward links are consistent: every successor `q` of a node `p` outside `D` is a node
outside `D` whose predecessor is `p` and whose height is below that of `p`; a Call has a
successor and a Branch has two different children.  `D` holds the nodes that were spliced
out; `ht` is a height function, which exists for every finite tree. -/
structure linked (h : Heap) (ht : Ptr → Nat) (D : Ptr → Prop) : Prop where
  succ_ok : ∀ p : Nat, p < h.length → ¬ D p → ∀ q : Nat, q ∈ h.succs p →
    q < h.length ∧ ¬ D q ∧ (h.node q).prev = some p ∧ ht q < ht p
  shape : ∀ p : Nat, p < h.length → ¬ D p →
    ((h.node p).type = NodeType.CALL → (h.node p).next ≠ none) ∧
    ((h.node p).type = NodeType.BRANCH →
      (h.node p).next ≠ none ∧ (h.node p).on_false ≠ none ∧
      (h.node p).next ≠ (h.node p).on_false)

/-- A well-formed decision graph (the invariants of the data model): the nodes form a forest
along the forward links, every predecessor link is matched by a forward link, ids are
pairwise distinct and below the id counter. -/
structure well_formed (bdd : BDD) (ht : Ptr → Nat) : Prop where
  lk : linked bdd.nodes ht (fun _ => False)
  pred : ∀ q : Nat, q < bdd.nodes.length → ∀ p : Nat, (bdd.nodes.node q).prev = some p →
    p < bdd.nodes.length ∧ q ∈ bdd.nodes.succs p
  ids : ∀ p q : Nat, p < bdd.nodes.length → q < bdd.nodes.length →
    (bdd.nodes.node p).id = (bdd.nodes.node q).id → p = q
  counter : ∀ p : Nat, p < bdd.nodes.length → (bdd.nodes.node p).id < bdd.id

/-- Back-link integrity below `current`: the predecessor of every node reachable from
`current` has that node as its `next`, `on_true` or `on_false` successor. -/
def back_links_ok (h : Heap) (current : Ptr) : Prop :=
  ∀ n : Nat, h.reachable current n → ∀ p : Nat, (h.node n).prev = some p → n ∈ h.succs p

/-- The heap `h1` is `h` with the link of `n` on the given side set to `c1` and the
predecessor of `c1` set to `n`. -/
structure relinked (h h1 : Heap) (n : Ptr) (side : Bool) (c1 : Ptr) : Prop where
  len : h1.length = h.length
  same : ∀ x, (h1.node x).type = (h.node x).type ∧ (h1.node x).id = (h.node x).id ∧
    (h1.node x).call = (h.node x).call ∧ (h1.node x).condition = (h.node x).condition
  next : ∀ x, (h1.node x).next = if x = n ∧ side = false then some c1 else (h.node x).next
  on_false : ∀ x,
    (h1.node x).on_false = if x = n ∧ side = true then some c1 else (h.node x).on_false
  prev : ∀ x, (h1.node x).prev = if x = c1 then some n else (h.node x).prev
  frame : ∀ x, x ≠ n → x ≠ c1 → h1.node x = h.node x

/-- Cost of a leaf of the sibling pass, for the bound on the number of rounds. -/
def leaf_cost (ht : Ptr → Nat) (l : aux_t) : Nat :=
  match l.node with
  | none => 1
  | some n => 3 ^ ht n

/-- Cost of the work list of the sibling pass. -/
def leaves_cost (ht : Ptr → Nat) (leaves : List aux_t) : Nat :=
  (leaves.map (leaf_cost ht)).sum

/-- Invariant of the sibling pass of `reorder_bdd`.  `S` is the sibling set, `T` the node
type of the candidate, `D` the nodes spliced out so far, `Done` the nodes already visited;
the nodes of height `h0` and more are never written. -/
structure walk_inv (S : List Nat) (T : NodeType) (ht : Ptr → Nat) (h0 : Nat) (h : Heap)
    (D Done : Ptr → Prop) (leaves : List aux_t) : Prop where
  lk : linked h ht D
  typed : ∀ x, x < h.length → (h.node x).id ∈ S → (h.node x).type = T
  kind : T = NodeType.CALL ∨ T = NodeType.BRANCH
  flags : ∀ l ∈ leaves, T = NodeType.BRANCH → l.branch_decision_set = true
  leaf_ok : ∀ l ∈ leaves, ∀ n : Nat, l.node = some n →
    n < h.length ∧ ¬ D n ∧ ht n < h0 ∧ ¬ Done n ∧ ∃ p, (h.node n).prev = some p ∧ Done p
  distinct : leaves.Pairwise (fun a b => ∀ n, a.node = some n → b.node ≠ some n)
  done_up : ∀ x, Done x → h0 ≤ ht x ∨ ∃ p, (h.node x).prev = some p ∧ Done p
  dead_low : ∀ x, D x → ht x < h0

/-- What the sibling pass guarantees about the heap `h1` it returns, started on `h`. -/
structure walk_post (ht : Ptr → Nat) (h0 : Nat) (h h1 : Heap) (D1 : Ptr → Prop) : Prop where
  lk : linked h1 ht D1
  len : h1.length = h.length
  same : ∀ x, (h1.node x).type = (h.node x).type ∧ (h1.node x).id = (h.node x).id ∧
    (h1.node x).call = (h.node x).call ∧ (h1.node x).condition = (h.node x).condition
  frame : ∀ x, h0 ≤ ht x → h1.node x = h.node x
  dead_low : ∀ x, D1 x → ht x < h0

/-- What `clone(true)` guarantees: the copy `p1` of the subtree below `p` is made of new
nodes only, linked to each other like the originals (the links of a copy lead to copies
allocated before it), carrying the ids and types of live nodes of `h`; the old nodes are
untouched and the copy executes like the original.  `D` holds the spliced-out nodes
of `h`. -/
structure clone_spec (h : Heap) (D : Ptr → Prop) (h1 : Heap) (p p1 : Nat) : Prop where
  len : h.length < h1.length
  root : p1 + 1 = h1.length
  old : ∀ x : Nat, x < h.length → h1.node x = h.node x
  lk : linked h1 (fun x => x) (fun x => x < h.length)
  orig : ∀ x : Nat, h.length ≤ x → x < h1.length →
    ∃ o : Nat, o < h.length ∧ ¬ D o ∧ (h1.node x).id = (h.node o).id ∧
      (h1.node x).type = (h.node o).type
  data : (h1.node p1).type = (h.node p).type ∧ (h1.node p1).id = (h.node p).id ∧
    (h1.node p1).call = (h.node p).call ∧ (h1.node p1).condition = (h.node p).condition
  runs : ∀ input k, run h1 input k (some p1) = run h input k (some p)

/-- What `recursive_update_ids` guarantees: only ids change, and every id is either the old
one or a new one in the range from `k` (included) to `k1` (excluded). -/
structure stamped (h h1 : Heap) (k k1 : Nat) : Prop where
  len : h1.length = h.length
  same : ∀ x, (h1.node x).type = (h.node x).type ∧ (h1.node x).next = (h.node x).next ∧
    (h1.node x).on_false = (h.node x).on_false ∧ (h1.node x).prev = (h.node x).prev ∧
    (h1.node x).call = (h.node x).call ∧ (h1.node x).condition = (h.node x).condition
  ids : ∀ x, (h1.node x).id = (h.node x).id ∨ (k ≤ (h1.node x).id ∧ (h1.node x).id < k1)
  mono : k ≤ k1

/-- A candidate of `get_candidates` is well-formed: its node is a Call or a Branch of the
heap, and every id among its siblings is the id of a node of the same type. -/
def good_candidate (h : Heap) (c : candidate_t) : Prop :=
  ∃ cn : Nat, c.node = some cn ∧ cn < h.length ∧
    ((h.node cn).type = NodeType.CALL ∨ (h.node cn).type = NodeType.BRANCH) ∧
    ∀ i ∈ c.siblings, ∃ x : Nat, x < h.length ∧ (h.node x).id = i ∧
      (h.node x).type = (h.node cn).type

/-- Forward links are consistent everywhere but at the node `c`, whose own links are not
set yet (the clone of the candidate, before it is given its successors). -/
structure linked_but (h : Heap) (ht : Ptr → Nat) (c : Nat) : Prop where
  succ_ok : ∀ p : Nat, p < h.length → p ≠ c → ∀ q : Nat, q ∈ h.succs p →
    q < h.length ∧ (h.node q).prev = some p ∧ ht q < ht p
  shape : ∀ p : Nat, p < h.length → p ≠ c →
    ((h.node p).type = NodeType.CALL → (h.node p).next ≠ none) ∧
    ((h.node p).type = NodeType.BRANCH →
      (h.node p).next ≠ none ∧ (h.node p).on_false ≠ none ∧
      (h.node p).next ≠ (h.node p).on_false)

/-- Every node whose id is in the sibling set `S` has the type `T` of the candidate. -/
def typed_ok (S : List Nat) (T : NodeType) (h : Heap) : Prop :=
  ∀ x : Nat, x < h.length → (h.node x).id ∈ S → (h.node x).type = T

/-- The state of `reorder_bdd` once the clone `c` of the candidate hangs below `current`
(directly, or as the `on_true` side of the guard Branch) and before it is given its
successors: `old_next` is the old successor of `current`, detached; the new nodes are at least as
high as `c`. -/
structure hoist_ready (h : Heap) (ht : Ptr → Nat) (node old_next : Nat) (X : Heap)
    (htX : Ptr → Nat) (c : Nat) : Prop where
  len : h.length < X.length
  c_eq : c = h.length
  on_lt : old_next < h.length
  lb : linked_but X htX c
  orphan : ∀ p : Nat, p < X.length → p ≠ c → old_next ∉ X.succs p
  ht_on : htX old_next < htX c
  ht_node : htX c < htX node
  mono : ∀ x y : Nat, x < h.length → y < h.length → ht x < ht y → htX x < htX y
  old : ∀ x : Nat, x < h.length → x ≠ node → X.node x = h.node x
  node_same : (X.node node).prev = (h.node node).prev ∧
    (X.node node).type = (h.node node).type ∧ (X.node node).call = (h.node node).call ∧
    (X.node node).id = (h.node node).id ∧ (X.node node).condition = (h.node node).condition
  high : ∀ x : Nat, h.length ≤ x → x < X.length → htX c ≤ htX x
  c_prev : ∃ top : Nat, (X.node c).prev = some top ∧ top < X.length ∧ top ≠ c ∧
    c ∈ X.succs top

/-- The state of `reorder_bdd` at the start of the sibling pass, `Z`, against the state
`X` before the clone `c` of the candidate was given its successors: the invariant of the
pass holds, and only `c` and the predecessor links of its new successors were written. -/
structure hoist_done (S : List Nat) (T : NodeType) (X : Heap) (htX : Ptr → Nat)
    (c old_next : Nat) (Z : Heap) (htZ : Ptr → Nat) (leaves : List aux_t) : Prop where
  winv : walk_inv S T htZ (htZ c) Z (fun _ => False) (fun x => x = c) leaves
  cost : leaves_cost htZ leaves < 3 ^ (htZ c)
  len : X.length ≤ Z.length
  frame : ∀ x : Nat, x < X.length → x ≠ c → x ≠ old_next → Z.node x = X.node x
  exec : ∀ x : Nat, x < X.length → x ≠ c →
    (Z.node x).type = (X.node x).type ∧ (Z.node x).call = (X.node x).call ∧
    (Z.node x).condition = (X.node x).condition ∧ (Z.node x).next = (X.node x).next ∧
    (Z.node x).on_false = (X.node x).on_false ∧ (Z.node x).id = (X.node x).id
  cdata : (Z.node c).type = (X.node c).type ∧ (Z.node c).call = (X.node c).call ∧
    (Z.node c).condition = (X.node c).condition ∧ (Z.node c).id = (X.node c).id ∧
    (Z.node c).prev = (X.node c).prev ∧ (Z.node c).next = some old_next
  mono : ∀ x y : Nat, x < X.length → y < X.length → htX x < htX y → htZ x < htZ y
  mono_le : ∀ x y : Nat, x < X.length → y < X.length → htX x ≤ htX y → htZ x ≤ htZ y
  branch : T = NodeType.BRANCH → ∃ oc : Nat, (Z.node c).on_false = some oc

/-- The guard Branch `B` installed by `reorder_bdd` below `current`: its `on_true` side is
the clone `c` of the candidate, its `on_false` side a copy `oc` of the old successor of
`current` that executes like the original; the ids of the new nodes are new or those of
the nodes they copy. -/
structure guard_ready (h : Heap) (old_next : Nat) (g : Expr) (id0 : Nat) (X : Heap)
    (node c B oc : Nat) : Prop where
  bounds : h.length < oc ∧ oc < B ∧ B + 1 = X.length
  node_next : (X.node node).next = some B
  b_data : (X.node B).type = NodeType.BRANCH ∧ (X.node B).condition = g ∧
    (X.node B).next = some c ∧ (X.node B).on_false = some oc
  closed : ∀ x : Nat, h.length < x → x < B → ∀ q : Nat, q ∈ X.succs x → h.length < q ∧ q < B
  runs : ∀ input k, run X input k (some oc) = run h input k (some old_next)
  fresh : ∀ x : Nat, h.length < x → x < X.length → id0 < (X.node x).id ∨
    ∃ o : Nat, o < h.length ∧ (X.node x).id = (h.node o).id ∧
      (X.node x).type = (h.node o).type

/-- The heap of `reorder_bdd` after the block that installs the guard Branch: `h2` is the
heap with the copy `oc` of the old successor of `node`, `id1` the id of the new Branch,
allocated at the end of `h2`, and `c` the clone of the candidate. -/
def install_guard (h2 : Heap) (id1 : Nat) (g : Expr) (node c oc : Nat) : Heap :=
  ((((((h2 ++ [(⟨id1, NodeType.BRANCH, none, none, none, ⟨"", []⟩, g, [], []⟩ :
    Node)]).replace_next
    h2.length (some c)).replace_on_false h2.length (some oc)).replace_prev c
    (some h2.length)).replace_prev oc (some h2.length)).replace_next node
    (some h2.length)).replace_prev h2.length (some node)

/-- The block of `reorder_bdd` that gives the clone `c` of the candidate its successors
and sets up the work list of the sibling pass. -/
def attach_block (fuel : Nat) (X : Heap) (c old_next : Ptr) :
    Except Fault (Heap × List aux_t) :=
  if (X.node c).type = NodeType.BRANCH then
    match clone_rec fuel X old_next with
    | .error e => .error e
    | .ok (h2, old_next_on_false) =>
      let h3 := h2.replace_next c (some old_next)
      let h4 := h3.replace_on_false c (some old_next_on_false)
      let h5 := h4.replace_prev old_next (some c)
      let h6 := h5.replace_prev old_next_on_false (some c)
      .ok (h6, [⟨some old_next, true, true⟩, ⟨some old_next_on_false, false, true⟩])
  else
    let h2 := X.replace_next c (some old_next)
    let h3 := h2.replace_prev old_next (some c)
    .ok (h3, [⟨some old_next, false, false⟩])

/-- The rest of `reorder_bdd` from the state `X` in which the clone `c` of the candidate
hangs below `current`: successors of the clone, sibling pass, new ids for the `on_false`
side of a Branch candidate. -/
def finish_block (fuel : Nat) (bdd : BDD) (siblings : List Nat) (c old_next : Ptr) (X : Heap)
    (id1 counter1 : Nat) : Except Fault BDD :=
  match attach_block fuel X c old_next with
  | .error e => .error e
  | .ok (h2, leaves) =>
    match dedup_loop siblings fuel h2 leaves with
    | .error e => .error e
    | .ok h3 =>
      if (h3.node c).type = NodeType.BRANCH then
        match (h3.node c).on_false with
        | none => .error .null_deref
        | some on_false =>
          match recursive_update_ids fuel h3 on_false id1 with
          | .error e => .error e
          | .ok (h4, id2) => .ok { bdd with nodes := h4, id := id2 }
      else .ok { bdd with nodes := h3, id := counter1 }

/-- The heap `W` returned by `reorder_bdd` against the state `X` in which the clone `c` of
the candidate hangs below `current`: forward links are consistent, and the nodes of `X` that
are not below `c` keep their links and what they execute. -/
structure finished (X : Heap) (htX : Ptr → Nat) (c : Nat) (W : Heap) (htW : Ptr → Nat)
    (D : Ptr → Prop) : Prop where
  lk : linked W htW D
  dead_low : ∀ x : Nat, D x → htW x < htW c
  len : X.length ≤ W.length
  mono_le : ∀ x y : Nat, x < X.length → y < X.length → htX x ≤ htX y → htW x ≤ htW y
  keep : ∀ x : Nat, x < X.length → x ≠ c → htX c ≤ htX x →
    (W.node x).type = (X.node x).type ∧ (W.node x).call = (X.node x).call ∧
    (W.node x).condition = (X.node x).condition ∧ (W.node x).next = (X.node x).next ∧
    (W.node x).on_false = (X.node x).on_false ∧ (W.node x).prev = (X.node x).prev
  cdata : (W.node c).type = (X.node c).type ∧ (W.node c).call = (X.node c).call ∧
    (W.node c).condition = (X.node c).condition ∧ (W.node c).prev = (X.node c).prev

/-- What `reorder_bdd` guarantees about the graph `bdd1` it returns: back-link integrity
below `current`; `current` is followed by a node that executes like the candidate, directly
or, with a guard `g`, as the `on_true` side of a new Branch on `g` whose `on_false` side
executes like the old successor of `current`. -/
structure reordered (bdd : BDD) (node old_next cand : Nat) (C : candidate_t) (bdd1 : BDD) :
    Prop where
  back : back_links_ok bdd1.nodes node
  node_data : (bdd1.nodes.node node).type = (bdd.nodes.node node).type ∧
    (bdd1.nodes.node node).call = (bdd.nodes.node node).call
  plain : C.extra_condition = none → ∃ c : Nat, (bdd1.nodes.node node).next = some c ∧
    (bdd1.nodes.node c).type = (bdd.nodes.node cand).type ∧
    (bdd1.nodes.node c).call = (bdd.nodes.node cand).call ∧
    (bdd1.nodes.node c).condition = (bdd.nodes.node cand).condition
  guarded : ∀ g : Expr, C.extra_condition = some g → ∃ B c oc : Nat,
    (bdd1.nodes.node node).next = some B ∧ (bdd1.nodes.node B).type = NodeType.BRANCH ∧
    (bdd1.nodes.node B).condition = g ∧ (bdd1.nodes.node B).next = some c ∧
    (bdd1.nodes.node B).on_false = some oc ∧
    (bdd1.nodes.node c).type = (bdd.nodes.node cand).type ∧
    (bdd1.nodes.node c).call = (bdd.nodes.node cand).call ∧
    (bdd1.nodes.node c).condition = (bdd.nodes.node cand).condition ∧
    ∀ input k, run bdd1.nodes input k (some oc) = run bdd.nodes input k (some old_next)

/-! ## Paths and signatures (future-branch check) -/

/-- The node has the signature of the target: a Call equal to the target Call, or a Branch
whose condition is always-equal to the condition of the target Branch. -/
def sig_match (tb : Toolbox) (h : Heap) (target node : Ptr) : Prop :=
  ((h.node node).type = NodeType.CALL ∧ (h.node target).type = NodeType.CALL ∧
    tb.are_calls_equal (h.node node).call (h.node target).call = true) ∨
  ((h.node node).type = NodeType.BRANCH ∧ (h.node target).type = NodeType.BRANCH ∧
    tb.are_exprs_always_equal (h.node node).condition (h.node target).condition = true)

instance (tb : Toolbox) (h : Heap) (target node : Ptr) : Decidable (sig_match tb h target node) := by
  unfold sig_match; infer_instance

/-- A maximal path from a node: it follows the forward links down to a node without
successors (a terminal). -/
inductive Heap.max_path (h : Heap) : Ptr → List Ptr → Prop
  | stop (p : Ptr) : h.succs p = [] → Heap.max_path h p [p]
  | step (p q : Ptr) (rest : List Ptr) : q ∈ h.succs p → Heap.max_path h q rest →
      Heap.max_path h p (p :: rest)

/-- The path contains a node with the signature of the target, and the first such node has
its id in `S`. -/
def first_match_in (tb : Toolbox) (h : Heap) (target : Ptr) (S : List Nat) (path : List Ptr) :
    Prop :=
  ∃ (pre : List Ptr) (x : Ptr) (post : List Ptr), path = pre ++ x :: post ∧
    (∀ y ∈ pre, ¬ sig_match tb h target y) ∧ sig_match tb h target x ∧ (h.node x).id ∈ S

/-- The forward links lead downwards with respect to the height function `ht`: the graph
has no cycle. -/
def descending (h : Heap) (ht : Ptr → Nat) : Prop :=
  ∀ p q : Nat, q ∈ h.succs p → ht q < ht p

/-- Cost of the work list of `is_called_in_all_future_branches`, for the bound on the
number of rounds. -/
def work_cost (ht : Ptr → Nat) : List (Option Ptr) → Nat
  | [] => 0
  | none :: rest => 1 + work_cost ht rest
  | some n :: rest => 3 ^ (ht n + 1) + work_cost ht rest

/-! ## The part of the graph below the process root -/

/-- The invariants of the data model for the nodes reachable from the root `r`: forward
links lead downwards (no cycle), the predecessor link of every successor points back, a
Branch has its two children, ids are pairwise distinct, the root has no predecessor. -/
structure rooted_tree (h : Heap) (r : Ptr) (ht : Ptr → Nat) : Prop where
  desc : ∀ p q : Nat, h.reachable r p → q ∈ h.succs p → ht q < ht p
  back : ∀ p q : Nat, h.reachable r p → q ∈ h.succs p → (h.node q).prev = some p
  shape : ∀ p : Nat, h.reachable r p → (h.node p).type = NodeType.BRANCH →
    (h.node p).next ≠ none ∧ (h.node p).on_false ≠ none
  ids : ∀ p q : Nat, h.reachable r p → h.reachable r q →
    (h.node p).id = (h.node q).id → p = q
  inb : ∀ p : Nat, h.reachable r p → p < h.length
  root : (h.node r).prev = none

/-- The node `n` is reachable from the process root of the decision graph. -/
def in_graph (bdd : BDD) (n : Ptr) : Prop :=
  ∃ r : Ptr, bdd.process = some r ∧ bdd.nodes.reachable r n

/-- The decision graph after `replace_node_in_bdd(target)` found the node `n`: the root is
`target` if `n` has no predecessor; else the link of the predecessor that held `n` holds
`target`. -/
def replaced_at (bdd : BDD) (n target : Ptr) : BDD :=
  match (bdd.nodes.node n).prev with
  | none => { bdd with process := some target }
  | some p =>
    if (bdd.nodes.node p).type = NodeType.BRANCH ∧ (bdd.nodes.node p).next ≠ some n then
      { bdd with nodes := bdd.nodes.replace_on_false p (some target) }
    else { bdd with nodes := bdd.nodes.replace_next p (some target) }

/-- The plan `v` is the variant of the plan `ep` for the candidate `c` of `current`: the
decision graph is rewritten by `reorder_bdd`, the counter of reordered nodes is one more,
the path condition of the candidate, if any, is memoized under the id of the candidate
node, and the active leaf is at the new successor of `current`. -/
def variant_of (fuel : Nat) (ep : ExecutionPlan) (current : Ptr) (c : candidate_t)
    (v : ExecutionPlan) : Prop :=
  v.reordered_nodes = ep.reordered_nodes + 1 ∧
  reorder_bdd fuel ep.bdd current c = .ok v.bdd ∧
  (∀ (cn : Ptr) (e : Expr), c.node = some cn → c.condition = some e →
    v.memo = ((ep.bdd.nodes.node cn).id, e) :: ep.memo ∧
    v.memo.lookup (ep.bdd.nodes.node cn).id = some e) ∧
  (c.condition = none → v.memo = ep.memo) ∧
  v.next_node = (v.bdd.nodes.node current).next ∧
  v.current_platform = ep.current_platform


/-! ## Modules: `equals`, `clone` and `SendToController::clone_calls` -/

/-- Modelled from the spec: the tag `ModuleType` of a module; `other` stands for the tags of
the modules that are not embedded here. -/
inductive ModuleType
  | x86_DchainRejuvenateIndex
  | x86_RteEtherAddrHash
  | other (tag : Nat)
  deriving DecidableEq, Repr

/-- A `DchainRejuvenateIndex` built from a node (the second constructor): the node and the
three bound expressions, which `process_call` asserts to be non-null. -/
structure DchainRejuvenateIndex where
  node : Option Ptr
  dchain_addr : Expr
  index : Expr
  time : Expr
  deriving DecidableEq, Repr

/-- A `RteEtherAddrHash` built from a node (the second constructor): the node, the two
bound expressions, which `process_call` asserts to be non-null, and the generated symbols
(a `BDD::symbols_t`, an unordered set, held as the list of its elements). -/
structure RteEtherAddrHash where
  node : Option Ptr
  obj : Expr
  hash : Expr
  generated_symbols : List symbol_t
  deriving DecidableEq, Repr

/-- The object behind a `const Module *`: one of the two modules, or a module of another
type. -/
inductive module_t
  | dchain_rejuvenate_index (m : DchainRejuvenateIndex)
  | rte_ether_addr_hash (m : RteEtherAddrHash)
  | other (tag : Nat)
  deriving DecidableEq, Repr

/-- The accessor `get_type()`. -/
def module_t.get_type : module_t → ModuleType
  | .dchain_rejuvenate_index _ => ModuleType.x86_DchainRejuvenateIndex
  | .rte_ether_addr_hash _ => ModuleType.x86_RteEtherAddrHash
  | .other tag => ModuleType.other tag

/-- Modelled from the spec: equality of two `BDD::symbols_t` (the negation of the
`operator!=` of unordered sets): the same number of elements, and every element of the one
is an element of the other. -/
def symbols_equal (a b : List symbol_t) : Bool :=
  decide (a.length = b.length) && a.all (fun s => b.contains s)

/-- The method `DchainRejuvenateIndex::clone`. -/
def DchainRejuvenateIndex.clone (m : DchainRejuvenateIndex) : DchainRejuvenateIndex :=
  ⟨m.node, m.dchain_addr, m.index, m.time⟩

/-- The method `DchainRejuvenateIndex::equals`; the `static_cast` is reached only for an
object of the same type. -/
def DchainRejuvenateIndex.equals (tb : Toolbox) (m : DchainRejuvenateIndex)
    (other : module_t) : Bool :=
  if other.get_type ≠ ModuleType.x86_DchainRejuvenateIndex then false
  else
    match other with
    | .dchain_rejuvenate_index other_cast =>
      if !tb.are_exprs_always_equal m.dchain_addr other_cast.dchain_addr then false
      else if !tb.are_exprs_always_equal m.index other_cast.index then false
      else if !tb.are_exprs_always_equal m.time other_cast.time then false
      else true
    | _ => false

/-- The module that `DchainRejuvenateIndex::process_call` builds for a Call
(`result.module`): none for another function; the three assertions on the arguments
`chain`, `index` and `time` are kept (`args[name]` of an absent name is a null argument). -/
def DchainRejuvenateIndex.process_call_module (node : Ptr) (call : call_t) :
    Except Fault (Option DchainRejuvenateIndex) :=
  if call.function_name = "dchain_rejuvenate_index" then
    match (call.args.lookup "chain").bind (fun a => a.expr),
      (call.args.lookup "index").bind (fun a => a.expr),
      (call.args.lookup "time").bind (fun a => a.expr) with
    | some _dchain_addr, some _index, some _time =>
      .ok (some ⟨some node, _dchain_addr, _index, _time⟩)
    | _, _, _ => .error .assertion
  else .ok none

/-- The method `RteEtherAddrHash::clone`. -/
def RteEtherAddrHash.clone (m : RteEtherAddrHash) : RteEtherAddrHash :=
  ⟨m.node, m.obj, m.hash, m.generated_symbols⟩

/-- The method `RteEtherAddrHash::equals`; the `static_cast` is reached only for an object
of the same type. -/
def RteEtherAddrHash.equals (tb : Toolbox) (m : RteEtherAddrHash) (other : module_t) : Bool :=
  if other.get_type ≠ ModuleType.x86_RteEtherAddrHash then false
  else
    match other with
    | .rte_ether_addr_hash other_cast =>
      if !tb.are_exprs_always_equal m.obj other_cast.obj then false
      else if !tb.are_exprs_always_equal m.hash other_cast.hash then false
      else if !symbols_equal m.generated_symbols other_cast.generated_symbols then false
      else true
    | _ => false

/-- The private method `SendToController::replace_next(prev, old_next, new_next)`. -/
def SendToController.replace_next (h : Heap) (prev old_next new_next : Option Ptr) :
    Except Fault Heap :=
  match prev, old_next, new_next with
  | some prev, some old_next, some new_next =>
    if (h.node prev).type = NodeType.BRANCH then
      match (h.node prev).next with
      | none => .error .null_deref
      | some on_true =>
        let h1 :=
          if (h.node on_true).id = (h.node old_next).id then
            h.replace_next prev (some new_next)
          else h.replace_on_false prev (some new_next)
        .ok (h1.replace_prev new_next (some prev))
    else .ok ((h.replace_next prev (some new_next)).replace_prev new_next (some prev))
  | _, _, _ => .error .assertion

/-- The loop `while (node->get_prev())` of `SendToController::clone_calls`; the state is the
decision graph, `node` and `root`. -/
def clone_calls_loop : Nat → BDD → Ptr → Ptr → Except Fault (BDD × Ptr)
  | 0, _, _, _ => .error .out_of_fuel
  | fuel + 1, bdd, node, root =>
    match (bdd.nodes.node node).prev with
    | none => .ok (bdd, root)
    | some node1 =>
      if (bdd.nodes.node node1).type = NodeType.CALL then
        let (h1, clone) := bdd.nodes.clone node1
        let h2 := h1.replace_next clone (some root)
        let h3 := h2.replace_prev clone none
        let h4 := h3.replace_prev root (some clone)
        let h5 := h4.update_id clone bdd.id
        clone_calls_loop fuel { bdd with nodes := h5, id := bdd.id + 1 } node1 clone
      else clone_calls_loop fuel bdd node1 root

/-- The private method `SendToController::clone_calls(ep, current)` on the decision graph of
the plan; `fuel` bounds the rounds of its loop.  The result is the decision graph it leaves
and the node it returns. -/
def SendToController.clone_calls (fuel : Nat) (bdd : BDD) (current : Option Ptr) :
    Except Fault (BDD × Ptr) :=
  match current with
  | none => .error .assertion
  | some current =>
    match (bdd.nodes.node current).prev with
    | none => .ok (bdd, current)
    | some prev =>
      match clone_calls_loop fuel bdd current current with
      | .error e => .error e
      | .ok (bdd1, root) =>
        match SendToController.replace_next bdd1.nodes (some prev) (some current)
            (some root) with
        | .error e => .error e
        | .ok h => .ok ({ bdd1 with nodes := h }, root)


/-- The Call ancestors of a node, nearest first: the Calls met on the way up the predecessor
links to the root; the Branch (and other) ancestors are skipped. -/
inductive call_ancestors (h : Heap) : Ptr → List Ptr → Prop
  | root (n : Ptr) : (h.node n).prev = none → call_ancestors h n []
  | call (n p : Ptr) (l : List Ptr) : (h.node n).prev = some p →
      (h.node p).type = NodeType.CALL → call_ancestors h p l → call_ancestors h n (p :: l)
  | skip (n p : Ptr) (l : List Ptr) : (h.node n).prev = some p →
      (h.node p).type ≠ NodeType.CALL → call_ancestors h p l → call_ancestors h n l

/-- State of the loop of `clone_calls` on the heap `h0` with id counter `id0`, after the
ancestors `done` (nearest first) were cloned: the clone of the `i`-th one is the `i`-th new
node, it carries the id `id0 + i`, it is followed by the clone made before it (the first by
`current`) and preceded by the clone made after it (the last has no predecessor yet);
`root` is the last clone. -/
structure cc_inv (h0 : Heap) (id0 : Nat) (current : Nat) (done : List Ptr) (h : Heap)
    (root : Nat) : Prop where
  len : h.length = h0.length + done.length
  old : ∀ x : Nat, x < h0.length → x ≠ current → h.node x = h0.node x
  cur : h.node current
    = if done = [] then h0.node current
      else { h0.node current with prev := some h0.length }
  clones : ∀ i : Nat, i < done.length →
    h.node (h0.length + i)
      = { h0.node (done.getD i 0) with
          next := some (if i = 0 then current else h0.length + i - 1),
          prev := if i + 1 = done.length then none else some (h0.length + i + 1),
          id := id0 + i }
  root_eq : root = if done = [] then current else h0.length + done.length - 1

/-- What `clone_calls` leaves, on the heap `h0` with id counter `id0`, for the node
`current` with predecessor `P` and Call ancestors `A` (nearest first): the heap `h1` holds
one new node per Call ancestor, the copy of the `i`-th ancestor at the `i`-th new address
with the id `id0 + i`; the copies form a chain from `head`, the copy of the farthest
ancestor, down to the copy of the nearest one, which is followed by `current`; the link of
`P` that held `current` holds `head`; nothing else changes. -/
structure cloned_calls (h0 : Heap) (id0 : Nat) (current P : Nat) (A : List Ptr) (h1 : Heap)
    (head : Nat) : Prop where
  len : h1.length = h0.length + A.length
  head_eq : head = if A = [] then current else h0.length + A.length - 1
  clones : ∀ i : Nat, i < A.length →
    h1.node (h0.length + i)
      = { h0.node (A.getD i 0) with
          next := some (if i = 0 then current else h0.length + i - 1),
          prev := some (if i + 1 = A.length then P else h0.length + i + 1),
          id := id0 + i }
  cur : h1.node current
    = { h0.node current with prev := some (if A = [] then P else h0.length) }
  on_next : (h0.node P).next = some current →
    h1.node P = { h0.node P with next := some head }
  on_other : (h0.node P).next ≠ some current →
    (h0.node P).type = NodeType.BRANCH ∧ (h0.node P).on_false = some current ∧
    h1.node P = { h0.node P with on_false := some head }
  frame : ∀ x : Nat, x < h0.length → x ≠ current → x ≠ P → h1.node x = h0.node x

/-- `A → R1 → R2 → return`: two calls of `dchain_rejuvenate_index` on the chain `chain`, with
the arguments named as `DchainRejuvenateIndex::process_call` reads them. -/
def rejuvenate_heap (chain i1 t1 i2 t2 : Expr) : Heap :=
  [mk_call 10 "map_get" [("map", value_arg 1)] [[]] [] none (some 1),
   mk_call 11 "dchain_rejuvenate_index"
     [("chain", ⟨some chain, none⟩), ("index", ⟨some i1, none⟩), ("time", ⟨some t1, none⟩)]
     [[]] [] (some 0) (some 2),
   mk_call 12 "dchain_rejuvenate_index"
     [("chain", ⟨some chain, none⟩), ("index", ⟨some i2, none⟩), ("time", ⟨some t2, none⟩)]
     [[]] [] (some 1) (some 3),
   mk_return 13 (some 2)]

/-- `A → Br(c){ on_true: X → return; on_false: return }`: the `map_get` `X`, a call
without side effects, is made on one side of the Branch only. -/
def one_sided_heap : Heap :=
  [mk_call 10 "map_get" [("map", value_arg 1)] [[]] [] none (some 1),
   mk_branch 11 (sym "c") (some 0) (some 2) (some 4),
   mk_call 12 "map_get" [("key", input_arg 100 (Expr.Constant 5 32)), ("map", value_arg 2)]
     [[]] [] (some 1) (some 3),
   mk_return 13 (some 2),
   mk_return 14 (some 1)]

/-- The candidates of the work list of `get_candidates` carry no siblings, and no path
condition as long as the flag `check_future_branches` is not set. -/
def queue_ok (queue : List candidate_t) (cfb : Bool) : Prop :=
  (∀ c ∈ queue, c.siblings = []) ∧ (cfb = false → ∀ c ∈ queue, c.condition = none)

/-- The future-branch check made for a returned candidate: a side-effecting candidate that
is a Branch or carries a path condition was examined with the flag set. -/
def future_checked (tb : Toolbox) (h : Heap) (fuel : Nat) (current : Ptr) (c : candidate_t) :
    Prop :=
  ∀ cn : Ptr, c.node = some cn → node_has_side_effects (h.node cn) = .ok true →
    (c.condition ≠ none ∨ (h.node cn).type = NodeType.BRANCH) →
    ∃ sib1, is_called_in_all_future_branches tb h fuel current cn [] = .ok (true, sib1) ∧
      c.siblings = sib1.insert (h.node cn).id


/-! ## The sibling pass, link by link -/

/-- What the sibling pass makes of a forward link of the heap `Z`: a link to a node whose id
is in the sibling set `S` is replaced by the link of that node on the side of the branch
decision `d` (its `next` link if it is not a Branch); every other link is kept. -/
def spliced_link (Z : Heap) (S : List Nat) (d : Bool) : Option Ptr → Option Ptr
  | none => none
  | some q0 =>
    if S.contains (Z.node q0).id then
      if (Z.node q0).type = NodeType.BRANCH then
        if d then (Z.node q0).next else (Z.node q0).on_false
      else (Z.node q0).next
    else some q0

/-- Invariant of the sibling pass against the heap `Z0` it starts on: the nodes keep their
type and id; a node not visited yet has its links of `Z0`; a visited node below the height
`h0` has the spliced links, for the branch decision `dec` of its side; the successors of
visited nodes are visited or wait in the work list, with the branch decision of their
side. -/
structure splice_inv (S : List Nat) (ht : Ptr → Nat) (h0 : Nat) (Z0 : Heap) (dec : Ptr → Bool)
    (h : Heap) (Done : Ptr → Prop) (leaves : List aux_t) : Prop where
  data : ∀ x : Nat, (h.node x).type = (Z0.node x).type ∧ (h.node x).id = (Z0.node x).id
  fresh : ∀ x : Nat, ¬ Done x →
    (h.node x).next = (Z0.node x).next ∧ (h.node x).on_false = (Z0.node x).on_false
  done : ∀ x : Nat, Done x → ht x < h0 →
    (h.node x).next = spliced_link Z0 S (dec x) (Z0.node x).next ∧
    ((Z0.node x).type = NodeType.BRANCH →
      (h.node x).on_false = spliced_link Z0 S (dec x) (Z0.node x).on_false)
  closed : ∀ x : Nat, Done x → ∀ q : Nat, q ∈ h.succs x →
    Done q ∨ ∃ l ∈ leaves, l.node = some q
  dec_leaf : ∀ l ∈ leaves, ∀ n : Nat, l.node = some n → l.branch_decision = dec n

/-- What `reorder_bdd` leaves for a Call candidate `cand` with the guard `g` and the sibling
ids `S`, on the graph `bdd` in which `old_next` follows `node`: `node` is followed by the
new Branch `B` on `g`, with an id above every id of `bdd`; the `on_true` side of `B` is the
new node `c`, a copy of the candidate followed by `old_next`; below `old_next` are
nodes of the old subtree, unchanged but for their links, which are the spliced old links,
and no node with a sibling id when no sibling is `old_next` or the successor of a sibling;
the `on_false` side of `B` is the new node `oc`, from which the graph executes like `bdd`
from `old_next` and all nodes are new and carry ids between the old id counter and the id
of `B`. -/
structure guard_hoisted (bdd : BDD) (node old_next cand : Nat) (S : List Nat) (g : Expr)
    (bdd1 : BDD) (B c oc : Nat) : Prop where
  fresh_nodes : bdd.nodes.length ≤ c ∧ bdd.nodes.length ≤ oc ∧ bdd.nodes.length ≤ B
  node_next : (bdd1.nodes.node node).next = some B
  branch : (bdd1.nodes.node B).type = NodeType.BRANCH ∧ (bdd1.nodes.node B).condition = g ∧
    (bdd1.nodes.node B).next = some c ∧ (bdd1.nodes.node B).on_false = some oc
  branch_id : bdd.id < (bdd1.nodes.node B).id ∧
    (∀ x : Nat, x < bdd.nodes.length → (bdd.nodes.node x).id < (bdd1.nodes.node B).id) ∧
    bdd1.id = (bdd1.nodes.node B).id + 1
  clone : (bdd1.nodes.node c).type = NodeType.CALL ∧
    (bdd1.nodes.node c).call = (bdd.nodes.node cand).call ∧
    (bdd1.nodes.node c).next = some old_next
  on_true : ∀ x : Nat, bdd1.nodes.reachable old_next x →
    bdd.nodes.reachable old_next x ∧
    (bdd1.nodes.node x).type = (bdd.nodes.node x).type ∧
    (bdd1.nodes.node x).id = (bdd.nodes.node x).id ∧
    (bdd1.nodes.node x).call = (bdd.nodes.node x).call ∧
    (bdd1.nodes.node x).condition = (bdd.nodes.node x).condition ∧
    (bdd1.nodes.node x).next = spliced_link bdd.nodes S false (bdd.nodes.node x).next ∧
    ((bdd.nodes.node x).type = NodeType.BRANCH →
      (bdd1.nodes.node x).on_false
        = spliced_link bdd.nodes S false (bdd.nodes.node x).on_false)
  spliced_out : (bdd.nodes.node old_next).id ∉ S →
    (∀ s q : Nat, bdd.nodes.reachable old_next s → (bdd.nodes.node s).id ∈ S →
      q ∈ bdd.nodes.succs s → (bdd.nodes.node q).id ∉ S) →
    ∀ x : Nat, bdd1.nodes.reachable old_next x → (bdd1.nodes.node x).id ∉ S
  on_false_runs : ∀ input k,
    run bdd1.nodes input k (some oc) = run bdd.nodes input k (some old_next)
  on_false_fresh : ∀ x : Nat, bdd1.nodes.reachable oc x →
    bdd.nodes.length ≤ x ∧ bdd.id < (bdd1.nodes.node x).id ∧
    (bdd1.nodes.node x).id < (bdd1.nodes.node B).id


/-! ## The deep copy, node by node -/

/-- The nodes allocated between the heaps `g` and `g2` are copies of nodes of the heap `h`
below `p`: the new node `x` copies the node `t x`, reachable from `p`, with its type, id,
call and condition, and its links lead to the copies of the successors of `t x`, which are
new nodes too; the nodes of `g` are untouched. -/
structure copied (h : Heap) (p : Nat) (g g2 : Heap) (t : Nat → Nat) : Prop where
  len : g.length ≤ g2.length
  old : ∀ x : Nat, x < g.length → g2.node x = g.node x
  data : ∀ x : Nat, g.length ≤ x → x < g2.length →
    h.reachable p (t x) ∧ (g2.node x).type = (h.node (t x)).type ∧
    (g2.node x).id = (h.node (t x)).id ∧ (g2.node x).call = (h.node (t x)).call ∧
    (g2.node x).condition = (h.node (t x)).condition
  next : ∀ x : Nat, g.length ≤ x → x < g2.length →
    (g2.node x).next.map t = (h.node (t x)).next ∧
    ∀ q : Nat, (g2.node x).next = some q → g.length ≤ q ∧ q < g2.length
  on_false : ∀ x : Nat, g.length ≤ x → x < g2.length →
    (g2.node x).type = NodeType.BRANCH →
    (g2.node x).on_false.map t = (h.node (t x)).on_false ∧
    ∀ q : Nat, (g2.node x).on_false = some q → g.length ≤ q ∧ q < g2.length

/-- What `reorder_bdd` leaves for a Branch candidate `cand` without a guard and with the
sibling ids `S`, on the graph `bdd` in which `old_next` follows `node`: `node` is followed
by the new node `c`, a copy of the candidate Branch whose `on_true` side is `old_next` and
whose `on_false` side is the new node `oc`.  Below `old_next` are nodes of the old subtree,
unchanged but for their links, which are the old links spliced on the `on_true` side.  The
nodes below `oc` are new nodes with ids between the old and the new id counter; the node
`x` copies the old node `twin x` below `old_next`, and its links lead to the copies of the
old links of `twin x` spliced on the `on_false` side.  On either side no node with a sibling
id is left when no sibling is `old_next` or the successor of a sibling. -/
structure branch_hoisted (bdd : BDD) (node old_next cand : Nat) (S : List Nat)
    (bdd1 : BDD) (c oc : Nat) (twin : Nat → Nat) : Prop where
  fresh_nodes : bdd.nodes.length ≤ c ∧ bdd.nodes.length < oc
  node_next : (bdd1.nodes.node node).next = some c
  clone : (bdd1.nodes.node c).type = NodeType.BRANCH ∧
    (bdd1.nodes.node c).condition = (bdd.nodes.node cand).condition ∧
    (bdd1.nodes.node c).id = (bdd.nodes.node cand).id ∧
    (bdd1.nodes.node c).next = some old_next ∧ (bdd1.nodes.node c).on_false = some oc
  on_true : ∀ x : Nat, bdd1.nodes.reachable old_next x →
    bdd.nodes.reachable old_next x ∧
    (bdd1.nodes.node x).type = (bdd.nodes.node x).type ∧
    (bdd1.nodes.node x).id = (bdd.nodes.node x).id ∧
    (bdd1.nodes.node x).call = (bdd.nodes.node x).call ∧
    (bdd1.nodes.node x).condition = (bdd.nodes.node x).condition ∧
    (bdd1.nodes.node x).next = spliced_link bdd.nodes S true (bdd.nodes.node x).next ∧
    ((bdd.nodes.node x).type = NodeType.BRANCH →
      (bdd1.nodes.node x).on_false
        = spliced_link bdd.nodes S true (bdd.nodes.node x).on_false)
  on_true_clean : (bdd.nodes.node old_next).id ∉ S →
    (∀ s q : Nat, bdd.nodes.reachable old_next s → (bdd.nodes.node s).id ∈ S →
      q ∈ bdd.nodes.succs s → (bdd.nodes.node q).id ∉ S) →
    ∀ x : Nat, bdd1.nodes.reachable old_next x → (bdd1.nodes.node x).id ∉ S
  twin_root : twin oc = old_next
  on_false : ∀ x : Nat, bdd1.nodes.reachable oc x →
    bdd.nodes.length < x ∧ bdd.nodes.reachable old_next (twin x) ∧
    (bdd1.nodes.node x).type = (bdd.nodes.node (twin x)).type ∧
    (bdd1.nodes.node x).call = (bdd.nodes.node (twin x)).call ∧
    (bdd1.nodes.node x).condition = (bdd.nodes.node (twin x)).condition ∧
    (bdd1.nodes.node x).next.map twin
      = spliced_link bdd.nodes S false (bdd.nodes.node (twin x)).next ∧
    ((bdd.nodes.node (twin x)).type = NodeType.BRANCH →
      (bdd1.nodes.node x).on_false.map twin
        = spliced_link bdd.nodes S false (bdd.nodes.node (twin x)).on_false)
  on_false_clean : (bdd.nodes.node old_next).id ∉ S →
    (∀ s q : Nat, bdd.nodes.reachable old_next s → (bdd.nodes.node s).id ∈ S →
      q ∈ bdd.nodes.succs s → (bdd.nodes.node q).id ∉ S) →
    ∀ x : Nat, bdd1.nodes.reachable oc x → (bdd.nodes.node (twin x)).id ∉ S
  on_false_fresh : ∀ x : Nat, bdd1.nodes.reachable oc x →
    bdd.id < (bdd1.nodes.node x).id ∧ (bdd1.nodes.node x).id < bdd1.id

/-- `A → X → B1(c){ on_true: B2(c){ return; return }; on_false: return }`: two Branches on
the same condition `c`, a symbol generated by `A`, the second on the `on_true` side of the
first. -/
def twin_branch_heap : Heap :=
  [mk_call 10 "map_get" [("map", value_arg 1)] [[]] [⟨"c", sym "c"⟩] none (some 1),
   mk_call 11 "map_get" [("map", value_arg 2)] [[]] [] (some 0) (some 2),
   mk_branch 12 (sym "c") (some 1) (some 3) (some 6),
   mk_branch 13 (sym "c") (some 2) (some 4) (some 5),
   mk_return 14 (some 3),
   mk_return 15 (some 3),
   mk_return 16 (some 2)]


/-- A chain of `next` links from `a` to `b` through nodes that are not Branches. -/
inductive straight (h : Heap) : Ptr → Ptr → Prop
  | refl (a : Ptr) : straight h a a
  | step (a a1 b : Ptr) : (h.node a).type ≠ NodeType.BRANCH → (h.node a).next = some a1 →
      straight h a1 b → straight h a b

/-- The candidates without a path condition lie on the straight line below `current`. -/
def on_line (h : Heap) (current : Ptr) (c : candidate_t) : Prop :=
  c.condition = none → ∀ cn : Ptr, c.node = some cn → straight h current cn


/-! ## Distance below a node -/

/-- The node `x` is reached from `r` along `n` forward links. -/
inductive Heap.steps (h : Heap) (r : Ptr) : Nat → Ptr → Prop
  | zero : Heap.steps h r 0 r
  | succ (n : Nat) (p q : Ptr) : Heap.steps h r n p → q ∈ h.succs p → Heap.steps h r (n + 1) q

/-- The node of the candidate lies at least two forward links below `current`. -/
def two_below (h : Heap) (current : Ptr) (c : candidate_t) : Prop :=
  ∀ cn : Ptr, c.node = some cn → ∃ k : Nat, 2 ≤ k ∧ h.steps current k cn

/-- `A → Br(c){ on_true: P → return; on_false: return }` where `A` and `P` are two equal
calls of the side-effecting `packet_get_unread_length`. -/
def echo_call_heap : Heap :=
  [unread_length_call 10 none (some 1),
   mk_branch 11 (sym "c") (some 0) (some 2) (some 4),
   unread_length_call 12 (some 1) (some 3),
   mk_return 13 (some 2),
   mk_return 14 (some 1)]

/-- `A → S → N → return`: a call of `nf_set_rte_ipv4_udptcp_checksum` with the arguments
`sargs` between the `map_get` `A` and the Call `N` of the function `fn` with the arguments
`nargs`. -/
def checksum_heap (sargs : List (String × arg_t)) (fn : String)
    (nargs : List (String × arg_t)) : Heap :=
  [mk_call 10 "map_get" [("map", value_arg 1)] [[]] [] none (some 1),
   mk_call 11 "nf_set_rte_ipv4_udptcp_checksum" sargs [[]] [] (some 0) (some 2),
   mk_call 12 fn nargs [[]] [] (some 1) (some 3),
   mk_return 13 (some 2)]


/-- `A → Br(c){ on_true: G1 → N → return; on_false: G3 → return }` where `A` is a `map_get`
and `G1`, `N`, `G3` are three equal `map_put` calls (same map, same key) whose lists of path
constraints are empty. -/
def guarded_put_heap : Heap :=
  [mk_call 10 "map_get" [("map", value_arg 1)] [[]] [] none (some 1),
   mk_branch 11 (sym "c") (some 0) (some 2) (some 5),
   mk_call 12 "map_put" [("key", input_arg 100 (Expr.Constant 5 32)), ("map", value_arg 2)]
     [] [] (some 1) (some 3),
   mk_call 13 "map_put" [("key", input_arg 100 (Expr.Constant 5 32)), ("map", value_arg 2)]
     [] [] (some 2) (some 4),
   mk_return 14 (some 3),
   mk_call 15 "map_put" [("key", input_arg 100 (Expr.Constant 5 32)), ("map", value_arg 2)]
     [] [] (some 1) (some 6),
   mk_return 16 (some 5)]


/-! ## The dependency oracle: packet chunks and symbols (C9, C10) -/

theorem get_bytes_read_lt : ∀ (e : Expr) (l : List Nat),
    get_bytes_read e = some l → ∀ x ∈ l, x < 2 ^ 32 := by
  intro e
  induction e with
  | Constant v w => intro l h; simp [get_bytes_read] at h
  | Read a i ihi =>
    intro l h
    cases i with
    | Constant v w =>
      simp only [get_bytes_read, Option.some.injEq] at h
      subst h
      intro x hx
      simp only [List.mem_singleton] at hx
      subst hx
      exact Nat.mod_lt _ (by norm_num)
    | Read _ _ => simp [get_bytes_read] at h
    | Concat _ _ => simp [get_bytes_read] at h
    | Eq _ _ => simp [get_bytes_read] at h
    | Not _ => simp [get_bytes_read] at h
    | And _ _ => simp [get_bytes_read] at h
  | Concat l r ihl ihr =>
    intro bytes h
    simp only [get_bytes_read] at h
    cases hl : get_bytes_read l with
    | none => simp [hl] at h
    | some a =>
      cases hr : get_bytes_read r with
      | none => simp [hl, hr] at h
      | some b =>
        simp only [hl, hr, Option.some.injEq] at h
        subst h
        intro x hx
        rcases List.mem_append.mp hx with hx | hx
        · exact ihl a hl x hx
        · exact ihr b hr x hx
  | Eq _ _ => intro l h; simp [get_bytes_read] at h
  | Not _ => intro l h; simp [get_bytes_read] at h
  | And _ _ => intro l h; simp [get_bytes_read] at h

theorem foldl_min_spec : ∀ (l : List Nat) (m : Nat),
    (l.foldl (fun min read => if read < min then read else min) m ∈ m :: l) ∧
    (∀ x ∈ m :: l, l.foldl (fun min read => if read < min then read else min) m ≤ x) := by
  intro l
  induction l with
  | nil => intro m; simp
  | cons a l ih =>
    intro m
    simp only [List.foldl_cons]
    rcases ih (if a < m then a else m) with ⟨h1, h2⟩
    constructor
    · rcases List.mem_cons.mp h1 with h | h
      · rw [h]
        split
        · simp
        · simp
      · exact List.mem_cons_of_mem _ (List.mem_cons_of_mem _ h)
    · intro x hx
      by_cases hlt : a < m
      · simp only [hlt, if_true] at h2 ⊢
        have h3 := h2 a (List.mem_cons_self _ _)
        rcases List.mem_cons.mp hx with h | h
        · omega
        · exact h2 x h
      · simp only [hlt, if_false] at h2 ⊢
        have h3 := h2 m (List.mem_cons_self _ _)
        rcases List.mem_cons.mp hx with h | h
        · omega
        · rcases List.mem_cons.mp h with h | h
          · omega
          · exact h2 x (List.mem_cons_of_mem _ h)

/-- The base of a chunk is the smallest byte offset the chunk expression reads. -/
theorem get_readLSB_base_spec (chunk : Expr) (base : Nat)
    (h : get_readLSB_base chunk = .ok base) :
    ∃ bytes, get_bytes_read chunk = some bytes ∧ base ∈ bytes ∧ (∀ b ∈ bytes, base ≤ b) ∧
      base < 2 ^ 32 := by
  unfold get_readLSB_base at h
  cases hb : get_bytes_read chunk with
  | none => simp [hb] at h
  | some bytes =>
    cases bytes with
    | nil => simp [hb] at h
    | cons b bs =>
      simp only [hb, Except.ok.injEq] at h
      have hs := foldl_min_spec (b :: bs) b
      rw [h] at hs
      have hmem : base ∈ b :: bs := by
        rcases List.mem_cons.mp hs.1 with h1 | h1
        · rw [h1]; exact List.mem_cons_self _ _
        · exact h1
      exact ⟨b :: bs, rfl, hmem, fun x hx => hs.2 x (List.mem_cons_of_mem _ hx),
        get_bytes_read_lt chunk (b :: bs) hb base hmem⟩

/-- The test made by `read_in_chunk` is the range test `base ≤ i < base + width / 8`. -/
theorem read_in_chunk_range (a : String) (i w : Nat) (chunk : Expr) (base : Nat)
    (hi : i < 2 ^ 64) (hbase : get_readLSB_base chunk = .ok base) :
    read_in_chunk (Expr.Read a (Expr.Constant i w)) chunk
      = .ok (decide (base ≤ i ∧ i < base + chunk.getWidth / 8)) := by
  obtain ⟨bytes, _, _, _, hlt⟩ := get_readLSB_base_spec chunk base hbase
  have hw : chunk.getWidth < 2 ^ 32 := Nat.mod_lt _ (by norm_num)
  have h1 : (base + chunk.getWidth / 8) % 2 ^ 64 = base + chunk.getWidth / 8 := by
    apply Nat.mod_eq_of_lt
    omega
  have h2 : i % 2 ^ 64 = i := Nat.mod_eq_of_lt hi
  simp only [read_in_chunk, hbase, h1, h2, ge_iff_le, Bool.decide_and]

theorem read_in_chunk_true (read chunk : Expr) (h : read_in_chunk read chunk = .ok true) :
    ∃ a i w base, read = Expr.Read a (Expr.Constant i w) ∧ get_readLSB_base chunk = .ok base ∧
      base ≤ i % 2 ^ 64 ∧ i % 2 ^ 64 < base + chunk.getWidth / 8 := by
  unfold read_in_chunk at h
  cases hb : get_readLSB_base chunk with
  | error e => simp [hb] at h
  | ok base =>
    obtain ⟨bytes, _, _, _, hlt⟩ := get_readLSB_base_spec chunk base hb
    have hw : chunk.getWidth < 2 ^ 32 := Nat.mod_lt _ (by norm_num)
    have h1 : (base + chunk.getWidth / 8) % 2 ^ 64 = base + chunk.getWidth / 8 := by
      apply Nat.mod_eq_of_lt
      omega
    simp only [hb] at h
    split at h
    · rename_i a v w
      simp only [h1, ge_iff_le, Except.ok.injEq, Bool.and_eq_true, decide_eq_true_eq] at h
      exact ⟨a, v, w, base, rfl, rfl, h.1, h.2⟩
    · simp at h

theorem packet_dep_filled_true (dep : Expr) : ∀ (known : List symbol_t),
    packet_dep_filled dep known = .ok true →
    ∃ s ∈ known, s.label = "packet_chunks" ∧ read_in_chunk dep s.expr = .ok true := by
  intro known
  induction known with
  | nil => intro h; simp [packet_dep_filled] at h
  | cons k rest ih =>
    intro h
    unfold packet_dep_filled at h
    by_cases hl : k.label = "packet_chunks"
    · simp only [hl, if_true] at h
      cases hr : read_in_chunk dep k.expr with
      | error e => simp [hr] at h
      | ok b =>
        cases b with
        | true => exact ⟨k, List.mem_cons_self _ _, hl, hr⟩
        | false =>
          simp only [hr] at h
          obtain ⟨s, hs, h1, h2⟩ := ih h
          exact ⟨s, List.mem_cons_of_mem _ hs, h1, h2⟩
    · simp only [hl, if_false] at h
      obtain ⟨s, hs, h1, h2⟩ := ih h
      exact ⟨s, List.mem_cons_of_mem _ hs, h1, h2⟩

theorem packet_deps_loop_true (known : List symbol_t) : ∀ (deps : List Expr),
    packet_deps_loop known deps = .ok true →
    ∀ dep ∈ deps, packet_dep_filled dep known = .ok true := by
  intro deps
  induction deps with
  | nil => intro _ dep hd; simp at hd
  | cons d rest ih =>
    intro h dep hd
    unfold packet_deps_loop at h
    cases hf : packet_dep_filled d known with
    | error e => simp [hf] at h
    | ok b =>
      cases b with
      | false => simp [hf] at h
      | true =>
        simp only [hf] at h
        rcases List.mem_cons.mp hd with h1 | h1
        · subst h1; exact hf
        · exact ih h dep h1

/-- Outcome of the label loop: every symbol that is not ignorable is known, and the flag is
raised when `packet_chunks` is among them. -/
theorem known_labels_loop_some (tb : Toolbox) (known : List symbol_t) :
    ∀ (l : List String) (pd r : Bool),
    known_labels_loop tb known l pd = some r →
    (∀ s ∈ l, tb.should_ignore s = false → ∃ k ∈ known, k.label = s) ∧
    ((pd = true ∨ ("packet_chunks" ∈ l ∧ tb.should_ignore "packet_chunks" = false)) → r = true) := by
  intro l
  induction l with
  | nil =>
    intro pd r h
    simp only [known_labels_loop, Option.some.injEq] at h
    subst h
    simp
  | cons s rest ih =>
    intro pd r h
    unfold known_labels_loop at h
    by_cases hi : tb.should_ignore s = true
    · simp only [hi, if_true] at h
      obtain ⟨h1, h2⟩ := ih pd r h
      refine ⟨?_, ?_⟩
      · intro x hx hxi
        rcases List.mem_cons.mp hx with hx | hx
        · subst hx; rw [hi] at hxi; cases hxi
        · exact h1 x hx hxi
      · intro hp
        apply h2
        rcases hp with hp | ⟨hp, hq⟩
        · exact Or.inl hp
        · rcases List.mem_cons.mp hp with hp | hp
          · rw [← hp, hq] at hi; cases hi
          · exact Or.inr ⟨hp, hq⟩
    · simp only [hi, if_false] at h
      by_cases hk : known.any (fun k => decide (k.label = s)) = true
      · simp only [hk, if_true] at h
        obtain ⟨h1, h2⟩ := ih _ r h
        refine ⟨?_, ?_⟩
        · intro x hx hxi
          rcases List.mem_cons.mp hx with hx | hx
          · subst hx
            obtain ⟨k, hk1, hk2⟩ := List.any_eq_true.mp hk
            exact ⟨k, hk1, by simpa using hk2⟩
          · exact h1 x hx hxi
        · intro hp
          apply h2
          rcases hp with hp | ⟨hp, hq⟩
          · left; rw [hp]; simp
          · rcases List.mem_cons.mp hp with hp | hp
            · left; rw [← hp]; simp
            · exact Or.inr ⟨hp, hq⟩
      · simp only [hk, if_false] at h
        cases h

theorem packet_chunk_label_mem : ∀ (e : Expr), ∀ d ∈ retrieved_packet_chunks e,
    "packet_chunks" ∈ retrieved_strings e := by
  intro e
  induction e with
  | Constant v w => intro d hd; simp [retrieved_packet_chunks] at hd
  | Read a i ih =>
    intro d hd
    simp only [retrieved_packet_chunks, List.mem_append] at hd
    simp only [retrieved_strings, List.mem_cons]
    rcases hd with hd | hd
    · by_cases ha : a = "packet_chunks"
      · exact Or.inl ha.symm
      · simp [ha] at hd
    · exact Or.inr (ih d hd)
  | Concat l r ihl ihr =>
    intro d hd
    simp only [retrieved_packet_chunks, List.mem_append] at hd
    simp only [retrieved_strings, List.mem_append]
    rcases hd with hd | hd
    · exact Or.inl (ihl d hd)
    · exact Or.inr (ihr d hd)
  | Eq l r ihl ihr =>
    intro d hd
    simp only [retrieved_packet_chunks, List.mem_append] at hd
    simp only [retrieved_strings, List.mem_append]
    rcases hd with hd | hd
    · exact Or.inl (ihl d hd)
    · exact Or.inr (ihr d hd)
  | Not e ih =>
    intro d hd
    simp only [retrieved_packet_chunks] at hd
    simp only [retrieved_strings]
    exact ih d hd
  | And l r ihl ihr =>
    intro d hd
    simp only [retrieved_packet_chunks, List.mem_append] at hd
    simp only [retrieved_strings, List.mem_append]
    rcases hd with hd | hd
    · exact Or.inl (ihl d hd)
    · exact Or.inr (ihr d hd)

/-- When `are_all_symbols_known` returns true, every symbol that is not ignorable is known. -/
theorem are_all_symbols_known_labels (tb : Toolbox) (e : Expr) (known : List symbol_t)
    (h : are_all_symbols_known tb e known = .ok true) :
    ∀ s ∈ retrieved_strings e, tb.should_ignore s = false → ∃ k ∈ known, k.label = s := by
  unfold are_all_symbols_known at h
  by_cases h0 : (retrieved_strings e).length = 0
  · intro s hs
    rw [List.length_eq_zero.mp h0] at hs
    simp at hs
  · simp only [h0, if_false] at h
    cases hl : known_labels_loop tb known (retrieved_strings e) false with
    | none => simp [hl] at h
    | some r => exact (known_labels_loop_some tb known _ false r hl).1

/-- C10: an expression that reads `packet_chunks` at the constant byte offset `i` has all its
symbols known only if the known symbols hold a `packet_chunks` entry whose expression covers
`i`, that is `base ≤ i < base + width / 8` with `base` the smallest byte offset the entry
reads (the label `packet_chunks` itself not being on the ignore list); and `read_in_chunk` is
exactly that range test. -/
theorem packet_chunk_dependency_covered (tb : Toolbox) (expr : Expr)
    (known_symbols : List symbol_t) (i w : Nat)
    (hign : tb.should_ignore "packet_chunks" = false)
    (hi : i < 2 ^ 64)
    (hread : Expr.Read "packet_chunks" (Expr.Constant i w) ∈ retrieved_packet_chunks expr)
    (hknown : are_all_symbols_known tb expr known_symbols = .ok true) :
    (∃ s ∈ known_symbols, s.label = "packet_chunks" ∧
      ∃ base bytes, get_bytes_read s.expr = some bytes ∧ base ∈ bytes ∧ (∀ b ∈ bytes, base ≤ b) ∧
        base ≤ i ∧ i < base + s.expr.getWidth / 8) ∧
    (∀ (chunk : Expr) (base : Nat), get_readLSB_base chunk = .ok base →
      read_in_chunk (Expr.Read "packet_chunks" (Expr.Constant i w)) chunk
        = .ok (decide (base ≤ i ∧ i < base + chunk.getWidth / 8))) := by
  refine ⟨?_, fun chunk base hb => read_in_chunk_range _ i w chunk base hi hb⟩
  have hmem := packet_chunk_label_mem expr _ hread
  unfold are_all_symbols_known at hknown
  have h0 : ¬ (retrieved_strings expr).length = 0 := by
    intro h0
    rw [List.length_eq_zero.mp h0] at hmem
    simp at hmem
  simp only [h0, if_false] at hknown
  cases hl : known_labels_loop tb known_symbols (retrieved_strings expr) false with
  | none => simp [hl] at hknown
  | some r =>
    have hr := (known_labels_loop_some tb known_symbols _ false r hl).2 (Or.inr ⟨hmem, hign⟩)
    subst hr
    simp only [hl] at hknown
    have hf := packet_deps_loop_true known_symbols _ hknown _ hread
    obtain ⟨s, hs, hlab, hin⟩ := packet_dep_filled_true _ known_symbols hf
    obtain ⟨a, j, w1, base, heq, hbase, h1, h2⟩ := read_in_chunk_true _ _ hin
    simp only [Expr.Read.injEq, Expr.Constant.injEq] at heq
    obtain ⟨_, hj, _⟩ := heq
    subst hj
    rw [Nat.mod_eq_of_lt hi] at h1 h2
    obtain ⟨bytes, hb1, hb2, hb3, _⟩ := get_readLSB_base_spec _ base hbase
    exact ⟨s, hs, hlab, base, bytes, hb1, hb2, hb3, h1, h2⟩


theorem arg_expr_known_labels (tb : Toolbox) (symbols : List symbol_t) (oe : Option Expr)
    (h : arg_expr_known tb symbols oe = .ok true) :
    ∀ e ∈ oe.toList, ∀ s ∈ retrieved_strings e, tb.should_ignore s = false →
      ∃ k ∈ symbols, k.label = s := by
  cases oe with
  | none => intro e he; simp at he
  | some e0 =>
    intro e he
    simp only [Option.toList_some, List.mem_singleton] at he
    subst he
    exact are_all_symbols_known_labels tb e symbols h

theorem args_known_loop_labels (tb : Toolbox) (symbols : List symbol_t) :
    ∀ (args : List (String × arg_t)), args_known_loop tb symbols args = .ok true →
    ∀ e ∈ args.flatMap (fun a => a.2.expr.toList ++ a.2.in_.toList),
      ∀ s ∈ retrieved_strings e, tb.should_ignore s = false → ∃ k ∈ symbols, k.label = s := by
  intro args
  induction args with
  | nil => intro _ e he; simp at he
  | cons a rest ih =>
    intro h e he
    unfold args_known_loop at h
    cases h1 : arg_expr_known tb symbols a.2.expr with
    | error err => simp [h1] at h
    | ok b1 =>
      cases b1 with
      | false => simp [h1] at h
      | true =>
        simp only [h1] at h
        cases h2 : arg_expr_known tb symbols a.2.in_ with
        | error err => simp [h2] at h
        | ok b2 =>
          cases b2 with
          | false => simp [h2] at h
          | true =>
            simp only [h2] at h
            simp only [List.flatMap_cons, List.mem_append] at he
            rcases he with (he | he) | he
            · exact arg_expr_known_labels tb symbols _ h1 e he
            · exact arg_expr_known_labels tb symbols _ h2 e he
            · exact ih h e he

/-- C9 (amended): if `are_io_dependencies_met(N, S)` returns true, every free symbol of every
expression `N` reads that is not ignorable (`should_ignore`) has its label in `S`. -/
theorem io_dependencies_sound (tb : Toolbox) (n : Node) (symbols : List symbol_t)
    (h : are_io_dependencies_met tb n symbols = .ok true) :
    ∀ e ∈ read_exprs n, ∀ s ∈ retrieved_strings e, tb.should_ignore s = false →
      ∃ k ∈ symbols, k.label = s := by
  unfold are_io_dependencies_met at h
  unfold read_exprs
  by_cases hb : n.type = NodeType.BRANCH
  · simp only [hb, if_true] at h ⊢
    intro e he
    simp only [List.mem_singleton] at he
    subst he
    exact are_all_symbols_known_labels tb _ symbols h
  · simp only [hb, if_false] at h ⊢
    by_cases hc : n.type = NodeType.CALL
    · simp only [hc, if_true] at h ⊢
      exact args_known_loop_labels tb symbols _ h
    · simp only [hc, if_false] at h
      cases h

/-- C9, witness: a Branch on `pkt_len` with `pkt_len` known. -/
theorem io_dependencies_sound_witness :
    are_io_dependencies_met example_toolbox
      (mk_branch 5 (Expr.Eq (sym "pkt_len") (Expr.Constant 0 8)) none none none)
      [⟨"pkt_len", sym "pkt_len"⟩] = .ok true ∧
    ∃ k ∈ [(⟨"pkt_len", sym "pkt_len"⟩ : symbol_t)], k.label = "pkt_len" :=
  ⟨by decide,
   io_dependencies_sound example_toolbox
     (mk_branch 5 (Expr.Eq (sym "pkt_len") (Expr.Constant 0 8)) none none none)
     [⟨"pkt_len", sym "pkt_len"⟩] (by decide)
     (Expr.Eq (sym "pkt_len") (Expr.Constant 0 8)) (by decide) "pkt_len" (by decide) (by decide)⟩

/-- C9, counterexample: a Branch on the ignorable symbol `VIGOR_DEVICE` has its I/O dependencies
met by the empty symbol set, which holds no label at all. -/
theorem io_dependencies_ignorable_counterexample :
    are_io_dependencies_met example_toolbox device_branch [] = .ok true ∧
    Expr.Eq (sym "VIGOR_DEVICE") (Expr.Constant 0 8) ∈ read_exprs device_branch ∧
    "VIGOR_DEVICE" ∈ retrieved_strings (Expr.Eq (sym "VIGOR_DEVICE") (Expr.Constant 0 8)) ∧
    ¬ ∃ k ∈ ([] : List symbol_t), k.label = "VIGOR_DEVICE" := by
  refine ⟨by decide, by decide, by decide, ?_⟩
  simp

/-- C10, witness: a read of packet byte 15 against a known chunk of bytes 14 and 15. -/
theorem packet_chunk_dependency_covered_witness :
    ∃ s ∈ [(⟨"packet_chunks", chunk_14_15⟩ : symbol_t)], s.label = "packet_chunks" ∧
      ∃ base bytes, get_bytes_read s.expr = some bytes ∧ base ∈ bytes ∧ (∀ b ∈ bytes, base ≤ b) ∧
        base ≤ 15 ∧ 15 < base + s.expr.getWidth / 8 :=
  (packet_chunk_dependency_covered example_toolbox
    (Expr.Eq (Expr.Read "packet_chunks" (Expr.Constant 15 32)) (Expr.Constant 8 8))
    [⟨"packet_chunks", chunk_14_15⟩] 15 32 (by decide) (by decide) (by decide) (by decide)).1


/-! ## Aliasing predicates (C4, C5, C6, C7, C8) -/

theorem key_cmp_loop_const (tb : Toolbox) (k1 k2 : Expr) (e d : Bool) :
    ∀ (pairs : List (ConstraintManager × ConstraintManager)),
      (∀ c ∈ pairs, tb.are_exprs_always_equal_pc k1 k2 c.1 c.2 = e) →
      (∀ c ∈ pairs, tb.are_exprs_always_not_equal_pc k1 k2 c.1 c.2 = d) →
      key_cmp_loop tb k1 k2 pairs ⟨(true, e), (true, d)⟩ = .ok ⟨(true, e), (true, d)⟩ := by
  intro pairs
  induction pairs with
  | nil => intro _ _; rfl
  | cons c rest ih =>
    intro he hd
    have h1 := he c (List.mem_cons_self _ _)
    have h2 := hd c (List.mem_cons_self _ _)
    have h3 : key_cmp_step tb k1 k2 ⟨(true, e), (true, d)⟩ c = .ok ⟨(true, e), (true, d)⟩ := by
      simp [key_cmp_step, h1, h2]
    simp only [key_cmp_loop, h3]
    exact ih (fun c hc => he c (List.mem_cons_of_mem _ hc))
      (fun c hc => hd c (List.mem_cons_of_mem _ hc))

theorem key_cmp_loop_consistent (tb : Toolbox) (k1 k2 : Expr) (e d : Bool)
    (pairs : List (ConstraintManager × ConstraintManager)) (hne : pairs ≠ [])
    (he : ∀ c ∈ pairs, tb.are_exprs_always_equal_pc k1 k2 c.1 c.2 = e)
    (hd : ∀ c ∈ pairs, tb.are_exprs_always_not_equal_pc k1 k2 c.1 c.2 = d) :
    key_cmp_loop tb k1 k2 pairs ⟨(false, false), (false, false)⟩
      = .ok ⟨(true, e), (true, d)⟩ := by
  cases pairs with
  | nil => exact absurd rfl hne
  | cons c rest =>
    have h1 := he c (List.mem_cons_self _ _)
    have h2 := hd c (List.mem_cons_self _ _)
    have h3 : key_cmp_step tb k1 k2 ⟨(false, false), (false, false)⟩ c
        = .ok ⟨(true, e), (true, d)⟩ := by
      simp [key_cmp_step, h1, h2]
    simp only [key_cmp_loop, h3]
    exact key_cmp_loop_const tb k1 k2 e d rest (fun c hc => he c (List.mem_cons_of_mem _ hc))
      (fun c hc => hd c (List.mem_cons_of_mem _ hc))

/-- Result of the key comparison when the solver gives the same two answers under every pair
of path constraints. -/
theorem key_cmp_decide_consistent (tb : Toolbox) (h : Heap) (io_node : Ptr) (b a : Node)
    (k1 k2 : Expr) (condition : Option Expr) (e d : Bool)
    (hne : constraint_pairs b.constraints a.constraints ≠ [])
    (he : ∀ c ∈ constraint_pairs b.constraints a.constraints,
      tb.are_exprs_always_equal_pc k1 k2 c.1 c.2 = e)
    (hd : ∀ c ∈ constraint_pairs b.constraints a.constraints,
      tb.are_exprs_always_not_equal_pc k1 k2 c.1 c.2 = d) :
    key_cmp_decide tb h io_node b a k1 k2 condition =
      if e then .ok (false, condition)
      else if d then .ok (true, condition)
      else
        match are_io_dependencies_met_expr tb h io_node (Expr.Not (Expr.Eq k1 k2)) with
        | .error err => .error err
        | .ok r => .ok (r, some (Expr.Not (Expr.Eq k1 k2))) := by
  unfold key_cmp_decide
  rw [key_cmp_loop_consistent tb k1 k2 e d _ hne he hd]

/-- Reduction of `map_can_reorder` to the key comparison, for two calls on the same map of
which one has side effects and which both carry a key. -/
theorem map_can_reorder_same_map (tb : Toolbox) (h : Heap) (current before after : Ptr)
    (condition : Option Expr) (bm am bk ak : arg_t) (m1 m2 k1 k2 : Expr)
    (hb : (h.node before).type = NodeType.CALL) (ha : (h.node after).type = NodeType.CALL)
    (hbm : (h.node before).call.args.lookup "map" = some bm)
    (ham : (h.node after).call.args.lookup "map" = some am)
    (hbm1 : bm.expr = some m1) (ham1 : am.expr = some m2)
    (hsame : tb.are_exprs_always_equal m1 m2 = true)
    (hse : fn_has_side_effects (h.node before).call.function_name = .ok true ∨
      (fn_has_side_effects (h.node before).call.function_name = .ok false ∧
       fn_has_side_effects (h.node after).call.function_name = .ok true))
    (hbk : (h.node before).call.args.lookup "key" = some bk)
    (hak : (h.node after).call.args.lookup "key" = some ak)
    (hbk1 : bk.in_ = some k1) (hak1 : ak.in_ = some k2) :
    map_can_reorder tb h current before after condition
      = key_cmp_decide tb h before (h.node before) (h.node after) k1 k2 condition := by
  unfold map_can_reorder
  simp only [hb, ha, hbm, ham, hbm1, ham1, hsame, hbk, hak, hbk1, hak1]
  rcases hse with h1 | ⟨h1, h2⟩
  · simp [h1]
  · simp [h1, h2]


theorem side_effect_test (h : Heap) (before after : Ptr) (hse : some_side_effect h before after) :
    ∃ sb, fn_has_side_effects (h.node before).call.function_name = .ok sb ∧
      (if sb then (.ok true : Except Fault Bool)
        else fn_has_side_effects (h.node after).call.function_name) = .ok true := by
  rcases hse with h1 | ⟨h1, h2⟩
  · exact ⟨true, h1, rfl⟩
  · exact ⟨false, h1, by simpa using h2⟩

theorem both_calls_of_not (h : Heap) (before after : Ptr)
    (hty : ¬ ((h.node before).type ≠ (h.node after).type ∨
      (h.node before).type ≠ NodeType.CALL)) : both_calls h before after := by
  have hb : (h.node before).type = NodeType.CALL := by
    by_contra hne; exact hty (Or.inr hne)
  have ha : (h.node after).type = NodeType.CALL := by
    by_contra hne; apply hty; left; rw [hb]; exact fun heq => hne heq.symm
  exact ⟨hb, ha⟩

theorem not_both_calls_iff (h : Heap) (before after : Ptr) :
    ((h.node before).type ≠ (h.node after).type ∨ (h.node before).type ≠ NodeType.CALL)
      ↔ ¬ both_calls h before after := by
  constructor
  · rintro hty ⟨hb, ha⟩
    rcases hty with hty | hty
    · exact hty (hb.trans ha.symm)
    · exact hty hb
  · intro hn
    by_contra hty
    exact hn (both_calls_of_not h before after hty)

/-- The body of `dchain_can_reorder` once the side-effect lookups are known. -/
theorem dchain_can_reorder_eq (tb : Toolbox) (h : Heap) (current before after : Ptr)
    (condition : Option Expr) (sb sa : Bool) (hc : both_calls h before after)
    (hsb : fn_has_side_effects (h.node before).call.function_name = .ok sb)
    (hsa : fn_has_side_effects (h.node after).call.function_name = .ok sa) :
    dchain_can_reorder tb h current before after condition =
      if sb = false ∧ sa = false then .ok (true, condition)
      else
        match (h.node before).call.args.lookup "dchain",
            (h.node after).call.args.lookup "dchain" with
        | some before_dchain_arg, some after_dchain_arg =>
          match before_dchain_arg.expr, after_dchain_arg.expr with
          | some before_dchain, some after_dchain =>
            if !tb.are_exprs_always_equal before_dchain after_dchain then .ok (true, condition)
            else .ok (false, condition)
          | _, _ => .error .assertion
        | _, _ => .ok (true, condition) := by
  have hty := (not_both_calls_iff h before after).not.mpr (not_not.mpr hc)
  unfold dchain_can_reorder
  simp only [hty, if_false, hsb, hsa]
  cases sb <;> cases sa <;> simp

/-- C7 (amended): `dchain_can_reorder` returns false exactly when both nodes are Calls, at
least one of them is side-effecting, and both carry a `dchain` argument to always-equal
objects; in every other case it returns true, and it never sets a guard (the functions of
two Calls being in the side-effect table and their `dchain` arguments non-null). -/
theorem dchain_can_reorder_spec (tb : Toolbox) (h : Heap) (current before after : Ptr)
    (condition : Option Expr)
    (hknown : both_calls h before after →
      ∃ sb sa, fn_has_side_effects (h.node before).call.function_name = .ok sb ∧
        fn_has_side_effects (h.node after).call.function_name = .ok sa)
    (hnn : ∀ ba aa, (h.node before).call.args.lookup "dchain" = some ba →
      (h.node after).call.args.lookup "dchain" = some aa → ba.expr ≠ none ∧ aa.expr ≠ none) :
    ∃ r, dchain_can_reorder tb h current before after condition = .ok (r, condition) ∧
      (r = false ↔ (both_calls h before after ∧
        (fn_has_side_effects (h.node before).call.function_name = .ok true ∨
         fn_has_side_effects (h.node after).call.function_name = .ok true) ∧
        same_object tb h "dchain" before after)) := by
  by_cases hc : both_calls h before after
  · obtain ⟨sb, sa, hsb, hsa⟩ := hknown hc
    rw [dchain_can_reorder_eq tb h current before after condition sb sa hc hsb hsa]
    have hse : (fn_has_side_effects (h.node before).call.function_name = .ok true ∨
        fn_has_side_effects (h.node after).call.function_name = .ok true) ↔
        ¬ (sb = false ∧ sa = false) := by
      rw [hsb, hsa]
      cases sb <;> cases sa <;> simp
    by_cases hno : sb = false ∧ sa = false
    · refine ⟨true, by simp only [hno, and_self, if_true], ?_⟩
      constructor
      · intro hf; cases hf
      · rintro ⟨_, h1, _⟩
        exact absurd hno (hse.mp h1)
    · simp only [hno, if_false]
      cases hlb : (h.node before).call.args.lookup "dchain" with
      | none =>
        refine ⟨true, rfl, ?_⟩
        constructor
        · intro hf; cases hf
        · rintro ⟨_, _, ba, aa, be, ae, h1, _⟩
          rw [hlb] at h1; cases h1
      | some ba =>
        cases hla : (h.node after).call.args.lookup "dchain" with
        | none =>
          refine ⟨true, rfl, ?_⟩
          constructor
          · intro hf; cases hf
          · rintro ⟨_, _, ba1, aa, be, ae, _, h2, _⟩
            rw [hla] at h2; cases h2
        | some aa =>
          obtain ⟨hn1, hn2⟩ := hnn ba aa hlb hla
          cases hbe : ba.expr with
          | none => exact absurd hbe hn1
          | some be =>
            cases hae : aa.expr with
            | none => exact absurd hae hn2
            | some ae =>
              by_cases heq : tb.are_exprs_always_equal be ae = true
              · refine ⟨false, by simp [hbe, hae, heq], ?_⟩
                constructor
                · intro _
                  exact ⟨hc, hse.mpr hno, ba, aa, be, ae, hlb, hla, hbe, hae, heq⟩
                · intro _; rfl
              · refine ⟨true, by simp [hbe, hae, heq], ?_⟩
                constructor
                · intro hf; cases hf
                · rintro ⟨_, _, ba1, aa1, be1, ae1, h1, h2, h3, h4, h5⟩
                  rw [hlb] at h1; rw [hla] at h2
                  cases h1; cases h2
                  rw [hbe] at h3; rw [hae] at h4
                  cases h3; cases h4
                  exact absurd h5 heq
  · have hty := (not_both_calls_iff h before after).mpr hc
    refine ⟨true, by unfold dchain_can_reorder; simp only [hty, if_true], ?_⟩
    constructor
    · intro hf; cases hf
    · rintro ⟨h1, _⟩
      exact absurd h1 hc

/-- C7, counterexample: `dchain_is_index_allocated` has no side effects, yet `dchain_can_reorder`
returns false for it and a `dchain_rejuvenate_index` on the same object. -/
theorem dchain_can_reorder_one_writer_counterexample :
    both_calls dchain_heap 1 2 ∧
    fn_has_side_effects (dchain_heap.node 1).call.function_name = .ok false ∧
    dchain_can_reorder example_toolbox dchain_heap 0 1 2 none = .ok (false, none) := by
  decide

/-- C7, witness: the amended claim on `dchain_heap`. -/
theorem dchain_can_reorder_spec_witness :
    ∃ r, dchain_can_reorder example_toolbox dchain_heap 0 1 2 none = .ok (r, none) ∧
      (r = false ↔ (both_calls dchain_heap 1 2 ∧
        (fn_has_side_effects (dchain_heap.node 1).call.function_name = .ok true ∨
         fn_has_side_effects (dchain_heap.node 2).call.function_name = .ok true) ∧
        same_object example_toolbox dchain_heap "dchain" 1 2)) :=
  dchain_can_reorder_spec example_toolbox dchain_heap 0 1 2 none
    (fun _ => ⟨false, true, by decide, by decide⟩)
    (fun ba aa h1 h2 => by
      have e1 : ba = value_arg 5 := by
        have : (dchain_heap.node 1).call.args.lookup "dchain" = some (value_arg 5) := by decide
        rw [this] at h1; exact (Option.some.inj h1).symm
      have e2 : aa = value_arg 5 := by
        have : (dchain_heap.node 2).call.args.lookup "dchain" = some (value_arg 5) := by decide
        rw [this] at h2; exact (Option.some.inj h2).symm
      subst e1; subst e2
      exact ⟨by decide, by decide⟩)

/-- Reduction of `vector_can_reorder` to the index comparison, for two calls on the same
vector of which one has side effects and which both carry an index. -/
theorem vector_can_reorder_same_vector (tb : Toolbox) (h : Heap) (current before after : Ptr)
    (condition : Option Expr) (bi ai : arg_t) (i1 i2 : Expr)
    (hc : both_calls h before after) (hse : some_side_effect h before after)
    (hsame : same_object tb h "vector" before after)
    (hbi : (h.node before).call.args.lookup "index" = some bi)
    (hai : (h.node after).call.args.lookup "index" = some ai)
    (hbi1 : bi.expr = some i1) (hai1 : ai.expr = some i2) :
    vector_can_reorder tb h current before after condition
      = key_cmp_decide tb h current (h.node before) (h.node after) i1 i2 condition := by
  have hty := (not_both_calls_iff h before after).not.mpr (not_not.mpr hc)
  obtain ⟨sb, hsb, htest⟩ := side_effect_test h before after hse
  obtain ⟨bv, av, v1, v2, hbv, hav, hbv1, hav1, heq⟩ := hsame
  unfold vector_can_reorder
  simp only [hty, if_false, hsb, htest, hbv, hav, hbv1, hav1, heq, hbi, hai, hbi1, hai1,
    Bool.not_true, Bool.false_eq_true]

/-- C6 (amended): `vector_can_reorder` returns true with no guard when the two nodes are not
both Calls, when neither function is side-effecting, or when the `vector` arguments are not
always-equal; for two Calls on always-equal vectors, one of them side-effecting, that both
carry an `index` and whose path-constraint lists are not empty, with the solver giving the
same answers under every pair of path constraints: it returns false when the indices are
always-equal, true with no guard when they are always-distinct and not always-equal, and
otherwise sets the guard `Not(Eq(index_H, index_next))` and returns whether the symbols of
the guard are known at `current`. -/
theorem vector_can_reorder_spec (tb : Toolbox) (h : Heap) (current before after : Ptr)
    (condition : Option Expr) :
    (¬ both_calls h before after →
      vector_can_reorder tb h current before after condition = .ok (true, condition)) ∧
    (both_calls h before after →
      fn_has_side_effects (h.node before).call.function_name = .ok false →
      fn_has_side_effects (h.node after).call.function_name = .ok false →
      vector_can_reorder tb h current before after condition = .ok (true, condition)) ∧
    (both_calls h before after → some_side_effect h before after →
      ∀ bv av v1 v2, (h.node before).call.args.lookup "vector" = some bv →
        (h.node after).call.args.lookup "vector" = some av → bv.expr = some v1 →
        av.expr = some v2 → tb.are_exprs_always_equal v1 v2 = false →
        vector_can_reorder tb h current before after condition = .ok (true, condition)) ∧
    (both_calls h before after → some_side_effect h before after →
      same_object tb h "vector" before after →
      ∀ bi ai i1 i2, (h.node before).call.args.lookup "index" = some bi →
        (h.node after).call.args.lookup "index" = some ai → bi.expr = some i1 →
        ai.expr = some i2 →
        ∀ e d, consistent_answers tb h before after i1 i2 e d →
          (e = true →
            vector_can_reorder tb h current before after condition = .ok (false, condition)) ∧
          (e = false → d = true →
            vector_can_reorder tb h current before after condition = .ok (true, condition)) ∧
          (e = false → d = false → ∀ r,
            are_io_dependencies_met_expr tb h current (Expr.Not (Expr.Eq i1 i2)) = .ok r →
            vector_can_reorder tb h current before after condition
              = .ok (r, some (Expr.Not (Expr.Eq i1 i2))))) := by
  refine ⟨?_, ?_, ?_, ?_⟩
  · intro hc
    have hty := (not_both_calls_iff h before after).mpr hc
    unfold vector_can_reorder
    simp only [hty, if_true]
  · intro hc hsb hsa
    have hty := (not_both_calls_iff h before after).not.mpr (not_not.mpr hc)
    unfold vector_can_reorder
    simp only [hty, if_false, hsb, hsa, Bool.false_eq_true]
  · intro hc hse bv av v1 v2 hbv hav hbv1 hav1 hne
    have hty := (not_both_calls_iff h before after).not.mpr (not_not.mpr hc)
    obtain ⟨sb, hsb, htest⟩ := side_effect_test h before after hse
    unfold vector_can_reorder
    simp only [hty, if_false, hsb, htest, hbv, hav, hbv1, hav1, hne, Bool.not_false, if_true]
  · intro hc hse hsame bi ai i1 i2 hbi hai hbi1 hai1 e d hcons
    rw [vector_can_reorder_same_vector tb h current before after condition bi ai i1 i2 hc hse
      hsame hbi hai hbi1 hai1,
      key_cmp_decide_consistent tb h current _ _ i1 i2 condition e d hcons.1 hcons.2.1 hcons.2.2]
    refine ⟨?_, ?_, ?_⟩
    · intro he; simp [he]
    · intro he hd; simp [he, hd]
    · intro he hd r hr; simp [he, hd, hr]

/-- C4 (amended): for two Call nodes that carry a `map` argument to always-equal objects, at
least one of which is side-effecting, that both carry a `key` argument, and whose
path-constraint lists are not empty: if the keys are always-equal under every pair of path
constraints (and the always-distinct query gives one answer under all of them),
`map_can_reorder` returns false; if they are always-distinct and not always-equal under
every pair, it returns true and leaves the guard condition as it was. -/
theorem map_can_reorder_aliasing_law (tb : Toolbox) (h : Heap) (current before after : Ptr)
    (condition : Option Expr) (bk ak : arg_t) (k1 k2 : Expr)
    (hc : both_calls h before after) (hse : some_side_effect h before after)
    (hsame : same_object tb h "map" before after)
    (hbk : (h.node before).call.args.lookup "key" = some bk)
    (hak : (h.node after).call.args.lookup "key" = some ak)
    (hbk1 : bk.in_ = some k1) (hak1 : ak.in_ = some k2) :
    (∀ d, consistent_answers tb h before after k1 k2 true d →
      map_can_reorder tb h current before after condition = .ok (false, condition)) ∧
    (consistent_answers tb h before after k1 k2 false true →
      map_can_reorder tb h current before after condition = .ok (true, condition)) := by
  obtain ⟨bm, am, m1, m2, hbm, ham, hbm1, ham1, heq⟩ := hsame
  have hred := map_can_reorder_same_map tb h current before after condition bm am bk ak m1 m2
    k1 k2 hc.1 hc.2 hbm ham hbm1 ham1 heq hse hbk hak hbk1 hak1
  constructor
  · intro d hcons
    rw [hred, key_cmp_decide_consistent tb h before _ _ k1 k2 condition true d
      hcons.1 hcons.2.1 hcons.2.2]
    simp
  · intro hcons
    rw [hred, key_cmp_decide_consistent tb h before _ _ k1 k2 condition false true
      hcons.1 hcons.2.1 hcons.2.2]
    simp

/-- C4, counterexample: two side-effecting calls on the same map with always-equal keys whose
nodes carry no path constraints: `map_can_reorder` does not return false, it sets a guard and
returns true. -/
theorem map_can_reorder_no_constraints_counterexample :
    both_calls equal_keys_heap 1 2 ∧
    (equal_keys_heap.node 1).call.args.lookup "map" = some (value_arg 2) ∧
    (equal_keys_heap.node 2).call.args.lookup "map" = some (value_arg 2) ∧
    fn_has_side_effects (equal_keys_heap.node 1).call.function_name = .ok true ∧
    (equal_keys_heap.node 1).call.args.lookup "key"
      = some (input_arg 100 (Expr.Constant 5 32)) ∧
    (equal_keys_heap.node 2).call.args.lookup "key"
      = some (input_arg 101 (Expr.Constant 5 32)) ∧
    example_toolbox.are_exprs_always_equal (Expr.Constant 5 32) (Expr.Constant 5 32) = true ∧
    example_toolbox.are_exprs_always_equal_pc (Expr.Constant 5 32) (Expr.Constant 5 32) [] []
      = true ∧
    map_can_reorder example_toolbox equal_keys_heap 0 1 2 none
      = .ok (true, some (Expr.Not (Expr.Eq (Expr.Constant 5 32) (Expr.Constant 5 32)))) := by
  decide

/-- C4, witness: equal keys give false, distinct constant keys give true with no guard. -/
theorem map_can_reorder_aliasing_law_witness :
    map_can_reorder example_toolbox
        (two_puts_heap (Expr.Constant 5 32) (Expr.Constant 5 32)) 0 1 2 none = .ok (false, none) ∧
    map_can_reorder example_toolbox
        (two_puts_heap (Expr.Constant 5 32) (Expr.Constant 6 32)) 0 1 2 none = .ok (true, none) :=
  ⟨(map_can_reorder_aliasing_law example_toolbox
      (two_puts_heap (Expr.Constant 5 32) (Expr.Constant 5 32)) 0 1 2 none
      (input_arg 100 (Expr.Constant 5 32)) (input_arg 101 (Expr.Constant 5 32))
      (Expr.Constant 5 32) (Expr.Constant 5 32) (by decide) (Or.inl (by decide))
      ⟨value_arg 2, value_arg 2, Expr.Constant 2 64, Expr.Constant 2 64,
        by decide, by decide, rfl, rfl, by decide⟩
      (by decide) (by decide) rfl rfl).1 false ⟨by decide, by decide, by decide⟩,
   (map_can_reorder_aliasing_law example_toolbox
      (two_puts_heap (Expr.Constant 5 32) (Expr.Constant 6 32)) 0 1 2 none
      (input_arg 100 (Expr.Constant 5 32)) (input_arg 101 (Expr.Constant 6 32))
      (Expr.Constant 5 32) (Expr.Constant 6 32) (by decide) (Or.inl (by decide))
      ⟨value_arg 2, value_arg 2, Expr.Constant 2 64, Expr.Constant 2 64,
        by decide, by decide, rfl, rfl, by decide⟩
      (by decide) (by decide) rfl rfl).2 ⟨by decide, by decide, by decide⟩⟩

/-- C6, counterexample: two calls on the same vector with always-equal indices whose nodes carry
no path constraints: `vector_can_reorder` does not return false, it sets a guard and returns
true. -/
theorem vector_can_reorder_no_constraints_counterexample :
    both_calls (two_vector_calls_heap (Expr.Constant 4 32) (Expr.Constant 4 32) []) 1 2 ∧
    fn_has_side_effects
      ((two_vector_calls_heap (Expr.Constant 4 32) (Expr.Constant 4 32) []).node 1).call.function_name
        = .ok true ∧
    example_toolbox.are_exprs_always_equal (Expr.Constant 3 64) (Expr.Constant 3 64) = true ∧
    example_toolbox.are_exprs_always_equal (Expr.Constant 4 32) (Expr.Constant 4 32) = true ∧
    vector_can_reorder example_toolbox
        (two_vector_calls_heap (Expr.Constant 4 32) (Expr.Constant 4 32) []) 0 1 2 none
      = .ok (true, some (Expr.Not (Expr.Eq (Expr.Constant 4 32) (Expr.Constant 4 32)))) := by
  decide

/-- C6, witness: an ambiguous index pair gives the guard, and true as the symbol `i` is known at
`current`. -/
theorem vector_can_reorder_spec_witness :
    vector_can_reorder example_toolbox
        (two_vector_calls_heap (sym "i") (Expr.Constant 4 32) [[]]) 0 1 2 none
      = .ok (true, some (Expr.Not (Expr.Eq (sym "i") (Expr.Constant 4 32)))) :=
  ((vector_can_reorder_spec example_toolbox
      (two_vector_calls_heap (sym "i") (Expr.Constant 4 32) [[]]) 0 1 2 none).2.2.2
      (by decide) (Or.inl (by decide))
      ⟨value_arg 3, value_arg 3, Expr.Constant 3 64, Expr.Constant 3 64,
        by decide, by decide, rfl, rfl, by decide⟩
      ⟨some (sym "i"), none⟩ ⟨some (Expr.Constant 4 32), none⟩ (sym "i") (Expr.Constant 4 32)
      (by decide) (by decide) rfl rfl false false
      ⟨by decide, by decide, by decide⟩).2.2 rfl rfl true (by decide)

/-- C5: on `late_symbol_heap` the keys of `H` and `N` are neither always-equal nor always-distinct;
`map_can_reorder` sets the guard and returns true although the symbol `hash` of the guard is not
known at `current` (the guard is checked against the symbols known at the hazard node `H`),
and `get_candidates` returns `N` with that guard. -/
theorem map_can_reorder_guard_checked_at_hazard :
    map_can_reorder example_toolbox late_symbol_heap 0 2 3 none
      = .ok (true, some (Expr.Not (Expr.Eq (sym "hash") (Expr.Constant 7 32)))) ∧
    are_io_dependencies_met_expr example_toolbox late_symbol_heap 0
      (Expr.Not (Expr.Eq (sym "hash") (Expr.Constant 7 32))) = .ok false ∧
    get_candidates example_toolbox late_symbol_heap 10 0
      = .ok [⟨some 3, [13], some (Expr.Not (Expr.Eq (sym "hash") (Expr.Constant 7 32))), none⟩] := by
  decide

/-- C8: on `two_guards_heap` the two hazard nodes produce the guards `k2 ≠ 7` and `k1 ≠ 7`, and
`are_rw_dependencies_met` returns the conjunction of the first guard with itself: the second
guard is not a conjunct of the returned condition. -/
theorem are_rw_dependencies_met_drops_guards :
    rw_hazard_loop example_toolbox two_guards_heap 0 3 6 (some 2) []
      = .ok (some [Expr.Not (Expr.Eq (sym "k2") (Expr.Constant 7 32)),
                   Expr.Not (Expr.Eq (sym "k1") (Expr.Constant 7 32))]) ∧
    are_rw_dependencies_met example_toolbox two_guards_heap 0 3 none
      = .ok (true, some (Expr.And (Expr.Not (Expr.Eq (sym "k2") (Expr.Constant 7 32)))
                                  (Expr.Not (Expr.Eq (sym "k2") (Expr.Constant 7 32))))) := by
  decide


/-! ## Heap lemmas -/

theorem node_set (h : Heap) (p x : Ptr) (n : Node) (hp : p < h.length) :
    Heap.node (h.set p n) x = if x = p then n else h.node x := by
  unfold Heap.node
  by_cases hx : x = p
  · subst hx
    simp [List.getD_eq_getElem?_getD, hp]
  · have hne : p ≠ x := fun e => hx e.symm
    simp [List.getD_eq_getElem?_getD, List.getElem?_set_ne hne, hx]

theorem node_append_lt (h : Heap) (n : Node) (x : Ptr) (hx : x < h.length) :
    Heap.node (h ++ [n]) x = h.node x := by
  unfold Heap.node
  simp [List.getD_eq_getElem?_getD, List.getElem?_append_left hx]

theorem node_append_eq (h : Heap) (n : Node) : Heap.node (h ++ [n]) h.length = n := by
  unfold Heap.node
  simp [List.getD_eq_getElem?_getD]

theorem node_ge (h : Heap) (x : Ptr) (hx : h.length ≤ x) : h.node x = default := by
  unfold Heap.node
  simp [List.getD_eq_getElem?_getD, List.getElem?_eq_none hx]

theorem replace_next_node (h : Heap) (p x : Ptr) (q : Option Ptr) (hp : p < h.length) :
    (h.replace_next p q).node x = if x = p then { h.node p with next := q } else h.node x := by
  unfold Heap.replace_next
  exact node_set h p x _ hp

theorem replace_prev_node (h : Heap) (p x : Ptr) (q : Option Ptr) (hp : p < h.length) :
    (h.replace_prev p q).node x = if x = p then { h.node p with prev := q } else h.node x := by
  unfold Heap.replace_prev
  exact node_set h p x _ hp

theorem replace_on_false_node (h : Heap) (p x : Ptr) (q : Option Ptr) (hp : p < h.length) :
    (h.replace_on_false p q).node x
      = if x = p then { h.node p with on_false := q } else h.node x := by
  unfold Heap.replace_on_false
  exact node_set h p x _ hp

theorem update_id_node (h : Heap) (p x : Ptr) (i : Nat) (hp : p < h.length) :
    (h.update_id p i).node x = if x = p then { h.node p with id := i } else h.node x := by
  unfold Heap.update_id
  exact node_set h p x _ hp

@[simp] theorem replace_next_length (h : Heap) (p : Ptr) (q : Option Ptr) :
    (h.replace_next p q).length = h.length := by
  simp [Heap.replace_next]

@[simp] theorem replace_prev_length (h : Heap) (p : Ptr) (q : Option Ptr) :
    (h.replace_prev p q).length = h.length := by
  simp [Heap.replace_prev]

@[simp] theorem replace_on_false_length (h : Heap) (p : Ptr) (q : Option Ptr) :
    (h.replace_on_false p q).length = h.length := by
  simp [Heap.replace_on_false]

@[simp] theorem update_id_length (h : Heap) (p : Ptr) (i : Nat) :
    (h.update_id p i).length = h.length := by
  simp [Heap.update_id]

/-- The effect of `relink` on the fields of every node. -/
theorem relink_spec (h : Heap) (n q : Ptr) (side : Bool) (hn : n < h.length)
    (hq : q < h.length) :
    ∃ h1, relink h n side (some q) = .ok h1 ∧ h1.length = h.length ∧
      ∀ x, (h1.node x).type = (h.node x).type ∧ (h1.node x).id = (h.node x).id ∧
        (h1.node x).call = (h.node x).call ∧ (h1.node x).condition = (h.node x).condition ∧
        (h1.node x).next = (if x = n ∧ side = false then some q else (h.node x).next) ∧
        (h1.node x).on_false = (if x = n ∧ side = true then some q else (h.node x).on_false) ∧
        (h1.node x).prev = (if x = q then some n else (h.node x).prev) := by
  cases side with
  | false =>
    refine ⟨_, rfl, by simp, ?_⟩
    intro x
    simp only [Bool.false_eq_true, if_false]
    rw [replace_prev_node _ _ _ _ (by simpa using hq), replace_next_node _ _ _ _ hn,
      replace_next_node _ _ _ _ hn]
    by_cases hxq : x = q <;> by_cases hxn : x = n <;> by_cases hqn : q = n <;>
      simp_all
  | true =>
    refine ⟨_, rfl, by simp, ?_⟩
    intro x
    simp only [if_true]
    rw [replace_prev_node _ _ _ _ (by simpa using hq), replace_on_false_node _ _ _ _ hn,
      replace_on_false_node _ _ _ _ hn]
    by_cases hxq : x = q <;> by_cases hxn : x = n <;> by_cases hqn : q = n <;>
      simp_all

/-! ## Relinking a node -/

theorem mem_succs (h : Heap) (p q : Ptr) :
    q ∈ h.succs p ↔ ((h.node p).next = some q ∨
      ((h.node p).type = NodeType.BRANCH ∧ (h.node p).on_false = some q)) := by
  unfold Heap.succs
  by_cases hb : (h.node p).type = NodeType.BRANCH
  · simp only [hb, if_true, List.mem_append, Option.mem_toList, Option.mem_def, true_and]
  · simp only [hb, if_false, List.append_nil, Option.mem_toList, Option.mem_def, false_and,
      or_false]

/-- `relink` produces a relinked heap. -/
theorem relink_relinked (h : Heap) (n q : Ptr) (side : Bool) (hn : n < h.length)
    (hq : q < h.length) :
    ∃ h1, relink h n side (some q) = .ok h1 ∧ relinked h h1 n side q := by
  cases side with
  | false =>
    refine ⟨_, rfl, ⟨by simp, ?_, ?_, ?_, ?_, ?_⟩⟩
    all_goals intro x
    all_goals simp only [Bool.false_eq_true, if_false]
    all_goals rw [replace_prev_node _ _ _ _ (by simpa using hq), replace_next_node _ _ _ _ hn,
      replace_next_node _ _ _ _ hn]
    all_goals by_cases hxq : x = q <;> by_cases hxn : x = n <;> by_cases hqn : q = n <;>
      simp_all
  | true =>
    refine ⟨_, rfl, ⟨by simp, ?_, ?_, ?_, ?_, ?_⟩⟩
    all_goals intro x
    all_goals simp only [if_true]
    all_goals rw [replace_prev_node _ _ _ _ (by simpa using hq),
      replace_on_false_node _ _ _ _ hn, replace_on_false_node _ _ _ _ hn]
    all_goals by_cases hxq : x = q <;> by_cases hxn : x = n <;> by_cases hqn : q = n <;>
      simp_all

/-- An unchanged heap is relinked to the child it already has. -/
theorem relinked_refl (h : Heap) (n c : Ptr) (side : Bool)
    (hside : (side = false ∧ (h.node n).next = some c) ∨
      (side = true ∧ (h.node n).on_false = some c))
    (hprev : (h.node c).prev = some n) : relinked h h n side c := by
  refine ⟨rfl, fun x => ⟨rfl, rfl, rfl, rfl⟩, ?_, ?_, ?_, fun x _ _ => rfl⟩
  · intro x
    by_cases hx : x = n ∧ side = false
    · rcases hside with ⟨_, h2⟩ | ⟨h1, _⟩
      · simp [hx, h2]
      · rw [h1] at hx; simp at hx
    · simp [hx]
  · intro x
    by_cases hx : x = n ∧ side = true
    · rcases hside with ⟨h1, _⟩ | ⟨_, h2⟩
      · rw [h1] at hx; simp at hx
      · simp [hx, h2]
    · simp [hx]
  · intro x
    by_cases hx : x = c
    · simp [hx, hprev]
    · simp [hx]

/-- Splicing the child `s` of `n` out in favour of a successor `nn` of `s` keeps the forward
links consistent, with `s` added to the spliced-out nodes. -/
theorem linked_relinked (h h1 : Heap) (ht : Ptr → Nat) (D : Ptr → Prop) (n s nn : Ptr)
    (side : Bool) (hlk : linked h ht D) (hn : n < h.length) (hnD : ¬ D n)
    (hside : (side = false ∧ (h.node n).next = some s) ∨
      (side = true ∧ (h.node n).type = NodeType.BRANCH ∧ (h.node n).on_false = some s))
    (hnn : nn ∈ h.succs s) (hr : relinked h h1 n side nn) :
    linked h1 ht (fun x => D x ∨ x = s) := by
  have hsn : s ∈ h.succs n := by
    rw [mem_succs]
    rcases hside with ⟨_, h2⟩ | ⟨_, h2, h3⟩
    · exact Or.inl h2
    · exact Or.inr ⟨h2, h3⟩
  obtain ⟨hs, hsD, hsprev, hsht⟩ := hlk.succ_ok n hn hnD s hsn
  obtain ⟨hnnl, hnnD, hnnprev, hnnht⟩ := hlk.succ_ok s hs hsD nn hnn
  have hsne : s ≠ n := by intro e; rw [e] at hsht; omega
  have hnns : nn ≠ s := by intro e; rw [e] at hnnht; omega
  have hnnn : nn ≠ n := by intro e; rw [e] at hnnht; omega
  have hty : ∀ x, (h1.node x).type = (h.node x).type := fun x => (hr.same x).1
  constructor
  · intro p hp hpD q hq
    rw [hr.len] at hp
    have hpD0 : ¬ D p := fun hd => hpD (Or.inl hd)
    have hps : p ≠ s := fun e => hpD (Or.inr e)
    rw [mem_succs, hr.next, hr.on_false, hty] at hq
    rw [hr.len, hr.prev]
    by_cases hpn : p = n
    · subst hpn
      have hshape := (hlk.shape p hp hpD0).2
      rcases hside with ⟨hs1, hs2⟩ | ⟨hs1, hs2, hs3⟩
      · subst hs1
        simp only [true_and, if_true, Bool.false_eq_true, and_false, if_false] at hq
        rcases hq with hq | ⟨hb, hq⟩
        · have hq1 : q = nn := (Option.some.inj hq).symm
          subst hq1
          refine ⟨hnnl, ?_, by simp, by omega⟩
          rintro (hd | hd)
          · exact hnnD hd
          · exact hnns hd
        · have hqm : q ∈ h.succs p := (mem_succs h p q).mpr (Or.inr ⟨hb, hq⟩)
          obtain ⟨h1q, h2q, h3q, h4q⟩ := hlk.succ_ok p hp hpD0 q hqm
          have hqs : q ≠ s := by
            intro e
            have := (hshape hb).2.2
            rw [hs2, hq, e] at this
            exact this rfl
          refine ⟨h1q, ?_, ?_, h4q⟩
          · rintro (hd | hd)
            · exact h2q hd
            · exact hqs hd
          · by_cases e : q = nn
            · simp [e]
            · simp [e, h3q]
      · subst hs1
        simp only [Bool.true_eq_false, and_false, if_false, and_true, if_true] at hq
        rcases hq with hq | ⟨_, hq⟩
        · have hqm : q ∈ h.succs p := (mem_succs h p q).mpr (Or.inl hq)
          obtain ⟨h1q, h2q, h3q, h4q⟩ := hlk.succ_ok p hp hpD0 q hqm
          have hqs : q ≠ s := by
            intro e
            have := (hshape hs2).2.2
            rw [hs3, hq, e] at this
            exact this rfl
          refine ⟨h1q, ?_, ?_, h4q⟩
          · rintro (hd | hd)
            · exact h2q hd
            · exact hqs hd
          · by_cases e : q = nn
            · simp [e]
            · simp [e, h3q]
        · have hq1 : q = nn := (Option.some.inj hq).symm
          subst hq1
          refine ⟨hnnl, ?_, by simp, by omega⟩
          rintro (hd | hd)
          · exact hnnD hd
          · exact hnns hd
    · simp only [hpn, false_and, if_false] at hq
      have hqm : q ∈ h.succs p := (mem_succs h p q).mpr hq
      obtain ⟨h1q, h2q, h3q, h4q⟩ := hlk.succ_ok p hp hpD0 q hqm
      have hqs : q ≠ s := by
        intro e
        rw [e, hsprev] at h3q
        exact hpn (Option.some.inj h3q).symm
      have hqnn : q ≠ nn := by
        intro e
        rw [e, hnnprev] at h3q
        exact hps (Option.some.inj h3q).symm
      refine ⟨h1q, ?_, by simp [hqnn, h3q], h4q⟩
      rintro (hd | hd)
      · exact h2q hd
      · exact hqs hd
  · intro p hp hpD
    rw [hr.len] at hp
    have hpD0 : ¬ D p := fun hd => hpD (Or.inl hd)
    have hshape := hlk.shape p hp hpD0
    rw [hty, hr.next, hr.on_false]
    by_cases hpn : p = n
    · subst hpn
      have hnot : (h.node p).next ≠ some nn := by
        intro e
        have hm : nn ∈ h.succs p := (mem_succs h p nn).mpr (Or.inl e)
        have := (hlk.succ_ok p hp hpD0 nn hm).2.2.1
        rw [hnnprev] at this
        exact hsne (Option.some.inj this)
      have hnot2 : (h.node p).type = NodeType.BRANCH → (h.node p).on_false ≠ some nn := by
        intro hb e
        have hm : nn ∈ h.succs p := (mem_succs h p nn).mpr (Or.inr ⟨hb, e⟩)
        have := (hlk.succ_ok p hp hpD0 nn hm).2.2.1
        rw [hnnprev] at this
        exact hsne (Option.some.inj this)
      rcases hside with ⟨hs1, hs2⟩ | ⟨hs1, hs2, hs3⟩
      · subst hs1
        simp only [true_and, if_true, Bool.false_eq_true, and_false, if_false]
        refine ⟨fun _ => by simp, fun hb => ⟨by simp, (hshape.2 hb).2.1, ?_⟩⟩
        exact fun e => hnot2 hb e.symm
      · subst hs1
        simp only [Bool.true_eq_false, and_false, if_false, and_true, if_true]
        refine ⟨hshape.1, fun hb => ⟨(hshape.2 hb).1, by simp, hnot⟩⟩
    · simp only [hpn, false_and, if_false]
      exact hshape


/-! ## Splicing out a sibling -/

theorem linked_congr (h : Heap) (ht : Ptr → Nat) (D D1 : Ptr → Prop)
    (hD : ∀ x, D1 x ↔ D x) (hlk : linked h ht D) : linked h ht D1 := by
  constructor
  · intro p hp hpD q hq
    obtain ⟨h1, h2, h3, h4⟩ := hlk.succ_ok p hp (fun hd => hpD ((hD p).mpr hd)) q hq
    exact ⟨h1, fun hd => h2 ((hD q).mp hd), h3, h4⟩
  · intro p hp hpD
    exact hlk.shape p hp (fun hd => hpD ((hD p).mpr hd))

/-- A spliced-out sibling of the candidate's type has a successor on the chosen side. -/
theorem splice_successor_ok (h : Heap) (ht : Ptr → Nat) (D : Ptr → Prop) (T : NodeType)
    (s : Ptr) (leaf : aux_t) (hlk : linked h ht D) (hs : s < h.length) (hsD : ¬ D s)
    (hT : (h.node s).type = T) (hkind : T = NodeType.CALL ∨ T = NodeType.BRANCH)
    (hflag : T = NodeType.BRANCH → leaf.branch_decision_set = true) :
    ∃ nn, splice_successor h s leaf = .ok (some nn) ∧ nn ∈ h.succs s := by
  have hshape := hlk.shape s hs hsD
  unfold splice_successor
  rcases hkind with hk | hk
  · have hc : (h.node s).type = NodeType.CALL := hT.trans hk
    have hnb : ¬ (h.node s).type = NodeType.BRANCH := by rw [hc]; decide
    simp only [hnb, if_false]
    cases hn : (h.node s).next with
    | none => exact absurd hn (hshape.1 hc)
    | some nn => exact ⟨nn, rfl, (mem_succs h s nn).mpr (Or.inl hn)⟩
  · have hb : (h.node s).type = NodeType.BRANCH := hT.trans hk
    have hf := hflag hk
    simp only [hb, if_true, hf, Bool.not_true, Bool.false_eq_true, if_false]
    obtain ⟨h1, h2, _⟩ := hshape.2 hb
    cases hd : leaf.branch_decision with
    | true =>
      cases hn : (h.node s).next with
      | none => exact absurd hn h1
      | some nn => exact ⟨nn, by simp, (mem_succs h s nn).mpr (Or.inl hn)⟩
    | false =>
      cases hn : (h.node s).on_false with
      | none => exact absurd hn h2
      | some nn => exact ⟨nn, by simp, (mem_succs h s nn).mpr (Or.inr ⟨hb, hn⟩)⟩

/-- One side of a node in the sibling pass: the child is kept, or spliced out in favour of
one of its successors. -/
theorem dedup_side_ok (S : List Nat) (T : NodeType) (h : Heap) (ht : Ptr → Nat)
    (D : Ptr → Prop) (n c : Ptr) (side found : Bool) (leaf : aux_t)
    (hlk : linked h ht D)
    (htyped : ∀ x, x < h.length → (h.node x).id ∈ S → (h.node x).type = T)
    (hkind : T = NodeType.CALL ∨ T = NodeType.BRANCH)
    (hflag : T = NodeType.BRANCH → leaf.branch_decision_set = true)
    (hn : n < h.length) (hnD : ¬ D n)
    (hside : (side = false ∧ (h.node n).next = some c) ∨
      (side = true ∧ (h.node n).type = NodeType.BRANCH ∧ (h.node n).on_false = some c))
    (hfound : found = true → (h.node c).id ∈ S) :
    ∃ h1 c1, dedup_side h n leaf c found side = .ok h1 ∧ relinked h h1 n side c1 ∧
      linked h1 ht (fun x => D x ∨ (found = true ∧ x = c)) ∧
      ((found = false ∧ h1 = h ∧ c1 = c) ∨
       (found = true ∧ c1 ∈ h.succs c ∧ splice_successor h c leaf = .ok (some c1) ∧
        relink h n side (some c1) = .ok h1)) := by
  have hcn : c ∈ h.succs n := by
    rw [mem_succs]
    rcases hside with ⟨_, h2⟩ | ⟨_, h2, h3⟩
    · exact Or.inl h2
    · exact Or.inr ⟨h2, h3⟩
  obtain ⟨hc, hcD, hcprev, hcht⟩ := hlk.succ_ok n hn hnD c hcn
  unfold dedup_side
  cases found with
  | false =>
    refine ⟨h, c, by simp, ?_, ?_, Or.inl ⟨rfl, rfl, rfl⟩⟩
    · apply relinked_refl h n c side _ hcprev
      rcases hside with ⟨h1, h2⟩ | ⟨h1, _, h3⟩
      · exact Or.inl ⟨h1, h2⟩
      · exact Or.inr ⟨h1, h3⟩
    · exact linked_congr h ht D _ (fun x => by simp) hlk
  | true =>
    have hT := htyped c hc (hfound rfl)
    obtain ⟨nn, hsp, hnn⟩ := splice_successor_ok h ht D T c leaf hlk hc hcD hT hkind hflag
    obtain ⟨hnnl, _, _, _⟩ := hlk.succ_ok c hc hcD nn hnn
    obtain ⟨h1, hrl, hrel⟩ := relink_relinked h n nn side hn hnnl
    refine ⟨h1, nn, by simp [hsp, hrl], hrel, ?_, Or.inr ⟨rfl, hnn, hsp, hrl⟩⟩
    exact linked_congr h1 ht _ _ (fun x => by simp)
      (linked_relinked h h1 ht D n c nn side hlk hn hnD hside hnn hrel)

theorem leaves_cost_cons (ht : Ptr → Nat) (l : aux_t) (rest : List aux_t) :
    leaves_cost ht (l :: rest) = leaf_cost ht l + leaves_cost ht rest := by
  simp [leaves_cost]

theorem leaves_cost_append (ht : Ptr → Nat) (a b : List aux_t) :
    leaves_cost ht (a ++ b) = leaves_cost ht a + leaves_cost ht b := by
  simp [leaves_cost]

theorem leaf_cost_pos (ht : Ptr → Nat) (l : aux_t) : 0 < leaf_cost ht l := by
  unfold leaf_cost
  cases l.node with
  | none => simp
  | some n => exact Nat.pow_pos (by norm_num)

theorem pow3_lt (a b : Nat) (h : a < b) : 3 ^ a < 3 ^ b :=
  Nat.pow_lt_pow_right (by norm_num) h

theorem pow3_two (a b c : Nat) (ha : a < c) (hb : b < c) : 3 ^ a + 3 ^ b < 3 ^ c := by
  obtain ⟨k, rfl⟩ : ∃ k, c = k + 1 := ⟨c - 1, by omega⟩
  have h1 : 3 ^ a ≤ 3 ^ k := Nat.pow_le_pow_right (by norm_num) (by omega)
  have h2 : 3 ^ b ≤ 3 ^ k := Nat.pow_le_pow_right (by norm_num) (by omega)
  have h3 : 0 < 3 ^ k := Nat.pow_pos (by norm_num)
  rw [Nat.pow_succ]
  omega


/-! ## The invariant of the sibling pass -/

theorem succs_relinked_ne (h h1 : Heap) (n c x : Ptr) (side : Bool)
    (hr : relinked h h1 n side c) (hx : x ≠ n) : h1.succs x = h.succs x := by
  unfold Heap.succs
  rw [hr.next, hr.on_false, (hr.same x).1]
  simp [hx]

theorem walk_inv_perm (S : List Nat) (T : NodeType) (ht : Ptr → Nat) (h0 : Nat) (h : Heap)
    (D Done : Ptr → Prop) (l1 l2 : List aux_t) (hp : l1.Perm l2)
    (inv : walk_inv S T ht h0 h D Done l1) : walk_inv S T ht h0 h D Done l2 := by
  refine ⟨inv.lk, inv.typed, inv.kind, ?_, ?_, ?_, inv.done_up, inv.dead_low⟩
  · intro l hl
    exact inv.flags l (hp.mem_iff.mpr hl)
  · intro l hl
    exact inv.leaf_ok l (hp.mem_iff.mpr hl)
  · refine (List.Perm.pairwise_iff ?_ hp).mp inv.distinct
    intro a b hab m hm hbm
    exact hab m hbm hm

theorem walk_inv_tail (S : List Nat) (T : NodeType) (ht : Ptr → Nat) (h0 : Nat) (h : Heap)
    (D Done : Ptr → Prop) (l : aux_t) (rest : List aux_t)
    (inv : walk_inv S T ht h0 h D Done (l :: rest)) : walk_inv S T ht h0 h D Done rest := by
  refine ⟨inv.lk, inv.typed, inv.kind, ?_, ?_, ?_, inv.done_up, inv.dead_low⟩
  · intro x hx
    exact inv.flags x (List.mem_cons_of_mem _ hx)
  · intro x hx
    exact inv.leaf_ok x (List.mem_cons_of_mem _ hx)
  · exact (List.pairwise_cons.mp inv.distinct).2

/-- One round of the sibling pass keeps the invariant: the visited node `n` is done, the nodes
`Sp` among its children are spliced out, and `new` holds its children in the new heap. -/
theorem walk_inv_step (S : List Nat) (T : NodeType) (ht : Ptr → Nat) (h0 : Nat)
    (h h1 : Heap) (D D1 Done : Ptr → Prop) (leaf : aux_t) (rest new : List aux_t) (n : Ptr)
    (inv : walk_inv S T ht h0 h D Done (leaf :: rest)) (hleaf : leaf.node = some n)
    (hlk1 : linked h1 ht D1) (hlen : h1.length = h.length)
    (hsame : ∀ x, (h1.node x).type = (h.node x).type ∧ (h1.node x).id = (h.node x).id)
    (Sp : Ptr → Prop) (hSp : ∀ s, Sp s → s ∈ h.succs n)
    (hD1 : ∀ x, D1 x → D x ∨ Sp x) (hnD1 : ¬ D1 n)
    (hprev : ∀ x, (h1.node x).prev = (h.node x).prev ∨ ∃ s, Sp s ∧ (h.node x).prev = some s)
    (hnew : ∀ l ∈ new, (T = NodeType.BRANCH → l.branch_decision_set = true) ∧
      ∀ c, l.node = some c → c ∈ h1.succs n ∧
        ((h.node c).prev = some n ∨ ∃ s, Sp s ∧ (h.node c).prev = some s))
    (hnewd : new.Pairwise (fun a b => ∀ m, a.node = some m → b.node ≠ some m)) :
    walk_inv S T ht h0 h1 D1 (fun x => Done x ∨ x = n) (rest ++ new) := by
  obtain ⟨hn, hnD, hnh0, hnDone, pn, hpn, hpnDone⟩ :=
    inv.leaf_ok leaf (List.mem_cons_self _ _) n hleaf
  have hSpfacts : ∀ s, Sp s → (h.node s).prev = some n ∧ ht s < ht n ∧ ¬ Done s := by
    intro s hs
    obtain ⟨_, _, h3, h4⟩ := inv.lk.succ_ok n hn hnD s (hSp s hs)
    refine ⟨h3, h4, ?_⟩
    intro hd
    rcases inv.done_up s hd with h5 | ⟨pp, h5, h6⟩
    · omega
    · rw [h3] at h5
      rw [← Option.some.inj h5] at h6
      exact hnDone h6
  -- a node whose old predecessor is done keeps its predecessor
  have hkeep : ∀ x p, (h.node x).prev = some p → Done p → (h1.node x).prev = some p := by
    intro x p hx hp
    rcases hprev x with h1x | ⟨s, hs, h1x⟩
    · rw [h1x, hx]
    · rw [hx] at h1x
      rw [Option.some.inj h1x] at hp
      exact absurd hp (hSpfacts s hs).2.2
  -- a new leaf is not done
  have hnewfacts : ∀ l ∈ new, ∀ c, l.node = some c →
      c < h1.length ∧ ¬ D1 c ∧ (h1.node c).prev = some n ∧ ht c < ht n ∧ ¬ Done c ∧
      ∀ p, (h.node c).prev = some p → ¬ Done p := by
    intro l hl c hc
    obtain ⟨hcs, horig⟩ := (hnew l hl).2 c hc
    obtain ⟨h1c, h2c, h3c, h4c⟩ := hlk1.succ_ok n (by rw [hlen]; exact hn) hnD1 c hcs
    have hnp : ∀ p, (h.node c).prev = some p → ¬ Done p := by
      intro p hp hd
      rcases horig with ho | ⟨s, hs, ho⟩
      · rw [hp] at ho
        rw [Option.some.inj ho] at hd
        exact hnDone hd
      · rw [hp] at ho
        rw [Option.some.inj ho] at hd
        exact (hSpfacts s hs).2.2 hd
    refine ⟨h1c, h2c, h3c, h4c, ?_, hnp⟩
    intro hd
    rcases inv.done_up c hd with h5 | ⟨pp, h5, h6⟩
    · omega
    · exact hnp pp h5 h6
  have hrest : ∀ l ∈ rest, ∀ m, l.node = some m →
      m < h.length ∧ ¬ D m ∧ ht m < h0 ∧ ¬ Done m ∧ ∃ p, (h.node m).prev = some p ∧ Done p :=
    fun l hl m hm => inv.leaf_ok l (List.mem_cons_of_mem _ hl) m hm
  refine ⟨hlk1, ?_, inv.kind, ?_, ?_, ?_, ?_, ?_⟩
  · intro x hx hid
    rw [(hsame x).1]
    rw [hlen] at hx
    rw [(hsame x).2] at hid
    exact inv.typed x hx hid
  · intro l hl hT
    rcases List.mem_append.mp hl with hl | hl
    · exact inv.flags l (List.mem_cons_of_mem _ hl) hT
    · exact (hnew l hl).1 hT
  · intro l hl m hm
    rcases List.mem_append.mp hl with hl | hl
    · obtain ⟨h1m, h2m, h3m, h4m, p, h5m, h6m⟩ := hrest l hl m hm
      refine ⟨by rw [hlen]; exact h1m, ?_, h3m, ?_, p, hkeep m p h5m h6m, Or.inl h6m⟩
      · intro hd
        rcases hD1 m hd with hd | hd
        · exact h2m hd
        · have := (hSpfacts m hd).1
          rw [h5m] at this
          rw [Option.some.inj this] at h6m
          exact hnDone h6m
      · rintro (hd | hd)
        · exact h4m hd
        · have := (List.pairwise_cons.mp inv.distinct).1 l hl n hleaf
          rw [hm, hd] at this
          exact this rfl
    · obtain ⟨h1c, h2c, h3c, h4c, h5c, _⟩ := hnewfacts l hl m hm
      refine ⟨h1c, h2c, by omega, ?_, n, h3c, Or.inr rfl⟩
      rintro (hd | hd)
      · exact h5c hd
      · rw [hd] at h4c; omega
  · rw [List.pairwise_append]
    refine ⟨(List.pairwise_cons.mp inv.distinct).2, hnewd, ?_⟩
    intro a ha b hb m hm hbm
    obtain ⟨_, _, _, _, p, h5m, h6m⟩ := hrest a ha m hm
    exact (hnewfacts b hb m hbm).2.2.2.2.2 p h5m h6m
  · intro x hx
    rcases hx with hx | hx
    · rcases inv.done_up x hx with h5 | ⟨pp, h5, h6⟩
      · exact Or.inl h5
      · exact Or.inr ⟨pp, hkeep x pp h5 h6, Or.inl h6⟩
    · subst hx
      exact Or.inr ⟨pn, hkeep x pn hpn hpnDone, Or.inl hpnDone⟩
  · intro x hx
    rcases hD1 x hx with hd | hd
    · exact inv.dead_low x hd
    · have := (hSpfacts x hd).2.1
      omega

theorem walk_post_refl (S : List Nat) (T : NodeType) (ht : Ptr → Nat) (h0 : Nat) (h : Heap)
    (D Done : Ptr → Prop) (leaves : List aux_t) (inv : walk_inv S T ht h0 h D Done leaves) :
    walk_post ht h0 h h D :=
  ⟨inv.lk, rfl, fun _ => ⟨rfl, rfl, rfl, rfl⟩, fun _ _ => rfl, inv.dead_low⟩

theorem walk_post_relinked (ht : Ptr → Nat) (h0 : Nat) (h h1 h2 : Heap) (D2 : Ptr → Prop)
    (n c : Ptr) (side : Bool) (hr : relinked h h1 n side c) (hn : ht n < h0) (hc : ht c < h0)
    (hp : walk_post ht h0 h1 h2 D2) : walk_post ht h0 h h2 D2 := by
  refine ⟨hp.lk, hp.len.trans hr.len, ?_, ?_, hp.dead_low⟩
  · intro x
    obtain ⟨a1, a2, a3, a4⟩ := hp.same x
    obtain ⟨b1, b2, b3, b4⟩ := hr.same x
    exact ⟨a1.trans b1, a2.trans b2, a3.trans b3, a4.trans b4⟩
  · intro x hx
    rw [hp.frame x hx]
    apply hr.frame
    · intro e; rw [e] at hx; omega
    · intro e; rw [e] at hx; omega


/-! ## The sibling pass returns -/

/-- Facts about the heap after one side of a node was handled. -/
theorem dedup_side_prev (S : List Nat) (h h1 : Heap) (ht : Ptr → Nat) (D : Ptr → Prop)
    (n c c1 : Ptr) (side found : Bool) (leaf : aux_t) (hlk : linked h ht D)
    (hc : c ∈ h.succs n) (hn : n < h.length) (hnD : ¬ D n)
    (hrel : relinked h h1 n side c1)
    (hcase : (found = false ∧ h1 = h ∧ c1 = c) ∨
       (found = true ∧ c1 ∈ h.succs c ∧ splice_successor h c leaf = .ok (some c1) ∧
        relink h n side (some c1) = .ok h1)) :
    ((h.node c1).prev = some n ∨ (found = true ∧ (h.node c1).prev = some c)) ∧
    (∀ x, (h1.node x).prev = (h.node x).prev ∨ (found = true ∧ (h.node x).prev = some c)) := by
  obtain ⟨hcl, hcD, hcprev, _⟩ := hlk.succ_ok n hn hnD c hc
  rcases hcase with ⟨_, h2, h3⟩ | ⟨h1f, h2, _, _⟩
  · subst h2; subst h3
    exact ⟨Or.inl hcprev, fun x => Or.inl rfl⟩
  · obtain ⟨_, _, h3, _⟩ := hlk.succ_ok c hcl hcD c1 h2
    refine ⟨Or.inr ⟨h1f, h3⟩, ?_⟩
    intro x
    rw [hrel.prev]
    by_cases hx : x = c1
    · subst hx
      exact Or.inr ⟨h1f, h3⟩
    · simp [hx]

/-- The sibling pass of `reorder_bdd` ends without a fault when given enough rounds, and
keeps the forward links consistent. -/
theorem dedup_loop_total (S : List Nat) (T : NodeType) (ht : Ptr → Nat) (h0 : Nat) :
    ∀ (fuel : Nat) (h : Heap) (D Done : Ptr → Prop) (leaves : List aux_t),
      walk_inv S T ht h0 h D Done leaves → leaves_cost ht leaves < fuel →
      ∃ h1 D1, dedup_loop S fuel h leaves = .ok h1 ∧ walk_post ht h0 h h1 D1 := by
  intro fuel
  induction fuel with
  | zero => intro h D Done leaves _ hc; omega
  | succ fuel ih =>
    intro h D Done leaves inv hcost
    cases leaves with
    | nil => exact ⟨h, D, rfl, walk_post_refl S T ht h0 h D Done [] inv⟩
    | cons leaf rest =>
      rw [leaves_cost_cons] at hcost
      have htail := walk_inv_tail S T ht h0 h D Done leaf rest inv
      have hpos := leaf_cost_pos ht leaf
      cases hnode : leaf.node with
      | none =>
        obtain ⟨h1, D1, hrun, hpost⟩ := ih h D Done rest htail (by omega)
        refine ⟨h1, D1, ?_, hpost⟩
        simp only [dedup_loop, hnode]
        exact hrun
      | some n =>
        have hc1 : leaf_cost ht leaf = 3 ^ ht n := by simp [leaf_cost, hnode]
        obtain ⟨hn, hnD, hnh0, hnDone, pn, hpn, hpnDone⟩ :=
          inv.leaf_ok leaf (List.mem_cons_self _ _) n hnode
        have hflag := inv.flags leaf (List.mem_cons_self _ _)
        by_cases hb : (h.node n).type = NodeType.BRANCH
        · obtain ⟨hnx, hof, hdist⟩ := (inv.lk.shape n hn hnD).2 hb
          obtain ⟨t, htn⟩ := Option.ne_none_iff_exists'.mp hnx
          obtain ⟨f, hfn⟩ := Option.ne_none_iff_exists'.mp hof
          have htm : t ∈ h.succs n := (mem_succs h n t).mpr (Or.inl htn)
          have hfm : f ∈ h.succs n := (mem_succs h n f).mpr (Or.inr ⟨hb, hfn⟩)
          obtain ⟨htl, htD, htprev, htht⟩ := inv.lk.succ_ok n hn hnD t htm
          obtain ⟨hfl, hfD, hfprev, hfht⟩ := inv.lk.succ_ok n hn hnD f hfm
          have htf : t ≠ f := by
            intro e; rw [htn, hfn, e] at hdist; exact hdist rfl
          -- on_true side
          obtain ⟨h1, t1, hrun1, hrel1, hlk1, hcase1⟩ :=
            dedup_side_ok S T h ht D n t false (S.contains (h.node t).id) leaf inv.lk inv.typed
              inv.kind hflag hn hnD (Or.inl ⟨rfl, htn⟩) (by intro hc; simpa using hc)
          obtain ⟨horig1, hprev1⟩ := dedup_side_prev S h h1 ht D n t t1 false _ leaf inv.lk htm
            hn hnD hrel1 hcase1
          -- on_false side
          have hn1 : n < h1.length := by rw [hrel1.len]; exact hn
          have hnD1 : ¬ (D n ∨ (S.contains (h.node t).id = true ∧ n = t)) := by
            rintro (hd | ⟨_, hd⟩)
            · exact hnD hd
            · rw [← hd] at htht; omega
          have hof1 : (h1.node n).on_false = some f := by
            rw [hrel1.on_false]; simp [hfn]
          have hty1 : (h1.node n).type = NodeType.BRANCH := by rw [(hrel1.same n).1]; exact hb
          have htyped1 : ∀ x, x < h1.length → (h1.node x).id ∈ S → (h1.node x).type = T := by
            intro x hx hid
            rw [hrel1.len] at hx
            rw [(hrel1.same x).2.1] at hid
            rw [(hrel1.same x).1]
            exact inv.typed x hx hid
          obtain ⟨h2, f1, hrun2, hrel2, hlk2, hcase2⟩ :=
            dedup_side_ok S T h1 ht _ n f true (S.contains (h.node f).id) leaf hlk1 htyped1
              inv.kind hflag hn1 hnD1 (Or.inr ⟨rfl, hty1, hof1⟩)
              (by intro hc; rw [(hrel1.same f).2.1]; simpa using hc)
          have hfm1 : f ∈ h1.succs n := (mem_succs h1 n f).mpr (Or.inr ⟨hty1, hof1⟩)
          obtain ⟨horig2, hprev2⟩ := dedup_side_prev S h1 h2 ht _ n f f1 true _ leaf hlk1 hfm1
            hn1 hnD1 hrel2 hcase2
          have hfn_ne : f ≠ n := by intro e; rw [e] at hfht; omega
          -- the new children
          have hnx2 : (h2.node n).next = some t1 := by
            rw [hrel2.next, hrel1.next]; simp
          have hof2 : (h2.node n).on_false = some f1 := by
            rw [hrel2.on_false]; simp
          have hty2 : (h2.node n).type = NodeType.BRANCH := by rw [(hrel2.same n).1]; exact hty1
          have hn2 : n < h2.length := by rw [hrel2.len]; exact hn1
          have hnD2 : ¬ ((D n ∨ (S.contains (h.node t).id = true ∧ n = t)) ∨
              (S.contains (h.node f).id = true ∧ n = f)) := by
            rintro (hd | ⟨_, hd⟩)
            · exact hnD1 hd
            · exact hfn_ne hd.symm
          have ht1m : t1 ∈ h2.succs n := (mem_succs h2 n t1).mpr (Or.inl hnx2)
          have hf1m : f1 ∈ h2.succs n := (mem_succs h2 n f1).mpr (Or.inr ⟨hty2, hof2⟩)
          obtain ⟨_, _, _, ht1ht⟩ := hlk2.succ_ok n hn2 hnD2 t1 ht1m
          obtain ⟨_, _, _, hf1ht⟩ := hlk2.succ_ok n hn2 hnD2 f1 hf1m
          have hdist2 := ((hlk2.shape n hn2 hnD2).2 hty2).2.2
          have ht1f1 : t1 ≠ f1 := by
            intro e; rw [hnx2, hof2, e] at hdist2; exact hdist2 rfl
          -- predecessors in h1 and in h agree for the successors of f
          have hprevf : ∀ x, (h1.node x).prev = some f → (h.node x).prev = some f ∨
              (h.node x).prev = some t := by
            intro x hx
            rcases hprev1 x with h3 | ⟨_, h3⟩
            · left; rw [← h3]; exact hx
            · right; exact h3
          have inv2 := walk_inv_step S T ht h0 h h2 D _ Done leaf rest
            [⟨some t1, leaf.branch_decision, true⟩, ⟨some f1, leaf.branch_decision, true⟩] n
            inv hnode hlk2 (hrel2.len.trans hrel1.len)
            (fun x => ⟨(hrel2.same x).1.trans (hrel1.same x).1,
              (hrel2.same x).2.1.trans (hrel1.same x).2.1⟩)
            (fun x => (S.contains (h.node t).id = true ∧ x = t) ∨
              (S.contains (h.node f).id = true ∧ x = f))
            (by
              rintro s (⟨_, hs⟩ | ⟨_, hs⟩)
              · rw [hs]; exact htm
              · rw [hs]; exact hfm)
            (by
              rintro x ((hd | hd) | hd)
              · exact Or.inl hd
              · exact Or.inr (Or.inl hd)
              · exact Or.inr (Or.inr hd))
            hnD2
            (by
              intro x
              rcases hprev2 x with h3 | ⟨h3, h4⟩
              · rcases hprev1 x with h5 | ⟨h5, h6⟩
                · left; rw [h3, h5]
                · right; exact ⟨t, Or.inl ⟨h5, rfl⟩, h6⟩
              · rcases hprevf x h4 with h5 | h5
                · right; exact ⟨f, Or.inr ⟨h3, rfl⟩, h5⟩
                · -- the predecessor was changed by the first side: x = t1, and t1 ≠ successors of f
                  exfalso
                  rcases hprev1 x with h6 | ⟨h6, h7⟩
                  · rw [h6, h5] at h4
                    exact htf (Option.some.inj h4)
                  · have hx1 : (h1.node x).prev = if x = t1 then some n else (h.node x).prev :=
                      hrel1.prev x
                    by_cases hxt : x = t1
                    · rw [if_pos hxt, h4] at hx1
                      exact hfn_ne (Option.some.inj hx1)
                    · rw [if_neg hxt, h4, h5] at hx1
                      exact htf (Option.some.inj hx1).symm)
            (by
              intro l hl
              simp only [List.mem_cons, List.mem_singleton, List.not_mem_nil, or_false] at hl
              rcases hl with hl | hl
              · subst hl
                refine ⟨fun _ => rfl, ?_⟩
                intro c hc
                have hct : c = t1 := (Option.some.inj hc).symm
                subst hct
                refine ⟨ht1m, ?_⟩
                rcases horig1 with h3 | ⟨h3, h4⟩
                · exact Or.inl h3
                · exact Or.inr ⟨t, Or.inl ⟨h3, rfl⟩, h4⟩
              · subst hl
                refine ⟨fun _ => rfl, ?_⟩
                intro c hc
                have hct : c = f1 := (Option.some.inj hc).symm
                subst hct
                refine ⟨hf1m, ?_⟩
                rcases hcase2 with ⟨_, _, h5⟩ | ⟨h3, h4, _, _⟩
                · rw [h5]; exact Or.inl hfprev
                · rw [succs_relinked_ne h h1 n t1 f false hrel1 hfn_ne] at h4
                  exact Or.inr ⟨f, Or.inr ⟨h3, rfl⟩, (inv.lk.succ_ok f hfl hfD c h4).2.2.1⟩)
            (by
              simp only [List.pairwise_cons, List.mem_singleton, List.not_mem_nil,
                List.Pairwise.nil, and_true]
              refine ⟨?_, fun _ h => absurd h (by simp)⟩
              intro b hb m hm
              subst hb
              simp only at hm ⊢
              rw [← Option.some.inj hm]
              exact fun e => ht1f1 (Option.some.inj e).symm)
          have hcost2 : leaves_cost ht (rest ++
              [⟨some t1, leaf.branch_decision, true⟩, ⟨some f1, leaf.branch_decision, true⟩])
              < fuel := by
            rw [leaves_cost_append]
            have := pow3_two (ht t1) (ht f1) (ht n) ht1ht hf1ht
            have e : leaves_cost ht [⟨some t1, leaf.branch_decision, true⟩,
                ⟨some f1, leaf.branch_decision, true⟩] = 3 ^ ht t1 + 3 ^ ht f1 := by
              simp [leaves_cost, leaf_cost]
            rw [e]
            omega
          obtain ⟨h3, D3, hrun3, hpost3⟩ := ih h2 _ _ _ inv2 hcost2
          refine ⟨h3, D3, ?_, ?_⟩
          · simp only [dedup_loop, hnode, hb, if_true, htn, hfn, hrun1, hrun2, hnx2, hof2]
            exact hrun3
          · exact walk_post_relinked ht h0 h h1 h3 D3 n t1 false hrel1 hnh0 (by omega)
              (walk_post_relinked ht h0 h1 h2 h3 D3 n f1 true hrel2 hnh0 (by omega) hpost3)
        · cases hnx : (h.node n).next with
          | none =>
            obtain ⟨h1, D1, hrun, hpost⟩ := ih h D Done rest htail (by omega)
            refine ⟨h1, D1, ?_, hpost⟩
            simp only [dedup_loop, hnode, hb, if_false, hnx]
            exact hrun
          | some s =>
            have hsm : s ∈ h.succs n := (mem_succs h n s).mpr (Or.inl hnx)
            obtain ⟨hsl, hsD, hsprev, hsht⟩ := inv.lk.succ_ok n hn hnD s hsm
            obtain ⟨h1, c1, hrun1, hrel1, hlk1, hcase1⟩ :=
              dedup_side_ok S T h ht D n s false (S.contains (h.node s).id) leaf inv.lk inv.typed
                inv.kind hflag hn hnD (Or.inl ⟨rfl, hnx⟩) (by intro hc; simpa using hc)
            obtain ⟨horig1, hprev1⟩ := dedup_side_prev S h h1 ht D n s c1 false _ leaf inv.lk hsm
              hn hnD hrel1 hcase1
            have hn1 : n < h1.length := by rw [hrel1.len]; exact hn
            have hnD1 : ¬ (D n ∨ (S.contains (h.node s).id = true ∧ n = s)) := by
              rintro (hd | ⟨_, hd⟩)
              · exact hnD hd
              · rw [← hd] at hsht; omega
            have hnx1 : (h1.node n).next = some c1 := by rw [hrel1.next]; simp
            have hc1m : c1 ∈ h1.succs n := (mem_succs h1 n c1).mpr (Or.inl hnx1)
            obtain ⟨_, _, _, hc1ht⟩ := hlk1.succ_ok n hn1 hnD1 c1 hc1m
            have inv1 := walk_inv_step S T ht h0 h h1 D _ Done leaf rest
              [{ leaf with node := some c1 }] n inv hnode hlk1 hrel1.len
              (fun x => ⟨(hrel1.same x).1, (hrel1.same x).2.1⟩)
              (fun x => S.contains (h.node s).id = true ∧ x = s)
              (by rintro x ⟨_, hx⟩; rw [hx]; exact hsm)
              (fun x hx => hx) hnD1
              (by
                intro x
                rcases hprev1 x with h3 | ⟨h3, h4⟩
                · exact Or.inl h3
                · exact Or.inr ⟨s, ⟨h3, rfl⟩, h4⟩)
              (by
                intro l hl
                simp only [List.mem_singleton] at hl
                subst hl
                refine ⟨hflag, ?_⟩
                intro c hc
                have hct : c = c1 := (Option.some.inj hc).symm
                subst hct
                refine ⟨hc1m, ?_⟩
                rcases horig1 with h3 | ⟨h3, h4⟩
                · exact Or.inl h3
                · exact Or.inr ⟨s, ⟨h3, rfl⟩, h4⟩)
              (List.pairwise_singleton _ _)
            have inv1b := walk_inv_perm S T ht h0 h1 _ _ _ ({ leaf with node := some c1 } :: rest)
              (List.perm_append_singleton _ _) inv1
            have hcost1 : leaves_cost ht ({ leaf with node := some c1 } :: rest) < fuel := by
              rw [leaves_cost_cons]
              have := pow3_lt (ht c1) (ht n) hc1ht
              have hc2 : leaf_cost ht { leaf with node := some c1 } = 3 ^ ht c1 := by
                simp [leaf_cost]
              omega
            obtain ⟨h3, D3, hrun3, hpost3⟩ := ih h1 _ _ _ inv1b hcost1
            refine ⟨h3, D3, ?_, ?_⟩
            · rcases hcase1 with ⟨h4, h5, h6⟩ | ⟨h4, _, h6, h7⟩
              · subst h5; subst h6
                simp only [dedup_loop, hnode, hb, if_false, hnx, h4, Bool.false_eq_true]
                exact hrun3
              · simp only [dedup_loop, hnode, hb, if_false, hnx, h4, if_true, h6, h7]
                exact hrun3
            · exact walk_post_relinked ht h0 h h1 h3 D3 n c1 false hrel1 hnh0 (by omega) hpost3


/-! ## Executions and extensions of the heap -/

/-- Two heaps that agree, on a set of nodes closed under successors, in the fields an
execution reads, execute alike from every node of the set. -/
theorem run_agree (h g : Heap) (input : Expr → Bool) (P : Nat → Prop)
    (hP : ∀ x, P x → (g.node x).type = (h.node x).type ∧ (g.node x).call = (h.node x).call ∧
      (g.node x).condition = (h.node x).condition ∧ (g.node x).next = (h.node x).next ∧
      (g.node x).on_false = (h.node x).on_false ∧ ∀ q ∈ h.succs x, P q) :
    ∀ k p, P p → run g input k (some p) = run h input k (some p) := by
  intro k
  induction k with
  | zero => intro p _; rfl
  | succ k ih =>
    intro p hp
    obtain ⟨h1, h2, h3, h4, h5, h6⟩ := hP p hp
    simp only [run, h1, h2, h3, h4, h5]
    have hnext : run g input k (h.node p).next = run h input k (h.node p).next := by
      cases hn : (h.node p).next with
      | none => cases k <;> rfl
      | some q => exact ih q (h6 q ((mem_succs h p q).mpr (Or.inl hn)))
    by_cases hc : (h.node p).type = NodeType.CALL
    · simp only [hc, if_true]
      rw [hnext]
    · simp only [hc, if_false]
      by_cases hb : (h.node p).type = NodeType.BRANCH
      · simp only [hb, if_true]
        by_cases hi : input (h.node p).condition = true
        · simp only [hi, if_true]
          exact hnext
        · simp only [hi, if_false]
          cases hn : (h.node p).on_false with
          | none => cases k <;> rfl
          | some q => exact ih q (h6 q ((mem_succs h p q).mpr (Or.inr ⟨hb, hn⟩)))
      · simp only [hb, if_false]

/-- Consistent forward links survive an extension of the heap that leaves the nodes of a
downward closed set of live nodes untouched: the other nodes count as spliced out. -/
theorem linked_extend (h g : Heap) (ht : Ptr → Nat) (D : Ptr → Prop) (b : Nat)
    (hlk : linked h ht D) (hlen : h.length ≤ g.length)
    (hold : ∀ x, x < h.length → ht x < b → g.node x = h.node x) :
    linked g ht (fun x => D x ∨ h.length ≤ x ∨ b ≤ ht x) := by
  have hs : ∀ p, p < h.length → ht p < b → g.succs p = h.succs p := by
    intro p hp hb
    unfold Heap.succs
    rw [hold p hp hb]
  constructor
  · intro p _ hpD q hq
    have hp1 : p < h.length := by
      by_contra hc; exact hpD (Or.inr (Or.inl (by omega)))
    have hp2 : ht p < b := by
      by_contra hc; exact hpD (Or.inr (Or.inr (by omega)))
    rw [hs p hp1 hp2] at hq
    obtain ⟨h1, h2, h3, h4⟩ := hlk.succ_ok p hp1 (fun hd => hpD (Or.inl hd)) q hq
    refine ⟨by omega, ?_, by rw [hold q h1 (by omega)]; exact h3, h4⟩
    rintro (hd | hd | hd)
    · exact h2 hd
    · omega
    · omega
  · intro p _ hpD
    have hp1 : p < h.length := by
      by_contra hc; exact hpD (Or.inr (Or.inl (by omega)))
    have hp2 : ht p < b := by
      by_contra hc; exact hpD (Or.inr (Or.inr (by omega)))
    rw [hold p hp1 hp2]
    exact hlk.shape p hp1 (fun hd => hpD (Or.inl hd))


theorem replace_prev_fields (g : Heap) (c x : Nat) (v : Option Ptr) :
    ((g.replace_prev c v).node x).next = (g.node x).next ∧
    ((g.replace_prev c v).node x).on_false = (g.node x).on_false ∧
    ((g.replace_prev c v).node x).type = (g.node x).type ∧
    ((g.replace_prev c v).node x).id = (g.node x).id ∧
    ((g.replace_prev c v).node x).call = (g.node x).call ∧
    ((g.replace_prev c v).node x).condition = (g.node x).condition ∧
    ((g.replace_prev c v).node x).prev
      = (if x = c ∧ c < g.length then v else (g.node x).prev) := by
  by_cases hc : c < g.length
  · rw [replace_prev_node g c x v hc]
    by_cases hx : x = c
    · subst hx; simp [hc]
    · simp [hx]
  · have : g.replace_prev c v = g := by
      unfold Heap.replace_prev
      exact List.set_eq_of_length_le (by omega)
    rw [this]
    simp [hc]

theorem replace_prev_succs (g : Heap) (c x : Nat) (v : Option Ptr) :
    (g.replace_prev c v).succs x = g.succs x := by
  obtain ⟨h1, h2, h3, _⟩ := replace_prev_fields g c x v
  unfold Heap.succs
  rw [h1, h2, h3]

theorem replace_prev_of_length (g : Heap) (c : Option Ptr) (p : Ptr) :
    (g.replace_prev_of c p).length = g.length := by
  cases c <;> simp [Heap.replace_prev_of]

theorem node_append (g : Heap) (n : Node) (x : Nat) :
    Heap.node (g ++ [n]) x = if x < g.length then g.node x else if x = g.length then n
      else default := by
  by_cases h1 : x < g.length
  · simp [h1, node_append_lt g n x h1]
  · by_cases h2 : x = g.length
    · subst h2; simp [node_append_eq]
    · simp only [h1, h2, if_false]
      apply node_ge
      simp
      omega


/-! ## Deep copies (`clone(true)`) -/

/-- The first round of an execution, spelled out. -/
theorem run_succ (h : Heap) (input : Expr → Bool) (k : Nat) (p : Ptr) :
    run h input (k + 1) (some p) =
      if (h.node p).type = NodeType.CALL then (h.node p).call :: run h input k (h.node p).next
      else if (h.node p).type = NodeType.BRANCH then
        run h input k (if input (h.node p).condition then (h.node p).next
          else (h.node p).on_false)
      else [] := rfl

theorem run_none (h : Heap) (input : Expr → Bool) (k : Nat) : run h input k none = [] := by
  cases k <;> rfl

@[simp] theorem clone_node_next (n : Node) (a b : Option Ptr) : (clone_node n a b).next = a := rfl
@[simp] theorem clone_node_on_false (n : Node) (a b : Option Ptr) :
    (clone_node n a b).on_false = b := rfl
@[simp] theorem clone_node_type (n : Node) (a b : Option Ptr) :
    (clone_node n a b).type = n.type := rfl
@[simp] theorem clone_node_id (n : Node) (a b : Option Ptr) : (clone_node n a b).id = n.id := rfl
@[simp] theorem clone_node_call (n : Node) (a b : Option Ptr) :
    (clone_node n a b).call = n.call := rfl
@[simp] theorem clone_node_condition (n : Node) (a b : Option Ptr) :
    (clone_node n a b).condition = n.condition := rfl

/-- Copy of a node without successors. -/
theorem clone_spec_leaf (h : Heap) (ht : Ptr → Nat) (D : Ptr → Prop) (p : Nat)
    (hlk : linked h ht D) (hp : p < h.length) (hpD : ¬ D p)
    (hnx : (h.node p).next = none) (hb : (h.node p).type ≠ NodeType.BRANCH) :
    clone_spec h D (h ++ [clone_node (h.node p) none (h.node p).on_false])
      p h.length := by
  have hnode : Heap.node (h ++ [clone_node (h.node p) none (h.node p).on_false]) h.length
      = clone_node (h.node p) none (h.node p).on_false := node_append_eq _ _
  refine ⟨by simp, by simp, fun x hx => node_append_lt h _ x hx, ⟨?_, ?_⟩, ?_, ?_, ?_⟩
  · intro x hx hxD q hq
    have hxD1 : ¬ x < h.length := hxD
    have hx1 : x = h.length := by simp at hx; omega
    subst hx1
    rw [mem_succs, hnode] at hq
    simp [hb] at hq
  · intro x hx hxD
    have hxD1 : ¬ x < h.length := hxD
    have hx1 : x = h.length := by simp at hx; omega
    subst hx1
    rw [hnode]
    simp only [clone_node_type, clone_node_next, clone_node_on_false]
    refine ⟨fun hc => ?_, fun hc => absurd hc hb⟩
    exact absurd hnx ((hlk.shape p hp hpD).1 hc)
  · intro x hx1 hx2
    have hx3 : x = h.length := by simp at hx2; omega
    subst hx3
    rw [hnode]
    exact ⟨p, hp, hpD, rfl, rfl⟩
  · rw [hnode]
    exact ⟨rfl, rfl, rfl, rfl⟩
  · intro input k
    cases k with
    | zero => rfl
    | succ k =>
      rw [run_succ, run_succ, hnode]
      simp only [clone_node_type, clone_node_call, clone_node_next, hnx, run_none, hb, if_false]

/-- Copy of a node with one successor, whose copy is `q1`. -/
theorem clone_spec_chain (h h1 : Heap) (ht : Ptr → Nat) (D : Ptr → Prop) (p q q1 : Nat)
    (hnx : (h.node p).next = some q) (hb : (h.node p).type ≠ NodeType.BRANCH)
    (hp : p < h.length) (hpD : ¬ D p)
    (spec1 : clone_spec h D h1 q q1) :
    clone_spec h D
      ((h1 ++ [clone_node (h.node p) (some q1) (h.node p).on_false]).replace_prev
        q1 (some h1.length)) p h1.length := by
  have hq1 : q1 + 1 = h1.length := spec1.root
  have hlen := spec1.len
  have hfields := replace_prev_fields
    (h1 ++ [clone_node (h.node p) (some q1) (h.node p).on_false]) q1
  have hsuccs := replace_prev_succs
    (h1 ++ [clone_node (h.node p) (some q1) (h.node p).on_false]) q1
  have hq1l : q1 < (h1 ++ [clone_node (h.node p) (some q1) (h.node p).on_false]).length := by
    rw [List.length_append, List.length_singleton]; omega
  have hroot : ∀ v, Heap.node ((h1 ++ [clone_node (h.node p) (some q1) (h.node p).on_false]).replace_prev q1 v) h1.length
      = clone_node (h.node p) (some q1) (h.node p).on_false := by
    intro v
    rw [replace_prev_node _ _ _ _ hq1l, if_neg (show ¬ h1.length = q1 by omega), node_append_eq]
  have hold : ∀ x : Nat, x < h1.length → x ≠ q1 → ∀ v,
      Heap.node ((h1 ++ [clone_node (h.node p) (some q1) (h.node p).on_false]).replace_prev q1 v) x = h1.node x := by
    intro x hx hne v
    rw [replace_prev_node _ _ _ _ hq1l, if_neg hne, node_append_lt _ _ _ hx]
  refine ⟨by simp; omega, by simp, ?_, ⟨?_, ?_⟩, ?_, ?_, ?_⟩
  · intro x hx
    rw [hold x (by omega) (by omega), spec1.old x hx]
  · intro x hx hxD q2 hq2
    have hxD1 : ¬ x < h.length := hxD
    simp only [replace_prev_length, List.length_append, List.length_singleton] at hx ⊢
    rw [hsuccs] at hq2
    rw [(hfields q2 _).2.2.2.2.2.2]
    by_cases hx1 : x < h1.length
    · have hs : Heap.succs (h1 ++ [clone_node (h.node p) (some q1) (h.node p).on_false]) x = h1.succs x := by
        unfold Heap.succs; rw [node_append_lt _ _ _ hx1]
      rw [hs] at hq2
      obtain ⟨a1, a2, a3, a4⟩ := spec1.lk.succ_ok x hx1 hxD q2 hq2
      refine ⟨by omega, a2, ?_, a4⟩
      rw [if_neg (by omega), node_append_lt _ _ _ a1]
      exact a3
    · have hx2 : x = h1.length := by omega
      subst hx2
      rw [mem_succs, node_append_eq] at hq2
      simp only [clone_node_next, clone_node_type, hb, false_and, or_false] at hq2
      have hq3 : q2 = q1 := (Option.some.inj hq2).symm
      subst hq3
      refine ⟨by omega, show ¬ q2 < h.length by omega, ?_, by omega⟩
      rw [if_pos ⟨rfl, hq1l⟩]
  · intro x hx hxD
    simp only [replace_prev_length, List.length_append, List.length_singleton] at hx
    rw [(hfields x _).1, (hfields x _).2.1, (hfields x _).2.2.1]
    by_cases hx1 : x < h1.length
    · rw [node_append_lt _ _ _ hx1]
      exact spec1.lk.shape x hx1 hxD
    · have hx2 : x = h1.length := by omega
      subst hx2
      rw [node_append_eq]
      simp only [clone_node_type, clone_node_next, clone_node_on_false]
      exact ⟨fun _ => by simp, fun hc => absurd hc hb⟩
  · intro x hx1 hx2
    simp only [replace_prev_length, List.length_append, List.length_singleton] at hx2
    rw [(hfields x _).2.2.2.1, (hfields x _).2.2.1]
    by_cases hx3 : x < h1.length
    · rw [node_append_lt _ _ _ hx3]
      exact spec1.orig x hx1 hx3
    · have hx4 : x = h1.length := by omega
      subst hx4
      rw [node_append_eq]
      exact ⟨p, hp, hpD, rfl, rfl⟩
  · rw [hroot]
    exact ⟨rfl, rfl, rfl, rfl⟩
  · intro input k
    cases k with
    | zero => rfl
    | succ k =>
      rw [run_succ, run_succ, hroot]
      simp only [clone_node_type, clone_node_call, clone_node_next, hnx, hb, if_false]
      have hsub : run ((h1 ++ [clone_node (h.node p) (some q1) (h.node p).on_false]).replace_prev q1 (some h1.length)) input k (some q1)
          = run h input k (some q) := by
        rw [← spec1.runs input k]
        apply run_agree h1 _ input (fun x : Nat => h.length ≤ x ∧ x < h1.length)
        · intro x ⟨hx1, hx2⟩
          rw [(hfields x _).1, (hfields x _).2.1, (hfields x _).2.2.1, (hfields x _).2.2.2.2.1,
            (hfields x _).2.2.2.2.2.1, node_append_lt _ _ _ hx2]
          refine ⟨rfl, rfl, rfl, rfl, rfl, ?_⟩
          intro (y : Nat) hy
          obtain ⟨a1, a2, _, _⟩ := spec1.lk.succ_ok x hx2 (show ¬ (x : Nat) < h.length by omega) y hy
          have a3 : ¬ (y : Nat) < h.length := a2
          exact ⟨by omega, a1⟩
        · show h.length ≤ q1 ∧ q1 < h1.length
          exact ⟨by omega, by omega⟩
      by_cases hc : (h.node p).type = NodeType.CALL
      · simp only [hc, if_true, hsub]
      · simp only [hc, if_false]

/-- Copy of a Branch, whose children have the copies `q1` and `q2`. -/
theorem clone_spec_branch (h h1 h2 : Heap) (ht : Ptr → Nat) (D D1 : Ptr → Prop)
    (p q qf q1 q2 : Nat) (hlk : linked h ht D)
    (hnx : (h.node p).next = some q) (hof : (h.node p).on_false = some qf)
    (hb : (h.node p).type = NodeType.BRANCH) (hp : p < h.length) (hpD : ¬ D p)
    (spec1 : clone_spec h D h1 q q1) (spec2 : clone_spec h1 D1 h2 qf q2)
    (hD1 : ∀ o : Nat, o < h1.length → ¬ D1 o → o < h.length ∧ ¬ D o) :
    clone_spec h D
      (((h2 ++ [clone_node (h.node p) (some q1) (some q2)]).replace_prev q1
        (some h2.length)).replace_prev q2 (some h2.length)) p h2.length := by
  have hq1 : q1 + 1 = h1.length := spec1.root
  have hq2 : q2 + 1 = h2.length := spec2.root
  have hl1 := spec1.len
  have hl2 := spec2.len
  have hGlen : (h2 ++ [clone_node (h.node p) (some q1) (some q2)]).length = h2.length + 1 := by
    rw [List.length_append, List.length_singleton]
  have hF : ∀ x : Nat,
      (Heap.node (((h2 ++ [clone_node (h.node p) (some q1) (some q2)]).replace_prev q1
        (some h2.length)).replace_prev q2 (some h2.length)) x).next
        = (Heap.node (h2 ++ [clone_node (h.node p) (some q1) (some q2)]) x).next ∧
      (Heap.node (((h2 ++ [clone_node (h.node p) (some q1) (some q2)]).replace_prev q1
        (some h2.length)).replace_prev q2 (some h2.length)) x).on_false
        = (Heap.node (h2 ++ [clone_node (h.node p) (some q1) (some q2)]) x).on_false ∧
      (Heap.node (((h2 ++ [clone_node (h.node p) (some q1) (some q2)]).replace_prev q1
        (some h2.length)).replace_prev q2 (some h2.length)) x).type
        = (Heap.node (h2 ++ [clone_node (h.node p) (some q1) (some q2)]) x).type ∧
      (Heap.node (((h2 ++ [clone_node (h.node p) (some q1) (some q2)]).replace_prev q1
        (some h2.length)).replace_prev q2 (some h2.length)) x).id
        = (Heap.node (h2 ++ [clone_node (h.node p) (some q1) (some q2)]) x).id ∧
      (Heap.node (((h2 ++ [clone_node (h.node p) (some q1) (some q2)]).replace_prev q1
        (some h2.length)).replace_prev q2 (some h2.length)) x).call
        = (Heap.node (h2 ++ [clone_node (h.node p) (some q1) (some q2)]) x).call ∧
      (Heap.node (((h2 ++ [clone_node (h.node p) (some q1) (some q2)]).replace_prev q1
        (some h2.length)).replace_prev q2 (some h2.length)) x).condition
        = (Heap.node (h2 ++ [clone_node (h.node p) (some q1) (some q2)]) x).condition ∧
      (Heap.node (((h2 ++ [clone_node (h.node p) (some q1) (some q2)]).replace_prev q1
        (some h2.length)).replace_prev q2 (some h2.length)) x).prev
        = if x = q2 ∨ x = q1 then some h2.length
          else (Heap.node (h2 ++ [clone_node (h.node p) (some q1) (some q2)]) x).prev := by
    intro x
    obtain ⟨a1, a2, a3, a4, a5, a6, a7⟩ := replace_prev_fields
      ((h2 ++ [clone_node (h.node p) (some q1) (some q2)]).replace_prev q1 (some h2.length))
      q2 x (some h2.length)
    obtain ⟨b1, b2, b3, b4, b5, b6, b7⟩ := replace_prev_fields
      (h2 ++ [clone_node (h.node p) (some q1) (some q2)]) q1 x (some h2.length)
    refine ⟨a1.trans b1, a2.trans b2, a3.trans b3, a4.trans b4, a5.trans b5, a6.trans b6, ?_⟩
    rw [a7, b7, replace_prev_length, hGlen]
    by_cases e2 : x = q2
    · have : q2 < h2.length + 1 := by omega
      simp [e2, this]
    · by_cases e1 : x = q1
      · have : q1 < h2.length + 1 := by omega
        simp [e1, this, e2]
      · simp [e1, e2]
  have hS : ∀ x : Nat,
      Heap.succs (((h2 ++ [clone_node (h.node p) (some q1) (some q2)]).replace_prev q1
        (some h2.length)).replace_prev q2 (some h2.length)) x
        = Heap.succs (h2 ++ [clone_node (h.node p) (some q1) (some q2)]) x := by
    intro x
    rw [replace_prev_succs, replace_prev_succs]
  have hroot : Heap.node (h2 ++ [clone_node (h.node p) (some q1) (some q2)]) h2.length
      = clone_node (h.node p) (some q1) (some q2) := node_append_eq _ _
  have hlow : ∀ x : Nat, x < h2.length →
      Heap.node (h2 ++ [clone_node (h.node p) (some q1) (some q2)]) x = h2.node x :=
    fun x hx => node_append_lt _ _ x hx
  have hlowS : ∀ x : Nat, x < h2.length →
      Heap.succs (h2 ++ [clone_node (h.node p) (some q1) (some q2)]) x = h2.succs x := by
    intro x hx
    unfold Heap.succs
    rw [hlow x hx]
  have hS21 : ∀ x : Nat, x < h1.length → h2.succs x = h1.succs x := by
    intro x hx
    unfold Heap.succs
    rw [spec2.old x hx]
  refine ⟨?_, ?_, ?_, ⟨?_, ?_⟩, ?_, ?_, ?_⟩
  · simp only [replace_prev_length, hGlen]; omega
  · simp only [replace_prev_length, hGlen]
  · intro x hx
    have e : Heap.node (((h2 ++ [clone_node (h.node p) (some q1) (some q2)]).replace_prev q1
        (some h2.length)).replace_prev q2 (some h2.length)) x
        = Heap.node (h2 ++ [clone_node (h.node p) (some q1) (some q2)]) x := by
      have hb2 : q2 < ((h2 ++ [clone_node (h.node p) (some q1) (some q2)]).replace_prev q1
          (some h2.length)).length := by
        simp only [replace_prev_length, hGlen]; omega
      have hb1 : q1 < (h2 ++ [clone_node (h.node p) (some q1) (some q2)]).length := by
        rw [hGlen]; omega
      rw [replace_prev_node _ _ _ _ hb2, if_neg (show ¬ x = q2 by omega),
        replace_prev_node _ _ _ _ hb1, if_neg (show ¬ x = q1 by omega)]
    rw [e, hlow x (by omega), spec2.old x (by omega), spec1.old x hx]
  · intro x hx hxD y hy
    have hxD1 : ¬ x < h.length := hxD
    simp only [replace_prev_length, hGlen] at hx ⊢
    rw [hS] at hy
    rw [(hF y).2.2.2.2.2.2]
    by_cases hx1 : x < h1.length
    · rw [hlowS x (by omega), hS21 x hx1] at hy
      obtain ⟨a1, a2, a3, a4⟩ := spec1.lk.succ_ok x hx1 hxD y hy
      have a2b : ¬ y < h.length := a2
      have a4b : y < x := a4
      refine ⟨by omega, a2, ?_, a4⟩
      rw [if_neg (by omega), hlow y (by omega), spec2.old y a1]
      exact a3
    · by_cases hx2 : x < h2.length
      · rw [hlowS x hx2] at hy
        obtain ⟨a1, a2, a3, a4⟩ := spec2.lk.succ_ok x hx2 (show ¬ x < h1.length from hx1) y hy
        have a2b : ¬ y < h1.length := a2
        have a4b : y < x := a4
        refine ⟨by omega, show ¬ y < h.length by omega, ?_, a4⟩
        rw [if_neg (by omega), hlow y a1]
        exact a3
      · have hx3 : x = h2.length := by omega
        subst hx3
        rw [mem_succs, hroot] at hy
        simp only [clone_node_next, clone_node_type, clone_node_on_false, hb, true_and] at hy
        rcases hy with hy | hy
        · have e : y = q1 := (Option.some.inj hy).symm
          subst e
          refine ⟨by omega, show ¬ y < h.length by omega, ?_, show y < h2.length by omega⟩
          rw [if_pos (Or.inr rfl)]
        · have e : y = q2 := (Option.some.inj hy).symm
          subst e
          refine ⟨by omega, show ¬ y < h.length by omega, ?_, show y < h2.length by omega⟩
          rw [if_pos (Or.inl rfl)]
  · intro x hx hxD
    have hxD1 : ¬ x < h.length := hxD
    simp only [replace_prev_length, hGlen] at hx
    rw [(hF x).1, (hF x).2.1, (hF x).2.2.1]
    by_cases hx1 : x < h1.length
    · rw [hlow x (by omega), spec2.old x hx1]
      exact spec1.lk.shape x hx1 hxD
    · by_cases hx2 : x < h2.length
      · rw [hlow x hx2]
        exact spec2.lk.shape x hx2 (show ¬ x < h1.length from hx1)
      · have hx3 : x = h2.length := by omega
        subst hx3
        rw [hroot]
        simp only [clone_node_type, clone_node_next, clone_node_on_false]
        refine ⟨fun _ => by simp, fun _ => ⟨by simp, by simp, ?_⟩⟩
        intro e
        have e2 : q1 = q2 := Option.some.inj e
        omega
  · intro x hx1 hx2
    simp only [replace_prev_length, hGlen] at hx2
    rw [(hF x).2.2.2.1, (hF x).2.2.1]
    by_cases hx3 : x < h1.length
    · rw [hlow x (by omega), spec2.old x hx3]
      exact spec1.orig x hx1 hx3
    · by_cases hx4 : x < h2.length
      · rw [hlow x hx4]
        obtain ⟨o, ho1, ho2, ho3, ho4⟩ := spec2.orig x (by omega) hx4
        obtain ⟨ho5, ho6⟩ := hD1 o ho1 ho2
        rw [spec1.old o ho5] at ho3 ho4
        exact ⟨o, ho5, ho6, ho3, ho4⟩
      · have hx5 : x = h2.length := by omega
        subst hx5
        rw [hroot]
        exact ⟨p, hp, hpD, rfl, rfl⟩
  · rw [(hF _).2.2.1, (hF _).2.2.2.1, (hF _).2.2.2.2.1, (hF _).2.2.2.2.2.1, hroot]
    exact ⟨rfl, rfl, rfl, rfl⟩
  · intro input k
    cases k with
    | zero => rfl
    | succ k =>
      rw [run_succ, run_succ, (hF _).1, (hF _).2.1, (hF _).2.2.1, (hF _).2.2.2.2.1,
        (hF _).2.2.2.2.2.1, hroot]
      simp only [clone_node_type, clone_node_call, clone_node_next, clone_node_on_false,
        clone_node_condition, hnx, hof, hb]
      have hne : ¬ NodeType.BRANCH = NodeType.CALL := by decide
      simp only [hne, if_false, if_true]
      have hsub1 : run (((h2 ++ [clone_node (h.node p) (some q1) (some q2)]).replace_prev q1
          (some h2.length)).replace_prev q2 (some h2.length)) input k (some q1)
          = run h input k (some q) := by
        rw [← spec1.runs input k]
        apply run_agree h1 _ input (fun x : Nat => h.length ≤ x ∧ x < h1.length)
        · intro x ⟨hx1, hx2⟩
          rw [(hF x).1, (hF x).2.1, (hF x).2.2.1, (hF x).2.2.2.2.1, (hF x).2.2.2.2.2.1,
            hlow x (by omega), spec2.old x hx2]
          refine ⟨rfl, rfl, rfl, rfl, rfl, ?_⟩
          intro (y : Nat) hy
          obtain ⟨a1, a2, _, _⟩ :=
            spec1.lk.succ_ok x hx2 (show ¬ (x : Nat) < h.length by omega) y hy
          have a3 : ¬ y < h.length := a2
          exact ⟨by omega, a1⟩
        · show h.length ≤ q1 ∧ q1 < h1.length
          exact ⟨by omega, by omega⟩
      have hsub2 : run (((h2 ++ [clone_node (h.node p) (some q1) (some q2)]).replace_prev q1
          (some h2.length)).replace_prev q2 (some h2.length)) input k (some q2)
          = run h input k (some qf) := by
        have e1 : run (((h2 ++ [clone_node (h.node p) (some q1) (some q2)]).replace_prev q1
            (some h2.length)).replace_prev q2 (some h2.length)) input k (some q2)
            = run h2 input k (some q2) := by
          apply run_agree h2 _ input (fun x : Nat => h1.length ≤ x ∧ x < h2.length)
          · intro x ⟨hx1, hx2⟩
            rw [(hF x).1, (hF x).2.1, (hF x).2.2.1, (hF x).2.2.2.2.1, (hF x).2.2.2.2.2.1,
              hlow x hx2]
            refine ⟨rfl, rfl, rfl, rfl, rfl, ?_⟩
            intro (y : Nat) hy
            obtain ⟨a1, a2, _, _⟩ :=
              spec2.lk.succ_ok x hx2 (show ¬ (x : Nat) < h1.length by omega) y hy
            have a3 : ¬ y < h1.length := a2
            exact ⟨by omega, a1⟩
          · show h1.length ≤ q2 ∧ q2 < h2.length
            exact ⟨by omega, by omega⟩
        have e2 : run h1 input k (some qf) = run h input k (some qf) := by
          have hqfm : qf ∈ h.succs p := (mem_succs h p qf).mpr (Or.inr ⟨hb, hof⟩)
          obtain ⟨b1, b2, _, _⟩ := hlk.succ_ok p hp hpD qf hqfm
          apply run_agree h h1 input (fun x : Nat => x < h.length ∧ ¬ D x)
          · intro x ⟨hx1, hx2⟩
            rw [spec1.old x hx1]
            refine ⟨rfl, rfl, rfl, rfl, rfl, ?_⟩
            intro (y : Nat) hy
            obtain ⟨a1, a2, _, _⟩ := hlk.succ_ok x hx1 hx2 y hy
            exact ⟨a1, a2⟩
          · exact ⟨b1, b2⟩
        rw [e1, spec2.runs input k, e2]
      by_cases hi : input (h.node p).condition = true
      · simp only [hi, if_true]
        exact hsub1
      · simp only [hi, if_false]
        exact hsub2

/-- `clone(true)` returns, given a recursion budget above the height of the node, and its
result meets `clone_spec`. -/
theorem clone_rec_total (ht : Ptr → Nat) : ∀ (m : Nat) (h : Heap) (D : Ptr → Prop) (p : Nat),
    linked h ht D → p < h.length → ¬ D p → ht p < m →
    ∃ h1 p1, (∀ fuel, ht p < fuel → clone_rec fuel h p = .ok (h1, p1)) ∧
      clone_spec h D h1 p p1 := by
  intro m
  induction m with
  | zero => intro h D p _ _ _ hm; omega
  | succ m ih =>
    intro h D p hlk hp hpD hm
    by_cases hb : (h.node p).type = NodeType.BRANCH
    · obtain ⟨hnx0, hof0, _⟩ := (hlk.shape p hp hpD).2 hb
      obtain ⟨q, hnx⟩ := Option.ne_none_iff_exists'.mp hnx0
      obtain ⟨qf, hof⟩ := Option.ne_none_iff_exists'.mp hof0
      have hqm : q ∈ h.succs p := (mem_succs h p q).mpr (Or.inl hnx)
      have hqfm : qf ∈ h.succs p := (mem_succs h p qf).mpr (Or.inr ⟨hb, hof⟩)
      obtain ⟨a1, a2, _, a4⟩ := hlk.succ_ok p hp hpD q hqm
      obtain ⟨b1, b2, _, b4⟩ := hlk.succ_ok p hp hpD qf hqfm
      obtain ⟨h1, q1, hrun1, spec1⟩ := ih h D q hlk a1 a2 (by omega)
      have hlk1 := linked_extend h h1 ht D (ht p) hlk (Nat.le_of_lt spec1.len)
        (fun x hx _ => spec1.old x hx)
      have hl1 := spec1.len
      obtain ⟨h2, q2, hrun2, spec2⟩ := ih h1 _ qf hlk1 (by omega)
        (by
          rintro (hd | hd | hd)
          · exact b2 hd
          · omega
          · omega) (by omega)
      refine ⟨_, h2.length, ?_, clone_spec_branch h h1 h2 ht D _ p q qf q1 q2 hlk hnx hof hb hp
        hpD spec1 spec2 ?_⟩
      · intro fuel hfuel
        obtain ⟨f, rfl⟩ : ∃ f, fuel = f + 1 := ⟨fuel - 1, by omega⟩
        simp only [clone_rec, hnx, hrun1 f (by omega), hb, if_true, hof, hrun2 f (by omega),
          Heap.replace_prev_of]
      · intro o ho hoD
        have h3 : o < h.length := by
          by_contra hc; exact hoD (Or.inr (Or.inl (by omega)))
        exact ⟨h3, fun hd => hoD (Or.inl hd)⟩
    · cases hnx : (h.node p).next with
      | none =>
        refine ⟨_, h.length, ?_, clone_spec_leaf h ht D p hlk hp hpD hnx hb⟩
        intro fuel hfuel
        obtain ⟨f, rfl⟩ : ∃ f, fuel = f + 1 := ⟨fuel - 1, by omega⟩
        simp only [clone_rec, hnx, hb, if_false, Heap.replace_prev_of]
      | some q =>
        have hqm : q ∈ h.succs p := (mem_succs h p q).mpr (Or.inl hnx)
        obtain ⟨a1, a2, _, a4⟩ := hlk.succ_ok p hp hpD q hqm
        obtain ⟨h1, q1, hrun1, spec1⟩ := ih h D q hlk a1 a2 (by omega)
        refine ⟨_, h1.length, ?_, clone_spec_chain h h1 ht D p q q1 hnx hb hp hpD spec1⟩
        intro fuel hfuel
        obtain ⟨f, rfl⟩ : ∃ f, fuel = f + 1 := ⟨fuel - 1, by omega⟩
        simp only [clone_rec, hnx, hrun1 f (by omega), hb, if_false, Heap.replace_prev_of]


/-! ## New ids (`recursive_update_ids`) -/

theorem stamped_refl (h : Heap) (k : Nat) : stamped h h k k :=
  ⟨rfl, fun _ => ⟨rfl, rfl, rfl, rfl, rfl, rfl⟩, fun _ => Or.inl rfl, Nat.le_refl k⟩

theorem stamped_trans (h h1 h2 : Heap) (k k1 k2 : Nat) (s1 : stamped h h1 k k1)
    (s2 : stamped h1 h2 k1 k2) : stamped h h2 k k2 := by
  have m1 := s1.mono
  have m2 := s2.mono
  refine ⟨s2.len.trans s1.len, ?_, ?_, by omega⟩
  · intro x
    obtain ⟨a1, a2, a3, a4, a5, a6⟩ := s1.same x
    obtain ⟨b1, b2, b3, b4, b5, b6⟩ := s2.same x
    exact ⟨b1.trans a1, b2.trans a2, b3.trans a3, b4.trans a4, b5.trans a5, b6.trans a6⟩
  · intro x
    rcases s2.ids x with e2 | e2
    · rcases s1.ids x with e1 | e1
      · exact Or.inl (e2.trans e1)
      · right; rw [e2]; omega
    · right; omega

theorem stamped_update_id (h : Heap) (p k : Nat) (hp : p < h.length) :
    stamped h (h.update_id p k) k (k + 1) := by
  refine ⟨by simp, ?_, ?_, by omega⟩
  · intro x
    rw [update_id_node h p x k hp]
    by_cases hx : x = p
    · subst hx; simp
    · simp [hx]
  · intro x
    rw [update_id_node h p x k hp]
    by_cases hx : x = p
    · subst hx; right; simp
    · left; simp [hx]

theorem stamped_succs (h h1 : Heap) (k k1 : Nat) (s : stamped h h1 k k1) (x : Ptr) :
    h1.succs x = h.succs x := by
  obtain ⟨a1, a2, a3, _⟩ := s.same x
  unfold Heap.succs
  rw [a1, a2, a3]

theorem stamped_linked (h h1 : Heap) (k k1 : Nat) (ht : Ptr → Nat) (D : Ptr → Prop)
    (s : stamped h h1 k k1) (hlk : linked h ht D) : linked h1 ht D := by
  constructor
  · intro p hp hpD q hq
    rw [s.len] at hp
    rw [stamped_succs h h1 k k1 s] at hq
    rw [s.len, (s.same q).2.2.2.1]
    exact hlk.succ_ok p hp hpD q hq
  · intro p hp hpD
    rw [s.len] at hp
    rw [(s.same p).1, (s.same p).2.1, (s.same p).2.2.1]
    exact hlk.shape p hp hpD

/-- `recursive_update_ids` returns, given a recursion budget above the height of the node,
and changes ids only, and none outside the live nodes. -/
theorem stamp_ids_total (ht : Ptr → Nat) : ∀ (m : Nat) (h : Heap) (D : Ptr → Prop) (p k : Nat),
    linked h ht D → p < h.length → ¬ D p → ht p < m →
    ∃ h1 k1, (∀ fuel, ht p < fuel → stamp_ids fuel h p k = .ok (h1, k1)) ∧
      stamped h h1 k k1 ∧ ∀ x : Nat, D x → h1.node x = h.node x := by
  intro m
  induction m with
  | zero => intro h D p k _ _ _ hm; omega
  | succ m ih =>
    intro h D p k hlk hp hpD hm
    have s0 := stamped_update_id h p k hp
    have hlk0 := stamped_linked h _ k (k + 1) ht D s0 hlk
    have fr0 : ∀ x : Nat, D x → (h.update_id p k).node x = h.node x := by
      intro x hx
      rw [update_id_node h p x k hp, if_neg (fun e : x = p => hpD (e ▸ hx))]
    -- the on_false side, after the first successor gave `h1` and `k1`
    have step2 : ∀ (h1 : Heap) (k1 : Nat), stamped h h1 k k1 →
        (∀ x : Nat, D x → h1.node x = h.node x) →
        ∃ h2 k2, (∀ f, ht p ≤ f →
          (if (h.node p).type = NodeType.BRANCH then
            (match (h.node p).on_false with
              | none => (.ok (h1, k1) : Except Fault (Heap × Nat))
              | some q => stamp_ids f h1 q k1)
           else .ok (h1, k1)) = .ok (h2, k2)) ∧ stamped h h2 k k2 ∧
          ∀ x : Nat, D x → h2.node x = h.node x := by
      intro h1 k1 s1 fr1
      by_cases hb : (h.node p).type = NodeType.BRANCH
      · cases hof : (h.node p).on_false with
        | none => exact ⟨h1, k1, fun f _ => by simp only [hb, if_true], s1, fr1⟩
        | some qf =>
          have hqfm : qf ∈ h.succs p := (mem_succs h p qf).mpr (Or.inr ⟨hb, hof⟩)
          obtain ⟨b1, b2, _, b4⟩ := hlk.succ_ok p hp hpD qf hqfm
          have hlk1 := stamped_linked h h1 k k1 ht D s1 hlk
          obtain ⟨h2, k2, hrun2, s2, fr2⟩ := ih h1 D qf k1 hlk1 (by rw [s1.len]; exact b1) b2
            (by omega)
          exact ⟨h2, k2, fun f hf => by simp only [hb, if_true]; exact hrun2 f (by omega),
            stamped_trans _ _ _ _ _ _ s1 s2, fun x hx => (fr2 x hx).trans (fr1 x hx)⟩
      · exact ⟨h1, k1, fun f _ => by simp only [hb, if_false], s1, fr1⟩
    cases hnx : (h.node p).next with
    | none =>
      obtain ⟨h2, k2, hrun2, s2, fr2⟩ := step2 _ _ s0 fr0
      refine ⟨h2, k2, ?_, s2, fr2⟩
      intro fuel hfuel
      obtain ⟨f, rfl⟩ : ∃ f, fuel = f + 1 := ⟨fuel - 1, by omega⟩
      simp only [stamp_ids, hnx]
      exact hrun2 f (by omega)
    | some q =>
      have hqm : q ∈ h.succs p := (mem_succs h p q).mpr (Or.inl hnx)
      obtain ⟨a1, a2, _, a4⟩ := hlk.succ_ok p hp hpD q hqm
      obtain ⟨h1, k1, hrun1, s1, fr1⟩ := ih (h.update_id p k) D q (k + 1) hlk0
        (by simpa using a1) a2 (by omega)
      obtain ⟨h2, k2, hrun2, s2, fr2⟩ := step2 h1 k1 (stamped_trans _ _ _ _ _ _ s0 s1)
        (fun x hx => (fr1 x hx).trans (fr0 x hx))
      refine ⟨h2, k2, ?_, s2, fr2⟩
      intro fuel hfuel
      obtain ⟨f, rfl⟩ : ∃ f, fuel = f + 1 := ⟨fuel - 1, by omega⟩
      simp only [stamp_ids, hnx, hrun1 f (by omega)]
      exact hrun2 f (by omega)

/-! ## The candidates of `get_candidates` -/

theorem lt_length_of_type (h : Heap) (x : Nat)
    (hx : (h.node x).type = NodeType.CALL ∨ (h.node x).type = NodeType.BRANCH) :
    x < h.length := by
  by_contra hc
  rw [node_ge h x (by omega)] at hx
  rcases hx with hx | hx <;> cases hx

/-- The ids recorded by `is_called_in_all_future_branches` are ids of nodes of the type of
the target. -/
theorem future_branches_ids (tb : Toolbox) (h : Heap) (target : Ptr) :
    ∀ (fuel : Nat) (nodes : List (Option Ptr)) (sib : List Nat) (b : Bool) (sib1 : List Nat),
      future_branches_loop tb h target fuel nodes sib = .ok (b, sib1) →
      ∀ i ∈ sib1, i ∈ sib ∨ ∃ x : Nat, x < h.length ∧ (h.node x).id = i ∧
        (h.node x).type = (h.node target).type := by
  intro fuel
  induction fuel with
  | zero => intro nodes sib b sib1 hr; simp [future_branches_loop] at hr
  | succ fuel ih =>
    intro nodes sib b sib1 hr i hi
    cases nodes with
    | nil =>
      simp only [future_branches_loop, Except.ok.injEq, Prod.mk.injEq] at hr
      rw [← hr.2] at hi
      exact Or.inl hi
    | cons o rest =>
      cases o with
      | none =>
        simp only [future_branches_loop, Except.ok.injEq, Prod.mk.injEq] at hr
        rw [← hr.2] at hi
        exact Or.inl hi
      | some node =>
        simp only [future_branches_loop] at hr
        split at hr
        · rename_i hc
          rcases ih _ _ _ _ hr i hi with h1 | h1
          · rcases List.mem_insert_iff.mp h1 with h2 | h2
            · right
              have hty : (h.node node).type = NodeType.CALL := hc.1
              exact ⟨node, lt_length_of_type h node (Or.inl hty), h2.symm,
                hty.trans hc.2.1.symm⟩
            · exact Or.inl h2
          · exact Or.inr h1
        · split at hr
          · rename_i hc
            rcases ih _ _ _ _ hr i hi with h1 | h1
            · rcases List.mem_insert_iff.mp h1 with h2 | h2
              · right
                have hty : (h.node node).type = NodeType.BRANCH := hc.2.1
                exact ⟨node, lt_length_of_type h node (Or.inr hty), h2.symm,
                  hty.trans hc.2.2.1.symm⟩
              · exact Or.inl h2
            · exact Or.inr h1
          · split at hr
            · exact ih _ _ _ _ hr i hi
            · exact ih _ _ _ _ hr i hi

theorem io_met_kind (tb : Toolbox) (n : Node) (symbols : List symbol_t)
    (h : are_io_dependencies_met tb n symbols = .ok true) :
    n.type = NodeType.CALL ∨ n.type = NodeType.BRANCH := by
  unfold are_io_dependencies_met at h
  by_cases hb : n.type = NodeType.BRANCH
  · exact Or.inr hb
  · by_cases hc : n.type = NodeType.CALL
    · exact Or.inl hc
    · simp [hb, hc] at h

/-- A candidate accepted by the checks of `get_candidates` is well-formed. -/
theorem candidate_checks_good (tb : Toolbox) (h : Heap) (fuel : Nat) (current_node : Ptr)
    (candidate : candidate_t) (cn : Nat) (viable : List candidate_t) (cfb : Bool)
    (c : candidate_t) (hnode : candidate.node = some cn) (hsib : candidate.siblings = [])
    (hr : candidate_checks tb h fuel current_node candidate cn viable cfb = .ok (some c)) :
    good_candidate h c := by
  unfold candidate_checks at hr
  simp only at hr
  split at hr
  · cases hr
  · split at hr
    · cases hr
    · cases hr
    · rename_i hio
      have hkind := io_met_kind tb _ _ hio
      have hcn := lt_length_of_type h cn hkind
      -- the candidate after the Call checks
      split at hr
      · cases hr
      · cases hr
      · rename_i candidate1 hc1
        have hc1facts : candidate1.node = some cn ∧ candidate1.siblings = [] := by
          split at hc1
          · split at hc1
            · cases hc1
            · split at hc1
              · cases hc1
              · cases hc1
              · simp only [Except.ok.injEq, Option.some.injEq] at hc1
                rw [← hc1]
                exact ⟨hnode, hsib⟩
          · simp only [Except.ok.injEq, Option.some.injEq] at hc1
            rw [← hc1]
            exact ⟨hnode, hsib⟩
        split at hr
        · cases hr
        · cases hr
        · rename_i siblings hs
          simp only [Except.ok.injEq, Option.some.injEq] at hr
          rw [← hr]
          refine ⟨cn, hc1facts.1, hcn, hkind, ?_⟩
          intro i hi
          simp only at hi
          rcases List.mem_insert_iff.mp hi with h2 | h2
          · exact ⟨cn, hcn, h2.symm, rfl⟩
          · have hfrom : ∀ j ∈ siblings, j ∈ candidate1.siblings ∨ ∃ x : Nat, x < h.length ∧
                (h.node x).id = j ∧ (h.node x).type = (h.node cn).type := by
              intro j hj
              split at hs
              · simp only [Except.ok.injEq, Prod.mk.injEq] at hs
                rw [← hs.2] at hj
                exact Or.inl hj
              · split at hs
                · cases hs
                · simp only [Except.ok.injEq, Prod.mk.injEq] at hs
                  rw [← hs.2] at hj
                  exact Or.inl hj
                · exact future_branches_ids tb h cn fuel _ _ _ _ hs j hj
            rcases hfrom i h2 with h3 | h3
            · rw [hc1facts.2] at h3
              cases h3
            · exact h3


theorem get_candidates_loop_good (tb : Toolbox) (h : Heap) (fuel0 : Nat) (current : Ptr) :
    ∀ (fuel : Nat) (queue viable : List candidate_t) (cfb : Bool) (cs : List candidate_t),
      get_candidates_loop tb h fuel0 current fuel queue viable cfb = .ok cs →
      (∀ c ∈ queue, c.siblings = []) → (∀ c ∈ viable, good_candidate h c) →
      ∀ c ∈ cs, good_candidate h c := by
  intro fuel
  induction fuel with
  | zero => intro queue viable cfb cs hr; simp [get_candidates_loop] at hr
  | succ fuel ih =>
    intro queue viable cfb cs hr hq hv
    cases queue with
    | nil =>
      simp only [get_candidates_loop, Except.ok.injEq] at hr
      rw [← hr]
      exact hv
    | cons candidate rest =>
      simp only [get_candidates_loop] at hr
      cases hnode : candidate.node with
      | none => simp [hnode] at hr
      | some cn =>
        simp only [hnode] at hr
        have hq1 : ∀ c ∈ (if (h.node cn).type = NodeType.BRANCH then
            rest ++ [candidate_t.from_candidate_cond candidate (h.node cn).next
                (h.node cn).condition false,
              candidate_t.from_candidate_cond candidate (h.node cn).on_false
                (h.node cn).condition true]
            else
              match (h.node cn).next with
              | some q => rest ++ [candidate_t.from_candidate candidate (some q)]
              | none => rest), c.siblings = [] := by
          intro c hc
          have hrest : ∀ c ∈ rest, c.siblings = [] :=
            fun c hc => hq c (List.mem_cons_of_mem _ hc)
          split at hc
          · rcases List.mem_append.mp hc with h1 | h1
            · exact hrest c h1
            · simp only [List.mem_cons, List.mem_singleton, List.not_mem_nil, or_false] at h1
              rcases h1 with h1 | h1 <;> rw [h1] <;> rfl
          · split at hc
            · rcases List.mem_append.mp hc with h1 | h1
              · exact hrest c h1
              · simp only [List.mem_singleton] at h1
                rw [h1]; rfl
            · exact hrest c hc
        split at hr
        · cases hr
        · exact ih _ _ _ _ hr hq1 hv
        · rename_i c hc
          refine ih _ _ _ _ hr hq1 ?_
          intro c1 hc1
          rcases List.mem_append.mp hc1 with h1 | h1
          · exact hv c1 h1
          · simp only [List.mem_singleton] at h1
            rw [h1]
            exact candidate_checks_good tb h fuel0 current candidate cn viable _ c hnode
              (hq candidate (List.mem_cons_self _ _)) hc

/-- Every candidate returned by `get_candidates` is well-formed, and `current` has a
successor. -/
theorem get_candidates_good (tb : Toolbox) (h : Heap) (fuel : Nat) (current : Ptr)
    (cs : List candidate_t) (c : candidate_t)
    (hr : get_candidates tb h fuel current = .ok cs) (hc : c ∈ cs) :
    good_candidate h c ∧ ∃ old_next, (h.node current).next = some old_next := by
  unfold get_candidates at hr
  cases hnx : (h.node current).next with
  | none =>
    simp only [hnx, Except.ok.injEq] at hr
    rw [← hr] at hc
    cases hc
  | some next =>
    refine ⟨?_, next, rfl⟩
    simp only [hnx] at hr
    split at hr
    · simp only [Except.ok.injEq] at hr
      rw [← hr] at hc
      cases hc
    · split at hr
      · refine get_candidates_loop_good tb h fuel current fuel _ _ _ cs hr ?_ ?_ c hc
        · intro c1 hc1
          simp only [List.mem_cons, List.mem_singleton, List.not_mem_nil, or_false] at hc1
          rcases hc1 with h1 | h1 <;> rw [h1] <;> rfl
        · intro c1 hc1; cases hc1
      · refine get_candidates_loop_good tb h fuel current fuel _ _ _ cs hr ?_ ?_ c hc
        · intro c1 hc1
          simp only [List.mem_singleton] at hc1
          rw [hc1]; rfl
        · intro c1 hc1; cases hc1


/-! ## The phases of `reorder_bdd` -/

theorem replace_next_fields (g : Heap) (c x : Nat) (v : Option Ptr) :
    ((g.replace_next c v).node x).prev = (g.node x).prev ∧
    ((g.replace_next c v).node x).on_false = (g.node x).on_false ∧
    ((g.replace_next c v).node x).type = (g.node x).type ∧
    ((g.replace_next c v).node x).id = (g.node x).id ∧
    ((g.replace_next c v).node x).call = (g.node x).call ∧
    ((g.replace_next c v).node x).condition = (g.node x).condition ∧
    ((g.replace_next c v).node x).next
      = (if x = c ∧ c < g.length then v else (g.node x).next) := by
  by_cases hc : c < g.length
  · rw [replace_next_node g c x v hc]
    by_cases hx : x = c
    · subst hx; simp [hc]
    · simp [hx]
  · have : g.replace_next c v = g := by
      unfold Heap.replace_next
      exact List.set_eq_of_length_le (by omega)
    rw [this]
    simp [hc]

theorem replace_on_false_fields (g : Heap) (c x : Nat) (v : Option Ptr) :
    ((g.replace_on_false c v).node x).prev = (g.node x).prev ∧
    ((g.replace_on_false c v).node x).next = (g.node x).next ∧
    ((g.replace_on_false c v).node x).type = (g.node x).type ∧
    ((g.replace_on_false c v).node x).id = (g.node x).id ∧
    ((g.replace_on_false c v).node x).call = (g.node x).call ∧
    ((g.replace_on_false c v).node x).condition = (g.node x).condition ∧
    ((g.replace_on_false c v).node x).on_false
      = (if x = c ∧ c < g.length then v else (g.node x).on_false) := by
  by_cases hc : c < g.length
  · rw [replace_on_false_node g c x v hc]
    by_cases hx : x = c
    · subst hx; simp [hc]
    · simp [hx]
  · have : g.replace_on_false c v = g := by
      unfold Heap.replace_on_false
      exact List.set_eq_of_length_le (by omega)
    rw [this]
    simp [hc]

/-- The links (and the other fields) of every node after `c.next := a; a.prev := c`. -/
theorem attach_next_fields (X : Heap) (c a : Nat) (hc : c < X.length) (ha : a < X.length)
    (x : Nat) :
    let Z := (X.replace_next c (some a)).replace_prev a (some c)
    (Z.node x).type = (X.node x).type ∧ (Z.node x).id = (X.node x).id ∧
    (Z.node x).call = (X.node x).call ∧ (Z.node x).condition = (X.node x).condition ∧
    (Z.node x).on_false = (X.node x).on_false ∧
    (Z.node x).next = (if x = c then some a else (X.node x).next) ∧
    (Z.node x).prev = (if x = a then some c else (X.node x).prev) ∧
    (x ≠ c → x ≠ a → Z.node x = X.node x) := by
  intro Z
  obtain ⟨a1, a2, a3, a4, a5, a6, a7⟩ := replace_prev_fields (X.replace_next c (some a)) a x (some c)
  obtain ⟨b1, b2, b3, b4, b5, b6, b7⟩ := replace_next_fields X c x (some a)
  have hl : a < (X.replace_next c (some a)).length := by simpa using ha
  refine ⟨a3.trans b3, a4.trans b4, a5.trans b5, a6.trans b6, a2.trans b2, ?_, ?_, ?_⟩
  · rw [a1, b7]; simp [hc]
  · rw [a7, b1]; simp [ha]
  · intro h1 h2
    show ((X.replace_next c (some a)).replace_prev a (some c)).node x = X.node x
    rw [replace_prev_node _ _ _ _ hl, if_neg h2, replace_next_node _ _ _ _ hc, if_neg h1]

theorem node_ext_fields (a b : Node) (h1 : a.id = b.id) (h2 : a.type = b.type)
    (h3 : a.next = b.next) (h4 : a.prev = b.prev) (h5 : a.on_false = b.on_false)
    (h6 : a.call = b.call) (h7 : a.condition = b.condition)
    (h8 : a.constraints = b.constraints) (h9 : a.generated_symbols = b.generated_symbols) :
    a = b := by
  cases a; cases b; simp_all


theorem linked_but_below (X : Heap) (htX : Ptr → Nat) (c b : Nat) (lb : linked_but X htX c)
    (hb : b < htX c) : linked X htX (fun x => b < htX x) := by
  constructor
  · intro p hp hpD q hq
    have hpc : p ≠ c := by
      intro e; subst e; exact hpD hb
    obtain ⟨h1, h2, h3⟩ := lb.succ_ok p hp hpc q hq
    have hpD1 : ¬ b < htX p := hpD
    exact ⟨h1, by show ¬ b < htX q; omega, h2, h3⟩
  · intro p hp hpD
    have hpc : p ≠ c := by
      intro e; subst e; exact hpD hb
    exact lb.shape p hp hpc

theorem succs_congr (g h : Heap) (x y : Nat) (h1 : (g.node x).next = (h.node y).next)
    (h2 : (g.node x).on_false = (h.node y).on_false) (h3 : (g.node x).type = (h.node y).type) :
    g.succs x = h.succs y := by
  unfold Heap.succs
  rw [h1, h2, h3]

/-- The clone of a Call candidate is given the old successor of `current` as its `next`. -/
theorem hoist_call (S : List Nat) (h : Heap) (ht : Ptr → Nat) (node old_next : Nat)
    (X : Heap) (htX : Ptr → Nat) (c : Nat)
    (hr : hoist_ready h ht node old_next X htX c) (hty : typed_ok S NodeType.CALL X)
    (hT : (X.node c).type = NodeType.CALL) :
    hoist_done S NodeType.CALL X htX c old_next
      ((X.replace_next c (some old_next)).replace_prev old_next (some c)) htX
      [⟨some old_next, false, false⟩] := by
  have hcl : c < X.length := by have := hr.len; have := hr.c_eq; omega
  have hol : old_next < X.length := by have := hr.len; have := hr.on_lt; omega
  have hoc : old_next ≠ c := by have := hr.c_eq; have := hr.on_lt; omega
  have hf := attach_next_fields X c old_next hcl hol
  simp only at hf
  generalize hZ : (X.replace_next c (some old_next)).replace_prev old_next (some c) = Z at hf
  have hlen : Z.length = X.length := by rw [← hZ]; simp
  have hsucc : ∀ p : Nat, p ≠ c → Z.succs p = X.succs p := by
    intro p hp
    obtain ⟨f1, f2, f3, f4, f5, f6, f7, f8⟩ := hf p
    apply succs_congr _ _ _ _ _ f5 f1
    rw [f6, if_neg hp]
  have hsc : ∀ q : Nat, q ∈ Z.succs c → q = old_next := by
    intro q hq
    obtain ⟨f1, f2, f3, f4, f5, f6, f7, f8⟩ := hf c
    rw [mem_succs] at hq
    rcases hq with hq | ⟨hq, _⟩
    · rw [f6, if_pos rfl] at hq
      exact (Option.some.inj hq).symm
    · rw [f1, hT] at hq; cases hq
  have hlk : linked Z htX (fun _ => False) := by
    constructor
    · intro p hp _ q hq
      rw [hlen] at hp
      by_cases hpc : p = c
      · subst hpc
        have e := hsc q hq
        subst e
        refine ⟨by omega, fun f => f, ?_, hr.ht_on⟩
        rw [(hf q).2.2.2.2.2.2.1, if_pos rfl]
      · rw [hsucc p hpc] at hq
        obtain ⟨h1, h2, h3⟩ := hr.lb.succ_ok p hp hpc q hq
        refine ⟨by omega, fun f => f, ?_, h3⟩
        have hqo : q ≠ old_next := by
          intro e; subst e; exact hr.orphan p hp hpc hq
        rw [(hf q).2.2.2.2.2.2.1, if_neg hqo]
        exact h2
    · intro p hp _
      rw [hlen] at hp
      obtain ⟨f1, f2, f3, f4, f5, f6, f7, f8⟩ := hf p
      by_cases hpc : p = c
      · subst hpc
        rw [f1, f6, if_pos rfl, hT]
        exact ⟨fun _ => by simp, fun e => by cases e⟩
      · rw [f1, f5, f6, if_neg hpc]
        exact hr.lb.shape p hp hpc
  constructor
  · constructor
    · exact hlk
    · intro x hx hid
      rw [hlen] at hx
      rw [(hf x).2.1] at hid
      rw [(hf x).1]
      exact hty x hx hid
    · exact Or.inl rfl
    · intro l _ e; cases e
    · intro l hl n hn
      simp only [List.mem_singleton] at hl
      subst hl
      have e : old_next = n := Option.some.inj hn
      subst e
      refine ⟨by omega, fun f => f, hr.ht_on, hoc, c, ?_, rfl⟩
      rw [(hf old_next).2.2.2.2.2.2.1, if_pos rfl]
    · simp
    · intro x hx
      left
      have : x = c := hx
      rw [this]
    · intro x hx; exact hx.elim
  · show leaves_cost htX [⟨some old_next, false, false⟩] < 3 ^ htX c
    simp only [leaves_cost, leaf_cost, List.map, List.sum_cons, List.sum_nil, Nat.add_zero]
    exact pow3_lt _ _ hr.ht_on
  · omega
  · intro x _ h1 h2
    exact (hf x).2.2.2.2.2.2.2 h1 h2
  · intro x _ h1
    obtain ⟨f1, f2, f3, f4, f5, f6, f7, f8⟩ := hf x
    refine ⟨f1, f3, f4, ?_, f5, f2⟩
    rw [f6, if_neg h1]
  · obtain ⟨f1, f2, f3, f4, f5, f6, f7, f8⟩ := hf c
    refine ⟨f1, f3, f4, f2, ?_, ?_⟩
    · rw [f7, if_neg (fun e => hoc e.symm)]
    · rw [f6, if_pos rfl]
  · intro x y _ _ h; exact h
  · intro x y _ _ h; exact h
  · intro e; cases e


/-- The links (and the other fields) of every node after
`c.on_true := a; c.on_false := b; a.prev := c; b.prev := c`. -/
theorem attach_branch_fields (Y : Heap) (c a b : Nat) (hc : c < Y.length) (ha : a < Y.length)
    (hb : b < Y.length) (x : Nat) :
    let Z := (((Y.replace_next c (some a)).replace_on_false c (some b)).replace_prev a
      (some c)).replace_prev b (some c)
    (Z.node x).type = (Y.node x).type ∧ (Z.node x).id = (Y.node x).id ∧
    (Z.node x).call = (Y.node x).call ∧ (Z.node x).condition = (Y.node x).condition ∧
    (Z.node x).on_false = (if x = c then some b else (Y.node x).on_false) ∧
    (Z.node x).next = (if x = c then some a else (Y.node x).next) ∧
    (Z.node x).prev = (if x = b then some c else if x = a then some c else (Y.node x).prev) ∧
    (x ≠ c → x ≠ a → x ≠ b → Z.node x = Y.node x) := by
  intro Z
  obtain ⟨a1, a2, a3, a4, a5, a6, a7⟩ := replace_prev_fields
    (((Y.replace_next c (some a)).replace_on_false c (some b)).replace_prev a (some c)) b x
    (some c)
  obtain ⟨b1, b2, b3, b4, b5, b6, b7⟩ := replace_prev_fields
    ((Y.replace_next c (some a)).replace_on_false c (some b)) a x (some c)
  obtain ⟨c1, c2, c3, c4, c5, c6, c7⟩ := replace_on_false_fields
    (Y.replace_next c (some a)) c x (some b)
  obtain ⟨d1, d2, d3, d4, d5, d6, d7⟩ := replace_next_fields Y c x (some a)
  refine ⟨a3.trans (b3.trans (c3.trans d3)), a4.trans (b4.trans (c4.trans d4)),
    a5.trans (b5.trans (c5.trans d5)), a6.trans (b6.trans (c6.trans d6)), ?_, ?_, ?_, ?_⟩
  · rw [a2, b2, c7, d2]; simp [hc]
  · rw [a1, b1, c2, d7]; simp [hc]
  · rw [a7, b7, c1, d1]; simp [ha, hb]
  · intro h1 h2 h3
    show ((((Y.replace_next c (some a)).replace_on_false c (some b)).replace_prev a
      (some c)).replace_prev b (some c)).node x = Y.node x
    rw [replace_prev_node _ _ _ _ (by simpa using hb), if_neg h3,
      replace_prev_node _ _ _ _ (by simpa using ha), if_neg h2,
      replace_on_false_node _ _ _ _ (by simpa using hc), if_neg h1,
      replace_next_node _ _ _ _ hc, if_neg h1]


/-- The clone of a Branch candidate is given the old successor of `current` as its `on_true`
side and a copy of it as its `on_false` side. -/
theorem hoist_branch (S : List Nat) (h : Heap) (ht : Ptr → Nat) (node old_next : Nat)
    (X : Heap) (htX : Ptr → Nat) (c : Nat)
    (hr : hoist_ready h ht node old_next X htX c) (hty : typed_ok S NodeType.BRANCH X)
    (hT : (X.node c).type = NodeType.BRANCH) :
    ∃ (Y : Heap) (oc : Nat) (htZ : Ptr → Nat),
      (∀ fuel, htX old_next < fuel → clone_rec fuel X old_next = .ok (Y, oc)) ∧
      hoist_done S NodeType.BRANCH X htX c old_next
        ((((Y.replace_next c (some old_next)).replace_on_false c (some oc)).replace_prev
          old_next (some c)).replace_prev oc (some c)) htZ
        [⟨some old_next, true, true⟩, ⟨some oc, false, true⟩] := by
  have hcl : c < X.length := by have := hr.len; have := hr.c_eq; omega
  have hol : old_next < X.length := by have := hr.len; have := hr.on_lt; omega
  have hoc : old_next ≠ c := by have := hr.c_eq; have := hr.on_lt; omega
  have hlkX := linked_but_below X htX c (htX old_next) hr.lb hr.ht_on
  have key : ∃ (Y : Heap) (oc : Nat),
      (∀ fuel, htX old_next < fuel → clone_rec fuel X old_next = .ok (Y, oc)) ∧
      clone_spec X (fun x => htX old_next < htX x) Y old_next oc :=
    clone_rec_total htX (htX old_next + 1) X _ old_next hlkX hol
      (by show ¬ htX old_next < htX old_next; omega) (by omega)
  obtain ⟨Y, oc, hclone, cs⟩ := key
  have hYl : X.length < Y.length := cs.len
  have hroot : oc + 1 = Y.length := cs.root
  refine ⟨Y, oc, fun x => if x < X.length then Y.length + htX x else x, hclone, ?_⟩
  have hf := attach_branch_fields Y c old_next oc (by omega) (by omega) (by omega)
  simp only at hf
  generalize hZ : (((Y.replace_next c (some old_next)).replace_on_false c (some oc)).replace_prev
          old_next (some c)).replace_prev oc (some c) = Z at hf
  have hlen : Z.length = Y.length := by rw [← hZ]; simp
  generalize hhtZ : (fun x => if x < X.length then Y.length + htX x else x : Ptr → Nat) = htZ
  have hto : ∀ x : Nat, x < X.length → htZ x = Y.length + htX x := by
    intro x hx; rw [← hhtZ]; simp [hx]
  have htn : ∀ x : Nat, X.length ≤ x → htZ x = x := by
    intro x hx; rw [← hhtZ]
    have : ¬ x < X.length := by omega
    simp [this]
  have hsucc : ∀ p : Nat, p ≠ c → Z.succs p = Y.succs p := by
    intro p hp
    obtain ⟨f1, f2, f3, f4, f5, f6, f7, f8⟩ := hf p
    apply succs_congr _ _ _ _ _ _ f1
    · rw [f6, if_neg hp]
    · rw [f5, if_neg hp]
  have hsuccX : ∀ p : Nat, p < X.length → Y.succs p = X.succs p := by
    intro p hp
    unfold Heap.succs
    rw [cs.old p hp]
  have hsc : ∀ q : Nat, q ∈ Z.succs c → q = old_next ∨ q = oc := by
    intro q hq
    obtain ⟨f1, f2, f3, f4, f5, f6, f7, f8⟩ := hf c
    rw [mem_succs] at hq
    rcases hq with hq | ⟨_, hq⟩
    · rw [f6, if_pos rfl] at hq
      exact Or.inl (Option.some.inj hq).symm
    · rw [f5, if_pos rfl] at hq
      exact Or.inr (Option.some.inj hq).symm
  have hprev_on : (Z.node old_next).prev = some c := by
    rw [(hf old_next).2.2.2.2.2.2.1]
    simp
  have hprev_oc : (Z.node oc).prev = some c := by
    rw [(hf oc).2.2.2.2.2.2.1]
    simp
  have hprev : ∀ q : Nat, q ≠ old_next → q ≠ oc → (Z.node q).prev = (Y.node q).prev := by
    intro q h1 h2
    rw [(hf q).2.2.2.2.2.2.1, if_neg h2, if_neg h1]
  have hlk : linked Z htZ (fun _ => False) := by
    constructor
    · intro p hp _ q hq
      rw [hlen] at hp
      by_cases hpc : p = c
      · subst hpc
        rcases hsc q hq with e | e
        · subst e
          refine ⟨by omega, fun f => f, hprev_on, ?_⟩
          rw [hto q hol, hto p hcl]
          have := hr.ht_on
          omega
        · subst e
          refine ⟨by omega, fun f => f, hprev_oc, ?_⟩
          rw [htn q (by omega), hto p hcl]
          omega
      · rw [hsucc p hpc] at hq
        by_cases hpX : p < X.length
        · rw [hsuccX p hpX] at hq
          obtain ⟨h1, h2, h3⟩ := hr.lb.succ_ok p hpX hpc q hq
          have hqo : q ≠ old_next := by
            intro e; subst e; exact hr.orphan p hpX hpc hq
          refine ⟨by omega, fun f => f, ?_, ?_⟩
          · rw [hprev q hqo (by omega), cs.old q h1]
            exact h2
          · rw [hto q h1, hto p hpX]
            omega
        · obtain ⟨h1, h2, h3, h4⟩ := cs.lk.succ_ok p hp hpX q hq
          have h2a : ¬ q < X.length := h2
          have h4a : q < p := h4
          refine ⟨by omega, fun f => f, ?_, ?_⟩
          · rw [hprev q (by omega) (by omega)]
            exact h3
          · rw [htn q (by omega), htn p (by omega)]
            exact h4a
    · intro p hp _
      rw [hlen] at hp
      obtain ⟨f1, f2, f3, f4, f5, f6, f7, f8⟩ := hf p
      by_cases hpc : p = c
      · subst hpc
        rw [f1, f5, f6, if_pos rfl, if_pos rfl]
        refine ⟨fun _ => by simp, fun _ => ⟨by simp, by simp, ?_⟩⟩
        intro e
        have e2 : old_next = oc := Option.some.inj e
        omega
      · rw [f1, f5, f6, if_neg hpc, if_neg hpc]
        by_cases hpX : p < X.length
        · rw [cs.old p hpX]
          exact hr.lb.shape p hpX hpc
        · exact cs.lk.shape p hp hpX
  have hcost : leaves_cost htZ [⟨some old_next, true, true⟩, ⟨some oc, false, true⟩]
      = 3 ^ htZ old_next + 3 ^ htZ oc := by
    simp [leaves_cost, leaf_cost]
  constructor
  · constructor
    · exact hlk
    · intro x hx hid
      rw [hlen] at hx
      rw [(hf x).2.1] at hid
      rw [(hf x).1]
      by_cases hxX : x < X.length
      · rw [cs.old x hxX] at hid ⊢
        exact hty x hxX hid
      · obtain ⟨o, ho, _, h1, h2⟩ := cs.orig x (by omega) hx
        rw [h1] at hid
        rw [h2]
        exact hty o ho hid
    · exact Or.inr rfl
    · intro l hl _
      simp only [List.mem_cons, List.mem_singleton, List.not_mem_nil, or_false] at hl
      rcases hl with e | e <;> subst e <;> rfl
    · intro l hl n hn
      simp only [List.mem_cons, List.mem_singleton, List.not_mem_nil, or_false] at hl
      rcases hl with e | e
      · subst e
        have e : old_next = n := Option.some.inj hn
        subst e
        refine ⟨by omega, fun f => f, ?_, hoc, c, hprev_on, rfl⟩
        rw [hto old_next hol, hto c hcl]
        have := hr.ht_on
        omega
      · subst e
        have e : oc = n := Option.some.inj hn
        subst e
        refine ⟨by omega, fun f => f, ?_, by show ¬ oc = c; omega, c, hprev_oc, rfl⟩
        rw [htn oc (by omega), hto c hcl]
        omega
    · simp only [List.pairwise_cons, List.mem_singleton, forall_eq, List.not_mem_nil,
        false_implies, implies_true, List.Pairwise.nil, and_true]
      intro n hn e
      have e1 : old_next = n := Option.some.inj hn
      have e2 : oc = n := Option.some.inj e
      omega
    · intro x hx
      left
      have : x = c := hx
      rw [this]
    · intro x hx; exact hx.elim
  · rw [hcost]
    apply pow3_two
    · rw [hto old_next hol, hto c hcl]
      have := hr.ht_on
      omega
    · rw [htn oc (by omega), hto c hcl]
      omega
  · omega
  · intro x hx h1 h2
    rw [(hf x).2.2.2.2.2.2.2 h1 h2 (by omega), cs.old x hx]
  · intro x hx h1
    obtain ⟨f1, f2, f3, f4, f5, f6, f7, f8⟩ := hf x
    rw [f1, f3, f4, f6, f5, f2, if_neg h1, if_neg h1, cs.old x hx]
    exact ⟨rfl, rfl, rfl, rfl, rfl, rfl⟩
  · obtain ⟨f1, f2, f3, f4, f5, f6, f7, f8⟩ := hf c
    rw [f1, f3, f4, f2, f6, f7, if_pos rfl, cs.old c hcl]
    refine ⟨rfl, rfl, rfl, rfl, ?_, rfl⟩
    rw [if_neg (show ¬ c = oc by omega), if_neg (fun e => hoc e.symm)]
  · intro x y hx hy hxy
    rw [hto x hx, hto y hy]; omega
  · intro x y hx hy hxy
    rw [hto x hx, hto y hy]; omega
  · intro _
    refine ⟨oc, ?_⟩
    rw [(hf c).2.2.2.2.1, if_pos rfl]


theorem typed_ok_of_good (bdd : BDD) (ht : Ptr → Nat) (C : candidate_t) (cand : Nat)
    (hwf : well_formed bdd ht) (hg : good_candidate bdd.nodes C) (hc : C.node = some cand) :
    typed_ok C.siblings (bdd.nodes.node cand).type bdd.nodes := by
  obtain ⟨cn, h1, _, _, h4⟩ := hg
  rw [hc] at h1
  have e : cand = cn := Option.some.inj h1
  subst e
  intro x hx hid
  obtain ⟨y, hy, hyid, hyt⟩ := h4 _ hid
  have := hwf.ids x y hx hy hyid.symm
  subst this
  exact hyt

/-- Without a guard, `current` is linked to the clone of the candidate. -/
theorem ready_plain (h : Heap) (ht : Ptr → Nat) (node old_next cand : Nat)
    (hlk : linked h ht (fun _ => False)) (hnode : node < h.length)
    (hnext : (h.node node).next = some old_next) :
    ∃ htX : Ptr → Nat,
    hoist_ready h ht node old_next
      (((h ++ [h.node cand]).replace_next node (some h.length)).replace_prev h.length
        (some node)) htX h.length ∧
    (Heap.node (((h ++ [h.node cand]).replace_next node (some h.length)).replace_prev h.length
        (some node)) h.length).type = (h.node cand).type ∧
    (Heap.node (((h ++ [h.node cand]).replace_next node (some h.length)).replace_prev h.length
        (some node)) h.length).id = (h.node cand).id ∧
    (Heap.node (((h ++ [h.node cand]).replace_next node (some h.length)).replace_prev h.length
        (some node)) h.length).call = (h.node cand).call ∧
    (Heap.node (((h ++ [h.node cand]).replace_next node (some h.length)).replace_prev h.length
        (some node)) h.length).condition = (h.node cand).condition ∧
    (Heap.node (((h ++ [h.node cand]).replace_next node (some h.length)).replace_prev h.length
        (some node)) node).next = some h.length ∧
    (((h ++ [h.node cand]).replace_next node (some h.length)).replace_prev h.length
        (some node)).length = h.length + 1 := by
  have hon : old_next ∈ h.succs node := (mem_succs h node old_next).mpr (Or.inl hnext)
  obtain ⟨hol, _, hop, hoh⟩ := hlk.succ_ok node hnode (fun f => f) old_next hon
  have hf := attach_next_fields (h ++ [h.node cand]) node h.length (by simp; omega) (by simp)
  simp only at hf
  generalize hX : ((h ++ [h.node cand]).replace_next node (some h.length)).replace_prev h.length
        (some node) = X at hf
  have hlen : X.length = h.length + 1 := by rw [← hX]; simp
  refine ⟨fun x => if x < h.length then (if ht x ≤ ht old_next then ht x else ht x + 2)
    else ht old_next + 1, ?_⟩
  generalize hhtX : (fun x => if x < h.length then (if ht x ≤ ht old_next then ht x
    else ht x + 2) else ht old_next + 1 : Ptr → Nat) = htX
  have hto : ∀ x : Nat, x < h.length →
      htX x = if ht x ≤ ht old_next then ht x else ht x + 2 := by
    intro x hx; rw [← hhtX]; simp [hx]
  have htc : htX h.length = ht old_next + 1 := by
    rw [← hhtX]; simp
  have hmono : ∀ x y : Nat, x < h.length → y < h.length → ht x < ht y → htX x < htX y := by
    intro x y hx hy hxy
    rw [hto x hx, hto y hy]
    split_ifs <;> omega
  have hold : ∀ x : Nat, x < h.length → x ≠ node → X.node x = h.node x := by
    intro x hx hxn
    rw [(hf x).2.2.2.2.2.2.2 hxn (by omega)]
    exact node_append_lt h _ x hx
  have hfo : ∀ x : Nat, x < h.length →
      (X.node x).type = (h.node x).type ∧ (X.node x).on_false = (h.node x).on_false ∧
      (X.node x).prev = (h.node x).prev ∧
      (X.node x).next = if x = node then some h.length else (h.node x).next := by
    intro x hx
    obtain ⟨f1, f2, f3, f4, f5, f6, f7, f8⟩ := hf x
    rw [f1, f5, f6, f7, if_neg (show ¬ x = h.length by omega), node_append_lt h _ x hx]
    exact ⟨rfl, rfl, rfl, rfl⟩
  have hcp : (X.node h.length).prev = some node := by
    rw [(hf h.length).2.2.2.2.2.2.1, if_pos rfl]
  have hsn : ∀ q : Nat, q ∈ X.succs node → q = h.length ∨ (q ∈ h.succs node ∧ q ≠ old_next) := by
    intro q hq
    obtain ⟨f1, f2, f3, f4⟩ := hfo node hnode
    rw [mem_succs, f1, f2, f4, if_pos rfl] at hq
    rcases hq with hq | ⟨hb, hq⟩
    · exact Or.inl (Option.some.inj hq).symm
    · refine Or.inr ⟨(mem_succs h node q).mpr (Or.inr ⟨hb, hq⟩), ?_⟩
      intro e
      subst e
      have := ((hlk.shape node hnode (fun f => f)).2 hb).2.2
      rw [hnext, hq] at this
      exact this rfl
  have hso : ∀ p : Nat, p < h.length → p ≠ node → X.succs p = h.succs p := by
    intro p hp hpn
    unfold Heap.succs
    rw [hold p hp hpn]
  have hcs : h.length ∈ X.succs node := by
    rw [mem_succs, (hfo node hnode).2.2.2, if_pos rfl]
    exact Or.inl rfl
  have hcd : (X.node h.length).type = (h.node cand).type ∧
      (X.node h.length).id = (h.node cand).id ∧ (X.node h.length).call = (h.node cand).call ∧
      (X.node h.length).condition = (h.node cand).condition := by
    obtain ⟨f1, f2, f3, f4, f5, f6, f7, f8⟩ := hf h.length
    rw [f1, f2, f3, f4, node_append_eq]
    exact ⟨rfl, rfl, rfl, rfl⟩
  have hnn : (X.node node).next = some h.length := by
    rw [(hfo node hnode).2.2.2, if_pos rfl]
  refine ⟨?_, hcd.1, hcd.2.1, hcd.2.2.1, hcd.2.2.2, hnn, hlen⟩
  constructor
  · omega
  · rfl
  · exact hol
  · constructor
    · intro p hp hpc q hq
      have hp1 : p < h.length := by omega
      by_cases hpn : p = node
      · subst hpn
        rcases hsn q hq with e | ⟨e, _⟩
        · subst e
          refine ⟨by omega, hcp, ?_⟩
          rw [htc, hto p hp1]
          split_ifs <;> omega
        · obtain ⟨h1, _, h3, h4⟩ := hlk.succ_ok p hp1 (fun f => f) q e
          exact ⟨by omega, by rw [(hfo q h1).2.2.1]; exact h3, hmono q p h1 hp1 h4⟩
      · rw [hso p hp1 hpn] at hq
        obtain ⟨h1, _, h3, h4⟩ := hlk.succ_ok p hp1 (fun f => f) q hq
        exact ⟨by omega, by rw [(hfo q h1).2.2.1]; exact h3, hmono q p h1 hp1 h4⟩
    · intro p hp hpc
      have hp1 : p < h.length := by omega
      obtain ⟨f1, f2, f3, f4⟩ := hfo p hp1
      have hs := hlk.shape p hp1 (fun f => f)
      rw [f1, f2, f4]
      by_cases hpn : p = node
      · subst hpn
        rw [if_pos rfl]
        refine ⟨fun _ => by simp, fun hb => ⟨by simp, (hs.2 hb).2.1, ?_⟩⟩
        intro e
        have hm : h.length ∈ h.succs p := (mem_succs h p _).mpr (Or.inr ⟨hb, e.symm⟩)
        have := (hlk.succ_ok p hp1 (fun f => f) _ hm).1
        omega
      · rw [if_neg hpn]
        exact hs
  · intro p hp hpc hq
    have hp1 : p < h.length := by omega
    by_cases hpn : p = node
    · subst hpn
      rcases hsn old_next hq with e | ⟨_, e⟩
      · omega
      · exact e rfl
    · rw [hso p hp1 hpn] at hq
      obtain ⟨_, _, h3, _⟩ := hlk.succ_ok p hp1 (fun f => f) old_next hq
      rw [hop] at h3
      exact hpn (Option.some.inj h3).symm
  · rw [htc, hto old_next hol]
    simp
  · rw [htc, hto node hnode]
    split_ifs <;> omega
  · exact hmono
  · exact hold
  · obtain ⟨f1, f2, f3, f4, f5, f6, f7, f8⟩ := hf node
    rw [f1, f2, f3, f4, f7, if_neg (show ¬ node = h.length by omega),
      node_append_lt h _ node hnode]
    exact ⟨rfl, rfl, rfl, rfl, rfl⟩
  · intro x h1 h2
    have : x = h.length := by omega
    subst this
    omega
  · exact ⟨node, hcp, by omega, by omega, hcs⟩


/-- The links (and the other fields) of every node after the six link updates that install
the guard Branch `B` between `node` and the two subtrees `c` and `oc`. -/
theorem attach_guard_fields (Y : Heap) (node B c oc : Nat) (hn : node < Y.length)
    (hB : B < Y.length) (hc : c < Y.length) (ho : oc < Y.length) (x : Nat) :
    let X := ((((((Y.replace_next B (some c)).replace_on_false B (some oc)).replace_prev c
      (some B)).replace_prev oc (some B)).replace_next node (some B)).replace_prev B
      (some node))
    X.length = Y.length ∧
    (X.node x).type = (Y.node x).type ∧ (X.node x).id = (Y.node x).id ∧
    (X.node x).call = (Y.node x).call ∧ (X.node x).condition = (Y.node x).condition ∧
    (X.node x).on_false = (if x = B then some oc else (Y.node x).on_false) ∧
    (X.node x).next = (if x = node then some B else if x = B then some c
      else (Y.node x).next) ∧
    (X.node x).prev = (if x = B then some node else if x = oc then some B
      else if x = c then some B else (Y.node x).prev) ∧
    (x ≠ node → x ≠ B → x ≠ c → x ≠ oc → X.node x = Y.node x) := by
  intro X
  have hf := attach_branch_fields Y B c oc hB hc ho x
  simp only at hf
  generalize hW : (((Y.replace_next B (some c)).replace_on_false B (some oc)).replace_prev c
      (some B)).replace_prev oc (some B) = W at hf
  have hWl : W.length = Y.length := by rw [← hW]; simp
  have hg := attach_next_fields W node B (by omega) (by omega) x
  simp only at hg
  have hXW : X = (W.replace_next node (some B)).replace_prev B (some node) := by
    rw [← hW]
  rw [← hXW] at hg
  obtain ⟨f1, f2, f3, f4, f5, f6, f7, f8⟩ := hf
  obtain ⟨g1, g2, g3, g4, g5, g6, g7, g8⟩ := hg
  refine ⟨by rw [hXW]; simp [hWl], g1.trans f1, g2.trans f2, g3.trans f3, g4.trans f4,
    g5.trans f5, ?_, ?_, ?_⟩
  · rw [g6, f6]
  · rw [g7, f7]
  · intro h1 h2 h3 h4
    rw [g8 h1 h2, f8 h2 h3 h4]


/-- With a guard, the old successor of `current` is copied, the copy gets new ids, and a
new Branch on the guard is linked between `current` and the clone of the candidate. -/
theorem ready_guard (h : Heap) (ht : Ptr → Nat) (node old_next cand : Nat) (g : Expr)
    (id0 : Nat) (hlk : linked h ht (fun _ => False)) (hnode : node < h.length)
    (hnext : (h.node node).next = some old_next) :
    ∃ (h1 : Heap) (oc : Nat) (h2 : Heap) (id1 : Nat) (htX : Ptr → Nat),
      (∀ fuel, ht old_next < fuel →
        clone_rec fuel (h ++ [h.node cand]) old_next = .ok (h1, oc)) ∧
      (∀ fuel, oc < fuel → recursive_update_ids fuel h1 oc id0 = .ok (h2, id1)) ∧
      id0 < id1 ∧
      hoist_ready h ht node old_next (install_guard h2 id1 g node h.length oc) htX h.length ∧
      guard_ready h old_next g id0 (install_guard h2 id1 g node h.length oc) node h.length
        h2.length oc ∧
      ((install_guard h2 id1 g node h.length oc).node h.length).type = (h.node cand).type ∧
      ((install_guard h2 id1 g node h.length oc).node h.length).id = (h.node cand).id ∧
      ((install_guard h2 id1 g node h.length oc).node h.length).call = (h.node cand).call ∧
      ((install_guard h2 id1 g node h.length oc).node h.length).condition
        = (h.node cand).condition := by
  have hon : old_next ∈ h.succs node := (mem_succs h node old_next).mpr (Or.inl hnext)
  obtain ⟨hol, _, hop, hoh⟩ := hlk.succ_ok node hnode (fun f => f) old_next hon
  -- the clone of the old successor
  have hh0 : ∀ x : Nat, x < h.length → Heap.node (h ++ [h.node cand]) x = h.node x :=
    fun x hx => node_append_lt h _ x hx
  have hlk0 := linked_extend h (h ++ [h.node cand]) ht (fun _ => False) (ht old_next + 1) hlk
    (by simp) (fun x hx _ => hh0 x hx)
  have key : ∃ (h1 : Heap) (oc : Nat),
      (∀ fuel, ht old_next < fuel →
        clone_rec fuel (h ++ [h.node cand]) old_next = .ok (h1, oc)) ∧
      clone_spec (h ++ [h.node cand])
        (fun x => False ∨ h.length ≤ x ∨ ht old_next + 1 ≤ ht x) h1 old_next oc :=
    clone_rec_total ht (ht old_next + 1) (h ++ [h.node cand]) _ old_next hlk0
      (by simp; omega) (by
        show ¬ (False ∨ h.length ≤ old_next ∨ ht old_next + 1 ≤ ht old_next)
        rintro (f | f | f)
        · exact f
        · omega
        · omega) (by omega)
  obtain ⟨h1, oc, hclone, cs⟩ := key
  have hl0 : (h ++ [h.node cand]).length = h.length + 1 := by simp
  have hl1 : h.length + 1 < h1.length := by have := cs.len; omega
  have hroot : oc + 1 = h1.length := cs.root
  -- the new ids of the clone
  have key2 : ∃ (h2 : Heap) (id1 : Nat),
      (∀ fuel, oc < fuel → stamp_ids fuel h1 oc (id0 + 1) = .ok (h2, id1)) ∧
      stamped h1 h2 (id0 + 1) id1 ∧
      ∀ x : Nat, x < (h ++ [h.node cand]).length → h2.node x = h1.node x :=
    stamp_ids_total (fun x => x) (oc + 1) h1 (fun x => x < (h ++ [h.node cand]).length) oc
      (id0 + 1) cs.lk (by omega) (by show ¬ oc < (h ++ [h.node cand]).length; omega)
      (by show oc < oc + 1; omega)
  obtain ⟨h2, id1, hstamp, st, hfr⟩ := key2
  have hl2 : h2.length = h1.length := st.len
  have hid : id0 + 1 ≤ id1 := st.mono
  refine ⟨h1, oc, h2, id1,
    fun x => if x < h.length then (if ht x ≤ ht old_next then ht x else ht x + (h2.length + 3))
      else ht old_next + 1 + (x - h.length),
    hclone, fun fuel hf => hstamp fuel hf, by omega, ?_⟩
  generalize hhtX : (fun x => if x < h.length then (if ht x ≤ ht old_next then ht x
    else ht x + (h2.length + 3)) else ht old_next + 1 + (x - h.length) : Ptr → Nat) = htX
  have hto : ∀ x : Nat, x < h.length →
      htX x = if ht x ≤ ht old_next then ht x else ht x + (h2.length + 3) := by
    intro x hx; rw [← hhtX]; simp [hx]
  have htn : ∀ x : Nat, h.length ≤ x → htX x = ht old_next + 1 + (x - h.length) := by
    intro x hx; rw [← hhtX]
    have : ¬ x < h.length := by omega
    simp [this]
  have hmono : ∀ x y : Nat, x < h.length → y < h.length → ht x < ht y → htX x < htX y := by
    intro x y hx hy hxy
    rw [hto x hx, hto y hy]
    split_ifs <;> omega
  -- the fields of the nodes of the new heap
  have hfX := attach_guard_fields
    (h2 ++ [(⟨id1, NodeType.BRANCH, none, none, none, ⟨"", []⟩, g, [], []⟩ : Node)]) node h2.length
    h.length oc (by simp; omega) (by simp) (by simp; omega) (by simp; omega)
  simp only at hfX
  have hXe : install_guard h2 id1 g node h.length oc = ((((((h2 ++ [(⟨id1, NodeType.BRANCH,
    none, none, none, ⟨"", []⟩, g, [], []⟩ : Node)]).replace_next
    h2.length (some h.length)).replace_on_false h2.length (some oc)).replace_prev h.length
    (some h2.length)).replace_prev oc (some h2.length)).replace_next node
    (some h2.length)).replace_prev h2.length (some node) := rfl
  rw [← hXe] at hfX
  generalize install_guard h2 id1 g node h.length oc = X at hfX ⊢
  have hlen : X.length = h2.length + 1 := by rw [(hfX 0).1]; simp
  have hYlt : ∀ x : Nat, x < h2.length → Heap.node
      (h2 ++ [(⟨id1, NodeType.BRANCH, none, none, none, ⟨"", []⟩, g, [], []⟩ : Node)]) x = h2.node x :=
    fun x hx => node_append_lt h2 _ x hx
  have hYB : Heap.node
      (h2 ++ [(⟨id1, NodeType.BRANCH, none, none, none, ⟨"", []⟩, g, [], []⟩ : Node)]) h2.length
      = (⟨id1, NodeType.BRANCH, none, none, none, ⟨"", []⟩, g, [], []⟩ : Node) := node_append_eq h2 _
  have h2old : ∀ x : Nat, x < h.length → h2.node x = h.node x := by
    intro x hx
    rw [hfr x (by omega), cs.old x (by omega), hh0 x hx]
  have h2c : h2.node h.length = h.node cand := by
    rw [hfr _ (by omega), cs.old _ (by omega)]
    exact node_append_eq h _
  have hfo : ∀ x : Nat, x < h.length →
      (X.node x).type = (h.node x).type ∧ (X.node x).on_false = (h.node x).on_false ∧
      (X.node x).prev = (h.node x).prev ∧
      (X.node x).next = (if x = node then some h2.length else (h.node x).next) ∧
      (x ≠ node → X.node x = h.node x) := by
    intro x hx
    obtain ⟨_, f1, f2, f3, f4, f5, f6, f7, f8⟩ := hfX x
    have e := (hYlt x (by omega)).trans (h2old x hx)
    have n1 : ¬ x = h2.length := by omega
    have n2 : ¬ x = oc := by omega
    have n3 : ¬ x = h.length := by omega
    rw [f1, f5, f6, f7]
    simp only [n1, n2, n3, if_false, e]
    refine ⟨trivial, trivial, trivial, trivial, ?_⟩
    intro hxn
    rw [f8 hxn (by omega) (by omega) (by omega), e]
  have hfr1 : ∀ x : Nat, h.length < x → x < h2.length →
      (X.node x).type = (h1.node x).type ∧ (X.node x).on_false = (h1.node x).on_false ∧
      (X.node x).next = (h1.node x).next ∧ (X.node x).call = (h1.node x).call ∧
      (X.node x).condition = (h1.node x).condition ∧
      (X.node x).prev = (if x = oc then some h2.length else (h1.node x).prev) ∧
      (X.node x).id = (h2.node x).id := by
    intro x hx1 hx2
    obtain ⟨_, f1, f2, f3, f4, f5, f6, f7, f8⟩ := hfX x
    obtain ⟨s1, s2, s3, s4, s5, s6⟩ := st.same x
    have n1 : ¬ x = h2.length := by omega
    have n2 : ¬ x = node := by omega
    have n3 : ¬ x = h.length := by omega
    rw [f1, f2, f3, f4, f5, f6, f7]
    simp only [n1, n2, n3, if_false, hYlt x hx2, s1, s2, s3, s4, s5, s6]
    exact ⟨trivial, trivial, trivial, trivial, trivial, trivial, trivial⟩
  have hfB : (X.node h2.length).type = NodeType.BRANCH ∧ (X.node h2.length).condition = g ∧
      (X.node h2.length).next = some h.length ∧ (X.node h2.length).on_false = some oc ∧
      (X.node h2.length).prev = some node ∧ (X.node h2.length).id = id1 := by
    obtain ⟨_, f1, f2, f3, f4, f5, f6, f7, f8⟩ := hfX h2.length
    have n1 : ¬ h2.length = node := by omega
    rw [f1, f2, f4, f5, f6, f7]
    simp only [n1, if_false, if_true, hYB]
    exact ⟨trivial, trivial, trivial, trivial, trivial, trivial⟩
  have hfc : (X.node h.length).type = (h.node cand).type ∧
      (X.node h.length).id = (h.node cand).id ∧ (X.node h.length).call = (h.node cand).call ∧
      (X.node h.length).condition = (h.node cand).condition ∧
      (X.node h.length).prev = some h2.length := by
    obtain ⟨_, f1, f2, f3, f4, f5, f6, f7, f8⟩ := hfX h.length
    have n1 : ¬ h.length = h2.length := by omega
    have n2 : ¬ h.length = oc := by omega
    rw [f1, f2, f3, f4, f7]
    simp only [n1, n2, if_false, if_true, hYlt h.length (by omega), h2c]
    exact ⟨trivial, trivial, trivial, trivial, trivial⟩
  have hsr : ∀ x : Nat, h.length < x → x < h2.length → X.succs x = h1.succs x := by
    intro x hx1 hx2
    obtain ⟨f1, f2, f3, _⟩ := hfr1 x hx1 hx2
    exact succs_congr _ _ _ _ f3 f2 f1
  have hreg : ∀ x : Nat, h.length < x → x < h2.length → ∀ q : Nat, q ∈ h1.succs x →
      h.length < q ∧ q < x ∧ (h1.node q).prev = some x := by
    intro x hx1 hx2 q hq
    obtain ⟨a1, a2, a3, a4⟩ := cs.lk.succ_ok x (by omega)
      (by show ¬ x < (h ++ [h.node cand]).length; omega) q hq
    have a2a : ¬ q < (h ++ [h.node cand]).length := a2
    have a4a : q < x := a4
    exact ⟨by omega, a4a, a3⟩
  have hsn : ∀ q : Nat, q ∈ X.succs node →
      q = h2.length ∨ (q ∈ h.succs node ∧ q ≠ old_next) := by
    intro q hq
    obtain ⟨f1, f2, f3, f4, _⟩ := hfo node hnode
    rw [mem_succs, f1, f2, f4, if_pos rfl] at hq
    rcases hq with hq | ⟨hb, hq⟩
    · exact Or.inl (Option.some.inj hq).symm
    · refine Or.inr ⟨(mem_succs h node q).mpr (Or.inr ⟨hb, hq⟩), ?_⟩
      intro e
      subst e
      have := ((hlk.shape node hnode (fun f => f)).2 hb).2.2
      rw [hnext, hq] at this
      exact this rfl
  have hso : ∀ p : Nat, p < h.length → p ≠ node → X.succs p = h.succs p := by
    intro p hp hpn
    unfold Heap.succs
    rw [(hfo p hp).2.2.2.2 hpn]
  have hsB : ∀ q : Nat, q ∈ X.succs h2.length → q = h.length ∨ q = oc := by
    intro q hq
    obtain ⟨f1, f2, f3, f4, _⟩ := hfB
    rw [mem_succs, f3, f4] at hq
    rcases hq with hq | ⟨_, hq⟩
    · exact Or.inl (Option.some.inj hq).symm
    · exact Or.inr (Option.some.inj hq).symm
  have hready : hoist_ready h ht node old_next X htX h.length := by
    constructor
    · omega
    · rfl
    · exact hol
    · constructor
      · intro p hp hpc q hq
        by_cases hp1 : p < h.length
        · by_cases hpn : p = node
          · subst hpn
            rcases hsn q hq with e | ⟨e, _⟩
            · subst e
              refine ⟨by omega, hfB.2.2.2.2.1, ?_⟩
              rw [htn h2.length (by omega), hto p hp1]
              split_ifs <;> omega
            · obtain ⟨h1, _, h3, h4⟩ := hlk.succ_ok p hp1 (fun f => f) q e
              exact ⟨by omega, by rw [(hfo q h1).2.2.1]; exact h3, hmono q p h1 hp1 h4⟩
          · rw [hso p hp1 hpn] at hq
            obtain ⟨h1, _, h3, h4⟩ := hlk.succ_ok p hp1 (fun f => f) q hq
            exact ⟨by omega, by rw [(hfo q h1).2.2.1]; exact h3, hmono q p h1 hp1 h4⟩
        · by_cases hpB : p = h2.length
          · subst hpB
            rcases hsB q hq with e | e
            · subst e
              refine ⟨by omega, hfc.2.2.2.2, ?_⟩
              rw [htn h.length (by omega), htn h2.length (by omega)]
              omega
            · subst e
              refine ⟨by omega, ?_, ?_⟩
              · rw [(hfr1 q (by omega) (by omega)).2.2.2.2.2.1, if_pos rfl]
              · rw [htn q (by omega), htn h2.length (by omega)]
                omega
          · have hp2 : h.length < p := by omega
            have hp3 : p < h2.length := by omega
            rw [hsr p hp2 hp3] at hq
            obtain ⟨a1, a2, a3⟩ := hreg p hp2 hp3 q hq
            refine ⟨by omega, ?_, ?_⟩
            · rw [(hfr1 q a1 (by omega)).2.2.2.2.2.1, if_neg (show ¬ q = oc by omega)]
              exact a3
            · rw [htn q (by omega), htn p (by omega)]
              omega
      · intro p hp hpc
        by_cases hp1 : p < h.length
        · obtain ⟨f1, f2, f3, f4, _⟩ := hfo p hp1
          have hs := hlk.shape p hp1 (fun f => f)
          rw [f1, f2, f4]
          by_cases hpn : p = node
          · subst hpn
            rw [if_pos rfl]
            refine ⟨fun _ => by simp, fun hb => ⟨by simp, (hs.2 hb).2.1, ?_⟩⟩
            intro e
            have hm : h2.length ∈ h.succs p := (mem_succs h p _).mpr (Or.inr ⟨hb, e.symm⟩)
            have := (hlk.succ_ok p hp1 (fun f => f) _ hm).1
            omega
          · rw [if_neg hpn]
            exact hs
        · by_cases hpB : p = h2.length
          · subst hpB
            obtain ⟨f1, f2, f3, f4, _⟩ := hfB
            rw [f1, f3, f4]
            refine ⟨fun _ => by simp, fun _ => ⟨by simp, by simp, ?_⟩⟩
            intro e
            have e2 : h.length = oc := Option.some.inj e
            omega
          · have hp2 : h.length < p := by omega
            have hp3 : p < h2.length := by omega
            obtain ⟨f1, f2, f3, _⟩ := hfr1 p hp2 hp3
            rw [f1, f2, f3]
            exact cs.lk.shape p (by omega) (by show ¬ p < (h ++ [h.node cand]).length; omega)
    · intro p hp hpc hq
      by_cases hp1 : p < h.length
      · by_cases hpn : p = node
        · subst hpn
          rcases hsn old_next hq with e | ⟨_, e⟩
          · omega
          · exact e rfl
        · rw [hso p hp1 hpn] at hq
          obtain ⟨_, _, h3, _⟩ := hlk.succ_ok p hp1 (fun f => f) old_next hq
          rw [hop] at h3
          exact hpn (Option.some.inj h3).symm
      · by_cases hpB : p = h2.length
        · subst hpB
          rcases hsB old_next hq with e | e <;> omega
        · have hp2 : h.length < p := by omega
          have hp3 : p < h2.length := by omega
          rw [hsr p hp2 hp3] at hq
          have := (hreg p hp2 hp3 old_next hq).1
          omega
    · rw [htn h.length (by omega), hto old_next hol]
      simp
    · rw [htn h.length (by omega), hto node hnode]
      split_ifs <;> omega
    · exact hmono
    · intro x hx hxn
      exact (hfo x hx).2.2.2.2 hxn
    · obtain ⟨_, f1, f2, f3, f4, f5, f6, f7, f8⟩ := hfX node
      have e := (hYlt node (by omega)).trans (h2old node hnode)
      have n1 : ¬ node = h2.length := by omega
      have n2 : ¬ node = oc := by omega
      have n3 : ¬ node = h.length := by omega
      rw [f1, f2, f3, f4, f7]
      simp only [n1, n2, n3, if_false, e]
      exact ⟨trivial, trivial, trivial, trivial, trivial⟩
    · intro x h1 h2
      rw [htn h.length (by omega), htn x h1]
      omega
    · refine ⟨h2.length, hfc.2.2.2.2, by omega, by omega, ?_⟩
      rw [mem_succs, hfB.2.2.1]
      exact Or.inl rfl
  have hguard : guard_ready h old_next g id0 X node h.length h2.length oc := by
    constructor
    · omega
    · rw [(hfo node hnode).2.2.2.1, if_pos rfl]
    · exact ⟨hfB.1, hfB.2.1, hfB.2.2.1, hfB.2.2.2.1⟩
    · intro x hx1 hx2 q hq
      rw [hsr x hx1 hx2] at hq
      obtain ⟨a1, a2, _⟩ := hreg x hx1 hx2 q hq
      omega
    · intro input k
      have e1 : run X input k (some oc) = run h1 input k (some oc) := by
        apply run_agree h1 X input (fun x => h.length < x ∧ x < h2.length)
        · intro x hx
          obtain ⟨f1, f2, f3, f4, f5, _⟩ := hfr1 x hx.1 hx.2
          refine ⟨f1, f4, f5, f3, f2, ?_⟩
          intro q hq
          obtain ⟨a1, a2, _⟩ := hreg x hx.1 hx.2 q hq
          exact ⟨a1, by omega⟩
        · exact ⟨by omega, by omega⟩
      have e2 : run (h ++ [h.node cand]) input k (some old_next)
          = run h input k (some old_next) := by
        apply run_agree h (h ++ [h.node cand]) input (fun x => x < h.length)
        · intro x hx
          have hx1 : x < h.length := hx
          rw [hh0 x hx1]
          refine ⟨rfl, rfl, rfl, rfl, rfl, ?_⟩
          intro q hq
          exact (hlk.succ_ok x hx1 (fun f => f) q hq).1
        · exact hol
      rw [e1, cs.runs input k, e2]
    · intro x hx1 hx2
      by_cases hxB : x = h2.length
      · subst hxB
        left
        rw [hfB.2.2.2.2.2]
        omega
      · have hx3 : x < h2.length := by omega
        rw [(hfr1 x hx1 hx3).2.2.2.2.2.2, (hfr1 x hx1 hx3).1]
        rcases st.ids x with e | e
        · right
          obtain ⟨o, ho, hoD, e1, e2⟩ := cs.orig x (by omega) (by omega)
          have ho1 : o < h.length := by
            by_contra hc
            exact hoD (Or.inr (Or.inl (by omega)))
          rw [hh0 o ho1] at e1 e2
          exact ⟨o, ho1, e.trans e1, e2⟩
        · left; omega
  exact ⟨hready, hguard, hfc.1, hfc.2.1, hfc.2.2.1, hfc.2.2.2.1⟩


theorem reorder_bdd_plain_eq (fuel : Nat) (bdd : BDD) (node : Ptr) (C : candidate_t)
    (cand old_next : Nat) (hcn : C.node = some cand)
    (hnext : (Heap.node (bdd.nodes ++ [bdd.nodes.node cand]) node).next = some old_next)
    (hg : C.extra_condition = none) :
    reorder_bdd fuel bdd node C
      = finish_block fuel bdd C.siblings bdd.nodes.length old_next
          (((bdd.nodes ++ [bdd.nodes.node cand]).replace_next node
            (some bdd.nodes.length)).replace_prev bdd.nodes.length (some node))
          bdd.id bdd.id := by
  unfold reorder_bdd
  simp only [hcn, Heap.clone, Heap.alloc, hnext, hg]
  rfl

theorem reorder_bdd_guard_eq (fuel : Nat) (bdd : BDD) (node : Ptr) (C : candidate_t)
    (cand old_next : Nat) (g : Expr) (h1 h2 : Heap) (oc id1 : Nat) (hcn : C.node = some cand)
    (hnext : (Heap.node (bdd.nodes ++ [bdd.nodes.node cand]) node).next = some old_next)
    (hg : C.extra_condition = some g)
    (hclone : clone_rec fuel (bdd.nodes ++ [bdd.nodes.node cand]) old_next = .ok (h1, oc))
    (hstamp : recursive_update_ids fuel h1 oc bdd.id = .ok (h2, id1)) :
    reorder_bdd fuel bdd node C
      = finish_block fuel bdd C.siblings bdd.nodes.length old_next
          (install_guard h2 id1 g node bdd.nodes.length oc) id1 (id1 + 1) := by
  unfold reorder_bdd
  simp only [hcn, Heap.clone, Heap.alloc, hnext, hg, hclone, hstamp]
  rfl


theorem finished_of (S : List Nat) (T : NodeType) (h : Heap) (ht : Ptr → Nat)
    (node old_next : Nat) (X : Heap) (htX : Ptr → Nat) (c : Nat) (Z : Heap) (htZ : Ptr → Nat)
    (leaves : List aux_t) (W W1 : Heap) (D : Ptr → Prop) (k k1 : Nat)
    (hr : hoist_ready h ht node old_next X htX c)
    (hd : hoist_done S T X htX c old_next Z htZ leaves)
    (wp : walk_post htZ (htZ c) Z W D) (st : stamped W W1 k k1) :
    finished X htX c W1 htZ D := by
  have hcl : c < X.length := by have := hr.len; have := hr.c_eq; omega
  constructor
  · exact stamped_linked W W1 k k1 htZ D st wp.lk
  · exact wp.dead_low
  · have := hd.len; have := wp.len; have := st.len; omega
  · exact hd.mono_le
  · intro x hx hxc hxh
    have hxo : x ≠ old_next := by
      intro e; subst e; have := hr.ht_on; omega
    obtain ⟨s1, s2, s3, s4, s5, s6⟩ := st.same x
    rw [s1, s2, s3, s4, s5, s6, wp.frame x (hd.mono_le c x hcl hx hxh), hd.frame x hx hxc hxo]
    exact ⟨rfl, rfl, rfl, rfl, rfl, rfl⟩
  · obtain ⟨s1, s2, s3, s4, s5, s6⟩ := st.same c
    obtain ⟨d1, d2, d3, d4, d5, d6⟩ := hd.cdata
    rw [s1, s4, s5, s6, wp.frame c (Nat.le_refl _), d1, d2, d3, d5]
    exact ⟨rfl, rfl, rfl, rfl⟩

/-- From the state in which the clone of the candidate hangs below `current`, the rest of
`reorder_bdd` returns, given enough fuel, and leaves the forward links consistent. -/
theorem finish_block_total (S : List Nat) (bdd : BDD) (h : Heap) (ht : Ptr → Nat)
    (node old_next : Nat) (X : Heap) (htX : Ptr → Nat) (c id1 counter1 : Nat)
    (hr : hoist_ready h ht node old_next X htX c) (hty : typed_ok S (X.node c).type X)
    (hk : (X.node c).type = NodeType.CALL ∨ (X.node c).type = NodeType.BRANCH) :
    ∃ fuel0, ∀ fuel, fuel0 ≤ fuel → ∃ (bdd1 : BDD) (htW : Ptr → Nat) (D : Ptr → Prop),
      finish_block fuel bdd S c old_next X id1 counter1 = .ok bdd1 ∧
      finished X htX c bdd1.nodes htW D := by
  have hcl : c < X.length := by have := hr.len; have := hr.c_eq; omega
  rcases hk with hT | hT
  · rw [hT] at hty
    have hd := hoist_call S h ht node old_next X htX c hr hty hT
    refine ⟨3 ^ htX c + 1, ?_⟩
    intro fuel hfuel
    have hnb : ¬ (X.node c).type = NodeType.BRANCH := by rw [hT]; intro e; cases e
    have hatt : attach_block fuel X c old_next
        = .ok ((X.replace_next c (some old_next)).replace_prev old_next (some c),
            [⟨some old_next, false, false⟩]) := by
      unfold attach_block
      rw [if_neg hnb]
    obtain ⟨W, D, hloop, wp⟩ := dedup_loop_total S NodeType.CALL htX (htX c) fuel _ _ _ _
      hd.winv (by have := hd.cost; omega)
    have hWnb : ¬ (W.node c).type = NodeType.BRANCH := by
      rw [(wp.same c).1, hd.cdata.1]; exact hnb
    refine ⟨{ bdd with nodes := W, id := counter1 }, htX, D, ?_, ?_⟩
    · unfold finish_block
      simp only [hatt, hloop, if_neg hWnb]
    · exact finished_of S _ h ht node old_next X htX c _ htX _ W W D 0 0 hr hd wp
        (stamped_refl W 0)
  · rw [hT] at hty
    obtain ⟨Y, oc, htZ, hclone, hd⟩ := hoist_branch S h ht node old_next X htX c hr hty hT
    refine ⟨3 ^ htZ c + htX old_next + htZ c + 2, ?_⟩
    intro fuel hfuel
    have hpos : 0 < 3 ^ htZ c := Nat.pow_pos (by omega)
    have hatt : attach_block fuel X c old_next
        = .ok ((((Y.replace_next c (some old_next)).replace_on_false c (some oc)).replace_prev
          old_next (some c)).replace_prev oc (some c),
            [⟨some old_next, true, true⟩, ⟨some oc, false, true⟩]) := by
      unfold attach_block
      rw [if_pos hT, hclone fuel (by omega)]
    obtain ⟨W, D, hloop, wp⟩ := dedup_loop_total S NodeType.BRANCH htZ (htZ c) fuel _ _ _ _
      hd.winv (by have := hd.cost; omega)
    have hWc := wp.frame c (Nat.le_refl _)
    have hWb : (W.node c).type = NodeType.BRANCH := by
      rw [hWc, hd.cdata.1]; exact hT
    obtain ⟨of1, hof⟩ := hd.branch rfl
    have hWof : (W.node c).on_false = some of1 := by rw [hWc]; exact hof
    have hcW : c < W.length := by have := hd.len; have := wp.len; omega
    have hcD : ¬ D c := by
      intro hD
      have := wp.dead_low c hD
      omega
    have hm : of1 ∈ W.succs c := (mem_succs W c of1).mpr (Or.inr ⟨hWb, hWof⟩)
    obtain ⟨a1, a2, _, a4⟩ := wp.lk.succ_ok c hcW hcD of1 hm
    have key : ∃ (W1 : Heap) (id2 : Nat),
        (∀ f, htZ of1 < f → stamp_ids f W of1 (id1 + 1) = .ok (W1, id2)) ∧
        stamped W W1 (id1 + 1) id2 ∧ ∀ x : Nat, D x → W1.node x = W.node x :=
      stamp_ids_total htZ (htZ of1 + 1) W D of1 (id1 + 1) wp.lk a1 a2 (by omega)
    obtain ⟨W1, id2, hstamp, st, _⟩ := key
    have hst : recursive_update_ids fuel W of1 id1 = .ok (W1, id2) :=
      hstamp fuel (by omega)
    refine ⟨{ bdd with nodes := W1, id := id2 }, htZ, D, ?_, ?_⟩
    · unfold finish_block
      simp only [hatt, hloop, if_pos hWb, hWof, hst]
    · exact finished_of S _ h ht node old_next X htX c _ htZ _ W W1 D _ _ hr hd wp st

/-- Consistent forward links give back-link integrity below a live node whose own
predecessor links to it. -/
theorem back_links_of_linked (W : Heap) (ht : Ptr → Nat) (D : Ptr → Prop) (node : Nat)
    (hlk : linked W ht D) (hn : node < W.length) (hnD : ¬ D node)
    (hp : ∀ p : Nat, (W.node node).prev = some p → node ∈ W.succs p) :
    back_links_ok W node := by
  have inv : ∀ n : Nat, W.reachable node n →
      n < W.length ∧ ¬ D n ∧
        (n = node ∨ ∃ p : Nat, p < W.length ∧ ¬ D p ∧ n ∈ W.succs p) := by
    intro n hreach
    induction hreach with
    | refl => exact ⟨hn, hnD, Or.inl rfl⟩
    | step p q _ hq ih =>
      obtain ⟨h1, h2, _⟩ := ih
      obtain ⟨a1, a2, _, _⟩ := hlk.succ_ok p h1 h2 q hq
      exact ⟨a1, a2, Or.inr ⟨p, h1, h2, hq⟩⟩
  intro n hreach p hprev
  obtain ⟨_, _, h3⟩ := inv n hreach
  rcases h3 with e | ⟨p1, b1, b2, b3⟩
  · subst e
    exact hp p hprev
  · obtain ⟨_, _, a3, _⟩ := hlk.succ_ok p1 b1 b2 n b3
    rw [hprev] at a3
    have e : p = p1 := Option.some.inj a3
    subst e
    exact b3


/-- The nodes of the state in which the clone of the candidate hangs below `current` keep
the typing of the sibling ids. -/
theorem typed_ok_ready (bdd : BDD) (ht : Ptr → Nat) (C : candidate_t) (cand node old_next : Nat)
    (X : Heap) (htX : Ptr → Nat) (hwf : well_formed bdd ht)
    (hg : good_candidate bdd.nodes C) (hcn : C.node = some cand)
    (hr : hoist_ready bdd.nodes ht node old_next X htX bdd.nodes.length)
    (hct : (X.node bdd.nodes.length).type = (bdd.nodes.node cand).type)
    (hfresh : ∀ x : Nat, bdd.nodes.length < x → x < X.length → bdd.id < (X.node x).id ∨
      ∃ o : Nat, o < bdd.nodes.length ∧ (X.node x).id = (bdd.nodes.node o).id ∧
        (X.node x).type = (bdd.nodes.node o).type) :
    typed_ok C.siblings (X.node bdd.nodes.length).type X := by
  have hty := typed_ok_of_good bdd ht C cand hwf hg hcn
  rw [hct]
  intro x hx hid
  by_cases h1 : x < bdd.nodes.length
  · by_cases h2 : x = node
    · subst h2
      rw [hr.node_same.2.2.2.1] at hid
      rw [hr.node_same.2.1]
      exact hty x h1 hid
    · rw [hr.old x h1 h2] at hid ⊢
      exact hty x h1 hid
  · by_cases h2 : x = bdd.nodes.length
    · subst h2
      exact hct
    · rcases hfresh x (by omega) hx with hf | ⟨o, ho, e1, e2⟩
      · exfalso
        obtain ⟨cn, _, _, _, h4⟩ := hg
        obtain ⟨y, hy, hyid, _⟩ := h4 _ hid
        have := hwf.counter y hy
        omega
      · rw [e1] at hid
        rw [e2]
        exact hty o ho hid

/-- Back-link integrity below `current` in the heap returned by `reorder_bdd`. -/
theorem back_links_finished (bdd : BDD) (ht : Ptr → Nat) (node old_next : Nat) (X : Heap)
    (htX : Ptr → Nat) (W : Heap) (htW : Ptr → Nat) (D : Ptr → Prop)
    (hwf : well_formed bdd ht) (hnode : node < bdd.nodes.length)
    (hr : hoist_ready bdd.nodes ht node old_next X htX bdd.nodes.length)
    (fin : finished X htX bdd.nodes.length W htW D) :
    back_links_ok W node := by
  have hlenX := hr.len
  have hnc : node ≠ bdd.nodes.length := by omega
  have hhn : htX bdd.nodes.length ≤ htX node := by have := hr.ht_node; omega
  have hkn := fin.keep node (by omega) hnc hhn
  apply back_links_of_linked W htW D node fin.lk (by have := fin.len; omega)
  · intro hD
    have h1 := fin.dead_low node hD
    have h2 := fin.mono_le bdd.nodes.length node (by omega) (by omega) hhn
    omega
  · intro p hp
    rw [hkn.2.2.2.2.2, hr.node_same.1] at hp
    obtain ⟨hpl, hps⟩ := hwf.pred node hnode p hp
    obtain ⟨_, _, _, hht⟩ := hwf.lk.succ_ok p hpl (fun f => f) node hps
    have hpn : p ≠ node := by
      intro e; subst e; omega
    have hpc : p ≠ bdd.nodes.length := by omega
    have h3 := hr.mono node p hnode hpl hht
    obtain ⟨k1, _, _, k4, k5, _⟩ := fin.keep p (by omega) hpc (by omega)
    have e : W.succs p = bdd.nodes.succs p := by
      apply succs_congr
      · rw [k4, hr.old p hpl hpn]
      · rw [k5, hr.old p hpl hpn]
      · rw [k1, hr.old p hpl hpn]
    rw [e]
    exact hps

/-- The function `reorder_bdd` returns on a well-formed graph, given enough fuel, for every
well-formed candidate, and the graph it returns is as described by `reordered`. -/
theorem reorder_bdd_total (bdd : BDD) (ht : Ptr → Nat) (node cand old_next : Nat)
    (C : candidate_t) (hwf : well_formed bdd ht) (hnode : node < bdd.nodes.length)
    (hg : good_candidate bdd.nodes C) (hcn : C.node = some cand)
    (hnext : (bdd.nodes.node node).next = some old_next) :
    ∃ fuel0, ∀ fuel, fuel0 ≤ fuel →
      ∃ bdd1, reorder_bdd fuel bdd node C = .ok bdd1 ∧ reordered bdd node old_next cand C bdd1 := by
  have hkind : (bdd.nodes.node cand).type = NodeType.CALL ∨
      (bdd.nodes.node cand).type = NodeType.BRANCH := by
    obtain ⟨cn, h1, _, h3, _⟩ := hg
    rw [hcn] at h1
    have e : cand = cn := Option.some.inj h1
    subst e
    exact h3
  have hnext0 : (Heap.node (bdd.nodes ++ [bdd.nodes.node cand]) node).next = some old_next := by
    rw [node_append_lt _ _ _ hnode]; exact hnext
  cases hgC : C.extra_condition with
  | none =>
    obtain ⟨htX, hr, c1, c2, c3, c4, hnn, hXl⟩ :=
      ready_plain bdd.nodes ht node old_next cand hwf.lk hnode hnext
    generalize hX : ((bdd.nodes ++ [bdd.nodes.node cand]).replace_next node
      (some bdd.nodes.length)).replace_prev bdd.nodes.length (some node) = X
      at hr c1 c2 c3 c4 hnn hXl
    have hty := typed_ok_ready bdd ht C cand node old_next X htX hwf hg hcn hr c1
      (fun x h1 h2 => by omega)
    obtain ⟨fuel0, hfin⟩ := finish_block_total C.siblings bdd bdd.nodes ht node old_next X htX
      bdd.nodes.length bdd.id bdd.id hr hty (by rw [c1]; exact hkind)
    refine ⟨fuel0, ?_⟩
    intro fuel hfuel
    obtain ⟨bdd1, htW, D, heq, fin⟩ := hfin fuel hfuel
    refine ⟨bdd1, ?_, ?_⟩
    · rw [reorder_bdd_plain_eq fuel bdd node C cand old_next hcn hnext0 hgC, hX]
      exact heq
    · have hnc : node ≠ bdd.nodes.length := by omega
      have hhn : htX bdd.nodes.length ≤ htX node := by have := hr.ht_node; omega
      obtain ⟨k1, k2, k3, k4, k5, k6⟩ := fin.keep node (by have := hr.len; omega) hnc hhn
      constructor
      · exact back_links_finished bdd ht node old_next X htX _ htW D hwf hnode hr fin
      · exact ⟨k1.trans hr.node_same.2.1, k2.trans hr.node_same.2.2.1⟩
      · intro _
        refine ⟨bdd.nodes.length, k4.trans hnn, fin.cdata.1.trans c1,
          fin.cdata.2.1.trans c3, fin.cdata.2.2.1.trans c4⟩
      · intro g hg2
        rw [hgC] at hg2
        cases hg2
  | some g =>
    obtain ⟨h1, oc, h2, id1, htX, hclone, hstamp, hid, hr, hgr, c1, c2, c3, c4⟩ :=
      ready_guard bdd.nodes ht node old_next cand g bdd.id hwf.lk hnode hnext
    generalize hX : install_guard h2 id1 g node bdd.nodes.length oc = X at hr hgr c1 c2 c3 c4
    have hty := typed_ok_ready bdd ht C cand node old_next X htX hwf hg hcn hr c1 hgr.fresh
    obtain ⟨fuel0, hfin⟩ := finish_block_total C.siblings bdd bdd.nodes ht node old_next X htX
      bdd.nodes.length id1 (id1 + 1) hr hty (by rw [c1]; exact hkind)
    refine ⟨fuel0 + ht old_next + oc + 1, ?_⟩
    intro fuel hfuel
    obtain ⟨bdd1, htW, D, heq, fin⟩ := hfin fuel (by omega)
    refine ⟨bdd1, ?_, ?_⟩
    · rw [reorder_bdd_guard_eq fuel bdd node C cand old_next g h1 h2 oc id1 hcn hnext0 hgC
        (hclone fuel (by omega)) (hstamp fuel (by omega)), hX]
      exact heq
    · have hnc : node ≠ bdd.nodes.length := by omega
      have hhn : htX bdd.nodes.length ≤ htX node := by have := hr.ht_node; omega
      obtain ⟨b1, b2, b3⟩ := hgr.bounds
      obtain ⟨k1, k2, k3, k4, k5, k6⟩ := fin.keep node (by have := hr.len; omega) hnc hhn
      obtain ⟨m1, m2, m3, m4, m5, m6⟩ := fin.keep h2.length (by omega) (by omega)
        (hr.high h2.length (by omega) (by omega))
      constructor
      · exact back_links_finished bdd ht node old_next X htX _ htW D hwf hnode hr fin
      · exact ⟨k1.trans hr.node_same.2.1, k2.trans hr.node_same.2.2.1⟩
      · intro hg2
        rw [hgC] at hg2
        cases hg2
      · intro g2 hg2
        rw [hgC] at hg2
        have e : g = g2 := Option.some.inj hg2
        subst e
        refine ⟨h2.length, bdd.nodes.length, oc, k4.trans hgr.node_next,
          m1.trans hgr.b_data.1, m3.trans hgr.b_data.2.1, m4.trans hgr.b_data.2.2.1,
          m5.trans hgr.b_data.2.2.2, fin.cdata.1.trans c1, fin.cdata.2.1.trans c3,
          fin.cdata.2.2.1.trans c4, ?_⟩
        intro input k
        rw [← hgr.runs input k]
        apply run_agree X bdd1.nodes input
          (fun x => bdd.nodes.length < x ∧ x < h2.length)
        · intro x hx
          obtain ⟨n1, n2, n3, n4, n5, n6⟩ := fin.keep x (by omega) (by omega)
            (hr.high x (by omega) (by omega))
          exact ⟨n1, n2, n3, n4, n5, fun q hq => hgr.closed x hx.1 hx.2 q hq⟩
        · exact ⟨b1, b2⟩


theorem linked_of_checks (h : Heap) (ht : Ptr → Nat)
    (h1 : ∀ p : Nat, p < h.length → ∀ q : Nat, q ∈ h.succs p →
      q < h.length ∧ (h.node q).prev = some p ∧ ht q < ht p)
    (h2 : ∀ p : Nat, p < h.length →
      ((h.node p).type = NodeType.CALL → (h.node p).next ≠ none) ∧
      ((h.node p).type = NodeType.BRANCH →
        (h.node p).next ≠ none ∧ (h.node p).on_false ≠ none ∧
        (h.node p).next ≠ (h.node p).on_false)) :
    linked h ht (fun _ => False) :=
  ⟨fun p hp _ q hq => ⟨(h1 p hp q hq).1, fun f => f, (h1 p hp q hq).2⟩, fun p hp _ => h2 p hp⟩

theorem well_formed_of_checks (bdd : BDD) (ht : Ptr → Nat)
    (h1 : ∀ p : Nat, p < bdd.nodes.length → ∀ q : Nat, q ∈ bdd.nodes.succs p →
      q < bdd.nodes.length ∧ (bdd.nodes.node q).prev = some p ∧ ht q < ht p)
    (h2 : ∀ p : Nat, p < bdd.nodes.length →
      ((bdd.nodes.node p).type = NodeType.CALL → (bdd.nodes.node p).next ≠ none) ∧
      ((bdd.nodes.node p).type = NodeType.BRANCH →
        (bdd.nodes.node p).next ≠ none ∧ (bdd.nodes.node p).on_false ≠ none ∧
        (bdd.nodes.node p).next ≠ (bdd.nodes.node p).on_false))
    (h3 : ∀ q : Nat, q < bdd.nodes.length → ∀ p : Nat, p ∈ (bdd.nodes.node q).prev →
      p < bdd.nodes.length ∧ q ∈ bdd.nodes.succs p)
    (h4 : ∀ p : Nat, p < bdd.nodes.length → ∀ q : Nat, q < bdd.nodes.length →
      (bdd.nodes.node p).id = (bdd.nodes.node q).id → p = q)
    (h5 : ∀ p : Nat, p < bdd.nodes.length → (bdd.nodes.node p).id < bdd.id) :
    well_formed bdd ht :=
  ⟨linked_of_checks bdd.nodes ht h1 h2, fun q hq p hp => h3 q hq p hp,
    fun p q hp hq e => h4 p hp q hq e, h5⟩

theorem two_guards_heap_well_formed :
    well_formed ⟨two_guards_heap, 15, none, some 0⟩ (fun x => 10 - x) :=
  well_formed_of_checks _ _ (by decide) (by decide) (by decide) (by decide) (by decide)

theorem repeated_call_heap_well_formed :
    well_formed ⟨repeated_call_heap, 17, none, some 0⟩ (fun x => 10 - x) :=
  well_formed_of_checks _ _ (by decide) (by decide) (by decide) (by decide) (by decide)


/-! ## The rewrite `reorder_bdd`: back links, ids and executions (C1, C2, C3) -/

theorem current_lt_of_next (h : Heap) (current old_next : Nat)
    (hnext : (h.node current).next = some old_next) : current < h.length := by
  by_contra hc
  rw [node_ge h current (by omega)] at hnext
  cases hnext

/-- C2: the claim fails on the graph `A → Br(c){ G1 → G2 → return; G3 → return }` of three equal
calls with pairwise distinct ids: `get_candidates(A)` returns `G2` with the siblings
`G2`, `G3`, `G1`; after `reorder_bdd` the clone of `G2` (the successor of `A`) and `G2`
itself, which replaced the spliced-out `G1` below the Branch, are both reachable from the
root `A` and both carry the id 13. -/
theorem reorder_bdd_duplicates_id :
    (repeated_call_heap.map (fun n => n.id)).Nodup ∧
    well_formed ⟨repeated_call_heap, 17, none, some 0⟩ (fun x => 10 - x) ∧
    (⟨some 3, [13, 15, 12], none, some (sym "c")⟩ : candidate_t) ∈
      (match get_candidates example_toolbox repeated_call_heap 20 0 with
       | .ok cs => cs
       | .error _ => []) ∧
    ∃ bdd1, reorder_bdd 20 ⟨repeated_call_heap, 17, none, some 0⟩ 0
        ⟨some 3, [13, 15, 12], none, some (sym "c")⟩ = .ok bdd1 ∧
      bdd1.process = some 0 ∧
      ∃ p q : Nat, p ≠ q ∧ bdd1.nodes.reachable 0 p ∧ bdd1.nodes.reachable 0 q ∧
        (bdd1.nodes.node p).id = (bdd1.nodes.node q).id := by
  refine ⟨by decide, repeated_call_heap_well_formed, by decide, ?_⟩
  have hm : (reorder_bdd 20 ⟨repeated_call_heap, 17, none, some 0⟩ 0
      ⟨some 3, [13, 15, 12], none, some (sym "c")⟩).map
      (fun b => (b.process, decide (7 ∈ b.nodes.succs 0), decide (1 ∈ b.nodes.succs 7),
        decide (3 ∈ b.nodes.succs 1), (b.nodes.node 7).id, (b.nodes.node 3).id))
      = .ok (some 0, true, true, true, 13, 13) := by decide
  cases hres : reorder_bdd 20 ⟨repeated_call_heap, 17, none, some 0⟩ 0
      ⟨some 3, [13, 15, 12], none, some (sym "c")⟩ with
  | error e =>
    rw [hres] at hm
    cases hm
  | ok b =>
    rw [hres] at hm
    have hm2 : (b.process, decide (7 ∈ b.nodes.succs 0), decide (1 ∈ b.nodes.succs 7),
        decide (3 ∈ b.nodes.succs 1), (b.nodes.node 7).id, (b.nodes.node 3).id)
        = (some 0, true, true, true, 13, 13) := Except.ok.inj hm
    simp only [Prod.mk.injEq, decide_eq_true_eq] at hm2
    obtain ⟨e1, e2, e3, e4, e5, e6⟩ := hm2
    have r7 : b.nodes.reachable 0 7 := Heap.reachable.step 0 7 Heap.reachable.refl e2
    have r1 : b.nodes.reachable 0 1 := Heap.reachable.step 7 1 r7 e3
    have r3 : b.nodes.reachable 0 3 := Heap.reachable.step 1 3 r1 e4
    exact ⟨b, rfl, e1, 7, 3, by decide, r7, r3, e5.trans e6.symm⟩

/-- C11: `fn_has_side_effects` returns the value of the side-effect table for each of its 13
function names and fails (assertion) for every other function name. -/
theorem fn_has_side_effects_table (fn : String) :
    fn_has_side_effects fn =
      if fn ∈ ["map_get", "vector_borrow", "rte_ether_addr_hash", "dchain_is_index_allocated"]
      then .ok false
      else if fn ∈ ["current_time", "map_put", "vector_return", "packet_borrow_next_chunk",
        "packet_get_unread_length", "packet_return_chunk", "expire_items_single_map",
        "dchain_allocate_new_index", "dchain_rejuvenate_index"]
      then .ok true
      else .error .assertion := by
  unfold fn_has_side_effects fn_has_side_effects_lookup
  simp only [List.lookup, List.mem_cons, List.mem_singleton, List.not_mem_nil, or_false]
  by_cases h1 : fn = "current_time"
  · subst h1; decide
  by_cases h2 : fn = "map_get"
  · subst h2; decide
  by_cases h3 : fn = "vector_borrow"
  · subst h3; decide
  by_cases h4 : fn = "vector_return"
  · subst h4; decide
  by_cases h5 : fn = "rte_ether_addr_hash"
  · subst h5; decide
  by_cases h6 : fn = "packet_borrow_next_chunk"
  · subst h6; decide
  by_cases h7 : fn = "expire_items_single_map"
  · subst h7; decide
  by_cases h8 : fn = "packet_get_unread_length"
  · subst h8; decide
  by_cases h9 : fn = "packet_return_chunk"
  · subst h9; decide
  by_cases h10 : fn = "map_put"
  · subst h10; decide
  by_cases h11 : fn = "dchain_allocate_new_index"
  · subst h11; decide
  by_cases h12 : fn = "dchain_is_index_allocated"
  · subst h12; decide
  by_cases h13 : fn = "dchain_rejuvenate_index"
  · subst h13; decide
  have b : ∀ s : String, fn ≠ s → (fn == s) = false := fun s hs => by simpa using hs
  simp only [b _ h1, b _ h2, b _ h3, b _ h4, b _ h5, b _ h6, b _ h7, b _ h8, b _ h9, b _ h10,
    b _ h11, b _ h12, b _ h13, h1, h2, h3, h4, h5, h6, h7, h8, h9, h10, h11, h12, h13,
    or_self, if_false]


/-! ## Candidates: the cannot-reorder set and the future-branch check (C12, C13) -/

/-- A property of all candidates accepted by the checks of one round holds for all
candidates returned by the loop of `get_candidates`. -/
theorem get_candidates_loop_accepts (tb : Toolbox) (h : Heap) (fuel0 : Nat) (current : Ptr)
    (P : candidate_t → Prop)
    (hP : ∀ (candidate : candidate_t) (cn : Ptr) (viable : List candidate_t) (cfb : Bool)
      (c : candidate_t), candidate.node = some cn →
      candidate_checks tb h fuel0 current candidate cn viable cfb = .ok (some c) → P c) :
    ∀ (fuel : Nat) (queue viable : List candidate_t) (cfb : Bool) (cs : List candidate_t),
      get_candidates_loop tb h fuel0 current fuel queue viable cfb = .ok cs →
      (∀ c ∈ viable, P c) → ∀ c ∈ cs, P c := by
  intro fuel
  induction fuel with
  | zero => intro queue viable cfb cs hr; simp [get_candidates_loop] at hr
  | succ fuel ih =>
    intro queue viable cfb cs hr hv
    cases queue with
    | nil =>
      simp only [get_candidates_loop, Except.ok.injEq] at hr
      rw [← hr]
      exact hv
    | cons candidate rest =>
      simp only [get_candidates_loop] at hr
      cases hnode : candidate.node with
      | none => simp [hnode] at hr
      | some cn =>
        simp only [hnode] at hr
        split at hr
        · cases hr
        · exact ih _ _ _ _ hr hv
        · rename_i c hc
          refine ih _ _ _ _ hr ?_
          intro c1 hc1
          rcases List.mem_append.mp hc1 with h1 | h1
          · exact hv c1 h1
          · simp only [List.mem_singleton] at h1
            rw [h1]
            exact hP candidate cn viable _ c hnode hc

theorem get_candidates_accepts (tb : Toolbox) (h : Heap) (fuel : Nat) (current : Ptr)
    (P : candidate_t → Prop)
    (hP : ∀ (candidate : candidate_t) (cn : Ptr) (viable : List candidate_t) (cfb : Bool)
      (c : candidate_t), candidate.node = some cn →
      candidate_checks tb h fuel current candidate cn viable cfb = .ok (some c) → P c)
    (cs : List candidate_t) (hr : get_candidates tb h fuel current = .ok cs) :
    ∀ c ∈ cs, P c := by
  unfold get_candidates at hr
  cases hnx : (h.node current).next with
  | none =>
    simp only [hnx, Except.ok.injEq] at hr
    rw [← hr]
    intro c hc
    cases hc
  | some next =>
    simp only [hnx] at hr
    split at hr
    · simp only [Except.ok.injEq] at hr
      rw [← hr]
      intro c hc
      cases hc
    · split at hr
      · exact get_candidates_loop_accepts tb h fuel current P hP fuel _ _ _ cs hr
          (fun c hc => by cases hc)
      · exact get_candidates_loop_accepts tb h fuel current P hP fuel _ _ _ cs hr
          (fun c hc => by cases hc)

/-- A Call accepted by the checks of one round passed `fn_can_be_reordered`. -/
theorem candidate_checks_can_reorder (tb : Toolbox) (h : Heap) (fuel : Nat) (current_node : Ptr)
    (candidate : candidate_t) (cn : Ptr) (viable : List candidate_t) (cfb : Bool)
    (c : candidate_t) (hnode : candidate.node = some cn)
    (hr : candidate_checks tb h fuel current_node candidate cn viable cfb = .ok (some c)) :
    c.node = some cn ∧ ((h.node cn).type = NodeType.CALL →
      fn_can_be_reordered (h.node cn).call.function_name = true) := by
  unfold candidate_checks at hr
  simp only at hr
  split at hr
  · cases hr
  · split at hr
    · cases hr
    · cases hr
    · split at hr
      · cases hr
      · cases hr
      · rename_i candidate1 hc1
        have hc1facts : candidate1.node = some cn ∧ ((h.node cn).type = NodeType.CALL →
            fn_can_be_reordered (h.node cn).call.function_name = true) := by
          split at hc1
          · rename_i hcall
            split at hc1
            · cases hc1
            · rename_i hcan
              split at hc1
              · cases hc1
              · cases hc1
              · simp only [Except.ok.injEq, Option.some.injEq] at hc1
                rw [← hc1]
                refine ⟨hnode, fun _ => ?_⟩
                simpa using hcan
          · rename_i hcall
            simp only [Except.ok.injEq, Option.some.injEq] at hc1
            rw [← hc1]
            exact ⟨hnode, fun hc => absurd hc hcall⟩
        split at hr
        · cases hr
        · cases hr
        · simp only [Except.ok.injEq, Option.some.injEq] at hr
          rw [← hr]
          exact hc1facts

/-- C12: no candidate returned by `get_candidates(current)` is a Call whose function name is
`current_time`, `packet_return_chunk` or `nf_set_rte_ipv4_udptcp_checksum`. -/
theorem get_candidates_never_cannot_reorder (tb : Toolbox) (h : Heap) (fuel : Nat)
    (current : Ptr) (cs : List candidate_t) (c : candidate_t) (cn : Ptr)
    (hr : get_candidates tb h fuel current = .ok cs) (hc : c ∈ cs) (hn : c.node = some cn)
    (hcall : (h.node cn).type = NodeType.CALL) :
    (h.node cn).call.function_name ∉
      ["current_time", "packet_return_chunk", "nf_set_rte_ipv4_udptcp_checksum"] := by
  have key := get_candidates_accepts tb h fuel current
    (fun c => ∀ cn : Ptr, c.node = some cn → (h.node cn).type = NodeType.CALL →
      fn_can_be_reordered (h.node cn).call.function_name = true)
    (fun candidate cn1 viable cfb c1 hnode hchk cn2 hn2 hcall2 => by
      obtain ⟨e1, e2⟩ := candidate_checks_can_reorder tb h fuel current candidate cn1 viable
        cfb c1 hnode hchk
      rw [e1] at hn2
      have e : cn1 = cn2 := Option.some.inj hn2
      subst e
      exact e2 hcall2) cs hr c hc cn hn hcall
  unfold fn_can_be_reordered fn_cannot_reorder_lookup at key
  intro hmem
  have : (["current_time", "packet_return_chunk", "nf_set_rte_ipv4_udptcp_checksum"] :
      List String).contains (h.node cn).call.function_name = true :=
    by simpa using hmem
  rw [this] at key
  cases key


theorem max_path_head (h : Heap) (n : Ptr) (path : List Ptr) (hp : h.max_path n path) :
    ∃ t, path = n :: t := by
  cases hp with
  | stop _ _ => exact ⟨[], rfl⟩
  | step _ q rest _ _ => exact ⟨rest, rfl⟩

theorem first_match_in_cons (tb : Toolbox) (h : Heap) (target : Ptr) (S : List Nat) (n : Ptr)
    (path : List Ptr) (hn : ¬ sig_match tb h target n)
    (hp : first_match_in tb h target S path) : first_match_in tb h target S (n :: path) := by
  obtain ⟨pre, x, post, e, h1, h2, h3⟩ := hp
  refine ⟨n :: pre, x, post, by rw [e]; rfl, ?_, h2, h3⟩
  intro y hy
  rcases List.mem_cons.mp hy with e1 | e1
  · rw [e1]; exact hn
  · exact h1 y e1

theorem first_match_in_mono (tb : Toolbox) (h : Heap) (target : Ptr) (S S1 : List Nat)
    (path : List Ptr) (hS : ∀ i ∈ S, i ∈ S1) (hp : first_match_in tb h target S path) :
    first_match_in tb h target S1 path := by
  obtain ⟨pre, x, post, e, h1, h2, h3⟩ := hp
  exact ⟨pre, x, post, e, h1, h2, hS _ h3⟩

/-- When the work-list loop of `is_called_in_all_future_branches` returns true, every
maximal path from every node of the work list has a first match recorded in the siblings. -/
theorem future_branches_loop_true (tb : Toolbox) (h : Heap) (target : Ptr) :
    ∀ (fuel : Nat) (work : List (Option Ptr)) (sib sib1 : List Nat),
      future_branches_loop tb h target fuel work sib = .ok (true, sib1) →
      (∀ i ∈ sib, i ∈ sib1) ∧
      ∀ o ∈ work, ∃ n : Ptr, o = some n ∧
        ∀ path, h.max_path n path → first_match_in tb h target sib1 path := by
  intro fuel
  induction fuel with
  | zero => intro work sib sib1 hr; simp [future_branches_loop] at hr
  | succ fuel ih =>
    intro work sib sib1 hr
    cases work with
    | nil =>
      simp only [future_branches_loop, Except.ok.injEq, Prod.mk.injEq, true_and] at hr
      rw [← hr]
      exact ⟨fun i hi => hi, fun o ho => by cases ho⟩
    | cons o rest =>
      cases o with
      | none =>
        simp only [future_branches_loop, Except.ok.injEq, Prod.mk.injEq] at hr
        cases hr.1
      | some node =>
        simp only [future_branches_loop] at hr
        split at hr
        · rename_i hc
          obtain ⟨i1, i2⟩ := ih _ _ _ hr
          have hsub : ∀ i ∈ sib, i ∈ sib1 :=
            fun i hi => i1 i (List.mem_insert_iff.mpr (Or.inr hi))
          refine ⟨hsub, ?_⟩
          intro o ho
          rcases List.mem_cons.mp ho with e | e
          · refine ⟨node, e, ?_⟩
            intro path hp
            obtain ⟨t, et⟩ := max_path_head h node path hp
            exact ⟨[], node, t, by rw [et]; rfl, (fun y hy => by cases hy),
              Or.inl ⟨hc.1, hc.2.1, hc.2.2⟩,
              i1 _ (List.mem_insert_iff.mpr (Or.inl rfl))⟩
          · exact i2 o e
        · rename_i hnc
          split at hr
          · rename_i hc
            obtain ⟨i1, i2⟩ := ih _ _ _ hr
            have hsub : ∀ i ∈ sib, i ∈ sib1 :=
              fun i hi => i1 i (List.mem_insert_iff.mpr (Or.inr hi))
            refine ⟨hsub, ?_⟩
            intro o ho
            rcases List.mem_cons.mp ho with e | e
            · refine ⟨node, e, ?_⟩
              intro path hp
              obtain ⟨t, et⟩ := max_path_head h node path hp
              exact ⟨[], node, t, by rw [et]; rfl, (fun y hy => by cases hy),
                Or.inr ⟨hc.2.1, hc.2.2.1, hc.2.2.2⟩,
                i1 _ (List.mem_insert_iff.mpr (Or.inl rfl))⟩
            · exact i2 o e
          · rename_i hnb
            have hnm : ¬ sig_match tb h target node := by
              rintro (⟨a1, a2, a3⟩ | ⟨b1, b2, b3⟩)
              · exact hnc ⟨a1, a2, a3⟩
              · refine hnb ⟨?_, b1, b2, b3⟩
                rintro ⟨c1, _⟩
                rw [b1] at c1
                cases c1
            split at hr
            · rename_i hbr
              obtain ⟨i1, i2⟩ := ih _ _ _ hr
              refine ⟨i1, ?_⟩
              intro o ho
              rcases List.mem_cons.mp ho with e | e
              · refine ⟨node, e, ?_⟩
                obtain ⟨a, ea, pa⟩ := i2 (h.node node).next (by simp)
                obtain ⟨b, eb, pb⟩ := i2 (h.node node).on_false (by simp)
                intro path hp
                cases hp with
                | stop _ hs =>
                  exfalso
                  have : a ∈ h.succs node := (mem_succs h node a).mpr (Or.inl ea)
                  rw [hs] at this
                  cases this
                | step _ q t hq hpq =>
                  apply first_match_in_cons tb h target sib1 node t hnm
                  rcases (mem_succs h node q).mp hq with e1 | ⟨_, e1⟩
                  · rw [ea] at e1
                    have e2 : a = q := Option.some.inj e1
                    subst e2
                    exact pa t hpq
                  · rw [eb] at e1
                    have e2 : b = q := Option.some.inj e1
                    subst e2
                    exact pb t hpq
              · exact i2 o (List.mem_append.mpr (Or.inl e))
            · rename_i hbr
              obtain ⟨i1, i2⟩ := ih _ _ _ hr
              refine ⟨i1, ?_⟩
              intro o ho
              rcases List.mem_cons.mp ho with e | e
              · refine ⟨node, e, ?_⟩
                obtain ⟨a, ea, pa⟩ := i2 (h.node node).next (List.mem_cons_self _ _)
                intro path hp
                cases hp with
                | stop _ hs =>
                  exfalso
                  have : a ∈ h.succs node := (mem_succs h node a).mpr (Or.inl ea)
                  rw [hs] at this
                  cases this
                | step _ q t hq hpq =>
                  apply first_match_in_cons tb h target sib1 node t hnm
                  rcases (mem_succs h node q).mp hq with e1 | ⟨e0, _⟩
                  · rw [ea] at e1
                    have e2 : a = q := Option.some.inj e1
                    subst e2
                    exact pa t hpq
                  · exact absurd e0 hbr
              · exact i2 o (List.mem_cons_of_mem _ e)


theorem work_cost_append (ht : Ptr → Nat) (a b : List (Option Ptr)) :
    work_cost ht (a ++ b) = work_cost ht a + work_cost ht b := by
  induction a with
  | nil => simp [work_cost]
  | cons o rest ih =>
    cases o with
    | none =>
      show 1 + work_cost ht (rest ++ b) = 1 + work_cost ht rest + work_cost ht b
      rw [ih]; omega
    | some n =>
      show 3 ^ (ht n + 1) + work_cost ht (rest ++ b)
        = 3 ^ (ht n + 1) + work_cost ht rest + work_cost ht b
      rw [ih]; omega

theorem work_cost_succ_le (ht : Ptr → Nat) (o : Option Ptr) (b : Nat)
    (ho : ∀ q : Nat, o = some q → ht q < b) : work_cost ht [o] ≤ 3 ^ b := by
  cases o with
  | none =>
    simp only [work_cost]
    have : 0 < 3 ^ b := Nat.pow_pos (by omega)
    omega
  | some q =>
    simp only [work_cost, Nat.add_zero]
    exact Nat.pow_le_pow_right (by omega) (ho q rfl)

/-- On a graph without cycles the work-list loop of `is_called_in_all_future_branches`
returns, given a budget above the cost of the work list. -/
theorem future_branches_loop_total (tb : Toolbox) (h : Heap) (target : Ptr) (ht : Ptr → Nat)
    (hd : descending h ht) :
    ∀ (fuel : Nat) (work : List (Option Ptr)) (sib : List Nat), work_cost ht work < fuel →
      ∃ b sib1, future_branches_loop tb h target fuel work sib = .ok (b, sib1) := by
  intro fuel
  induction fuel with
  | zero => intro work sib hc; omega
  | succ fuel ih =>
    intro work sib hc
    cases work with
    | nil => exact ⟨true, sib, rfl⟩
    | cons o rest =>
      cases o with
      | none => exact ⟨false, sib, rfl⟩
      | some node =>
        simp only [work_cost] at hc
        have hpow : 3 ^ (ht node + 1) = 3 * 3 ^ ht node := by
          rw [Nat.pow_succ]; omega
        have hpos : 0 < 3 ^ ht node := Nat.pow_pos (by omega)
        simp only [future_branches_loop]
        split
        · exact ih _ _ (by omega)
        · split
          · exact ih _ _ (by omega)
          · split
            · rename_i hbr
              apply ih
              have h1 := work_cost_succ_le ht (h.node node).next (ht node) (fun q hq =>
                hd node q ((mem_succs h node q).mpr (Or.inl hq)))
              have h2 := work_cost_succ_le ht (h.node node).on_false (ht node) (fun q hq =>
                hd node q ((mem_succs h node q).mpr (Or.inr ⟨hbr, hq⟩)))
              have e : work_cost ht [(h.node node).next, (h.node node).on_false]
                  = work_cost ht [(h.node node).next]
                    + work_cost ht [(h.node node).on_false] :=
                work_cost_append ht [(h.node node).next] [(h.node node).on_false]
              rw [work_cost_append, e]
              omega
            · apply ih
              have h1 := work_cost_succ_le ht (h.node node).next (ht node) (fun q hq =>
                hd node q ((mem_succs h node q).mpr (Or.inl hq)))
              have e : work_cost ht ((h.node node).next :: rest)
                  = work_cost ht [(h.node node).next] + work_cost ht rest :=
                work_cost_append ht [(h.node node).next] rest
              rw [e]
              omega

/-- C13: if `is_called_in_all_future_branches(start, target, siblings)` returns true, every
maximal path from `start` to a terminal contains a node with the signature of the target,
and the first such node of the path has its id in the siblings returned; if some maximal
path from `start` has no such node, the function returns false (it returns, given enough
fuel, on every graph without cycles). -/
theorem is_called_in_all_future_branches_safe (tb : Toolbox) (h : Heap) (start target : Ptr)
    (siblings : List Nat) :
    (∀ (fuel : Nat) (siblings1 : List Nat),
      is_called_in_all_future_branches tb h fuel start target siblings = .ok (true, siblings1) →
      ∀ path, h.max_path start path → first_match_in tb h target siblings1 path) ∧
    (∀ ht : Ptr → Nat, descending h ht →
      (∃ path, h.max_path start path ∧ ∀ x ∈ path, ¬ sig_match tb h target x) →
      ∃ fuel0, ∀ fuel, fuel0 ≤ fuel → ∃ siblings1,
        is_called_in_all_future_branches tb h fuel start target siblings
          = .ok (false, siblings1)) := by
  have partA : ∀ (fuel : Nat) (siblings1 : List Nat),
      is_called_in_all_future_branches tb h fuel start target siblings = .ok (true, siblings1) →
      ∀ path, h.max_path start path → first_match_in tb h target siblings1 path := by
    intro fuel siblings1 hr path hp
    obtain ⟨_, h2⟩ := future_branches_loop_true tb h target fuel _ _ _ hr
    obtain ⟨n, e, hn⟩ := h2 (some start) (List.mem_singleton.mpr rfl)
    have e1 : start = n := Option.some.inj e
    subst e1
    exact hn path hp
  refine ⟨partA, ?_⟩
  intro ht hd hex
  refine ⟨work_cost ht [some start] + 1, ?_⟩
  intro fuel hfuel
  obtain ⟨b, sib1, hr⟩ := future_branches_loop_total tb h target ht hd fuel [some start]
    siblings (by omega)
  cases b with
  | false => exact ⟨sib1, hr⟩
  | true =>
    exfalso
    obtain ⟨path, hp, hno⟩ := hex
    obtain ⟨pre, x, post, e, _, hm, _⟩ := partA fuel sib1 hr path hp
    exact hno x (by rw [e]; simp) hm


/-- C12, witness: on `time_heap` the `current_time` call is passed over and the `map_put`
behind it is the one candidate. -/
theorem get_candidates_never_cannot_reorder_witness :
    get_candidates example_toolbox time_heap 20 0 = .ok [⟨some 3, [13], none, none⟩] ∧
    (time_heap.node 3).call.function_name ∉
      ["current_time", "packet_return_chunk", "nf_set_rte_ipv4_udptcp_checksum"] :=
  ⟨by decide,
    get_candidates_never_cannot_reorder example_toolbox time_heap 20 0
      [⟨some 3, [13], none, none⟩] ⟨some 3, [13], none, none⟩ 3 (by decide) (by decide) rfl
      (by decide)⟩

theorem descending_of_check (h : Heap) (ht : Ptr → Nat)
    (hc : ∀ p : Nat, p < h.length → ∀ q : Nat, q ∈ h.succs p → ht q < ht p) :
    descending h ht := by
  intro p q hq
  by_cases hp : p < h.length
  · exact hc p hp q hq
  · exfalso
    unfold Heap.succs at hq
    rw [node_ge h p (by omega)] at hq
    simp [default] at hq

/-- C13, witness: on `A → Br(c){ P1 → T1; P2 → T2 }` the check for `P1` from `A` returns
true and every maximal path from `A` meets `P1` or `P2` first; the check for `A` from the
Branch returns false, as the path through `P1` has no node equal to `A`. -/
theorem is_called_in_all_future_branches_safe_witness :
    (∀ path,
      Heap.max_path (branch_put_heap ⟨"map_get", [("map", value_arg 1)]⟩ [] (sym "c")
        [("map", value_arg 3)] [("map", value_arg 3)]) 0 path →
      first_match_in example_toolbox
        (branch_put_heap ⟨"map_get", [("map", value_arg 1)]⟩ [] (sym "c")
          [("map", value_arg 3)] [("map", value_arg 3)]) 2 [14, 12] path) ∧
    (∃ fuel0, ∀ fuel, fuel0 ≤ fuel → ∃ siblings1,
      is_called_in_all_future_branches example_toolbox
        (branch_put_heap ⟨"map_get", [("map", value_arg 1)]⟩ [] (sym "c")
          [("map", value_arg 3)] [("map", value_arg 3)]) fuel 1 0 []
        = .ok (false, siblings1)) :=
  ⟨(is_called_in_all_future_branches_safe example_toolbox
      (branch_put_heap ⟨"map_get", [("map", value_arg 1)]⟩ [] (sym "c")
        [("map", value_arg 3)] [("map", value_arg 3)]) 0 2 []).1 5 [14, 12] (by decide),
   (is_called_in_all_future_branches_safe example_toolbox
      (branch_put_heap ⟨"map_get", [("map", value_arg 1)]⟩ [] (sym "c")
        [("map", value_arg 3)] [("map", value_arg 3)]) 1 0 []).2 (fun x => 10 - x)
      (descending_of_check _ _ (by decide))
      ⟨[1, 2, 3], Heap.max_path.step 1 2 [2, 3] (by decide)
        (Heap.max_path.step 2 3 [3] (by decide) (Heap.max_path.stop 3 (by decide))),
        by decide⟩⟩


/-! ## End-to-end scenarios (C14, C15) -/

/-- C14, counterexample: on the straight line `A: map_get → B: dchain_is_index_allocated →
term`, with all arguments constant, `get_candidates(A)` returns no candidate. -/
theorem straight_line_no_candidate_counterexample :
    get_candidates example_toolbox
      (straight_line_heap ⟨"map_get", [("map", value_arg 1), ("key", value_arg 5)]⟩
        ⟨"dchain_is_index_allocated", [("dchain", value_arg 7), ("index", value_arg 1)]⟩ [])
      20 0 = .ok [] := by decide

/-- C14 (amended): on the straight line `A → B → term`, `get_candidates(A)` returns no
candidate, as the enumeration starts at the successor of the successor of `A`, the
terminal, which never passes the I/O check; with one more Call between `A` and `B`
(`A: map_get → X: map_get → B: dchain_is_index_allocated → term`, the I/O dependencies of
`B` being met at `A`), `get_candidates(A)` returns exactly the candidate `B`, without extra
condition, and `reorder_bdd` yields `A → B' → X → term` where `B'` is a clone of `B` and the
original `B` is spliced out. -/
theorem straight_line_swap (tb : Toolbox) (fuel : Nat) :
    (∀ (a b : call_t) (gen : List symbol_t),
      get_candidates tb (straight_line_heap a b gen) (fuel + 2) 0 = .ok []) ∧
    (∀ (m k1 m2 k2 d i : arg_t) (gen : List symbol_t),
      are_io_dependencies_met_node tb (straight_line3_heap m k1 m2 k2 d i gen) 0 2 = .ok true →
      get_candidates tb (straight_line3_heap m k1 m2 k2 d i gen) (fuel + 3) 0
        = .ok [⟨some 2, [12], none, none⟩] ∧
      reorder_bdd (fuel + 3) ⟨straight_line3_heap m k1 m2 k2 d i gen, 14, none, some 0⟩ 0
          ⟨some 2, [12], none, none⟩
        = .ok ⟨[mk_call 10 "map_get" [("map", m), ("key", k1)] [[]] gen none (some 4),
                mk_call 11 "map_get" [("map", m2), ("key", k2)] [[]] [] (some 4) (some 3),
                mk_call 12 "dchain_is_index_allocated" [("dchain", d), ("index", i)] [[]] []
                  (some 1) (some 3),
                mk_return 13 (some 1),
                mk_call 12 "dchain_is_index_allocated" [("dchain", d), ("index", i)] [[]] []
                  (some 0) (some 1)], 14, none, some 0⟩) := by
  constructor
  · intro a b gen
    have n0 : (straight_line_heap a b gen).node 0
        = mk_call 10 a.function_name a.args [[]] gen none (some 1) := rfl
    have n1 : (straight_line_heap a b gen).node 1
        = mk_call 11 b.function_name b.args [[]] [] (some 0) (some 2) := rfl
    have n2 : (straight_line_heap a b gen).node 2 = mk_return 12 (some 1) := rfl
    have hio2 : are_io_dependencies_met_node tb (straight_line_heap a b gen) 0 2 = .ok false := by
      simp [are_io_dependencies_met_node, are_io_dependencies_met, n2, mk_return]
    simp [get_candidates, get_candidates_loop, candidate_checks, n0, n1, n2, hio2, mk_call,
      mk_return, candidate_t.of_node]
  · intro m k1 m2 k2 d i gen hio
    have n0 : (straight_line3_heap m k1 m2 k2 d i gen).node 0
        = mk_call 10 "map_get" [("map", m), ("key", k1)] [[]] gen none (some 1) := rfl
    have n1 : (straight_line3_heap m k1 m2 k2 d i gen).node 1
        = mk_call 11 "map_get" [("map", m2), ("key", k2)] [[]] [] (some 0) (some 2) := rfl
    have n2 : (straight_line3_heap m k1 m2 k2 d i gen).node 2
        = mk_call 12 "dchain_is_index_allocated" [("dchain", d), ("index", i)] [[]] []
            (some 1) (some 3) := rfl
    have n3 : (straight_line3_heap m k1 m2 k2 d i gen).node 3 = mk_return 13 (some 2) := rfl
    have hl : (straight_line3_heap m k1 m2 k2 d i gen).length = 4 := rfl
    have hio3 : are_io_dependencies_met_node tb (straight_line3_heap m k1 m2 k2 d i gen) 0 3
        = .ok false := by
      simp [are_io_dependencies_met_node, are_io_dependencies_met, n3, mk_return]
    have hrw : are_rw_dependencies_met tb (straight_line3_heap m k1 m2 k2 d i gen) 0 2 none
        = .ok (true, none) := by
      simp [are_rw_dependencies_met, rw_hazard_loop, n0, n1, n2, hl, mk_call,
        map_can_reorder, dchain_can_reorder, vector_can_reorder, fn_has_side_effects,
        fn_has_side_effects_lookup, List.lookup]
    constructor
    · simp [get_candidates, get_candidates_loop, candidate_checks, n0, n1, n2, n3,
        hio, hio3, hrw, mk_call, mk_return, candidate_t.of_node,
        candidate_t.from_candidate, fn_can_be_reordered, fn_cannot_reorder_lookup]
    · simp [reorder_bdd, straight_line3_heap, Heap.clone, Heap.alloc, Heap.node,
        Heap.replace_next, Heap.replace_prev, dedup_loop, splice_successor, relink,
        mk_call, mk_return]

/-- C14, witness: the amended claim for constant arguments. -/
theorem straight_line_swap_witness :
    are_io_dependencies_met_node example_toolbox
      (straight_line3_heap (value_arg 1) (value_arg 5) (value_arg 2) (value_arg 6)
        (value_arg 7) (value_arg 1) []) 0 2 = .ok true ∧
    get_candidates example_toolbox
      (straight_line3_heap (value_arg 1) (value_arg 5) (value_arg 2) (value_arg 6)
        (value_arg 7) (value_arg 1) []) 3 0 = .ok [⟨some 2, [12], none, none⟩] :=
  ⟨by decide,
    (((straight_line_swap example_toolbox 0).2 (value_arg 1) (value_arg 5) (value_arg 2)
      (value_arg 6) (value_arg 7) (value_arg 1) []) (by decide)).1⟩

/-- C15: on `A → Br(c){ on_true: P1 → T1; on_false: P2 → T2 }` with `P1` and `P2` two equal
`map_put` calls, different from the call of `A`, whose I/O dependencies are met at `A`:
`is_called_in_all_future_branches(A, P1)` returns true with the siblings `P2`, `P1`;
`get_candidates(A)` returns the one candidate `P1`, under the path condition `c`, with these
siblings; `reorder_bdd` yields `A → P1' → Br(c){ on_true: T1; on_false: T2 }`, where `P1'`
is a clone of `P1` and both `P1` and `P2` are spliced out. -/
theorem branch_hoist_scenario (tb : Toolbox) (a : call_t) (gen : List symbol_t) (c : Expr)
    (args1 args2 : List (String × arg_t)) (fuel : Nat)
    (hne : tb.are_calls_equal a ⟨"map_put", args1⟩ = false)
    (heq1 : tb.are_calls_equal ⟨"map_put", args1⟩ ⟨"map_put", args1⟩ = true)
    (heq2 : tb.are_calls_equal ⟨"map_put", args2⟩ ⟨"map_put", args1⟩ = true)
    (hio : are_io_dependencies_met_node tb (branch_put_heap a gen c args1 args2) 0 2
      = .ok true) :
    is_called_in_all_future_branches tb (branch_put_heap a gen c args1 args2) (fuel + 5) 0 2 []
      = .ok (true, [14, 12]) ∧
    get_candidates tb (branch_put_heap a gen c args1 args2) (fuel + 5) 0
      = .ok [⟨some 2, [14, 12], none, some c⟩] ∧
    reorder_bdd (fuel + 4) ⟨branch_put_heap a gen c args1 args2, 16, none, some 0⟩ 0
        ⟨some 2, [14, 12], none, some c⟩
      = .ok ⟨[mk_call 10 a.function_name a.args [[]] gen none (some 6),
              mk_branch 11 c (some 6) (some 3) (some 5),
              mk_call 12 "map_put" args1 [[]] [] (some 1) (some 3),
              mk_return 13 (some 1),
              mk_call 14 "map_put" args2 [[]] [] (some 1) (some 5),
              mk_return 15 (some 1),
              mk_call 12 "map_put" args1 [[]] [] (some 0) (some 1)], 16, none, some 0⟩ := by
  have n0 : (branch_put_heap a gen c args1 args2).node 0
      = mk_call 10 a.function_name a.args [[]] gen none (some 1) := rfl
  have n1 : (branch_put_heap a gen c args1 args2).node 1
      = mk_branch 11 c (some 0) (some 2) (some 4) := rfl
  have n2 : (branch_put_heap a gen c args1 args2).node 2
      = mk_call 12 "map_put" args1 [[]] [] (some 1) (some 3) := rfl
  have n3 : (branch_put_heap a gen c args1 args2).node 3 = mk_return 13 (some 2) := rfl
  have n4 : (branch_put_heap a gen c args1 args2).node 4
      = mk_call 14 "map_put" args2 [[]] [] (some 1) (some 5) := rfl
  have n5 : (branch_put_heap a gen c args1 args2).node 5 = mk_return 15 (some 4) := rfl
  have hl : (branch_put_heap a gen c args1 args2).length = 6 := rfl
  have hio3 : are_io_dependencies_met_node tb (branch_put_heap a gen c args1 args2) 0 3
      = .ok false := by
    simp [are_io_dependencies_met_node, are_io_dependencies_met, n3, mk_return]
  have hio5 : are_io_dependencies_met_node tb (branch_put_heap a gen c args1 args2) 0 5
      = .ok false := by
    simp [are_io_dependencies_met_node, are_io_dependencies_met, n5, mk_return]
  have hrw : are_rw_dependencies_met tb (branch_put_heap a gen c args1 args2) 0 2 none
      = .ok (true, none) := by
    simp [are_rw_dependencies_met, rw_hazard_loop, n0, n1, n2, hl, mk_call, mk_branch,
      map_can_reorder, dchain_can_reorder, vector_can_reorder]
  have hfb : is_called_in_all_future_branches tb (branch_put_heap a gen c args1 args2)
      (fuel + 5) 0 2 [] = .ok (true, [14, 12]) := by
    simp [is_called_in_all_future_branches, future_branches_loop, n0, n1, n2, n4,
      mk_call, mk_branch, hne, heq1, heq2]
  refine ⟨hfb, ?_, ?_⟩
  · simp [get_candidates, get_candidates_loop, candidate_checks, n0, n1, n2, n3, n4, n5,
      hio, hio3, hio5, hrw, hfb, mk_call, mk_branch, mk_return, candidate_t.of_node_cond,
      candidate_t.from_candidate, candidate_t.from_candidate_cond, fn_can_be_reordered,
      fn_cannot_reorder_lookup, node_has_side_effects, fn_has_side_effects,
      fn_has_side_effects_lookup, List.lookup]
  · simp [reorder_bdd, branch_put_heap, Heap.clone, Heap.alloc, Heap.node, Heap.replace_next,
      Heap.replace_prev, Heap.replace_on_false, dedup_loop, dedup_side, splice_successor,
      relink, mk_call, mk_branch, mk_return]

/-- C15, witness: the scenario for two `map_put` calls with constant arguments below a
`map_get`. -/
theorem branch_hoist_scenario_witness :
    get_candidates example_toolbox
      (branch_put_heap ⟨"map_get", [("map", value_arg 1)]⟩ [] (sym "c")
        [("key", input_arg 101 (Expr.Constant 6 32)), ("map", value_arg 3),
          ("value", value_arg 8)]
        [("key", input_arg 101 (Expr.Constant 6 32)), ("map", value_arg 3),
          ("value", value_arg 8)]) 5 0
      = .ok [⟨some 2, [14, 12], none, some (sym "c")⟩] :=
  (branch_hoist_scenario example_toolbox ⟨"map_get", [("map", value_arg 1)]⟩ [] (sym "c")
    [("key", input_arg 101 (Expr.Constant 6 32)), ("map", value_arg 3), ("value", value_arg 8)]
    [("key", input_arg 101 (Expr.Constant 6 32)), ("map", value_arg 3), ("value", value_arg 8)]
    0 (by decide) (by decide) (by decide) (by decide)).2.1


/-! ## Replacing a node: `replace_node_in_bdd` (C16, C17, C18) -/

theorem reachable_trans (h : Heap) (a b c : Ptr) (h1 : h.reachable a b)
    (h2 : h.reachable b c) : h.reachable a c := by
  induction h2 with
  | refl => exact h1
  | step p q _ hq ih => exact Heap.reachable.step p q ih hq

theorem reachable_head (h : Heap) (n x : Ptr) (hr : h.reachable n x) :
    n = x ∨ ∃ q : Ptr, q ∈ h.succs n ∧ h.reachable q x := by
  induction hr with
  | refl => exact Or.inl rfl
  | step p q _ hq ih =>
    rcases ih with e | ⟨q1, h1, h2⟩
    · subst e
      exact Or.inr ⟨q, hq, Heap.reachable.refl⟩
    · exact Or.inr ⟨q1, h1, Heap.reachable.step p q h2 hq⟩

/-- A reachable node other than the root has a reachable parent, which its predecessor
link names. -/
theorem rooted_tree_parent (h : Heap) (r : Ptr) (ht : Ptr → Nat) (n : Ptr)
    (htree : rooted_tree h r ht) (hn : h.reachable r n) :
    (h.node n).prev = none ∧ n = r ∨
    ∃ p : Ptr, (h.node n).prev = some p ∧ h.reachable r p ∧ n ∈ h.succs p := by
  cases hn with
  | refl => exact Or.inl ⟨htree.root, rfl⟩
  | step p _ hp hq => exact Or.inr ⟨p, htree.back p n hp hq, hp, hq⟩

/-- The work-list loop of `replace_node_in_bdd` finds the node with the id of the target
when it lies below a node of the work list. -/
theorem replace_node_loop_found (bdd : BDD) (r : Ptr) (ht : Ptr → Nat) (target N : Ptr)
    (htree : rooted_tree bdd.nodes r ht) (hN : bdd.nodes.reachable r N) :
    ∀ (fuel : Nat) (work : List (Option Ptr)),
      (∀ o ∈ work, ∃ n : Ptr, o = some n ∧ bdd.nodes.reachable r n) →
      (∃ n : Ptr, some n ∈ work ∧ bdd.nodes.reachable n N) →
      work_cost ht work < fuel →
      replace_node_loop bdd target (bdd.nodes.node N).id fuel work
        = (.ok (), replaced_at bdd N target) := by
  intro fuel
  induction fuel with
  | zero => intro work _ _ hc; omega
  | succ fuel ih =>
    intro work hw hex hc
    cases work with
    | nil =>
      obtain ⟨n, hn, _⟩ := hex
      cases hn
    | cons o rest =>
      obtain ⟨node, e, hnode⟩ := hw o (List.mem_cons_self _ _)
      subst e
      have hrest : ∀ o ∈ rest, ∃ n : Ptr, o = some n ∧ bdd.nodes.reachable r n :=
        fun o ho => hw o (List.mem_cons_of_mem _ ho)
      simp only [work_cost] at hc
      have hpow : 3 ^ (ht node + 1) = 3 * 3 ^ ht node := by
        rw [Nat.pow_succ]; omega
      have hpos : 0 < 3 ^ ht node := Nat.pow_pos (by omega)
      simp only [replace_node_loop]
      by_cases hid : (bdd.nodes.node node).id = (bdd.nodes.node N).id
      · have e : node = N := htree.ids node N hnode hN hid
        subst e
        rw [if_pos rfl]
        unfold replaced_at
        rcases rooted_tree_parent bdd.nodes r ht node htree hN with ⟨h1, _⟩ | ⟨p, h1, h2, h3⟩
        · rw [h1]
        · rw [h1]
          simp only
          by_cases hb : (bdd.nodes.node p).type = NodeType.BRANCH
          · rw [if_pos hb]
            obtain ⟨s1, _⟩ := htree.shape p h2 hb
            cases hnx : (bdd.nodes.node p).next with
            | none => exact absurd hnx s1
            | some on_true =>
              simp only
              have hot : bdd.nodes.reachable r on_true :=
                Heap.reachable.step p on_true h2 ((mem_succs _ p on_true).mpr (Or.inl hnx))
              by_cases hi : (bdd.nodes.node on_true).id = (bdd.nodes.node node).id
              · have e : on_true = node := htree.ids on_true node hot hN hi
                subst e
                rw [if_pos hi, if_neg (by simp [hb])]
              · have hne : on_true ≠ node := fun e => hi (by rw [e])
                rw [if_neg hi, if_pos ⟨hb, by
                  intro e
                  exact hne (Option.some.inj e)⟩]
          · rw [if_neg hb, if_neg (fun hh => hb hh.1)]
      · rw [if_neg hid]
        have hne : node ≠ N := fun e => hid (by rw [e])
        -- the node of the work list below which `N` lies, after this round
        have hbelow : (∃ n : Ptr, some n ∈ rest ∧ bdd.nodes.reachable n N) ∨
            ∃ q : Ptr, q ∈ bdd.nodes.succs node ∧ bdd.nodes.reachable q N := by
          obtain ⟨n, hn, hnN⟩ := hex
          rcases List.mem_cons.mp hn with e | e
          · have e1 : n = node := Option.some.inj e
            subst e1
            rcases reachable_head _ n N hnN with e2 | h2
            · exact absurd e2 hne
            · exact Or.inr h2
          · exact Or.inl ⟨n, e, hnN⟩
        by_cases hb : (bdd.nodes.node node).type = NodeType.BRANCH
        · rw [if_pos hb]
          obtain ⟨s1, s2⟩ := htree.shape node hnode hb
          obtain ⟨a, ha⟩ := Option.ne_none_iff_exists'.mp s1
          obtain ⟨b, hbb⟩ := Option.ne_none_iff_exists'.mp s2
          have hma : a ∈ bdd.nodes.succs node := (mem_succs _ node a).mpr (Or.inl ha)
          have hmb : b ∈ bdd.nodes.succs node := (mem_succs _ node b).mpr (Or.inr ⟨hb, hbb⟩)
          rw [ha, hbb]
          apply ih
          · intro o ho
            rcases List.mem_append.mp ho with h1 | h1
            · exact hrest o h1
            · simp only [List.mem_cons, List.mem_singleton, List.not_mem_nil, or_false] at h1
              rcases h1 with h1 | h1
              · exact ⟨a, h1, Heap.reachable.step node a hnode hma⟩
              · exact ⟨b, h1, Heap.reachable.step node b hnode hmb⟩
          · rcases hbelow with ⟨n, h1, h2⟩ | ⟨q, h1, h2⟩
            · exact ⟨n, List.mem_append.mpr (Or.inl h1), h2⟩
            · refine ⟨q, List.mem_append.mpr (Or.inr ?_), h2⟩
              rcases (mem_succs _ node q).mp h1 with e | ⟨_, e⟩
              · rw [ha] at e; rw [e]; simp
              · rw [hbb] at e; rw [e]; simp
          · have e : work_cost ht (rest ++ [some a, some b])
                = work_cost ht rest + (3 ^ (ht a + 1) + (3 ^ (ht b + 1) + 0)) :=
              work_cost_append ht rest [some a, some b]
            have k1 : 3 ^ (ht a + 1) ≤ 3 ^ ht node :=
              Nat.pow_le_pow_right (by omega) (htree.desc node a hnode hma)
            have k2 : 3 ^ (ht b + 1) ≤ 3 ^ ht node :=
              Nat.pow_le_pow_right (by omega) (htree.desc node b hnode hmb)
            rw [e]
            omega
        · rw [if_neg hb]
          cases hnx : (bdd.nodes.node node).next with
          | none =>
            simp only
            apply ih _ hrest
            · rcases hbelow with h1 | ⟨q, h1, _⟩
              · exact h1
              · exfalso
                rcases (mem_succs _ node q).mp h1 with e | ⟨e, _⟩
                · rw [hnx] at e; cases e
                · exact hb e
            · omega
          | some q =>
            simp only
            have hmq : q ∈ bdd.nodes.succs node := (mem_succs _ node q).mpr (Or.inl hnx)
            apply ih
            · intro o ho
              rcases List.mem_append.mp ho with h1 | h1
              · exact hrest o h1
              · simp only [List.mem_singleton] at h1
                exact ⟨q, h1, Heap.reachable.step node q hnode hmq⟩
            · rcases hbelow with ⟨n, h1, h2⟩ | ⟨q1, h1, h2⟩
              · exact ⟨n, List.mem_append.mpr (Or.inl h1), h2⟩
              · refine ⟨q1, List.mem_append.mpr (Or.inr ?_), h2⟩
                rcases (mem_succs _ node q1).mp h1 with e | ⟨e, _⟩
                · rw [hnx] at e; rw [e]; simp
                · exact absurd e hb
            · have e : work_cost ht (rest ++ [some q])
                  = work_cost ht rest + (3 ^ (ht q + 1) + 0) :=
                work_cost_append ht rest [some q]
              have k1 : 3 ^ (ht q + 1) ≤ 3 ^ ht node :=
                Nat.pow_le_pow_right (by omega) (htree.desc node q hnode hmq)
              rw [e]
              omega


/-- The work-list loop of `replace_node_in_bdd` ends in the final assertion when no node
below the work list has the id of the target. -/
theorem replace_node_loop_absent (bdd : BDD) (r : Ptr) (ht : Ptr → Nat) (target : Ptr)
    (tid : Nat) (htree : rooted_tree bdd.nodes r ht)
    (hno : ∀ n : Ptr, bdd.nodes.reachable r n → (bdd.nodes.node n).id ≠ tid) :
    ∀ (fuel : Nat) (work : List (Option Ptr)),
      (∀ o ∈ work, ∃ n : Ptr, o = some n ∧ bdd.nodes.reachable r n) →
      work_cost ht work < fuel →
      replace_node_loop bdd target tid fuel work = (.error .assertion, bdd) := by
  intro fuel
  induction fuel with
  | zero => intro work _ hc; omega
  | succ fuel ih =>
    intro work hw hc
    cases work with
    | nil => rfl
    | cons o rest =>
      obtain ⟨node, e, hnode⟩ := hw o (List.mem_cons_self _ _)
      subst e
      have hrest : ∀ o ∈ rest, ∃ n : Ptr, o = some n ∧ bdd.nodes.reachable r n :=
        fun o ho => hw o (List.mem_cons_of_mem _ ho)
      simp only [work_cost] at hc
      have hpow : 3 ^ (ht node + 1) = 3 * 3 ^ ht node := by
        rw [Nat.pow_succ]; omega
      have hpos : 0 < 3 ^ ht node := Nat.pow_pos (by omega)
      simp only [replace_node_loop]
      rw [if_neg (hno node hnode)]
      by_cases hb : (bdd.nodes.node node).type = NodeType.BRANCH
      · rw [if_pos hb]
        obtain ⟨s1, s2⟩ := htree.shape node hnode hb
        obtain ⟨a, ha⟩ := Option.ne_none_iff_exists'.mp s1
        obtain ⟨b, hbb⟩ := Option.ne_none_iff_exists'.mp s2
        have hma : a ∈ bdd.nodes.succs node := (mem_succs _ node a).mpr (Or.inl ha)
        have hmb : b ∈ bdd.nodes.succs node := (mem_succs _ node b).mpr (Or.inr ⟨hb, hbb⟩)
        rw [ha, hbb]
        apply ih
        · intro o ho
          rcases List.mem_append.mp ho with h1 | h1
          · exact hrest o h1
          · simp only [List.mem_cons, List.mem_singleton, List.not_mem_nil, or_false] at h1
            rcases h1 with h1 | h1
            · exact ⟨a, h1, Heap.reachable.step node a hnode hma⟩
            · exact ⟨b, h1, Heap.reachable.step node b hnode hmb⟩
        · have e : work_cost ht (rest ++ [some a, some b])
              = work_cost ht rest + (3 ^ (ht a + 1) + (3 ^ (ht b + 1) + 0)) :=
            work_cost_append ht rest [some a, some b]
          have k1 : 3 ^ (ht a + 1) ≤ 3 ^ ht node :=
            Nat.pow_le_pow_right (by omega) (htree.desc node a hnode hma)
          have k2 : 3 ^ (ht b + 1) ≤ 3 ^ ht node :=
            Nat.pow_le_pow_right (by omega) (htree.desc node b hnode hmb)
          rw [e]
          omega
      · rw [if_neg hb]
        cases hnx : (bdd.nodes.node node).next with
        | none =>
          simp only
          exact ih _ hrest (by omega)
        | some q =>
          simp only
          have hmq : q ∈ bdd.nodes.succs node := (mem_succs _ node q).mpr (Or.inl hnx)
          apply ih
          · intro o ho
            rcases List.mem_append.mp ho with h1 | h1
            · exact hrest o h1
            · simp only [List.mem_singleton] at h1
              exact ⟨q, h1, Heap.reachable.step node q hnode hmq⟩
          · have e : work_cost ht (rest ++ [some q])
                = work_cost ht rest + (3 ^ (ht q + 1) + 0) :=
              work_cost_append ht rest [some q]
            have k1 : 3 ^ (ht q + 1) ≤ 3 ^ ht node :=
              Nat.pow_le_pow_right (by omega) (htree.desc node q hnode hmq)
            rw [e]
            omega

/-- The work-list loop of `replace_node_in_bdd` writes the decision graph only when it
succeeds. -/
theorem replace_node_loop_unchanged (bdd : BDD) (target : Ptr) (tid : Nat) :
    ∀ (fuel : Nat) (work : List (Option Ptr)),
      (replace_node_loop bdd target tid fuel work).1 ≠ .ok () →
      (replace_node_loop bdd target tid fuel work).2 = bdd := by
  intro fuel
  induction fuel with
  | zero => intro work _; rfl
  | succ fuel ih =>
    intro work
    cases work with
    | nil => intro _; rfl
    | cons o rest =>
      cases o with
      | none => intro _; rfl
      | some node =>
        simp only [replace_node_loop]
        split
        · split
          · intro hne; exact absurd rfl hne
          · split
            · split
              · intro _; rfl
              · split
                · intro hne; exact absurd rfl hne
                · intro hne; exact absurd rfl hne
            · intro hne; exact absurd rfl hne
        · split
          · exact ih _
          · split
            · exact ih _
            · exact ih _

theorem rooted_tree_of_checks (h : Heap) (r : Ptr) (ht : Ptr → Nat) (S : List Nat)
    (hr : r ∈ S) (hclosed : ∀ p ∈ S, ∀ q ∈ h.succs p, q ∈ S)
    (h1 : ∀ p ∈ S, ∀ q ∈ h.succs p, ht q < ht p ∧ (h.node q).prev = some p)
    (h2 : ∀ p ∈ S, (h.node p).type = NodeType.BRANCH →
      (h.node p).next ≠ none ∧ (h.node p).on_false ≠ none)
    (h3 : ∀ p ∈ S, ∀ q ∈ S, (h.node p).id = (h.node q).id → p = q)
    (h4 : ∀ p ∈ S, p < h.length) (h5 : (h.node r).prev = none) :
    rooted_tree h r ht := by
  have hS : ∀ p : Ptr, h.reachable r p → p ∈ S := by
    intro p hp
    induction hp with
    | refl => exact hr
    | step p q _ hq ih => exact hclosed p ih q hq
  exact ⟨fun p q hp hq => (h1 p (hS p hp) q hq).1, fun p q hp hq => (h1 p (hS p hp) q hq).2,
    fun p hp => h2 p (hS p hp), fun p q hp hq => h3 p (hS p hp) q (hS q hq),
    fun p hp => h4 p (hS p hp), h5⟩


theorem set_node_self (h : Heap) (p : Nat) (hp : p < h.length) : h.set p (h.node p) = h := by
  apply List.ext_getElem
  · simp
  · intro i h1 h2
    by_cases hi : p = i
    · subst hi
      simp [Heap.node, List.getD_eq_getElem?_getD, List.getElem?_eq_getElem hp]
    · simp [List.getElem_set_ne hi]

theorem replaced_at_self (bdd : BDD) (r : Ptr) (ht : Ptr → Nat) (X : Ptr)
    (hroot : bdd.process = some r) (htree : rooted_tree bdd.nodes r ht)
    (hX : bdd.nodes.reachable r X) : replaced_at bdd X X = bdd := by
  unfold replaced_at
  rcases rooted_tree_parent bdd.nodes r ht X htree hX with ⟨h1, h2⟩ | ⟨p, h1, h2, h3⟩
  · rw [h1, h2]
    simp only
    rw [← hroot]
  · rw [h1]
    simp only
    have hp := htree.inb p h2
    by_cases hc : (bdd.nodes.node p).type = NodeType.BRANCH ∧ (bdd.nodes.node p).next ≠ some X
    · rw [if_pos hc]
      have hof : (bdd.nodes.node p).on_false = some X := by
        rcases (mem_succs _ p X).mp h3 with e | ⟨_, e⟩
        · exact absurd e hc.2
        · exact e
      have e : bdd.nodes.replace_on_false p (some X) = bdd.nodes := by
        unfold Heap.replace_on_false
        rw [← hof]
        exact set_node_self bdd.nodes p hp
      rw [e]
    · rw [if_neg hc]
      have hnx : (bdd.nodes.node p).next = some X := by
        rcases (mem_succs _ p X).mp h3 with e | ⟨e1, e2⟩
        · exact e
        · by_contra hne
          exact hc ⟨e1, hne⟩
      have e : bdd.nodes.replace_next p (some X) = bdd.nodes := by
        unfold Heap.replace_next
        rw [← hnx]
        exact set_node_self bdd.nodes p hp
      rw [e]

/-- C16: on a decision graph that satisfies the invariants of the data model below its
process root (ids pairwise distinct, every predecessor link matched by the forward link, no
cycle), for every node `X` reachable from the process root, `replace_node_in_bdd(X)` returns
(given enough fuel) and leaves the decision graph as it was: same process root, same links
at every node. -/
theorem replace_node_in_bdd_idempotent (bdd : BDD) (ht : Ptr → Nat) (r X : Ptr)
    (hroot : bdd.process = some r) (htree : rooted_tree bdd.nodes r ht)
    (hX : bdd.nodes.reachable r X) :
    ∃ fuel0, ∀ fuel, fuel0 ≤ fuel → replace_node_in_bdd fuel bdd (some X) = (.ok (), bdd) := by
  refine ⟨work_cost ht [some r] + 1, ?_⟩
  intro fuel hfuel
  unfold replace_node_in_bdd
  simp only
  rw [hroot, replace_node_loop_found bdd r ht X X htree hX fuel [some r]
    (fun o ho => ⟨r, List.mem_singleton.mp ho, Heap.reachable.refl⟩)
    ⟨r, List.mem_singleton.mpr rfl, hX⟩ (by omega),
    replaced_at_self bdd r ht X hroot htree hX]

/-- C17: when a node `N` with the id of `target` is reachable from the process root (of a
decision graph that satisfies the invariants of the data model below its root),
`replace_node_in_bdd(target)` returns (given enough fuel) and changes exactly one link: the
process root becomes `target` if `N` has no predecessor; otherwise, if the predecessor of
`N` is a Branch, the side that held `N` holds `target` and the other side is unchanged;
otherwise the `next` link of the predecessor, which held `N`, holds `target`; every other
node is unchanged. -/
theorem replace_node_in_bdd_one_link (bdd : BDD) (ht : Ptr → Nat) (r target N : Ptr)
    (hroot : bdd.process = some r) (htree : rooted_tree bdd.nodes r ht)
    (hN : bdd.nodes.reachable r N)
    (hid : (bdd.nodes.node N).id = (bdd.nodes.node target).id) :
    ∃ bdd1 : BDD,
      (∃ fuel0, ∀ fuel, fuel0 ≤ fuel →
        replace_node_in_bdd fuel bdd (some target) = (.ok (), bdd1)) ∧
      ((bdd.nodes.node N).prev = none →
        bdd1.process = some target ∧ bdd1.nodes = bdd.nodes) ∧
      (∀ P : Ptr, (bdd.nodes.node N).prev = some P →
        bdd1.process = bdd.process ∧ bdd1.nodes.length = bdd.nodes.length ∧
        (∀ x : Ptr, x ≠ P → bdd1.nodes.node x = bdd.nodes.node x) ∧
        ((bdd.nodes.node P).type = NodeType.BRANCH →
          ((bdd.nodes.node P).next = some N ∧
            bdd1.nodes.node P = { bdd.nodes.node P with next := some target }) ∨
          ((bdd.nodes.node P).next ≠ some N ∧ (bdd.nodes.node P).on_false = some N ∧
            bdd1.nodes.node P = { bdd.nodes.node P with on_false := some target })) ∧
        ((bdd.nodes.node P).type ≠ NodeType.BRANCH →
          (bdd.nodes.node P).next = some N ∧
            bdd1.nodes.node P = { bdd.nodes.node P with next := some target })) := by
  refine ⟨replaced_at bdd N target, ⟨work_cost ht [some r] + 1, ?_⟩, ?_, ?_⟩
  · intro fuel hfuel
    unfold replace_node_in_bdd
    simp only
    rw [hroot, ← hid]
    exact replace_node_loop_found bdd r ht target N htree hN fuel [some r]
      (fun o ho => ⟨r, List.mem_singleton.mp ho, Heap.reachable.refl⟩)
      ⟨r, List.mem_singleton.mpr rfl, hN⟩ (by omega)
  · intro hprev
    unfold replaced_at
    rw [hprev]
    exact ⟨rfl, rfl⟩
  · intro P hprev
    have hpar : bdd.nodes.reachable r P ∧ N ∈ bdd.nodes.succs P := by
      rcases rooted_tree_parent bdd.nodes r ht N htree hN with ⟨h1, _⟩ | ⟨p, h1, h2, h3⟩
      · rw [hprev] at h1; cases h1
      · rw [hprev] at h1
        have e : P = p := Option.some.inj h1
        subst e
        exact ⟨h2, h3⟩
    have hP := htree.inb P hpar.1
    unfold replaced_at
    rw [hprev]
    simp only
    by_cases hc : (bdd.nodes.node P).type = NodeType.BRANCH ∧ (bdd.nodes.node P).next ≠ some N
    · rw [if_pos hc]
      have hof : (bdd.nodes.node P).on_false = some N := by
        rcases (mem_succs _ P N).mp hpar.2 with e | ⟨_, e⟩
        · exact absurd e hc.2
        · exact e
      refine ⟨rfl, by simp, ?_, ?_, ?_⟩
      · intro x hx
        show (bdd.nodes.replace_on_false P (some target)).node x = bdd.nodes.node x
        rw [replace_on_false_node _ _ _ _ hP, if_neg hx]
      · intro _
        right
        refine ⟨hc.2, hof, ?_⟩
        show (bdd.nodes.replace_on_false P (some target)).node P = _
        rw [replace_on_false_node _ _ _ _ hP, if_pos rfl]
      · intro hnb
        exact absurd hc.1 hnb
    · rw [if_neg hc]
      have hnx : (bdd.nodes.node P).next = some N := by
        rcases (mem_succs _ P N).mp hpar.2 with e | ⟨e1, e2⟩
        · exact e
        · by_contra hne
          exact hc ⟨e1, hne⟩
      refine ⟨rfl, by simp, ?_, ?_, ?_⟩
      · intro x hx
        show (bdd.nodes.replace_next P (some target)).node x = bdd.nodes.node x
        rw [replace_next_node _ _ _ _ hP, if_neg hx]
      · intro _
        left
        refine ⟨hnx, ?_⟩
        show (bdd.nodes.replace_next P (some target)).node P = _
        rw [replace_next_node _ _ _ _ hP, if_pos rfl]
      · intro _
        refine ⟨hnx, ?_⟩
        show (bdd.nodes.replace_next P (some target)).node P = _
        rw [replace_next_node _ _ _ _ hP, if_pos rfl]

/-- C18: on a decision graph that satisfies the invariants of the data model below its
process root, `replace_node_in_bdd(target)` ends (given enough fuel) in a success or in an
assertion failure, and it fails if and only if no node reachable from the process root has
the id of `target`; whenever it does not succeed the decision graph is unchanged. -/
theorem replace_node_in_bdd_fails_iff (bdd : BDD) (ht : Ptr → Nat) (target : Ptr)
    (htree : ∀ r : Ptr, bdd.process = some r → rooted_tree bdd.nodes r ht) :
    (∀ fuel, (replace_node_in_bdd fuel bdd (some target)).1 ≠ .ok () →
      (replace_node_in_bdd fuel bdd (some target)).2 = bdd) ∧
    ∃ fuel0, ∀ fuel, fuel0 ≤ fuel →
      ((replace_node_in_bdd fuel bdd (some target)).1 = .ok () ∨
        (replace_node_in_bdd fuel bdd (some target)).1 = .error .assertion) ∧
      ((replace_node_in_bdd fuel bdd (some target)).1 = .error .assertion ↔
        ¬ ∃ N : Ptr, in_graph bdd N ∧ (bdd.nodes.node N).id = (bdd.nodes.node target).id) := by
  constructor
  · intro fuel
    exact replace_node_loop_unchanged bdd target _ fuel _
  · cases hroot : bdd.process with
    | none =>
      refine ⟨1, ?_⟩
      intro fuel hfuel
      obtain ⟨f, rfl⟩ : ∃ f, fuel = f + 1 := ⟨fuel - 1, by omega⟩
      have e : replace_node_in_bdd (f + 1) bdd (some target) = (.error .assertion, bdd) := by
        unfold replace_node_in_bdd
        simp only [hroot]
        rfl
      rw [e]
      refine ⟨Or.inr rfl, fun _ => ?_, fun _ => rfl⟩
      rintro ⟨N, ⟨r, hr, _⟩, _⟩
      rw [hroot] at hr
      cases hr
    | some r =>
      have ht1 := htree r hroot
      refine ⟨work_cost ht [some r] + 1, ?_⟩
      intro fuel hfuel
      have hw : ∀ o ∈ [some r], ∃ n : Ptr, o = some n ∧ bdd.nodes.reachable r n :=
        fun o ho => ⟨r, List.mem_singleton.mp ho, Heap.reachable.refl⟩
      by_cases hex : ∃ N : Ptr, in_graph bdd N ∧
          (bdd.nodes.node N).id = (bdd.nodes.node target).id
      · obtain ⟨N, ⟨r1, hr1, hN⟩, hid⟩ := hex
        rw [hroot] at hr1
        have e1 : r = r1 := Option.some.inj hr1
        subst e1
        have e : replace_node_in_bdd fuel bdd (some target)
            = (.ok (), replaced_at bdd N target) := by
          unfold replace_node_in_bdd
          simp only
          rw [hroot, ← hid]
          exact replace_node_loop_found bdd r ht target N ht1 hN fuel [some r] hw
            ⟨r, List.mem_singleton.mpr rfl, hN⟩ (by omega)
        rw [e]
        refine ⟨Or.inl rfl, (fun h => by cases h), fun h => ?_⟩
        exact absurd ⟨N, ⟨r, hroot, hN⟩, hid⟩ h
      · have e : replace_node_in_bdd fuel bdd (some target) = (.error .assertion, bdd) := by
          unfold replace_node_in_bdd
          simp only
          rw [hroot]
          exact replace_node_loop_absent bdd r ht target _ ht1
            (fun n hn hid => hex ⟨n, ⟨r, hroot, hn⟩, hid⟩) fuel [some r] hw (by omega)
        rw [e]
        exact ⟨Or.inr rfl, fun _ => hex, fun _ => rfl⟩


theorem swap_heap_rooted : rooted_tree swap_heap 0 (fun x => 10 - x) :=
  rooted_tree_of_checks _ _ _ [0, 1, 2, 3] (by decide) (by decide) (by decide) (by decide)
    (by decide) (by decide) (by decide)

theorem replace_heap_rooted : rooted_tree replace_heap 0 (fun x => 10 - x) :=
  rooted_tree_of_checks _ _ _ [0, 1, 2, 3] (by decide) (by decide) (by decide) (by decide)
    (by decide) (by decide) (by decide)

theorem stranger_heap_rooted : rooted_tree stranger_heap 0 (fun x => 10 - x) :=
  rooted_tree_of_checks _ _ _ [0, 1, 2, 3] (by decide) (by decide) (by decide) (by decide)
    (by decide) (by decide) (by decide)

/-- C16, witness: replacing the second `map_put` of `swap_heap` with itself. -/
theorem replace_node_in_bdd_idempotent_witness :
    ∃ fuel0, ∀ fuel, fuel0 ≤ fuel →
      replace_node_in_bdd fuel ⟨swap_heap, 14, none, some 0⟩ (some 2)
        = (.ok (), ⟨swap_heap, 14, none, some 0⟩) :=
  replace_node_in_bdd_idempotent ⟨swap_heap, 14, none, some 0⟩ (fun x => 10 - x) 0 2 rfl
    swap_heap_rooted
    (Heap.reachable.step 1 2 (Heap.reachable.step 0 1 Heap.reachable.refl (by decide))
      (by decide))

/-- C17, witness: replacing the second `map_put` of `replace_heap` (node 2, whose
predecessor is the Call at node 1) with the new node 4 of the same id. -/
theorem replace_node_in_bdd_one_link_witness :
    ∃ bdd1 : BDD,
      (∃ fuel0, ∀ fuel, fuel0 ≤ fuel →
        replace_node_in_bdd fuel ⟨replace_heap, 14, none, some 0⟩ (some 4) = (.ok (), bdd1)) ∧
      ((replace_heap.node 2).prev = none →
        bdd1.process = some 4 ∧ bdd1.nodes = replace_heap) ∧
      (∀ P : Ptr, (replace_heap.node 2).prev = some P →
        bdd1.process = some 0 ∧ bdd1.nodes.length = replace_heap.length ∧
        (∀ x : Ptr, x ≠ P → bdd1.nodes.node x = replace_heap.node x) ∧
        ((replace_heap.node P).type = NodeType.BRANCH →
          ((replace_heap.node P).next = some 2 ∧
            bdd1.nodes.node P = { replace_heap.node P with next := some 4 }) ∨
          ((replace_heap.node P).next ≠ some 2 ∧ (replace_heap.node P).on_false = some 2 ∧
            bdd1.nodes.node P = { replace_heap.node P with on_false := some 4 })) ∧
        ((replace_heap.node P).type ≠ NodeType.BRANCH →
          (replace_heap.node P).next = some 2 ∧
            bdd1.nodes.node P = { replace_heap.node P with next := some 4 })) :=
  replace_node_in_bdd_one_link ⟨replace_heap, 14, none, some 0⟩ (fun x => 10 - x) 0 4 2 rfl
    replace_heap_rooted
    (Heap.reachable.step 1 2 (Heap.reachable.step 0 1 Heap.reachable.refl (by decide))
      (by decide))
    (by decide)

/-- C18, witness: the id 99 of node 4 of `stranger_heap` is the id of no node of the graph,
so the replacement ends in the assertion. -/
theorem replace_node_in_bdd_fails_iff_witness :
    (∀ fuel, (replace_node_in_bdd fuel ⟨stranger_heap, 100, none, some 0⟩ (some 4)).1 ≠ .ok () →
      (replace_node_in_bdd fuel ⟨stranger_heap, 100, none, some 0⟩ (some 4)).2
        = ⟨stranger_heap, 100, none, some 0⟩) ∧
    ∃ fuel0, ∀ fuel, fuel0 ≤ fuel →
      ((replace_node_in_bdd fuel ⟨stranger_heap, 100, none, some 0⟩ (some 4)).1 = .ok () ∨
        (replace_node_in_bdd fuel ⟨stranger_heap, 100, none, some 0⟩ (some 4)).1
          = .error .assertion) ∧
      ((replace_node_in_bdd fuel ⟨stranger_heap, 100, none, some 0⟩ (some 4)).1
          = .error .assertion ↔
        ¬ ∃ N : Ptr, in_graph ⟨stranger_heap, 100, none, some 0⟩ N ∧
          (stranger_heap.node N).id = (stranger_heap.node 4).id) :=
  replace_node_in_bdd_fails_iff ⟨stranger_heap, 100, none, some 0⟩ (fun x => 10 - x) 4
    (fun r hr => by
      have e : 0 = r := Option.some.inj hr
      subst e
      exact stranger_heap_rooted)


/-! ## Plans: `get_reordered` and `Module::process_node` (C19, C20) -/

theorem find_id_first (id : Nat) : ∀ (h : Heap) (i k : Nat), k < h.length →
    (h.node k).id = id → (∀ j : Nat, j < k → (h.node j).id ≠ id) →
    find_id id h i = some (i + k) := by
  intro h
  induction h with
  | nil => intro i k hk; simp at hk
  | cons n rest ih =>
    intro i k hk hid hfirst
    cases k with
    | zero =>
      have e : n.id = id := hid
      simp [find_id, e]
    | succ k =>
      have h0 : n.id ≠ id := hfirst 0 (by omega)
      have hk1 : k < rest.length := by simpa using hk
      have e := ih (i + 1) k hk1 hid (fun j hj => hfirst (j + 1) (by omega))
      simp only [find_id, if_neg h0, e]
      congr 1
      omega

/-- On a store with pairwise distinct ids `get_node_by_id` returns the node itself. -/
theorem get_node_by_id_self (bdd : BDD) (ht : Ptr → Nat) (hwf : well_formed bdd ht) (p : Nat)
    (hp : p < bdd.nodes.length) :
    bdd.get_node_by_id (bdd.nodes.node p).id = .ok p := by
  unfold BDD.get_node_by_id
  rw [find_id_first _ bdd.nodes 0 p hp rfl (fun j hj e => by
    have := hwf.ids j p (by omega) hp e
    omega)]
  simp

/-- The plan built by `get_reordered` for one candidate. -/
theorem reordered_variant_total (ep : ExecutionPlan) (ht : Ptr → Nat) (current : Nat)
    (c : candidate_t) (old_next : Ptr) (hwf : well_formed ep.bdd ht)
    (hcur : current < ep.bdd.nodes.length) (hg : good_candidate ep.bdd.nodes c)
    (hnext : (ep.bdd.nodes.node current).next = some old_next) :
    ∃ fuel0, ∀ fuel, fuel0 ≤ fuel →
      ∃ v, reordered_variant fuel ep current c = .ok v ∧ variant_of fuel ep current c v := by
  obtain ⟨cn, hcn, hcl, _, _⟩ := id hg
  obtain ⟨fuel0, hrun⟩ := reorder_bdd_total ep.bdd ht current cn old_next c hwf hcur hg hcn hnext
  refine ⟨fuel0, ?_⟩
  intro fuel hfuel
  obtain ⟨bdd1, hre, _⟩ := hrun fuel hfuel
  obtain ⟨cnode, sib, extra, cond⟩ := c
  have e0 : cnode = some cn := hcn
  subst e0
  cases cond with
  | none =>
    refine ⟨(({ ep with bdd := bdd1 } : ExecutionPlan).replace_active_leaf_node
      (bdd1.nodes.node current).next).inc_reordered_nodes, ?_, ?_⟩
    · unfold reordered_variant
      simp only [get_node_by_id_self ep.bdd ht hwf current hcur,
        get_node_by_id_self ep.bdd ht hwf cn hcl, hre]
    · refine ⟨rfl, hre, ?_, fun _ => rfl, rfl, rfl⟩
      intro cn1 e _ he
      cases he
  | some e =>
    refine ⟨(({ ep.memorize (ep.bdd.nodes.node cn).id e with bdd := bdd1 } :
      ExecutionPlan).replace_active_leaf_node
      (bdd1.nodes.node current).next).inc_reordered_nodes, ?_, ?_⟩
    · unfold reordered_variant
      simp only [get_node_by_id_self ep.bdd ht hwf current hcur,
        get_node_by_id_self ep.bdd ht hwf cn hcl, ExecutionPlan.memorize, hre]
    · refine ⟨rfl, hre, ?_, (fun h => by cases h), rfl, rfl⟩
      intro cn1 e1 h1 h2
      have e2 : cn = cn1 := Option.some.inj h1
      have e3 : e = e1 := Option.some.inj h2
      subst e2 e3
      refine ⟨rfl, ?_⟩
      show List.lookup _ (((ep.bdd.nodes.node cn).id, e) :: ep.memo) = some e
      simp [List.lookup]

/-- The plans built by `get_reordered` for a list of well-formed candidates. -/
theorem reordered_variants_total (ep : ExecutionPlan) (ht : Ptr → Nat) (current : Nat)
    (old_next : Ptr) (hwf : well_formed ep.bdd ht) (hcur : current < ep.bdd.nodes.length)
    (hnext : (ep.bdd.nodes.node current).next = some old_next) :
    ∀ cs : List candidate_t, (∀ c ∈ cs, good_candidate ep.bdd.nodes c) →
      ∃ fuel0, ∀ fuel, fuel0 ≤ fuel →
        ∃ plans, reordered_variants fuel ep current cs = .ok plans ∧
          List.Forall₂ (variant_of fuel ep current) cs plans := by
  intro cs
  induction cs with
  | nil =>
    intro _
    exact ⟨0, fun fuel _ => ⟨[], rfl, List.Forall₂.nil⟩⟩
  | cons c rest ih =>
    intro hg
    obtain ⟨f1, h1⟩ := reordered_variant_total ep ht current c old_next hwf hcur
      (hg c (List.mem_cons_self _ _)) hnext
    obtain ⟨f2, h2⟩ := ih (fun c hc => hg c (List.mem_cons_of_mem _ hc))
    refine ⟨f1 + f2, ?_⟩
    intro fuel hfuel
    obtain ⟨v, hv, pv⟩ := h1 fuel (by omega)
    obtain ⟨vs, hvs, pvs⟩ := h2 fuel (by omega)
    refine ⟨v :: vs, ?_, List.Forall₂.cons pv pvs⟩
    simp only [reordered_variants, hv, hvs]


/-- C19: `get_reordered(p)` returns the empty list whenever `p.reordered_nodes >= 0`, `p` has
no next node, or the predecessor of the next node is absent or a Branch; otherwise, on a
well-formed decision graph on which `get_candidates(current)` returns the candidates `cs`,
it returns (given enough fuel) exactly one plan per candidate, in the order of the
candidates, each with `reordered_nodes = p.reordered_nodes + 1`, with the decision graph
rewritten by `reorder_bdd` for the candidate and with the path condition of the candidate,
if any, memoized under the id of the candidate node. -/
theorem get_reordered_spec (tb : Toolbox) (fuelc : Nat) (ep : ExecutionPlan) :
    (∀ fuel : Nat, (0 ≤ ep.reordered_nodes ∨ ep.next_node = none ∨
        ∃ n : Ptr, ep.next_node = some n ∧ ((ep.bdd.nodes.node n).prev = none ∨
          ∃ cur : Ptr, (ep.bdd.nodes.node n).prev = some cur ∧
            (ep.bdd.nodes.node cur).type = NodeType.BRANCH)) →
      get_reordered tb fuelc fuel ep = .ok []) ∧
    (∀ (ht : Ptr → Nat) (n cur : Ptr) (cs : List candidate_t), well_formed ep.bdd ht →
      ep.reordered_nodes < 0 → ep.next_node = some n →
      (ep.bdd.nodes.node n).prev = some cur →
      (ep.bdd.nodes.node cur).type ≠ NodeType.BRANCH →
      get_candidates tb ep.bdd.nodes fuelc cur = .ok cs →
      ∃ fuel0, ∀ fuel, fuel0 ≤ fuel →
        ∃ plans, get_reordered tb fuelc fuel ep = .ok plans ∧
          List.Forall₂ (variant_of fuel ep cur) cs plans) := by
  constructor
  · intro fuel hcase
    unfold get_reordered
    by_cases h0 : ep.reordered_nodes ≥ 0
    · rw [if_pos h0]
    · rw [if_neg h0]
      rcases hcase with h1 | h1 | ⟨n, h1, h2⟩
      · exact absurd h1 h0
      · rw [h1]
      · rw [h1]
        simp only
        rcases h2 with h2 | ⟨cur, h2, h3⟩
        · rw [h2]
        · rw [h2]
          simp only
          rw [if_pos h3]
  · intro ht n cur cs hwf hneg hn hprev hnb hcs
    have h0 : ¬ ep.reordered_nodes ≥ 0 := by omega
    have hunf : ∀ fuel, get_reordered tb fuelc fuel ep = reordered_variants fuel ep cur cs := by
      intro fuel
      unfold get_reordered
      rw [if_neg h0, hn]
      simp only
      rw [hprev]
      simp only
      rw [if_neg hnb, hcs]
    cases cs with
    | nil =>
      refine ⟨0, fun fuel _ => ⟨[], ?_, List.Forall₂.nil⟩⟩
      rw [hunf]
      rfl
    | cons c rest =>
      obtain ⟨_, old_next, hnext⟩ := get_candidates_good tb ep.bdd.nodes fuelc cur _ c hcs
        (List.mem_cons_self _ _)
      have hcur : cur < ep.bdd.nodes.length :=
        current_lt_of_next ep.bdd.nodes cur old_next hnext
      obtain ⟨fuel0, hrun⟩ := reordered_variants_total ep ht cur old_next hwf hcur hnext
        (c :: rest) (fun c1 hc1 => (get_candidates_good tb ep.bdd.nodes fuelc cur _ c1 hcs hc1).1)
      refine ⟨fuel0, fun fuel hfuel => ?_⟩
      obtain ⟨plans, h1, h2⟩ := hrun fuel hfuel
      exact ⟨plans, by rw [hunf]; exact h1, h2⟩

/-- The plans of `get_reordered` for every plan of a list. -/
theorem reordered_of_all_spec (tb : Toolbox) (fuelc fuel : Nat) :
    ∀ (eps : List ExecutionPlan) (rs : List (List ExecutionPlan)),
      List.Forall₂ (fun p r => get_reordered tb fuelc fuel p = .ok r) eps rs →
      reordered_of_all tb fuelc fuel eps = .ok rs.flatten := by
  intro eps rs hrel
  induction hrel with
  | nil => rfl
  | cons h1 _ ih =>
    simp only [reordered_of_all, h1, ih, List.flatten_cons]

/-- C20: `Module::process_node(plan, node)` returns an empty result (no module, no plans)
when the plan has a current platform that differs from the target of the module; otherwise
the handler of the node variant is run (Call, Branch, ReturnInit or ReturnProcess), the
module of the result is the module of the handler and its plan list is the plans of the
handler, in their order, followed by the plans of `get_reordered(p)` for each plan `p` of
the handler, in order. -/
theorem process_node_spec {M : Type} (tb : Toolbox) (fuelc fuel : Nat) (m : Module M)
    (ep : ExecutionPlan) (n : Ptr) :
    (∀ t : Target, ep.current_platform = some t → t ≠ m.target →
      m.process_node tb fuelc fuel ep (some n) = .ok ⟨none, []⟩) ∧
    (∀ (result : processing_result_t M) (rs : List (List ExecutionPlan)),
      (ep.current_platform = none ∨ ep.current_platform = some m.target) →
      m.dispatch ep n = .ok result →
      List.Forall₂ (fun p r => get_reordered tb fuelc fuel p = .ok r) result.next_eps rs →
      m.process_node tb fuelc fuel ep (some n)
        = .ok ⟨result.module, result.next_eps ++ rs.flatten⟩) ∧
    (((ep.bdd.nodes.node n).type = NodeType.CALL → m.dispatch ep n = m.process_call ep n) ∧
     ((ep.bdd.nodes.node n).type = NodeType.BRANCH → m.dispatch ep n = m.process_branch ep n) ∧
     ((ep.bdd.nodes.node n).type = NodeType.RETURN_INIT →
       m.dispatch ep n = m.process_return_init ep n) ∧
     ((ep.bdd.nodes.node n).type = NodeType.RETURN_PROCESS →
       m.dispatch ep n = m.process_return_process ep n)) := by
  refine ⟨?_, ?_, ?_⟩
  · intro t ht hne
    have hc : can_process_platform ep m.target = false := by
      unfold can_process_platform
      rw [ht]
      simpa using hne
    unfold Module.process_node
    simp only [hc, Bool.false_eq_true, if_false, reordered_of_all, List.append_nil]
  · intro result rs hplat hd hrel
    have hc : can_process_platform ep m.target = true := by
      unfold can_process_platform
      rcases hplat with h | h <;> rw [h]
      simp
    unfold Module.process_node
    simp only [hc, if_true, hd, reordered_of_all_spec tb fuelc fuel _ rs hrel]
  · unfold Module.dispatch
    refine ⟨fun h => by rw [h], fun h => by rw [h], fun h => by rw [h], fun h => by rw [h]⟩


theorem example_plan_well_formed : well_formed example_plan.bdd (fun x => 10 - x) :=
  well_formed_of_checks _ _ (by decide) (by decide) (by decide) (by decide) (by decide)

/-- C19, witness: the plans of `get_reordered` for `example_plan`, whose one candidate, the
`map_put` of the `on_true` side, carries the path condition `c`. -/
theorem get_reordered_spec_witness :
    get_candidates example_toolbox example_plan.bdd.nodes 20 0
      = .ok [⟨some 2, [14, 12], none, some (sym "c")⟩] ∧
    ∃ fuel0, ∀ fuel, fuel0 ≤ fuel →
      ∃ plans, get_reordered example_toolbox 20 fuel example_plan = .ok plans ∧
        List.Forall₂ (variant_of fuel example_plan 0)
          [⟨some 2, [14, 12], none, some (sym "c")⟩] plans :=
  ⟨by decide,
    (get_reordered_spec example_toolbox 20 example_plan).2 (fun x => 10 - x) 1 0
      [⟨some 2, [14, 12], none, some (sym "c")⟩] example_plan_well_formed (by decide) rfl
      (by decide) (by decide) (by decide)⟩

/-- C20, witness: `example_module` declines on a plan whose current platform is 2, and on
a plan without platform and with a reorder bound it returns the plan of its Call handler
followed by no reordered plan. -/
theorem process_node_spec_witness :
    example_module.process_node example_toolbox 20 20
        { example_plan with current_platform := some 2 } (some 0) = .ok ⟨none, []⟩ ∧
    example_module.process_node example_toolbox 20 20
        { example_plan with reordered_nodes := 0 } (some 0)
      = .ok ⟨some 7, [{ example_plan with reordered_nodes := 0 }] ++ [[]].flatten⟩ :=
  ⟨(process_node_spec example_toolbox 20 20 example_module
      { example_plan with current_platform := some 2 } 0).1 2 rfl (by decide),
   (process_node_spec example_toolbox 20 20 example_module
      { example_plan with reordered_nodes := 0 } 0).2.1
      ⟨some 7, [{ example_plan with reordered_nodes := 0 }]⟩ [[]] (Or.inl rfl) rfl
      (List.Forall₂.cons rfl List.Forall₂.nil)⟩



/-- On sets held as lists without repetition, `symbols_equal` is equality of sets. -/
theorem symbols_equal_iff (a b : List symbol_t) (ha : a.Nodup) (hb : b.Nodup) :
    symbols_equal a b = true ↔ ∀ s, s ∈ a ↔ s ∈ b := by
  unfold symbols_equal
  simp only [Bool.and_eq_true, decide_eq_true_eq, List.all_eq_true, List.elem_eq_mem, List.contains]
  constructor
  · rintro ⟨hl, hsub⟩
    have hsp : a.Subperm b := List.subperm_of_subset ha (fun x hx => by simpa using hsub x hx)
    have hp : a.Perm b := hsp.perm_of_length_le (by omega)
    exact fun s => hp.mem_iff
  · intro hs
    have hp : a.Perm b := (List.perm_ext_iff_of_nodup ha hb).mpr hs
    exact ⟨hp.length_eq, fun x hx => by simpa using (hs x).mp hx⟩

theorem symbols_equal_refl (a : List symbol_t) : symbols_equal a a = true := by
  unfold symbols_equal
  simp

/-- C21: for modules built from a node, `m.equals(o)` is true exactly when `o` has the type
of `m` and every bound expression of `m` is always-equal to the corresponding one of `o`
(`dchain_addr`, `index`, `time` for `DchainRejuvenateIndex`; `obj`, `hash` for
`RteEtherAddrHash`) and, for `RteEtherAddrHash`, the generated symbols are equal as sets;
hence `m.equals(m.clone())` holds whenever always-equal is reflexive. -/
theorem module_equals_spec (tb : Toolbox) :
    (∀ (m : DchainRejuvenateIndex) (o : module_t),
      m.equals tb o = true ↔
        (o.get_type = ModuleType.x86_DchainRejuvenateIndex ∧
         ∃ oc : DchainRejuvenateIndex, o = module_t.dchain_rejuvenate_index oc ∧
          tb.are_exprs_always_equal m.dchain_addr oc.dchain_addr = true ∧
          tb.are_exprs_always_equal m.index oc.index = true ∧
          tb.are_exprs_always_equal m.time oc.time = true)) ∧
    (∀ (m : RteEtherAddrHash) (o : module_t), m.generated_symbols.Nodup →
      (∀ oc : RteEtherAddrHash, o = module_t.rte_ether_addr_hash oc →
        oc.generated_symbols.Nodup) →
      (m.equals tb o = true ↔
        (o.get_type = ModuleType.x86_RteEtherAddrHash ∧
         ∃ oc : RteEtherAddrHash, o = module_t.rte_ether_addr_hash oc ∧
          tb.are_exprs_always_equal m.obj oc.obj = true ∧
          tb.are_exprs_always_equal m.hash oc.hash = true ∧
          ∀ s, s ∈ m.generated_symbols ↔ s ∈ oc.generated_symbols))) ∧
    ((∀ e : Expr, tb.are_exprs_always_equal e e = true) →
      (∀ m : DchainRejuvenateIndex,
        m.equals tb (module_t.dchain_rejuvenate_index m.clone) = true) ∧
      (∀ m : RteEtherAddrHash,
        m.equals tb (module_t.rte_ether_addr_hash m.clone) = true)) := by
  refine ⟨?_, ?_, ?_⟩
  · intro m o
    cases o with
    | dchain_rejuvenate_index oc =>
      simp only [DchainRejuvenateIndex.equals, module_t.get_type, ne_eq, not_true_eq_false,
        if_false, true_and, module_t.dchain_rejuvenate_index.injEq, exists_eq_left']
      cases h1 : tb.are_exprs_always_equal m.dchain_addr oc.dchain_addr <;>
        cases h2 : tb.are_exprs_always_equal m.index oc.index <;>
        cases h3 : tb.are_exprs_always_equal m.time oc.time <;> simp
    | rte_ether_addr_hash oc =>
      simp [DchainRejuvenateIndex.equals, module_t.get_type]
    | other tag =>
      simp [DchainRejuvenateIndex.equals, module_t.get_type]
  · intro m o hm ho
    cases o with
    | dchain_rejuvenate_index oc =>
      simp [RteEtherAddrHash.equals, module_t.get_type]
    | rte_ether_addr_hash oc =>
      have hs := symbols_equal_iff m.generated_symbols oc.generated_symbols hm (ho oc rfl)
      simp only [RteEtherAddrHash.equals, module_t.get_type, ne_eq, not_true_eq_false,
        if_false, true_and, module_t.rte_ether_addr_hash.injEq, exists_eq_left']
      rw [← hs]
      cases h1 : tb.are_exprs_always_equal m.obj oc.obj <;>
        cases h2 : tb.are_exprs_always_equal m.hash oc.hash <;>
        cases h3 : symbols_equal m.generated_symbols oc.generated_symbols <;> simp
    | other tag =>
      simp [RteEtherAddrHash.equals, module_t.get_type]
  · intro hrefl
    refine ⟨?_, ?_⟩
    · intro m
      simp [DchainRejuvenateIndex.equals, DchainRejuvenateIndex.clone, module_t.get_type, hrefl]
    · intro m
      simp [RteEtherAddrHash.equals, RteEtherAddrHash.clone, module_t.get_type, hrefl,
        symbols_equal_refl]

/-- C21, witness: with syntactic equality, which is reflexive, a `RteEtherAddrHash` that
generates the symbol `hash` equals its clone, and so does a `DchainRejuvenateIndex`. -/
theorem module_equals_spec_witness :
    (∀ e : Expr, example_toolbox.are_exprs_always_equal e e = true) ∧
    DchainRejuvenateIndex.equals example_toolbox
      ⟨some 2, Expr.Constant 5 64, Expr.Constant 1 32, sym "now"⟩
      (module_t.dchain_rejuvenate_index
        (DchainRejuvenateIndex.clone
          ⟨some 2, Expr.Constant 5 64, Expr.Constant 1 32, sym "now"⟩)) = true ∧
    RteEtherAddrHash.equals example_toolbox
      ⟨some 1, Expr.Constant 50 64, sym "hash", [⟨"hash", sym "hash"⟩]⟩
      (module_t.rte_ether_addr_hash
        (RteEtherAddrHash.clone
          ⟨some 1, Expr.Constant 50 64, sym "hash", [⟨"hash", sym "hash"⟩]⟩)) = true :=
  have hrefl : ∀ e : Expr, example_toolbox.are_exprs_always_equal e e = true := by
    intro e
    simp [example_toolbox]
  ⟨hrefl,
    ((module_equals_spec example_toolbox).2.2 hrefl).1
      ⟨some 2, Expr.Constant 5 64, Expr.Constant 1 32, sym "now"⟩,
    ((module_equals_spec example_toolbox).2.2 hrefl).2
      ⟨some 1, Expr.Constant 50 64, sym "hash", [⟨"hash", sym "hash"⟩]⟩⟩



/-- What the checks of one round keep of the candidate, and the future-branch check they
make when the flag `check_future_branches` is set and the node is side-effecting. -/
theorem candidate_checks_flagged (tb : Toolbox) (h : Heap) (fuel : Nat) (current_node : Ptr)
    (candidate : candidate_t) (cn : Ptr) (viable : List candidate_t) (cfb : Bool)
    (c : candidate_t)
    (hr : candidate_checks tb h fuel current_node candidate cn viable cfb = .ok (some c)) :
    c.node = candidate.node ∧ c.condition = candidate.condition ∧
    (cfb = true → node_has_side_effects (h.node cn) = .ok true →
      ∃ sib1, is_called_in_all_future_branches tb h fuel current_node cn candidate.siblings
          = .ok (true, sib1) ∧ c.siblings = sib1.insert (h.node cn).id) := by
  unfold candidate_checks at hr
  simp only at hr
  split at hr
  · cases hr
  · split at hr
    · cases hr
    · cases hr
    · split at hr
      · cases hr
      · cases hr
      · rename_i candidate1 hc1
        have hc1facts : candidate1.node = candidate.node ∧
            candidate1.condition = candidate.condition ∧
            candidate1.siblings = candidate.siblings := by
          split at hc1
          · split at hc1
            · cases hc1
            · split at hc1
              · cases hc1
              · cases hc1
              · simp only [Except.ok.injEq, Option.some.injEq] at hc1
                rw [← hc1]
                exact ⟨rfl, rfl, rfl⟩
          · simp only [Except.ok.injEq, Option.some.injEq] at hc1
            rw [← hc1]
            exact ⟨rfl, rfl, rfl⟩
        obtain ⟨f1, f2, f3⟩ := hc1facts
        split at hr
        · cases hr
        · cases hr
        · rename_i sibs hv
          simp only [Except.ok.injEq, Option.some.injEq] at hr
          rw [← hr]
          refine ⟨f1, f2, ?_⟩
          intro hflag hse
          subst hflag
          simp only [Bool.not_true, Bool.false_eq_true, if_false, hse, f3] at hv
          exact ⟨sibs, hv, rfl⟩

theorem get_candidates_loop_flagged (tb : Toolbox) (h : Heap) (fuel0 : Nat) (current : Ptr) :
    ∀ (fuel : Nat) (queue viable : List candidate_t) (cfb : Bool) (cs : List candidate_t),
      get_candidates_loop tb h fuel0 current fuel queue viable cfb = .ok cs →
      queue_ok queue cfb → (∀ c ∈ viable, future_checked tb h fuel0 current c) →
      ∀ c ∈ cs, future_checked tb h fuel0 current c := by
  intro fuel
  induction fuel with
  | zero => intro queue viable cfb cs hr; simp [get_candidates_loop] at hr
  | succ fuel ih =>
    intro queue viable cfb cs hr hq hv
    cases queue with
    | nil =>
      simp only [get_candidates_loop, Except.ok.injEq] at hr
      rw [← hr]
      exact hv
    | cons candidate rest =>
      simp only [get_candidates_loop] at hr
      cases hnode : candidate.node with
      | none => simp [hnode] at hr
      | some cn =>
        simp only [hnode] at hr
        have hsib0 : candidate.siblings = [] := hq.1 candidate (List.mem_cons_self _ _)
        have hq1 : queue_ok
            (if (h.node cn).type = NodeType.BRANCH then
              rest ++ [candidate_t.from_candidate_cond candidate (h.node cn).next
                  (h.node cn).condition false,
                candidate_t.from_candidate_cond candidate (h.node cn).on_false
                  (h.node cn).condition true]
            else
              match (h.node cn).next with
              | some q => rest ++ [candidate_t.from_candidate candidate (some q)]
              | none => rest)
            (if (h.node cn).type = NodeType.BRANCH then true else cfb) := by
          by_cases hb : (h.node cn).type = NodeType.BRANCH
          · simp only [hb, if_true]
            refine ⟨?_, fun hf => by cases hf⟩
            intro c hc
            rcases List.mem_append.mp hc with h1 | h1
            · exact hq.1 c (List.mem_cons_of_mem _ h1)
            · simp only [List.mem_cons, List.mem_singleton, List.not_mem_nil, or_false] at h1
              rcases h1 with h1 | h1 <;> rw [h1] <;> rfl
          · simp only [hb, if_false]
            cases hnx : (h.node cn).next with
            | none =>
              exact ⟨fun c hc => hq.1 c (List.mem_cons_of_mem _ hc),
                fun hf c hc => hq.2 hf c (List.mem_cons_of_mem _ hc)⟩
            | some q =>
              refine ⟨?_, ?_⟩
              · intro c hc
                rcases List.mem_append.mp hc with h1 | h1
                · exact hq.1 c (List.mem_cons_of_mem _ h1)
                · simp only [List.mem_singleton] at h1
                  rw [h1]; rfl
              · intro hf c hc
                rcases List.mem_append.mp hc with h1 | h1
                · exact hq.2 hf c (List.mem_cons_of_mem _ h1)
                · simp only [List.mem_singleton] at h1
                  rw [h1]
                  exact hq.2 hf candidate (List.mem_cons_self _ _)
        split at hr
        · cases hr
        · exact ih _ _ _ _ hr hq1 hv
        · rename_i c hc
          refine ih _ _ _ _ hr hq1 ?_
          intro c1 hc1
          rcases List.mem_append.mp hc1 with h1 | h1
          · exact hv c1 h1
          · simp only [List.mem_singleton] at h1
            rw [h1]
            obtain ⟨g1, g2, g3⟩ := candidate_checks_flagged tb h fuel0 current candidate cn
              viable _ c hc
            intro cn1 hcn1 hse hflag
            rw [g1, hnode] at hcn1
            have e : cn = cn1 := Option.some.inj hcn1
            subst e
            have hset : (if (h.node cn).type = NodeType.BRANCH then true else cfb) = true := by
              by_cases hb : (h.node cn).type = NodeType.BRANCH
              · simp only [hb, if_true]
              · simp only [hb, if_false]
                rcases hflag with hflag | hflag
                · cases hcfb : cfb with
                  | true => rfl
                  | false =>
                    exfalso
                    apply hflag
                    rw [g2]
                    exact hq.2 hcfb candidate (List.mem_cons_self _ _)
                · exact absurd hflag hb
            obtain ⟨sib1, s1, s2⟩ := g3 hset hse
            rw [hsib0] at s1
            exact ⟨sib1, s1, s2⟩

/-- Every candidate returned by `get_candidates(current)` that is side-effecting and was
examined after the flag `check_future_branches` was set (it is a Branch, or it lies below a
Branch and carries a path condition) passed
`is_called_in_all_future_branches(current, candidate)`, and its siblings are the ids the
check recorded and its own id. -/
theorem get_candidates_flagged_checked (tb : Toolbox) (h : Heap) (fuel : Nat) (current : Ptr)
    (cs : List candidate_t) (c : candidate_t) (cn : Ptr)
    (hr : get_candidates tb h fuel current = .ok cs) (hc : c ∈ cs) (hn : c.node = some cn)
    (hse : node_has_side_effects (h.node cn) = .ok true) :
    (c.condition ≠ none ∨ (h.node cn).type = NodeType.BRANCH) →
    ∃ sib1, is_called_in_all_future_branches tb h fuel current cn [] = .ok (true, sib1) ∧
      c.siblings = sib1.insert (h.node cn).id := by
  have key : ∀ c ∈ cs, future_checked tb h fuel current c := by
    unfold get_candidates at hr
    cases hnx : (h.node current).next with
    | none =>
      simp only [hnx, Except.ok.injEq] at hr
      rw [← hr]
      intro c hc
      cases hc
    | some next =>
      simp only [hnx] at hr
      split at hr
      · simp only [Except.ok.injEq] at hr
        rw [← hr]
        intro c hc
        cases hc
      · split at hr
        · refine get_candidates_loop_flagged tb h fuel current fuel _ _ _ cs hr ?_
            (fun c hc => by cases hc)
          refine ⟨?_, fun hf => by cases hf⟩
          intro c hc
          simp only [List.mem_cons, List.mem_singleton, List.not_mem_nil, or_false] at hc
          rcases hc with h1 | h1 <;> rw [h1] <;> rfl
        · refine get_candidates_loop_flagged tb h fuel current fuel _ _ _ cs hr ?_
            (fun c hc => by cases hc)
          refine ⟨?_, ?_⟩
          · intro c hc
            simp only [List.mem_singleton] at hc
            rw [hc]; rfl
          · intro _ c hc
            simp only [List.mem_singleton] at hc
            rw [hc]; rfl
  exact key c hc cn hn hse

/-- On `A → Br(c){ P1 → T1; P2 → T2 }` with the same `map_put` on both sides the one
candidate `P1` is side-effecting, lies below the Branch, and passed the check. -/
theorem get_candidates_flagged_checked_example :
    get_candidates example_toolbox example_plan.bdd.nodes 20 0
      = .ok [⟨some 2, [14, 12], none, some (sym "c")⟩] ∧
    node_has_side_effects (example_plan.bdd.nodes.node 2) = .ok true ∧
    ∃ sib1, is_called_in_all_future_branches example_toolbox example_plan.bdd.nodes 20 0 2 []
        = .ok (true, sib1) ∧
      (⟨some 2, [14, 12], none, some (sym "c")⟩ : candidate_t).siblings
        = sib1.insert (example_plan.bdd.nodes.node 2).id :=
  ⟨by decide, by decide,
    get_candidates_flagged_checked example_toolbox example_plan.bdd.nodes 20 0
      [⟨some 2, [14, 12], none, some (sym "c")⟩] ⟨some 2, [14, 12], none, some (sym "c")⟩ 2
      (by decide) (by decide) rfl (by decide) (Or.inl (by decide))⟩

theorem straight_snoc (h : Heap) (a p q : Ptr) (hs : straight h a p)
    (hb : (h.node p).type ≠ NodeType.BRANCH) (hn : (h.node p).next = some q) :
    straight h a q := by
  induction hs with
  | refl a => exact straight.step a q q hb hn (straight.refl q)
  | step a a1 b h1 h2 _ ih => exact straight.step a a1 q h1 h2 (ih hb hn)

/-- On a straight line that ends at the Call `b`, the future-branch check started at the
head of the line returns true, call equality being reflexive at the call of `b`. -/
theorem straight_future_branches (tb : Toolbox) (h : Heap) (a b : Ptr)
    (hs : straight h a b) (hcall : (h.node b).type = NodeType.CALL)
    (hrefl : tb.are_calls_equal (h.node b).call (h.node b).call = true) :
    ∀ siblings : List Nat, ∃ fuel0, ∀ fuel, fuel0 ≤ fuel → ∃ sib1,
      future_branches_loop tb h b fuel [some a] siblings = .ok (true, sib1) := by
  induction hs with
  | refl a =>
    intro siblings
    refine ⟨2, ?_⟩
    intro fuel hfuel
    obtain ⟨k, rfl⟩ : ∃ k, fuel = k + 2 := ⟨fuel - 2, by omega⟩
    refine ⟨siblings.insert (h.node a).id, ?_⟩
    simp only [future_branches_loop, hcall, hrefl, and_self, if_true]
  | step a a1 b h1 h2 _ ih =>
    intro siblings
    obtain ⟨fuel0, hf⟩ := ih hcall hrefl siblings
    refine ⟨fuel0 + 2, ?_⟩
    intro fuel hfuel
    obtain ⟨k, rfl⟩ : ∃ k, fuel = k + 2 := ⟨fuel - 2, by omega⟩
    by_cases hm : (h.node a).type = NodeType.CALL ∧ (h.node b).type = NodeType.CALL ∧
        tb.are_calls_equal (h.node a).call (h.node b).call = true
    · refine ⟨siblings.insert (h.node a).id, ?_⟩
      simp only [future_branches_loop, hm, and_self, if_true]
    · obtain ⟨sib1, hs1⟩ := hf (k + 1) (by omega)
      refine ⟨sib1, ?_⟩
      rw [← hs1]
      simp only [future_branches_loop, hm, h1, false_and, and_false, if_false, h2]

theorem get_candidates_loop_on_line (tb : Toolbox) (h : Heap) (fuel0 : Nat) (current : Ptr) :
    ∀ (fuel : Nat) (queue viable : List candidate_t) (cfb : Bool) (cs : List candidate_t),
      get_candidates_loop tb h fuel0 current fuel queue viable cfb = .ok cs →
      (∀ c ∈ queue, on_line h current c) → (∀ c ∈ viable, on_line h current c) →
      ∀ c ∈ cs, on_line h current c := by
  intro fuel
  induction fuel with
  | zero => intro queue viable cfb cs hr; simp [get_candidates_loop] at hr
  | succ fuel ih =>
    intro queue viable cfb cs hr hq hv
    cases queue with
    | nil =>
      simp only [get_candidates_loop, Except.ok.injEq] at hr
      rw [← hr]
      exact hv
    | cons candidate rest =>
      simp only [get_candidates_loop] at hr
      cases hnode : candidate.node with
      | none => simp [hnode] at hr
      | some cn =>
        simp only [hnode] at hr
        have hq1 : ∀ c ∈ (if (h.node cn).type = NodeType.BRANCH then
              rest ++ [candidate_t.from_candidate_cond candidate (h.node cn).next
                  (h.node cn).condition false,
                candidate_t.from_candidate_cond candidate (h.node cn).on_false
                  (h.node cn).condition true]
            else
              match (h.node cn).next with
              | some q => rest ++ [candidate_t.from_candidate candidate (some q)]
              | none => rest), on_line h current c := by
          by_cases hb : (h.node cn).type = NodeType.BRANCH
          · simp only [hb, if_true]
            intro c hc
            rcases List.mem_append.mp hc with h1 | h1
            · exact hq c (List.mem_cons_of_mem _ h1)
            · simp only [List.mem_cons, List.mem_singleton, List.not_mem_nil, or_false] at h1
              intro hcond
              rcases h1 with h1 | h1 <;> rw [h1] at hcond <;>
                simp [candidate_t.from_candidate_cond] at hcond
          · simp only [hb, if_false]
            cases hnx : (h.node cn).next with
            | none => exact fun c hc => hq c (List.mem_cons_of_mem _ hc)
            | some q =>
              intro c hc
              rcases List.mem_append.mp hc with h1 | h1
              · exact hq c (List.mem_cons_of_mem _ h1)
              · simp only [List.mem_singleton] at h1
                rw [h1]
                intro hcond cn1 hcn1
                have e : q = cn1 := Option.some.inj hcn1
                rw [← e]
                exact straight_snoc h current cn q
                  (hq candidate (List.mem_cons_self _ _) hcond cn hnode) hb hnx
        split at hr
        · cases hr
        · exact ih _ _ _ _ hr hq1 hv
        · rename_i c hc
          refine ih _ _ _ _ hr hq1 ?_
          intro c1 hc1
          rcases List.mem_append.mp hc1 with h1 | h1
          · exact hv c1 h1
          · simp only [List.mem_singleton] at h1
            rw [h1]
            obtain ⟨g1, g2, _⟩ := candidate_checks_flagged tb h fuel0 current candidate cn
              viable _ c hc
            intro hcond cn1 hcn1
            rw [g2] at hcond
            rw [g1] at hcn1
            exact hq candidate (List.mem_cons_self _ _) hcond cn1 hcn1

/-- The candidates that `get_candidates(current)` returns without a path condition lie on
the straight line below `current`. -/
theorem get_candidates_on_line (tb : Toolbox) (h : Heap) (fuel : Nat) (current : Ptr)
    (cs : List candidate_t) (hr : get_candidates tb h fuel current = .ok cs) :
    ∀ c ∈ cs, on_line h current c := by
  unfold get_candidates at hr
  cases hnx : (h.node current).next with
  | none =>
    simp only [hnx, Except.ok.injEq] at hr
    rw [← hr]
    intro c hc
    cases hc
  | some next =>
    simp only [hnx] at hr
    split at hr
    · simp only [Except.ok.injEq] at hr
      rw [← hr]
      intro c hc
      cases hc
    · rename_i hno
      have hcb : (h.node current).type ≠ NodeType.BRANCH := fun e => hno (Or.inr e)
      split at hr
      · refine get_candidates_loop_on_line tb h fuel current fuel _ _ _ cs hr ?_
          (fun c hc => by cases hc)
        intro c hc hcond
        simp only [List.mem_cons, List.mem_singleton, List.not_mem_nil, or_false] at hc
        rcases hc with h1 | h1 <;> rw [h1] at hcond <;>
          simp [candidate_t.of_node_cond] at hcond
      · rename_i hnb
        refine get_candidates_loop_on_line tb h fuel current fuel _ _ _ cs hr ?_
          (fun c hc => by cases hc)
        intro c hc _ cn hcn
        simp only [List.mem_singleton] at hc
        rw [hc] at hcn
        have hcn1 : (h.node next).next = some cn := hcn
        exact straight.step current next cn hcb hnx
          (straight.step next cn cn hnb hcn1 (straight.refl cn))

/-- C24 (amended): every side-effecting candidate returned by `get_candidates(current)`
satisfies `is_called_in_all_future_branches(current, candidate)`.  When the candidate was
examined after the flag `check_future_branches` was set (it is a Branch, or it lies below a
Branch and carries a path condition), the code made the check and the siblings of the
candidate are the ids the check recorded and its own id; otherwise the candidate is a Call
on the straight line below `current` and the check, which the code does not make, returns
true, call equality being reflexive. -/
theorem get_candidates_side_effecting_checked (tb : Toolbox) (h : Heap) (fuel : Nat)
    (current : Ptr) (cs : List candidate_t) (c : candidate_t) (cn : Ptr)
    (hr : get_candidates tb h fuel current = .ok cs) (hc : c ∈ cs) (hn : c.node = some cn)
    (hse : node_has_side_effects (h.node cn) = .ok true) :
    ((c.condition ≠ none ∨ (h.node cn).type = NodeType.BRANCH) →
      ∃ sib1, is_called_in_all_future_branches tb h fuel current cn [] = .ok (true, sib1) ∧
        c.siblings = sib1.insert (h.node cn).id) ∧
    ((∀ call : call_t, tb.are_calls_equal call call = true) →
      ∃ fuel1 sib1,
        is_called_in_all_future_branches tb h fuel1 current cn [] = .ok (true, sib1)) := by
  have hflagged := get_candidates_flagged_checked tb h fuel current cs c cn hr hc hn hse
  refine ⟨hflagged, ?_⟩
  intro hrefl
  by_cases hflag : c.condition ≠ none ∨ (h.node cn).type = NodeType.BRANCH
  · obtain ⟨sib1, h1, _⟩ := hflagged hflag
    exact ⟨fuel, sib1, h1⟩
  · have hcond : c.condition = none := by
      by_contra hne
      exact hflag (Or.inl hne)
    have hnb : ¬ (h.node cn).type = NodeType.BRANCH := fun e => hflag (Or.inr e)
    have hcall : (h.node cn).type = NodeType.CALL := by
      by_contra hnc
      unfold node_has_side_effects at hse
      simp only [hnb, hnc, if_false] at hse
      cases hse
    have hline := get_candidates_on_line tb h fuel current cs hr c hc hcond cn hn
    obtain ⟨fuel0, hf⟩ := straight_future_branches tb h current cn hline hcall (hrefl _) []
    obtain ⟨sib1, h1⟩ := hf fuel0 (Nat.le_refl _)
    exact ⟨fuel0, sib1, h1⟩

/-- C24, witness: on `A → B → C → return` the second `map_put` `C` is the one candidate of
`A`; it is side-effecting, no Branch was met, and the check the code skips returns true. -/
theorem get_candidates_side_effecting_checked_witness :
    get_candidates example_toolbox swap_heap 20 0 = .ok [⟨some 2, [12], none, none⟩] ∧
    node_has_side_effects (swap_heap.node 2) = .ok true ∧
    is_called_in_all_future_branches example_toolbox swap_heap 20 0 2 [] = .ok (true, [12]) ∧
    (((⟨some 2, [12], none, none⟩ : candidate_t).condition ≠ none ∨
        (swap_heap.node 2).type = NodeType.BRANCH) →
      ∃ sib1, is_called_in_all_future_branches example_toolbox swap_heap 20 0 2 []
          = .ok (true, sib1) ∧
        (⟨some 2, [12], none, none⟩ : candidate_t).siblings
          = sib1.insert (swap_heap.node 2).id) ∧
    ((∀ call : call_t, example_toolbox.are_calls_equal call call = true) →
      ∃ fuel1 sib1, is_called_in_all_future_branches example_toolbox swap_heap fuel1 0 2 []
        = .ok (true, sib1)) :=
  ⟨by decide, by decide, by decide,
    get_candidates_side_effecting_checked example_toolbox swap_heap 20 0
      [⟨some 2, [12], none, none⟩] ⟨some 2, [12], none, none⟩ 2
      (by decide) (by decide) rfl (by decide)⟩

/-- C24, counterexample: the claim fails as written on `A → Br(c){ X → return; return }`: the
`map_get` `X` is examined after the flag was set at the Branch, it has no side effects and is
returned as a candidate although `is_called_in_all_future_branches(A, X)` is false, the
`on_false` side of the Branch never calling it. -/
theorem get_candidates_unchecked_counterexample :
    (one_sided_heap.node 0).next = some 1 ∧
    (one_sided_heap.node 1).type = NodeType.BRANCH ∧
    get_candidates example_toolbox one_sided_heap 20 0
      = .ok [⟨some 2, [12], none, some (sym "c")⟩] ∧
    node_has_side_effects (one_sided_heap.node 2) = .ok false ∧
    is_called_in_all_future_branches example_toolbox one_sided_heap 20 0 2 []
      = .ok (false, [12]) := by
  decide


/-- C29: `get_candidates(current)` returns the empty list, whatever the fuel, whenever
`current` is a Branch, `current` has no successor, or the successor of `current` has no
successor; no assertion fails and no loop is entered in these cases. -/
theorem get_candidates_empty (tb : Toolbox) (h : Heap) (fuel : Nat) (current : Ptr)
    (hc : (h.node current).type = NodeType.BRANCH ∨ (h.node current).next = none ∨
      ∃ next : Ptr, (h.node current).next = some next ∧ (h.node next).next = none) :
    get_candidates tb h fuel current = .ok [] := by
  unfold get_candidates
  cases hnx : (h.node current).next with
  | none => rfl
  | some next =>
    simp only
    rcases hc with hb | hn | ⟨nx, e1, e2⟩
    · rw [if_pos (Or.inr hb)]
    · rw [hnx] at hn
      cases hn
    · rw [hnx] at e1
      have e : next = nx := Option.some.inj e1
      subst e
      rw [if_pos (Or.inl e2)]

/-- C29, witness: on `swap_heap` the last call `C` is followed by the return node only, and
`get_candidates(C)` is empty even without fuel. -/
theorem get_candidates_empty_witness :
    ((swap_heap.node 2).type = NodeType.BRANCH ∨ (swap_heap.node 2).next = none ∨
      ∃ next : Ptr, (swap_heap.node 2).next = some next ∧ (swap_heap.node next).next = none) ∧
    get_candidates example_toolbox swap_heap 0 2 = .ok [] :=
  ⟨Or.inr (Or.inr ⟨3, rfl, rfl⟩),
    get_candidates_empty example_toolbox swap_heap 0 2 (Or.inr (Or.inr ⟨3, rfl, rfl⟩))⟩



/-- C25: the claim fails on `A → R1 → R2 → return`, two calls of the side-effecting
`dchain_rejuvenate_index` on the same chain with the arguments `chain`, `index`, `time`,
from which `DchainRejuvenateIndex::process_call` builds its module: `dchain_can_reorder`
looks the object up under the name `dchain`, finds it in neither call and returns true, and
`are_rw_dependencies_met` accepts hoisting `R2` across `R1`. -/
theorem dchain_can_reorder_misses_chain (tb : Toolbox) (chain i1 t1 i2 t2 : Expr)
    (condition : Option Expr) :
    both_calls (rejuvenate_heap chain i1 t1 i2 t2) 1 2 ∧
    ((rejuvenate_heap chain i1 t1 i2 t2).node 1).call.function_name
      = "dchain_rejuvenate_index" ∧
    ((rejuvenate_heap chain i1 t1 i2 t2).node 2).call.function_name
      = "dchain_rejuvenate_index" ∧
    fn_has_side_effects "dchain_rejuvenate_index" = .ok true ∧
    DchainRejuvenateIndex.process_call_module 1
        ((rejuvenate_heap chain i1 t1 i2 t2).node 1).call = .ok (some ⟨some 1, chain, i1, t1⟩) ∧
    DchainRejuvenateIndex.process_call_module 2
        ((rejuvenate_heap chain i1 t1 i2 t2).node 2).call = .ok (some ⟨some 2, chain, i2, t2⟩) ∧
    dchain_can_reorder tb (rejuvenate_heap chain i1 t1 i2 t2) 0 1 2 condition
      = .ok (true, condition) ∧
    are_rw_dependencies_met tb (rejuvenate_heap chain i1 t1 i2 t2) 0 2 condition
      = .ok (true, condition) := by
  have n0 : (rejuvenate_heap chain i1 t1 i2 t2).node 0
      = mk_call 10 "map_get" [("map", value_arg 1)] [[]] [] none (some 1) := rfl
  have n1 : (rejuvenate_heap chain i1 t1 i2 t2).node 1 = mk_call 11 "dchain_rejuvenate_index"
     [("chain", ⟨some chain, none⟩), ("index", ⟨some i1, none⟩), ("time", ⟨some t1, none⟩)]
     [[]] [] (some 0) (some 2) := rfl
  have n2 : (rejuvenate_heap chain i1 t1 i2 t2).node 2 = mk_call 12 "dchain_rejuvenate_index"
     [("chain", ⟨some chain, none⟩), ("index", ⟨some i2, none⟩), ("time", ⟨some t2, none⟩)]
     [[]] [] (some 1) (some 3) := rfl
  have hl : (rejuvenate_heap chain i1 t1 i2 t2).length = 4 := rfl
  have hse : fn_has_side_effects "dchain_rejuvenate_index" = .ok true := by decide
  have hd : ∀ c : Option Expr,
      dchain_can_reorder tb (rejuvenate_heap chain i1 t1 i2 t2) 0 1 2 c = .ok (true, c) := by
    intro c
    simp [dchain_can_reorder, n1, n2, mk_call, hse, List.lookup]
  have hm : map_can_reorder tb (rejuvenate_heap chain i1 t1 i2 t2) 0 1 2 none
      = .ok (true, none) := by
    simp [map_can_reorder, n1, n2, mk_call, List.lookup]
  have hv : vector_can_reorder tb (rejuvenate_heap chain i1 t1 i2 t2) 0 1 2 none
      = .ok (true, none) := by
    simp [vector_can_reorder, n1, n2, mk_call, hse, List.lookup]
  refine ⟨⟨rfl, rfl⟩, rfl, rfl, hse, ?_, ?_, hd condition, ?_⟩
  · simp [n1, mk_call, List.lookup, DchainRejuvenateIndex.process_call_module]
  · simp [n2, mk_call, List.lookup, DchainRejuvenateIndex.process_call_module]
  · have hp2 : ((rejuvenate_heap chain i1 t1 i2 t2).node 2).prev = some 1 := rfl
    have hp1 : ((rejuvenate_heap chain i1 t1 i2 t2).node 1).prev = some 0 := rfl
    have hi1 : ((rejuvenate_heap chain i1 t1 i2 t2).node 1).id = 11 := rfl
    have hi0 : ((rejuvenate_heap chain i1 t1 i2 t2).node 0).id = 10 := rfl
    simp [are_rw_dependencies_met, hl, hp2, hp1, rw_hazard_loop, hi1, hi0, hm, hd none, hv]



/-- C28: the claim fails on the graph `A → Br(c){ G1 → G2 → return; G3 → return }` of three
equal calls: `get_candidates(A)` returns `G2` without a guard and with the siblings `G2`,
`G3`, `G1`; after `reorder_bdd` the successor of `A` is the inserted clone (node 7), and the
candidate `G2` itself (node 3, id 13, one of the siblings) is still reachable from `A`: the
sibling pass linked it in place of the spliced-out `G1` without examining it. -/
theorem reorder_bdd_keeps_sibling :
    well_formed ⟨repeated_call_heap, 17, none, some 0⟩ (fun x => 10 - x) ∧
    (⟨some 3, [13, 15, 12], none, some (sym "c")⟩ : candidate_t) ∈
      (match get_candidates example_toolbox repeated_call_heap 20 0 with
       | .ok cs => cs
       | .error _ => []) ∧
    ∃ bdd1, reorder_bdd 20 ⟨repeated_call_heap, 17, none, some 0⟩ 0
        ⟨some 3, [13, 15, 12], none, some (sym "c")⟩ = .ok bdd1 ∧
      (bdd1.nodes.node 0).next = some 7 ∧
      bdd1.nodes.reachable 0 3 ∧
      (bdd1.nodes.node 3).id ∈ [13, 15, 12] := by
  refine ⟨repeated_call_heap_well_formed, by decide, ?_⟩
  have hm : (reorder_bdd 20 ⟨repeated_call_heap, 17, none, some 0⟩ 0
      ⟨some 3, [13, 15, 12], none, some (sym "c")⟩).map
      (fun b => ((b.nodes.node 0).next, decide (7 ∈ b.nodes.succs 0),
        decide (1 ∈ b.nodes.succs 7), decide (3 ∈ b.nodes.succs 1), (b.nodes.node 3).id))
      = .ok (some 7, true, true, true, 13) := by decide
  cases hres : reorder_bdd 20 ⟨repeated_call_heap, 17, none, some 0⟩ 0
      ⟨some 3, [13, 15, 12], none, some (sym "c")⟩ with
  | error e =>
    rw [hres] at hm
    cases hm
  | ok b =>
    rw [hres] at hm
    have hm2 : ((b.nodes.node 0).next, decide (7 ∈ b.nodes.succs 0),
        decide (1 ∈ b.nodes.succs 7), decide (3 ∈ b.nodes.succs 1), (b.nodes.node 3).id)
        = (some 7, true, true, true, 13) := Except.ok.inj hm
    simp only [Prod.mk.injEq, decide_eq_true_eq] at hm2
    obtain ⟨e1, e2, e3, e4, e5⟩ := hm2
    have r7 : b.nodes.reachable 0 7 := Heap.reachable.step 0 7 Heap.reachable.refl e2
    have r1 : b.nodes.reachable 0 1 := Heap.reachable.step 7 1 r7 e3
    have r3 : b.nodes.reachable 0 3 := Heap.reachable.step 1 3 r1 e4
    refine ⟨b, rfl, e1, r3, ?_⟩
    rw [e5]
    decide



/-- C30: the claim fails on `A → B → C → return` with a new node `T` that carries the id of
`C` and has no predecessor link: `replace_node_in_bdd(T)` succeeds and makes the `next` link
of `B` point to `T`, but the predecessor link of `T` is left as it was, null, where the
back-link invariant asks for `B`. -/
theorem replace_node_in_bdd_stale_prev :
    rooted_tree replace_heap 0 (fun x => 10 - x) ∧
    (replace_heap.node 4).id = (replace_heap.node 2).id ∧
    (replace_heap.node 2).prev = some 1 ∧
    (replace_node_in_bdd 20 ⟨replace_heap, 14, none, some 0⟩ (some 4)).1 = .ok () ∧
    ((replace_node_in_bdd 20 ⟨replace_heap, 14, none, some 0⟩ (some 4)).2.nodes.node 1).next
      = some 4 ∧
    ((replace_node_in_bdd 20 ⟨replace_heap, 14, none, some 0⟩ (some 4)).2.nodes.node 4).prev
      = none :=
  ⟨replace_heap_rooted, by decide, by decide, by decide, by decide, by decide⟩



/-- The heap after one round of the loop of `clone_calls` that clones the Call `p` in front
of `root`. -/
theorem clone_round_node (h : Heap) (id : Nat) (p root : Nat) (hr : root < h.length) (x : Nat) :
    (((((h ++ [h.node p]).replace_next h.length (some root)).replace_prev h.length
      none).replace_prev root (some h.length)).update_id h.length id).node x
    = if x = h.length then { h.node p with next := some root, prev := none, id := id }
      else if x = root then { h.node root with prev := some h.length }
      else h.node x := by
  have L0 : (h ++ [h.node p]).length = h.length + 1 := by simp
  have a1 : ∀ y, (((h ++ [h.node p]).replace_next h.length (some root)).node y)
      = if y = h.length then { (h ++ [h.node p]).node h.length with next := some root }
        else (h ++ [h.node p]).node y :=
    fun y => replace_next_node _ _ _ _ (by simp)
  have a2 : ∀ y, ((((h ++ [h.node p]).replace_next h.length (some root)).replace_prev
      h.length none).node y)
      = if y = h.length then
          { ((h ++ [h.node p]).replace_next h.length (some root)).node h.length with
            prev := none }
        else ((h ++ [h.node p]).replace_next h.length (some root)).node y :=
    fun y => replace_prev_node _ _ _ _ (by simp)
  have a3 : ∀ y, (((((h ++ [h.node p]).replace_next h.length (some root)).replace_prev
      h.length none).replace_prev root (some h.length)).node y)
      = if y = root then
          { (((h ++ [h.node p]).replace_next h.length (some root)).replace_prev
              h.length none).node root with prev := some h.length }
        else (((h ++ [h.node p]).replace_next h.length (some root)).replace_prev
              h.length none).node y :=
    fun y => replace_prev_node _ _ _ _ (by simp; exact Nat.lt_succ_of_lt hr)
  rw [update_id_node _ _ _ _ (by simp)]
  simp only [a3, a2, a1, node_append_eq]
  have hne : h.length ≠ root := by omega
  by_cases h1 : x = h.length
  · subst h1
    simp only [if_true, hne, if_false]
  · simp only [h1, if_false]
    have hne2 : root ≠ h.length := by omega
    by_cases h2 : x = root
    · subst h2
      simp only [if_true, hne2, if_false, node_append_lt h _ x hr]
    · simp only [h2, if_false]
      rw [node_append]
      by_cases h3 : x < h.length
      · simp only [h3, if_true]
      · simp only [h3, h1, if_false]
        exact (node_ge h x (by omega)).symm

theorem getD_append_left (l : List Ptr) (p : Ptr) (i : Nat) (hi : i < l.length) :
    (l ++ [p]).getD i 0 = l.getD i 0 := by
  simp [List.getD_eq_getElem?_getD, List.getElem?_append_left hi]

theorem getD_append_last (l : List Ptr) (p : Ptr) : (l ++ [p]).getD l.length 0 = p := by
  simp [List.getD_eq_getElem?_getD]

/-- One round of the loop of `clone_calls` keeps the invariant. -/
theorem cc_inv_step (h0 : Heap) (id0 current : Nat) (done : List Ptr) (h : Heap) (root : Nat)
    (p : Nat) (hinv : cc_inv h0 id0 current done h root) (hcur : current < h0.length)
    (hp : p < h0.length) (hpc : p ≠ current) :
    cc_inv h0 id0 current (done ++ [p])
      (((((h ++ [h.node p]).replace_next h.length (some root)).replace_prev h.length
        none).replace_prev root (some h.length)).update_id h.length (id0 + done.length))
      h.length := by
  have hlen := hinv.len
  have hroot : root < h.length := by
    rw [hinv.root_eq]
    by_cases hd : done = []
    · simp only [hd, if_true]; omega
    · have : 0 < done.length := List.length_pos.mpr hd
      simp only [hd, if_false]; omega
  have hnp : h.node p = h0.node p := hinv.old p hp hpc
  have hne : done ++ [p] ≠ [] := by simp
  refine ⟨by simp; omega, ?_, ?_, ?_, ?_⟩
  · intro x hx hxc
    rw [clone_round_node h _ p root hroot x]
    have h1 : x ≠ h.length := by omega
    have h2 : x ≠ root := by
      rw [hinv.root_eq]
      by_cases hd : done = []
      · simp only [hd, if_true]; exact hxc
      · have : 0 < done.length := List.length_pos.mpr hd
        simp only [hd, if_false]; omega
    simp only [h1, h2, if_false]
    exact hinv.old x hx hxc
  · rw [clone_round_node h _ p root hroot current]
    have h1 : current ≠ h.length := by omega
    simp only [h1, hne, if_false]
    by_cases hd : done = []
    · have hr : root = current := by rw [hinv.root_eq]; simp only [hd, if_true]
      have hl : h.length = h0.length := by rw [hlen, hd]; rfl
      have hc := hinv.cur
      simp only [hd, if_true] at hc
      simp only [hr, if_true, hc, hl]
    · have hr : current ≠ root := by
        rw [hinv.root_eq]
        have : 0 < done.length := List.length_pos.mpr hd
        simp only [hd, if_false]; omega
      have hc := hinv.cur
      simp only [hd, if_false] at hc
      simp only [hr, if_false, hc]
  · intro i hi
    simp only [List.length_append, List.length_singleton] at hi
    rw [clone_round_node h _ p root hroot (h0.length + i)]
    by_cases hlast : i = done.length
    · subst hlast
      have e1 : h0.length + done.length = h.length := by omega
      simp only [e1, if_true, getD_append_last, hnp, List.length_append,
        List.length_singleton]
      congr 1
      rw [hinv.root_eq]
      by_cases hd : done = []
      · simp [hd]
      · have : done.length ≠ 0 := fun e => hd (List.length_eq_zero.mp e)
        simp [hd, this]
        rw [e1]
    · have hi1 : i < done.length := by omega
      have e1 : h0.length + i ≠ h.length := by omega
      have hd : done ≠ [] := by
        intro e; rw [e] at hi1; simp at hi1
      simp only [e1, if_false, getD_append_left done p i hi1, List.length_append,
        List.length_singleton]
      have hc := hinv.clones i hi1
      by_cases hr : h0.length + i = root
      · have hi2 : i + 1 = done.length := by
          rw [hinv.root_eq] at hr
          simp only [hd, if_false] at hr
          omega
        simp only [hr, if_true]
        rw [← hr, hc]
        have e2 : ¬ (i + 1 = done.length + 1) := by omega
        have e3 : h.length = h0.length + i + 1 := by omega
        simp only [e2, if_false, e3]
      · have hi2 : ¬ (i + 1 = done.length) := by
          intro e
          apply hr
          rw [hinv.root_eq]
          simp only [hd, if_false]
          omega
        have e2 : ¬ (i + 1 = done.length + 1) := by omega
        simp only [hr, if_false, hc, hi2, e2]
  · simp only [hne, if_false, List.length_append, List.length_singleton]
    omega



/-- The loop of `clone_calls` returns, given enough fuel, with one clone per Call ancestor
of `node`, in front of the clones made before. -/
theorem clone_calls_loop_total (h0 : Heap) (ht : Ptr → Nat) (id0 current : Nat)
    (init process : Option Ptr) (hcur : current < h0.length)
    (hpred : ∀ q : Nat, q < h0.length → ∀ p : Nat, (h0.node q).prev = some p →
      p < h0.length ∧ ht q < ht p) :
    ∀ (node : Ptr) (A : List Ptr), call_ancestors h0 node A →
    ∀ (done : List Ptr) (h : Heap) (root : Nat), cc_inv h0 id0 current done h root →
      ((node = current ∧ done = []) ∨ (node < h0.length ∧ ht current < ht node)) →
      ∃ fuel0, ∀ fuel, fuel0 ≤ fuel → ∃ h1 head,
        clone_calls_loop fuel ⟨h, id0 + done.length, init, process⟩ node root
          = .ok (⟨h1, id0 + (done ++ A).length, init, process⟩, head) ∧
        cc_inv h0 id0 current (done ++ A) h1 head := by
  intro node A hA
  induction hA with
  | root n hn =>
    intro done h root hinv hpos
    have hprev : (h.node n).prev = none := by
      rcases hpos with ⟨e, hd⟩ | ⟨h1, h2⟩
      · have hc := hinv.cur
        simp only [hd, if_true] at hc
        rw [e, hc, ← e]; exact hn
      · have hne : n ≠ current := by
          intro e; rw [e] at h2; omega
        rw [hinv.old n h1 hne]; exact hn
    refine ⟨1, ?_⟩
    intro fuel hfuel
    obtain ⟨f, rfl⟩ : ∃ f, fuel = f + 1 := ⟨fuel - 1, by omega⟩
    refine ⟨h, root, ?_, ?_⟩
    · simp only [clone_calls_loop, hprev, List.append_nil]
    · rw [List.append_nil]; exact hinv
  | call n p l hn hp _ ih =>
    intro done h root hinv hpos
    have hnl : n < h0.length := by
      rcases hpos with ⟨e, _⟩ | ⟨h1, _⟩
      · rw [e]; exact hcur
      · exact h1
    have hnht : ht current ≤ ht n := by
      rcases hpos with ⟨e, _⟩ | ⟨_, h2⟩
      · rw [e]
      · omega
    have hprev : (h.node n).prev = some p := by
      rcases hpos with ⟨e, hd⟩ | ⟨h1, h2⟩
      · have hc := hinv.cur
        simp only [hd, if_true] at hc
        rw [e, hc, ← e]; exact hn
      · have hne : n ≠ current := by
          intro e; rw [e] at h2; omega
        rw [hinv.old n h1 hne]; exact hn
    obtain ⟨hpl, hpht⟩ := hpred n hnl p hn
    have hpc : p ≠ current := by
      intro e; rw [e] at hpht; omega
    have hptype : (h.node p).type = NodeType.CALL := by
      rw [hinv.old p hpl hpc]; exact hp
    have hinv1 := cc_inv_step h0 id0 current done h root p hinv hcur hpl hpc
    obtain ⟨fuel0, hf⟩ := ih (done ++ [p]) _ h.length hinv1 (Or.inr ⟨hpl, by omega⟩)
    refine ⟨fuel0 + 1, ?_⟩
    intro fuel hfuel
    obtain ⟨f, rfl⟩ : ∃ f, fuel = f + 1 := ⟨fuel - 1, by omega⟩
    obtain ⟨h1, head, e1, e2⟩ := hf f (by omega)
    refine ⟨h1, head, ?_, ?_⟩
    · simp only [clone_calls_loop, hprev, hptype, if_true, Heap.clone, Heap.alloc]
      have ea : id0 + done.length + 1 = id0 + (done ++ [p]).length := by simp; omega
      have eb : done ++ p :: l = done ++ [p] ++ l := by simp
      rw [ea, eb]
      exact e1
    · have eb : done ++ p :: l = done ++ [p] ++ l := by simp
      rw [eb]
      exact e2
  | skip n p l hn hp _ ih =>
    intro done h root hinv hpos
    have hnl : n < h0.length := by
      rcases hpos with ⟨e, _⟩ | ⟨h1, _⟩
      · rw [e]; exact hcur
      · exact h1
    have hnht : ht current ≤ ht n := by
      rcases hpos with ⟨e, _⟩ | ⟨_, h2⟩
      · rw [e]
      · omega
    have hprev : (h.node n).prev = some p := by
      rcases hpos with ⟨e, hd⟩ | ⟨h1, h2⟩
      · have hc := hinv.cur
        simp only [hd, if_true] at hc
        rw [e, hc, ← e]; exact hn
      · have hne : n ≠ current := by
          intro e; rw [e] at h2; omega
        rw [hinv.old n h1 hne]; exact hn
    obtain ⟨hpl, hpht⟩ := hpred n hnl p hn
    have hpc : p ≠ current := by
      intro e; rw [e] at hpht; omega
    have hptype : (h.node p).type ≠ NodeType.CALL := by
      rw [hinv.old p hpl hpc]; exact hp
    obtain ⟨fuel0, hf⟩ := ih done h root hinv (Or.inr ⟨hpl, by omega⟩)
    refine ⟨fuel0 + 1, ?_⟩
    intro fuel hfuel
    obtain ⟨f, rfl⟩ : ∃ f, fuel = f + 1 := ⟨fuel - 1, by omega⟩
    obtain ⟨h1, head, e1, e2⟩ := hf f (by omega)
    refine ⟨h1, head, ?_, e2⟩
    simp only [clone_calls_loop, hprev, hptype, if_false]
    exact e1

/-- On a finite heap whose predecessor links lead upwards, every node has its list of Call
ancestors. -/
theorem call_ancestors_exists (h0 : Heap) (ht : Ptr → Nat)
    (hpred : ∀ q : Nat, q < h0.length → ∀ p : Nat, (h0.node q).prev = some p →
      p < h0.length ∧ ht q < ht p) :
    ∀ (k : Nat) (node : Nat), node < h0.length →
      ((List.range h0.length).map ht).sum - ht node ≤ k → ∃ A, call_ancestors h0 node A := by
  have hbound : ∀ x : Nat, x < h0.length → ht x ≤ ((List.range h0.length).map ht).sum := by
    intro x hx
    exact List.single_le_sum (fun _ _ => Nat.zero_le _) _
      (List.mem_map.mpr ⟨x, List.mem_range.mpr hx, rfl⟩)
  intro k
  induction k with
  | zero =>
    intro node hn hk
    cases hp : (h0.node node).prev with
    | none => exact ⟨[], call_ancestors.root node hp⟩
    | some p =>
      exfalso
      obtain ⟨h1, h2⟩ := hpred node hn p hp
      have := hbound p h1
      omega
  | succ k ih =>
    intro node hn hk
    cases hp : (h0.node node).prev with
    | none => exact ⟨[], call_ancestors.root node hp⟩
    | some p =>
      obtain ⟨h1, h2⟩ := hpred node hn p hp
      have hb := hbound p h1
      obtain ⟨A, hA⟩ := ih p h1 (by omega)
      by_cases hc : (h0.node p).type = NodeType.CALL
      · exact ⟨p :: A, call_ancestors.call node p A hp hc hA⟩
      · exact ⟨A, call_ancestors.skip node p A hp hc hA⟩




theorem cc_inv_head_lt (h0 : Heap) (id0 current : Nat) (A : List Ptr) (h1 : Heap) (head : Nat)
    (hinv : cc_inv h0 id0 current A h1 head) (hcur : current < h0.length) :
    head < h1.length ∧ (head = current ∨ h0.length ≤ head) := by
  have e := hinv.root_eq
  have hl := hinv.len
  by_cases hd : A = []
  · simp only [hd, if_true] at e
    exact ⟨by omega, Or.inl e⟩
  · have : 0 < A.length := List.length_pos.mpr hd
    simp only [hd, if_false] at e
    exact ⟨by omega, Or.inr (by omega)⟩

/-- The final `replace_next(prev, current, root)` of `clone_calls` turns the state of the
loop into the result. -/
theorem cloned_calls_of_inv (h0 : Heap) (ht : Ptr → Nat) (id0 current P : Nat) (A : List Ptr)
    (h1 : Heap) (head : Nat) (bdd : BDD) (hb : bdd.nodes = h0) (hwf : well_formed bdd ht)
    (hcur : current < h0.length) (hP : (h0.node current).prev = some P)
    (hinv : cc_inv h0 id0 current A h1 head) :
    ∃ W, SendToController.replace_next h1 (some P) (some current) (some head) = .ok W ∧
      cloned_calls h0 id0 current P A W head := by
  subst hb
  obtain ⟨hPl, hPs⟩ := hwf.pred current hcur P hP
  have hPht : ht current < ht P := (hwf.lk.succ_ok P hPl (fun f => f) current hPs).2.2.2
  have hPc : P ≠ current := by
    intro e; rw [e] at hPht; omega
  obtain ⟨hhl, hhd⟩ := cc_inv_head_lt _ id0 current A h1 head hinv hcur
  have hlen := hinv.len
  have hPh : P ≠ head := by
    rcases hhd with e | e
    · rw [e]; exact hPc
    · omega
  have hP1 : h1.node P = bdd.nodes.node P := hinv.old P hPl hPc
  have hPl1 : P < h1.length := by omega
  have hcid : (h1.node current).id = (bdd.nodes.node current).id := by
    rw [hinv.cur]
    by_cases hd : A = []
    · simp only [hd, if_true]
    · simp only [hd, if_false]
  -- the heap after the two writes, on either side
  have key : ∀ (X : Heap), X.length = h1.length →
      (∀ x, x ≠ P → X.node x = h1.node x) →
      ((bdd.nodes.node P).next = some current →
        X.node P = { bdd.nodes.node P with next := some head }) →
      ((bdd.nodes.node P).next ≠ some current →
        X.node P = { bdd.nodes.node P with on_false := some head }) →
      cloned_calls bdd.nodes id0 current P A (X.replace_prev head (some P)) head := by
    intro X hXl hXo hXn hXf
    have hW : ∀ x, (X.replace_prev head (some P)).node x
        = if x = head then { X.node head with prev := some P } else X.node x :=
      fun x => replace_prev_node X head x (some P) (by rw [hXl]; exact hhl)
    refine ⟨by simp; omega, hinv.root_eq, ?_, ?_, ?_, ?_, ?_⟩
    · intro i hi
      have hxP : bdd.nodes.length + i ≠ P := by omega
      have hc := hinv.clones i hi
      rw [hW]
      have hd : A ≠ [] := by
        intro e; rw [e] at hi; simp at hi
      by_cases hx : bdd.nodes.length + i = head
      · have hi2 : i + 1 = A.length := by
          rw [hinv.root_eq] at hx
          simp only [hd, if_false] at hx
          omega
        simp only [hx, if_true]
        rw [← hx, hXo _ hxP, hc]
        simp only [hi2, if_true]
      · have hi2 : ¬ (i + 1 = A.length) := by
          intro e
          apply hx
          rw [hinv.root_eq]
          simp only [hd, if_false]
          omega
        simp only [hx, if_false]
        rw [hXo _ hxP, hc]
        simp only [hi2, if_false]
    · rw [hW]
      by_cases hd : A = []
      · have e : head = current := by rw [hinv.root_eq]; simp only [hd, if_true]
        have hc := hinv.cur
        simp only [hd, if_true] at hc
        simp only [e, if_true, hXo current (fun e => hPc e.symm), hc, hd]
      · have e : current ≠ head := by
          rw [hinv.root_eq]
          have : 0 < A.length := List.length_pos.mpr hd
          simp only [hd, if_false]; omega
        have hc := hinv.cur
        simp only [hd, if_false] at hc
        simp only [e, if_false, hXo current (fun e => hPc e.symm), hc, hd]
    · intro hn
      rw [hW]
      simp only [hPh, if_false]
      exact hXn hn
    · intro hn
      rcases (mem_succs bdd.nodes P current).mp hPs with e | ⟨e1, e2⟩
      · exact absurd e hn
      · refine ⟨e1, e2, ?_⟩
        rw [hW]
        simp only [hPh, if_false]
        exact hXf hn
    · intro x hx hxc hxP
      rw [hW]
      have hxh : x ≠ head := by
        rcases hhd with e | e
        · rw [e]; exact hxc
        · omega
      simp only [hxh, if_false]
      rw [hXo x hxP]
      exact hinv.old x hx hxc
  have nextcase : cloned_calls bdd.nodes id0 current P A
      ((h1.replace_next P (some head)).replace_prev head (some P)) head ∨
      (bdd.nodes.node P).next ≠ some current := by
    by_cases hn : (bdd.nodes.node P).next = some current
    · left
      apply key _ (by simp)
      · intro x hx
        rw [replace_next_node h1 P x _ hPl1]
        simp only [hx, if_false]
      · intro _
        rw [replace_next_node h1 P P _ hPl1]
        simp only [if_true, hP1]
      · intro hf
        exact absurd hn hf
    · exact Or.inr hn
  unfold SendToController.replace_next
  simp only
  by_cases hbr : (h1.node P).type = NodeType.BRANCH
  · simp only [hbr, if_true]
    have hbr0 : (bdd.nodes.node P).type = NodeType.BRANCH := by rw [← hP1]; exact hbr
    have hshape := (hwf.lk.shape P hPl (fun f => f)).2 hbr0
    cases hot : (bdd.nodes.node P).next with
    | none => exact absurd hot hshape.1
    | some on_true =>
      have hot1 : (h1.node P).next = some on_true := by rw [hP1]; exact hot
      simp only [hot1]
      have hots : on_true ∈ bdd.nodes.succs P :=
        (mem_succs bdd.nodes P on_true).mpr (Or.inl hot)
      have hotl : on_true < bdd.nodes.length := (hwf.lk.succ_ok P hPl (fun f => f) on_true hots).1
      by_cases hoc : on_true = current
      · subst hoc
        simp only [if_true]
        rcases nextcase with hc | hc
        · exact ⟨_, rfl, hc⟩
        · exact absurd hot hc
      · have hne : ¬ (h1.node on_true).id = (h1.node current).id := by
          rw [hcid, hinv.old on_true hotl hoc]
          intro e
          exact hoc (hwf.ids on_true current hotl hcur e)
        simp only [hne, if_false]
        refine ⟨_, rfl, ?_⟩
        have hn : (bdd.nodes.node P).next ≠ some current := by
          rw [hot]
          intro e
          exact hoc (Option.some.inj e)
        apply key _ (by simp)
        · intro x hx
          rw [replace_on_false_node h1 P x _ hPl1]
          simp only [hx, if_false]
        · intro hf
          exact absurd hf hn
        · intro _
          rw [replace_on_false_node h1 P P _ hPl1]
          simp only [if_true, hP1]
  · simp only [hbr, if_false]
    refine ⟨_, rfl, ?_⟩
    rcases nextcase with hc | hc
    · exact hc
    · exfalso
      rcases (mem_succs bdd.nodes P current).mp hPs with e | ⟨e1, _⟩
      · exact hc e
      · rw [← hP1] at e1
        exact hbr e1




/-- After `clone_calls`, every predecessor link of the heap is matched by a forward link. -/
theorem cloned_calls_back (bdd : BDD) (ht : Ptr → Nat) (id0 current P : Nat) (A : List Ptr)
    (W : Heap) (head : Nat) (hwf : well_formed bdd ht) (hcur : current < bdd.nodes.length)
    (hP : (bdd.nodes.node current).prev = some P)
    (hC : cloned_calls bdd.nodes id0 current P A W head) :
    ∀ n : Nat, n < W.length → ∀ p : Nat, (W.node n).prev = some p → n ∈ W.succs p := by
  obtain ⟨hPl, hPs⟩ := hwf.pred current hcur P hP
  have hPht : ht current < ht P := (hwf.lk.succ_ok P hPl (fun f => f) current hPs).2.2.2
  have hPc : P ≠ current := by
    intro e; rw [e] at hPht; omega
  have hlen := hC.len
  -- the links of `P` in the new heap
  have hWP : (W.node P).type = (bdd.nodes.node P).type ∧
      (W.node P).prev = (bdd.nodes.node P).prev ∧ head ∈ W.succs P ∧
      ∀ x : Nat, x ≠ current → x ∈ bdd.nodes.succs P → x ∈ W.succs P := by
    by_cases hn : (bdd.nodes.node P).next = some current
    · have e := hC.on_next hn
      refine ⟨by rw [e], by rw [e], ?_, ?_⟩
      · exact (mem_succs W P head).mpr (Or.inl (by rw [e]))
      · intro x hx hxs
        rcases (mem_succs bdd.nodes P x).mp hxs with e1 | ⟨e1, e2⟩
        · rw [hn] at e1
          exact absurd (Option.some.inj e1).symm hx
        · exact (mem_succs W P x).mpr (Or.inr ⟨by rw [e]; exact e1, by rw [e]; exact e2⟩)
    · obtain ⟨b1, b2, e⟩ := hC.on_other hn
      refine ⟨by rw [e], by rw [e], ?_, ?_⟩
      · exact (mem_succs W P head).mpr (Or.inr ⟨by rw [e]; exact b1, by rw [e]⟩)
      · intro x hx hxs
        rcases (mem_succs bdd.nodes P x).mp hxs with e1 | ⟨e1, e2⟩
        · exact (mem_succs W P x).mpr (Or.inl (by rw [e]; exact e1))
        · rw [b2] at e2
          exact absurd (Option.some.inj e2).symm hx
  obtain ⟨hWPt, hWPp, hWPh, hWPs⟩ := hWP
  have hsame : ∀ x : Nat, x < bdd.nodes.length → x ≠ P → W.succs x = bdd.nodes.succs x := by
    intro x hx hxP
    by_cases hxc : x = current
    · subst hxc
      unfold Heap.succs
      rw [hC.cur]
    · rw [show W.succs x = bdd.nodes.succs x from by
        unfold Heap.succs
        rw [hC.frame x hx hxc hxP]]
  intro n hn p hp
  by_cases hnl : n < bdd.nodes.length
  · by_cases hnc : n = current
    · subst hnc
      rw [hC.cur] at hp
      simp only [Option.some.injEq] at hp
      by_cases hd : A = []
      · simp only [hd, if_true] at hp
        have e : head = n := by rw [hC.head_eq]; simp only [hd, if_true]
        rw [← hp, ← e]
        exact hWPh
      · simp only [hd, if_false] at hp
        have hpos : 0 < A.length := List.length_pos.mpr hd
        have hc := hC.clones 0 hpos
        rw [← hp]
        apply (mem_succs W bdd.nodes.length n).mpr
        left
        have : W.node (bdd.nodes.length + 0) = W.node bdd.nodes.length := rfl
        rw [← this, hc]
        simp
    · by_cases hnP : n = P
      · subst hnP
        rw [hWPp] at hp
        obtain ⟨hpl, hps⟩ := hwf.pred n hnl p hp
        have hpht : ht n < ht p := (hwf.lk.succ_ok p hpl (fun f => f) n hps).2.2.2
        have hpn : p ≠ n := by
          intro e; rw [e] at hpht; omega
        rw [hsame p hpl hpn]
        exact hps
      · rw [hC.frame n hnl hnc hnP] at hp
        obtain ⟨hpl, hps⟩ := hwf.pred n hnl p hp
        by_cases hpP : p = P
        · subst hpP
          exact hWPs n hnc hps
        · rw [hsame p hpl hpP]
          exact hps
  · obtain ⟨i, rfl⟩ : ∃ i, n = bdd.nodes.length + i := ⟨n - bdd.nodes.length, by omega⟩
    have hi : i < A.length := by omega
    have hd : A ≠ [] := by
      intro e; rw [e] at hi; simp at hi
    rw [hC.clones i hi] at hp
    simp only [Option.some.injEq] at hp
    by_cases hlast : i + 1 = A.length
    · simp only [hlast, if_true] at hp
      have e : head = bdd.nodes.length + i := by
        rw [hC.head_eq]
        simp only [hd, if_false]
        omega
      rw [← hp, ← e]
      exact hWPh
    · simp only [hlast, if_false] at hp
      have hc := hC.clones (i + 1) (by omega)
      rw [← hp]
      apply (mem_succs W (bdd.nodes.length + i + 1) (bdd.nodes.length + i)).mpr
      left
      have : W.node (bdd.nodes.length + (i + 1)) = W.node (bdd.nodes.length + i + 1) := rfl
      rw [← this, hc]
      simp

/-- C22: on a well-formed decision graph, `SendToController::clone_calls(plan, current)`
returns `current` and leaves the graph unchanged when `current` has no predecessor;
otherwise it returns (given enough fuel) with one new node per Call ancestor of `current`
(the Branch ancestors are skipped), the copy of that ancestor with a fresh id taken from the
id counter; the copies form a chain in the root-to-current order of the ancestors, from the
node returned down to `current`; the forward link of the original predecessor `P` that held
`current` (the right side if `P` is a Branch) holds the head of the chain, and every
predecessor link of the graph is matched by a forward link. -/
theorem clone_calls_spec (bdd : BDD) (ht : Ptr → Nat) (current : Nat)
    (hwf : well_formed bdd ht) (hcur : current < bdd.nodes.length) :
    ((bdd.nodes.node current).prev = none →
      ∀ fuel, SendToController.clone_calls fuel bdd (some current) = .ok (bdd, current)) ∧
    (∀ P : Nat, (bdd.nodes.node current).prev = some P →
      ∃ A : List Ptr, call_ancestors bdd.nodes current A ∧
      ∃ fuel0, ∀ fuel, fuel0 ≤ fuel → ∃ (bdd1 : BDD) (head : Nat),
        SendToController.clone_calls fuel bdd (some current) = .ok (bdd1, head) ∧
        bdd1.id = bdd.id + A.length ∧
        cloned_calls bdd.nodes bdd.id current P A bdd1.nodes head ∧
        (∀ x : Nat, x < bdd.nodes.length → (bdd1.nodes.node x).id < bdd.id) ∧
        (∀ n : Nat, n < bdd1.nodes.length → ∀ p : Nat,
          (bdd1.nodes.node n).prev = some p → n ∈ bdd1.nodes.succs p)) := by
  constructor
  · intro hp fuel
    simp only [SendToController.clone_calls, hp]
  · intro P hP
    have hpred : ∀ q : Nat, q < bdd.nodes.length → ∀ p : Nat,
        (bdd.nodes.node q).prev = some p → p < bdd.nodes.length ∧ ht q < ht p := by
      intro q hq p hp
      obtain ⟨h1, h2⟩ := hwf.pred q hq p hp
      exact ⟨h1, (hwf.lk.succ_ok p h1 (fun f => f) q h2).2.2.2⟩
    obtain ⟨A, hA⟩ := call_ancestors_exists bdd.nodes ht hpred _ current hcur (Nat.le_refl _)
    refine ⟨A, hA, ?_⟩
    have hinv0 : cc_inv bdd.nodes bdd.id current [] bdd.nodes current :=
      ⟨rfl, fun _ _ _ => rfl, rfl, (fun i hi => by cases hi), rfl⟩
    obtain ⟨fuel0, hf⟩ := clone_calls_loop_total bdd.nodes ht bdd.id current bdd.init
      bdd.process hcur hpred current A hA [] bdd.nodes current hinv0 (Or.inl ⟨rfl, rfl⟩)
    refine ⟨fuel0, ?_⟩
    intro fuel hfuel
    obtain ⟨h1, head, e1, hinv⟩ := hf fuel hfuel
    simp only [List.nil_append, List.length_nil, Nat.add_zero] at e1 hinv
    obtain ⟨W, eW, hC⟩ := cloned_calls_of_inv bdd.nodes ht bdd.id current P A h1 head bdd rfl
      hwf hcur hP hinv
    refine ⟨⟨W, bdd.id + A.length, bdd.init, bdd.process⟩, head, ?_, rfl, hC, ?_,
      cloned_calls_back bdd ht bdd.id current P A W head hwf hcur hP hC⟩
    · have eb : bdd = ⟨bdd.nodes, bdd.id, bdd.init, bdd.process⟩ := rfl
      simp only [SendToController.clone_calls, hP]
      rw [eb] 
      simp only [e1, eW]
    · intro x hx
      have hid : (W.node x).id = (bdd.nodes.node x).id := by
        by_cases hxc : x = current
        · rw [hxc, hC.cur]
        · by_cases hxP : x = P
          · by_cases hn : (bdd.nodes.node P).next = some current
            · rw [hxP, hC.on_next hn]
            · rw [hxP, (hC.on_other hn).2.2]
          · rw [hC.frame x hx hxc hxP]
      show (W.node x).id < bdd.id
      rw [hid]
      exact hwf.counter x hx


/-- C22, witness: on `A → Br(c){ G1 → G2 → return; G3 → return }` the node `G3`, the `on_false`
child of the Branch, has the one Call ancestor `A`: the copy of `A` is the new node 7 with
the id 17 of the counter, it is followed by `G3`, and the `on_false` link of the Branch
holds it. -/
theorem clone_calls_spec_witness :
    (SendToController.clone_calls 20 ⟨repeated_call_heap, 17, none, some 0⟩ (some 5)).map
      (fun r => (r.2, r.1.id, (r.1.nodes.node 1).next, (r.1.nodes.node 1).on_false))
      = .ok (7, 18, some 2, some 7) ∧
    (SendToController.clone_calls 20 ⟨repeated_call_heap, 17, none, some 0⟩ (some 5)).map
      (fun r => ((r.1.nodes.node 7).next, (r.1.nodes.node 7).prev, (r.1.nodes.node 7).id,
        (r.1.nodes.node 5).prev))
      = .ok (some 5, some 1, 17, some 7) ∧
    ∃ A : List Ptr, call_ancestors repeated_call_heap 5 A ∧
      ∃ fuel0, ∀ fuel, fuel0 ≤ fuel → ∃ (bdd1 : BDD) (head : Nat),
        SendToController.clone_calls fuel ⟨repeated_call_heap, 17, none, some 0⟩ (some 5)
          = .ok (bdd1, head) ∧
        bdd1.id = 17 + A.length ∧
        cloned_calls repeated_call_heap 17 5 1 A bdd1.nodes head ∧
        (∀ x : Nat, x < repeated_call_heap.length → (bdd1.nodes.node x).id < 17) ∧
        (∀ n : Nat, n < bdd1.nodes.length → ∀ p : Nat,
          (bdd1.nodes.node n).prev = some p → n ∈ bdd1.nodes.succs p) :=
  ⟨by decide, by decide,
    (clone_calls_spec ⟨repeated_call_heap, 17, none, some 0⟩ (fun x => 10 - x) 5
      repeated_call_heap_well_formed (by decide)).2 1 (by decide)⟩




theorem spliced_link_kept (Z : Heap) (S : List Nat) (d : Bool) (t : Nat)
    (hf : S.contains (Z.node t).id = false) : spliced_link Z S d (some t) = some t := by
  simp only [spliced_link, hf, Bool.false_eq_true, if_false]

theorem spliced_link_found (Z h : Heap) (S : List Nat) (leaf : aux_t) (t : Nat) (r : Option Ptr)
    (hf : S.contains (Z.node t).id = true)
    (hty : (h.node t).type = (Z.node t).type) (hnx : (h.node t).next = (Z.node t).next)
    (hof : (h.node t).on_false = (Z.node t).on_false)
    (hs : splice_successor h t leaf = .ok r) :
    spliced_link Z S leaf.branch_decision (some t) = r := by
  unfold splice_successor at hs
  simp only [spliced_link, hf, if_true]
  rw [hty, hnx, hof] at hs
  by_cases hb : (Z.node t).type = NodeType.BRANCH
  · simp only [hb, if_true] at hs ⊢
    by_cases hset : leaf.branch_decision_set = true
    · simp only [hset, Bool.not_true, Bool.false_eq_true, if_false, Except.ok.injEq] at hs
      exact hs
    · simp [hset] at hs
  · simp only [hb, if_false, Except.ok.injEq] at hs ⊢
    exact hs

theorem splice_inv_succs (S : List Nat) (ht : Ptr → Nat) (h0 : Nat) (Z0 : Heap)
    (dec : Ptr → Bool) (h : Heap) (Done : Ptr → Prop) (leaves : List aux_t)
    (J : splice_inv S ht h0 Z0 dec h Done leaves) (x : Nat) (hx : ¬ Done x) :
    h.succs x = Z0.succs x :=
  succs_congr h Z0 x x (J.fresh x hx).1 (J.fresh x hx).2 (J.data x).1

/-- The children of a leaf of the sibling pass were not visited. -/
theorem walk_child_fresh (S : List Nat) (T : NodeType) (ht : Ptr → Nat) (h0 : Nat) (h : Heap)
    (D Done : Ptr → Prop) (leaf : aux_t) (rest : List aux_t) (n s : Nat)
    (inv : walk_inv S T ht h0 h D Done (leaf :: rest)) (hleaf : leaf.node = some n)
    (hs : s ∈ h.succs n) : ¬ Done s ∧ ht s < ht n ∧ ht n < h0 ∧ ¬ Done n := by
  obtain ⟨hn, hnD, hnh0, hnDone, pn, hpn, hpnDone⟩ :=
    inv.leaf_ok leaf (List.mem_cons_self _ _) n hleaf
  obtain ⟨_, _, h3, h4⟩ := inv.lk.succ_ok n hn hnD s hs
  refine ⟨?_, h4, hnh0, hnDone⟩
  intro hd
  rcases inv.done_up s hd with h5 | ⟨pp, h5, h6⟩
  · omega
  · rw [h3] at h5
    rw [← Option.some.inj h5] at h6
    exact hnDone h6

/-- One round of the sibling pass keeps the invariant `splice_inv`: the visited node `n` has
the spliced links, the other nodes keep their links, and the children of `n` are the new
leaves. -/
theorem splice_inv_step (S : List Nat) (ht : Ptr → Nat) (h0 : Nat) (Z0 : Heap)
    (dec : Ptr → Bool) (h h1 : Heap) (Done : Ptr → Prop) (leaf : aux_t)
    (rest new : List aux_t) (n : Nat)
    (J : splice_inv S ht h0 Z0 dec h Done (leaf :: rest)) (hleaf : leaf.node = some n)
    (hnDone : ¬ Done n)
    (hdata : ∀ x, (h1.node x).type = (h.node x).type ∧ (h1.node x).id = (h.node x).id)
    (hother : ∀ x, x ≠ n →
      (h1.node x).next = (h.node x).next ∧ (h1.node x).on_false = (h.node x).on_false)
    (hnext : (h1.node n).next = spliced_link Z0 S (dec n) (Z0.node n).next)
    (hofalse : (Z0.node n).type = NodeType.BRANCH →
      (h1.node n).on_false = spliced_link Z0 S (dec n) (Z0.node n).on_false)
    (hnew : ∀ q : Nat, q ∈ h1.succs n → ∃ l ∈ new, l.node = some q)
    (hnewdec : ∀ l ∈ new, ∀ m : Nat, l.node = some m → l.branch_decision = dec m) :
    splice_inv S ht h0 Z0 dec h1 (fun x => Done x ∨ x = n) (rest ++ new) := by
  constructor
  · intro x
    exact ⟨(hdata x).1.trans (J.data x).1, (hdata x).2.trans (J.data x).2⟩
  · intro x hx
    have hxn : x ≠ n := fun e => hx (Or.inr e)
    have hxd : ¬ Done x := fun e => hx (Or.inl e)
    exact ⟨(hother x hxn).1.trans (J.fresh x hxd).1, (hother x hxn).2.trans (J.fresh x hxd).2⟩
  · intro x hx hxh
    by_cases hxn : x = n
    · subst hxn
      exact ⟨hnext, hofalse⟩
    · have hxd : Done x := by
        rcases hx with hx | hx
        · exact hx
        · exact absurd hx hxn
      obtain ⟨d1, d2⟩ := J.done x hxd hxh
      exact ⟨(hother x hxn).1.trans d1, fun hb => (hother x hxn).2.trans (d2 hb)⟩
  · intro x hx q hq
    by_cases hxn : x = n
    · subst hxn
      obtain ⟨l, hl, e⟩ := hnew q hq
      exact Or.inr ⟨l, List.mem_append.mpr (Or.inr hl), e⟩
    · have hxd : Done x := by
        rcases hx with hx | hx
        · exact hx
        · exact absurd hx hxn
      have hs : h1.succs x = h.succs x :=
        succs_congr h1 h x x (hother x hxn).1 (hother x hxn).2 (hdata x).1
      rw [hs] at hq
      rcases J.closed x hxd q hq with hd | ⟨l, hl, e⟩
      · exact Or.inl (Or.inl hd)
      · rcases List.mem_cons.mp hl with hl | hl
        · subst hl
          rw [hleaf] at e
          exact Or.inl (Or.inr (Option.some.inj e).symm)
        · exact Or.inr ⟨l, List.mem_append.mpr (Or.inl hl), e⟩
  · intro l hl m hm
    rcases List.mem_append.mp hl with hl | hl
    · exact J.dec_leaf l (List.mem_cons_of_mem _ hl) m hm
    · exact hnewdec l hl m hm

theorem splice_inv_perm (S : List Nat) (ht : Ptr → Nat) (h0 : Nat) (Z0 : Heap)
    (dec : Ptr → Bool) (h : Heap) (Done : Ptr → Prop) (l1 l2 : List aux_t)
    (hp : l1.Perm l2) (J : splice_inv S ht h0 Z0 dec h Done l1) :
    splice_inv S ht h0 Z0 dec h Done l2 := by
  refine ⟨J.data, J.fresh, J.done, ?_, ?_⟩
  · intro x hx q hq
    rcases J.closed x hx q hq with hd | ⟨l, hl, e⟩
    · exact Or.inl hd
    · exact Or.inr ⟨l, hp.mem_iff.mp hl, e⟩
  · intro l hl
    exact J.dec_leaf l (hp.mem_iff.mpr hl)

/-- The sibling pass of `reorder_bdd` ends without a fault when given enough rounds, keeps
the forward links consistent, and leaves every visited node with the spliced links. -/
theorem dedup_loop_spliced (S : List Nat) (T : NodeType) (ht : Ptr → Nat) (h0 : Nat)
    (Z0 : Heap) (dec : Ptr → Bool)
    (hdec : ∀ x q : Nat, ht x < h0 → q ∈ Z0.succs x → dec q = dec x) :
    ∀ (fuel : Nat) (h : Heap) (D Done : Ptr → Prop) (leaves : List aux_t),
      walk_inv S T ht h0 h D Done leaves → splice_inv S ht h0 Z0 dec h Done leaves →
      leaves_cost ht leaves < fuel →
      ∃ (h1 : Heap) (D1 Done1 : Ptr → Prop), dedup_loop S fuel h leaves = .ok h1 ∧
        walk_post ht h0 h h1 D1 ∧ splice_inv S ht h0 Z0 dec h1 Done1 [] ∧
        ∀ x, Done x → Done1 x := by
  intro fuel
  induction fuel with
  | zero => intro h D Done leaves _ _ hc; omega
  | succ fuel ih =>
    intro h D Done leaves inv J hcost
    cases leaves with
    | nil => exact ⟨h, D, Done, rfl, walk_post_refl S T ht h0 h D Done [] inv, J, fun _ hx => hx⟩
    | cons leaf rest =>
      rw [leaves_cost_cons] at hcost
      have htail := walk_inv_tail S T ht h0 h D Done leaf rest inv
      have hpos := leaf_cost_pos ht leaf
      cases hnode : leaf.node with
      | none =>
        have Jtail : splice_inv S ht h0 Z0 dec h Done rest := by
          refine ⟨J.data, J.fresh, J.done, ?_, ?_⟩
          · intro x hx q hq
            rcases J.closed x hx q hq with hd | ⟨l, hl, e⟩
            · exact Or.inl hd
            · rcases List.mem_cons.mp hl with hl | hl
              · subst hl
                rw [hnode] at e
                cases e
              · exact Or.inr ⟨l, hl, e⟩
          · intro l hl
            exact J.dec_leaf l (List.mem_cons_of_mem _ hl)
        obtain ⟨h1, D1, Done1, hrun, hpost, J1, hsub⟩ := ih h D Done rest htail Jtail (by omega)
        refine ⟨h1, D1, Done1, ?_, hpost, J1, hsub⟩
        simp only [dedup_loop, hnode]
        exact hrun
      | some n =>
        have hc1 : leaf_cost ht leaf = 3 ^ ht n := by simp [leaf_cost, hnode]
        obtain ⟨hn, hnD, hnh0, hnDone, pn, hpn, hpnDone⟩ :=
          inv.leaf_ok leaf (List.mem_cons_self _ _) n hnode
        have hflag := inv.flags leaf (List.mem_cons_self _ _)
        have hdn : leaf.branch_decision = dec n :=
          J.dec_leaf leaf (List.mem_cons_self _ _) n hnode
        have hZn := J.fresh n hnDone
        have hZs : h.succs n = Z0.succs n :=
          splice_inv_succs S ht h0 Z0 dec h Done _ J n hnDone
        by_cases hb : (h.node n).type = NodeType.BRANCH
        · obtain ⟨hnx, hof, hdist⟩ := (inv.lk.shape n hn hnD).2 hb
          obtain ⟨t, htn⟩ := Option.ne_none_iff_exists'.mp hnx
          obtain ⟨f, hfn⟩ := Option.ne_none_iff_exists'.mp hof
          have htm : t ∈ h.succs n := (mem_succs h n t).mpr (Or.inl htn)
          have hfm : f ∈ h.succs n := (mem_succs h n f).mpr (Or.inr ⟨hb, hfn⟩)
          obtain ⟨htl, htD, htprev, htht⟩ := inv.lk.succ_ok n hn hnD t htm
          obtain ⟨hfl, hfD, hfprev, hfht⟩ := inv.lk.succ_ok n hn hnD f hfm
          have htf : t ≠ f := by
            intro e; rw [htn, hfn, e] at hdist; exact hdist rfl
          -- on_true side
          obtain ⟨h1, t1, hrun1, hrel1, hlk1, hcase1⟩ :=
            dedup_side_ok S T h ht D n t false (S.contains (h.node t).id) leaf inv.lk inv.typed
              inv.kind hflag hn hnD (Or.inl ⟨rfl, htn⟩) (by intro hc; simpa using hc)
          obtain ⟨horig1, hprev1⟩ := dedup_side_prev S h h1 ht D n t t1 false _ leaf inv.lk htm
            hn hnD hrel1 hcase1
          -- on_false side
          have hn1 : n < h1.length := by rw [hrel1.len]; exact hn
          have hnD1 : ¬ (D n ∨ (S.contains (h.node t).id = true ∧ n = t)) := by
            rintro (hd | ⟨_, hd⟩)
            · exact hnD hd
            · rw [← hd] at htht; omega
          have hof1 : (h1.node n).on_false = some f := by
            rw [hrel1.on_false]; simp [hfn]
          have hty1 : (h1.node n).type = NodeType.BRANCH := by rw [(hrel1.same n).1]; exact hb
          have htyped1 : ∀ x, x < h1.length → (h1.node x).id ∈ S → (h1.node x).type = T := by
            intro x hx hid
            rw [hrel1.len] at hx
            rw [(hrel1.same x).2.1] at hid
            rw [(hrel1.same x).1]
            exact inv.typed x hx hid
          obtain ⟨h2, f1, hrun2, hrel2, hlk2, hcase2⟩ :=
            dedup_side_ok S T h1 ht _ n f true (S.contains (h.node f).id) leaf hlk1 htyped1
              inv.kind hflag hn1 hnD1 (Or.inr ⟨rfl, hty1, hof1⟩)
              (by intro hc; rw [(hrel1.same f).2.1]; simpa using hc)
          have hfm1 : f ∈ h1.succs n := (mem_succs h1 n f).mpr (Or.inr ⟨hty1, hof1⟩)
          obtain ⟨horig2, hprev2⟩ := dedup_side_prev S h1 h2 ht _ n f f1 true _ leaf hlk1 hfm1
            hn1 hnD1 hrel2 hcase2
          have hfn_ne : f ≠ n := by intro e; rw [e] at hfht; omega
          -- the new children
          have hnx2 : (h2.node n).next = some t1 := by
            rw [hrel2.next, hrel1.next]; simp
          have hof2 : (h2.node n).on_false = some f1 := by
            rw [hrel2.on_false]; simp
          have hty2 : (h2.node n).type = NodeType.BRANCH := by rw [(hrel2.same n).1]; exact hty1
          have hn2 : n < h2.length := by rw [hrel2.len]; exact hn1
          have hnD2 : ¬ ((D n ∨ (S.contains (h.node t).id = true ∧ n = t)) ∨
              (S.contains (h.node f).id = true ∧ n = f)) := by
            rintro (hd | ⟨_, hd⟩)
            · exact hnD1 hd
            · exact hfn_ne hd.symm
          have ht1m : t1 ∈ h2.succs n := (mem_succs h2 n t1).mpr (Or.inl hnx2)
          have hf1m : f1 ∈ h2.succs n := (mem_succs h2 n f1).mpr (Or.inr ⟨hty2, hof2⟩)
          obtain ⟨_, _, _, ht1ht⟩ := hlk2.succ_ok n hn2 hnD2 t1 ht1m
          obtain ⟨_, _, _, hf1ht⟩ := hlk2.succ_ok n hn2 hnD2 f1 hf1m
          have hdist2 := ((hlk2.shape n hn2 hnD2).2 hty2).2.2
          have ht1f1 : t1 ≠ f1 := by
            intro e; rw [hnx2, hof2, e] at hdist2; exact hdist2 rfl
          -- predecessors in h1 and in h agree for the successors of f
          have hprevf : ∀ x, (h1.node x).prev = some f → (h.node x).prev = some f ∨
              (h.node x).prev = some t := by
            intro x hx
            rcases hprev1 x with h3 | ⟨_, h3⟩
            · left; rw [← h3]; exact hx
            · right; exact h3
          have inv2 := walk_inv_step S T ht h0 h h2 D _ Done leaf rest
            [⟨some t1, leaf.branch_decision, true⟩, ⟨some f1, leaf.branch_decision, true⟩] n
            inv hnode hlk2 (hrel2.len.trans hrel1.len)
            (fun x => ⟨(hrel2.same x).1.trans (hrel1.same x).1,
              (hrel2.same x).2.1.trans (hrel1.same x).2.1⟩)
            (fun x => (S.contains (h.node t).id = true ∧ x = t) ∨
              (S.contains (h.node f).id = true ∧ x = f))
            (by
              rintro s (⟨_, hs⟩ | ⟨_, hs⟩)
              · rw [hs]; exact htm
              · rw [hs]; exact hfm)
            (by
              rintro x ((hd | hd) | hd)
              · exact Or.inl hd
              · exact Or.inr (Or.inl hd)
              · exact Or.inr (Or.inr hd))
            hnD2
            (by
              intro x
              rcases hprev2 x with h3 | ⟨h3, h4⟩
              · rcases hprev1 x with h5 | ⟨h5, h6⟩
                · left; rw [h3, h5]
                · right; exact ⟨t, Or.inl ⟨h5, rfl⟩, h6⟩
              · rcases hprevf x h4 with h5 | h5
                · right; exact ⟨f, Or.inr ⟨h3, rfl⟩, h5⟩
                · -- the predecessor was changed by the first side: x = t1, and t1 ≠ successors of f
                  exfalso
                  rcases hprev1 x with h6 | ⟨h6, h7⟩
                  · rw [h6, h5] at h4
                    exact htf (Option.some.inj h4)
                  · have hx1 : (h1.node x).prev = if x = t1 then some n else (h.node x).prev :=
                      hrel1.prev x
                    by_cases hxt : x = t1
                    · rw [if_pos hxt, h4] at hx1
                      exact hfn_ne (Option.some.inj hx1)
                    · rw [if_neg hxt, h4, h5] at hx1
                      exact htf (Option.some.inj hx1).symm)
            (by
              intro l hl
              simp only [List.mem_cons, List.mem_singleton, List.not_mem_nil, or_false] at hl
              rcases hl with hl | hl
              · subst hl
                refine ⟨fun _ => rfl, ?_⟩
                intro c hc
                have hct : c = t1 := (Option.some.inj hc).symm
                subst hct
                refine ⟨ht1m, ?_⟩
                rcases horig1 with h3 | ⟨h3, h4⟩
                · exact Or.inl h3
                · exact Or.inr ⟨t, Or.inl ⟨h3, rfl⟩, h4⟩
              · subst hl
                refine ⟨fun _ => rfl, ?_⟩
                intro c hc
                have hct : c = f1 := (Option.some.inj hc).symm
                subst hct
                refine ⟨hf1m, ?_⟩
                rcases hcase2 with ⟨_, _, h5⟩ | ⟨h3, h4, _, _⟩
                · rw [h5]; exact Or.inl hfprev
                · rw [succs_relinked_ne h h1 n t1 f false hrel1 hfn_ne] at h4
                  exact Or.inr ⟨f, Or.inr ⟨h3, rfl⟩, (inv.lk.succ_ok f hfl hfD c h4).2.2.1⟩)
            (by
              simp only [List.pairwise_cons, List.mem_singleton, List.not_mem_nil,
                List.Pairwise.nil, and_true]
              refine ⟨?_, fun _ h => absurd h (by simp)⟩
              intro b hb m hm
              subst hb
              simp only at hm ⊢
              rw [← Option.some.inj hm]
              exact fun e => ht1f1 (Option.some.inj e).symm)
          have hcost2 : leaves_cost ht (rest ++
              [⟨some t1, leaf.branch_decision, true⟩, ⟨some f1, leaf.branch_decision, true⟩])
              < fuel := by
            rw [leaves_cost_append]
            have := pow3_two (ht t1) (ht f1) (ht n) ht1ht hf1ht
            have e : leaves_cost ht [⟨some t1, leaf.branch_decision, true⟩,
                ⟨some f1, leaf.branch_decision, true⟩] = 3 ^ ht t1 + 3 ^ ht f1 := by
              simp [leaves_cost, leaf_cost]
            rw [e]
            omega
          have htfresh := walk_child_fresh S T ht h0 h D Done leaf rest n t inv hnode htm
          have hffresh := walk_child_fresh S T ht h0 h D Done leaf rest n f inv hnode hfm
          have hZt := J.fresh t htfresh.1
          have hZf := J.fresh f hffresh.1
          have J2 : splice_inv S ht h0 Z0 dec h2 (fun x => Done x ∨ x = n)
              (rest ++ [⟨some t1, leaf.branch_decision, true⟩,
                ⟨some f1, leaf.branch_decision, true⟩]) := by
            apply splice_inv_step S ht h0 Z0 dec h h2 Done leaf rest _ n J hnode hnDone
            · intro x
              exact ⟨(hrel2.same x).1.trans (hrel1.same x).1,
                (hrel2.same x).2.1.trans (hrel1.same x).2.1⟩
            · intro x hx
              refine ⟨?_, ?_⟩
              · rw [hrel2.next, hrel1.next]; simp [hx]
              · rw [hrel2.on_false, hrel1.on_false]; simp [hx]
            · rw [hnx2, ← hZn.1, htn, ← hdn]
              rcases hcase1 with ⟨c1, _, c3⟩ | ⟨c1, _, c3, _⟩
              · rw [c3]
                exact (spliced_link_kept Z0 S _ t (by rw [← (J.data t).2]; exact c1)).symm
              · exact (spliced_link_found Z0 h S leaf t (some t1)
                  (by rw [← (J.data t).2]; exact c1) (J.data t).1 hZt.1 hZt.2 c3).symm
            · intro _
              rw [hof2, ← hZn.2, hfn, ← hdn]
              rcases hcase2 with ⟨c1, _, c3⟩ | ⟨c1, _, c3, _⟩
              · rw [c3]
                exact (spliced_link_kept Z0 S _ f (by rw [← (J.data f).2]; exact c1)).symm
              · refine (spliced_link_found Z0 h1 S leaf f (some f1)
                  (by rw [← (J.data f).2]; exact c1)
                  ((hrel1.same f).1.trans (J.data f).1) ?_ ?_ c3).symm
                · rw [hrel1.next]; simp [hfn_ne]; exact hZf.1
                · rw [hrel1.on_false]; simp; exact hZf.2
            · intro q hq
              rcases (mem_succs h2 n q).mp hq with e | ⟨_, e⟩
              · rw [hnx2] at e
                exact ⟨_, List.mem_cons_self _ _, by rw [← Option.some.inj e]⟩
              · rw [hof2] at e
                exact ⟨_, List.mem_cons_of_mem _ (List.mem_singleton.mpr rfl),
                  by rw [← Option.some.inj e]⟩
            · intro l hl m hm
              simp only [List.mem_cons, List.mem_singleton, List.not_mem_nil, or_false] at hl
              have hdt : dec t = dec n := hdec n t hnh0 (by rw [← hZs]; exact htm)
              have hdf : dec f = dec n := hdec n f hnh0 (by rw [← hZs]; exact hfm)
              rcases hl with hl | hl
              · subst hl
                simp only [Option.some.injEq] at hm
                subst hm
                show leaf.branch_decision = dec t1
                rw [hdn]
                rcases hcase1 with ⟨_, _, c3⟩ | ⟨_, c2, _, _⟩
                · rw [c3]; exact hdt.symm
                · have hst : h.succs t = Z0.succs t :=
                    splice_inv_succs S ht h0 Z0 dec h Done _ J t htfresh.1
                  rw [hst] at c2
                  rw [hdec t t1 (by omega) c2]; exact hdt.symm
              · subst hl
                simp only [Option.some.injEq] at hm
                subst hm
                show leaf.branch_decision = dec f1
                rw [hdn]
                rcases hcase2 with ⟨_, _, c3⟩ | ⟨_, c2, _, _⟩
                · rw [c3]; exact hdf.symm
                · rw [succs_relinked_ne h h1 n t1 f false hrel1 hfn_ne] at c2
                  have hsf : h.succs f = Z0.succs f :=
                    splice_inv_succs S ht h0 Z0 dec h Done _ J f hffresh.1
                  rw [hsf] at c2
                  rw [hdec f f1 (by omega) c2]; exact hdf.symm
          obtain ⟨h3, D3, Done3, hrun3, hpost3, J3, hsub3⟩ := ih h2 _ _ _ inv2 J2 hcost2
          refine ⟨h3, D3, Done3, ?_, ?_, J3, fun x hx => hsub3 x (Or.inl hx)⟩
          · simp only [dedup_loop, hnode, hb, if_true, htn, hfn, hrun1, hrun2, hnx2, hof2]
            exact hrun3
          · exact walk_post_relinked ht h0 h h1 h3 D3 n t1 false hrel1 hnh0 (by omega)
              (walk_post_relinked ht h0 h1 h2 h3 D3 n f1 true hrel2 hnh0 (by omega) hpost3)
        · cases hnx : (h.node n).next with
          | none =>
            have inv1 := walk_inv_step S T ht h0 h h D D Done leaf rest [] n inv hnode inv.lk rfl
              (fun x => ⟨rfl, rfl⟩) (fun _ => False) (fun s hs => absurd hs (fun f => f))
              (fun x hx => Or.inl hx) hnD (fun x => Or.inl rfl)
              (fun l hl => by cases hl) List.Pairwise.nil
            have J1 : splice_inv S ht h0 Z0 dec h (fun x => Done x ∨ x = n) (rest ++ []) := by
              apply splice_inv_step S ht h0 Z0 dec h h Done leaf rest [] n J hnode hnDone
                (fun x => ⟨rfl, rfl⟩) (fun x _ => ⟨rfl, rfl⟩)
              · rw [← hZn.1, hnx]; rfl
              · intro hbz
                exact absurd ((J.data n).1.trans hbz) hb
              · intro q hq
                rcases (mem_succs h n q).mp hq with e | ⟨e, _⟩
                · rw [hnx] at e; cases e
                · exact absurd e hb
              · intro l hl
                cases hl
            rw [List.append_nil] at inv1 J1
            obtain ⟨h1, D1, Done1, hrun, hpost, J2, hsub⟩ := ih h D _ rest inv1 J1 (by omega)
            refine ⟨h1, D1, Done1, ?_, hpost, J2, fun x hx => hsub x (Or.inl hx)⟩
            simp only [dedup_loop, hnode, hb, if_false, hnx]
            exact hrun
          | some s =>
            have hsm : s ∈ h.succs n := (mem_succs h n s).mpr (Or.inl hnx)
            obtain ⟨hsl, hsD, hsprev, hsht⟩ := inv.lk.succ_ok n hn hnD s hsm
            obtain ⟨h1, c1, hrun1, hrel1, hlk1, hcase1⟩ :=
              dedup_side_ok S T h ht D n s false (S.contains (h.node s).id) leaf inv.lk inv.typed
                inv.kind hflag hn hnD (Or.inl ⟨rfl, hnx⟩) (by intro hc; simpa using hc)
            obtain ⟨horig1, hprev1⟩ := dedup_side_prev S h h1 ht D n s c1 false _ leaf inv.lk hsm
              hn hnD hrel1 hcase1
            have hn1 : n < h1.length := by rw [hrel1.len]; exact hn
            have hnD1 : ¬ (D n ∨ (S.contains (h.node s).id = true ∧ n = s)) := by
              rintro (hd | ⟨_, hd⟩)
              · exact hnD hd
              · rw [← hd] at hsht; omega
            have hnx1 : (h1.node n).next = some c1 := by rw [hrel1.next]; simp
            have hc1m : c1 ∈ h1.succs n := (mem_succs h1 n c1).mpr (Or.inl hnx1)
            obtain ⟨_, _, _, hc1ht⟩ := hlk1.succ_ok n hn1 hnD1 c1 hc1m
            have inv1 := walk_inv_step S T ht h0 h h1 D _ Done leaf rest
              [{ leaf with node := some c1 }] n inv hnode hlk1 hrel1.len
              (fun x => ⟨(hrel1.same x).1, (hrel1.same x).2.1⟩)
              (fun x => S.contains (h.node s).id = true ∧ x = s)
              (by rintro x ⟨_, hx⟩; rw [hx]; exact hsm)
              (fun x hx => hx) hnD1
              (by
                intro x
                rcases hprev1 x with h3 | ⟨h3, h4⟩
                · exact Or.inl h3
                · exact Or.inr ⟨s, ⟨h3, rfl⟩, h4⟩)
              (by
                intro l hl
                simp only [List.mem_singleton] at hl
                subst hl
                refine ⟨hflag, ?_⟩
                intro c hc
                have hct : c = c1 := (Option.some.inj hc).symm
                subst hct
                refine ⟨hc1m, ?_⟩
                rcases horig1 with h3 | ⟨h3, h4⟩
                · exact Or.inl h3
                · exact Or.inr ⟨s, ⟨h3, rfl⟩, h4⟩)
              (List.pairwise_singleton _ _)
            have inv1b := walk_inv_perm S T ht h0 h1 _ _ _ ({ leaf with node := some c1 } :: rest)
              (List.perm_append_singleton _ _) inv1
            have hcost1 : leaves_cost ht ({ leaf with node := some c1 } :: rest) < fuel := by
              rw [leaves_cost_cons]
              have := pow3_lt (ht c1) (ht n) hc1ht
              have hc2 : leaf_cost ht { leaf with node := some c1 } = 3 ^ ht c1 := by
                simp [leaf_cost]
              omega
            have hsfresh := walk_child_fresh S T ht h0 h D Done leaf rest n s inv hnode hsm
            have hZsn := J.fresh s hsfresh.1
            have J1 : splice_inv S ht h0 Z0 dec h1 (fun x => Done x ∨ x = n)
                (rest ++ [{ leaf with node := some c1 }]) := by
              apply splice_inv_step S ht h0 Z0 dec h h1 Done leaf rest _ n J hnode hnDone
              · intro x
                exact ⟨(hrel1.same x).1, (hrel1.same x).2.1⟩
              · intro x hx
                refine ⟨?_, ?_⟩
                · rw [hrel1.next]; simp [hx]
                · rw [hrel1.on_false]; simp
              · rw [hnx1, ← hZn.1, hnx, ← hdn]
                rcases hcase1 with ⟨c1f, _, c3⟩ | ⟨c1f, _, c3, _⟩
                · rw [c3]
                  exact (spliced_link_kept Z0 S _ s (by rw [← (J.data s).2]; exact c1f)).symm
                · exact (spliced_link_found Z0 h S leaf s (some c1)
                    (by rw [← (J.data s).2]; exact c1f) (J.data s).1 hZsn.1 hZsn.2 c3).symm
              · intro hbz
                exact absurd ((J.data n).1.trans hbz) hb
              · intro q hq
                have hb1 : ¬ (h1.node n).type = NodeType.BRANCH := by
                  rw [(hrel1.same n).1]; exact hb
                rcases (mem_succs h1 n q).mp hq with e | ⟨e, _⟩
                · rw [hnx1] at e
                  exact ⟨_, List.mem_singleton.mpr rfl, by rw [← Option.some.inj e]⟩
                · exact absurd e hb1
              · intro l hl m hm
                simp only [List.mem_singleton] at hl
                subst hl
                simp only [Option.some.injEq] at hm
                subst hm
                show leaf.branch_decision = dec c1
                rw [hdn]
                have hds : dec s = dec n := hdec n s hnh0 (by rw [← hZs]; exact hsm)
                rcases hcase1 with ⟨_, _, c3⟩ | ⟨_, c2, _, _⟩
                · rw [c3]; exact hds.symm
                · have hst : h.succs s = Z0.succs s :=
                    splice_inv_succs S ht h0 Z0 dec h Done _ J s hsfresh.1
                  rw [hst] at c2
                  rw [hdec s c1 (by omega) c2]; exact hds.symm
            have J1b := splice_inv_perm S ht h0 Z0 dec h1 _ _
              ({ leaf with node := some c1 } :: rest) (List.perm_append_singleton _ _) J1
            obtain ⟨h3, D3, Done3, hrun3, hpost3, J3, hsub3⟩ := ih h1 _ _ _ inv1b J1b hcost1
            refine ⟨h3, D3, Done3, ?_, ?_, J3, fun x hx => hsub3 x (Or.inl hx)⟩
            · rcases hcase1 with ⟨h4, h5, h6⟩ | ⟨h4, _, h6, h7⟩
              · subst h5; subst h6
                simp only [dedup_loop, hnode, hb, if_false, hnx, h4, Bool.false_eq_true]
                exact hrun3
              · simp only [dedup_loop, hnode, hb, if_false, hnx, h4, if_true, h6, h7]
                exact hrun3
            · exact walk_post_relinked ht h0 h h1 h3 D3 n c1 false hrel1 hnh0 (by omega) hpost3



theorem reachable_congr (g h : Heap) (a b : Ptr) (hs : ∀ x, g.succs x = h.succs x)
    (hr : g.reachable a b) : h.reachable a b := by
  induction hr with
  | refl => exact Heap.reachable.refl
  | step p q _ hq ih => exact Heap.reachable.step p q ih (by rw [← hs p]; exact hq)

/-- Reachability inside a region closed under the forward links, on which two heaps have the
same successors. -/
theorem reachable_region (g h : Heap) (R : Ptr → Prop) (a b : Ptr) (ha : R a)
    (hs : ∀ x, R x → g.succs x = h.succs x) (hc : ∀ x, R x → ∀ q, q ∈ h.succs x → R q)
    (hr : g.reachable a b) : R b ∧ h.reachable a b := by
  induction hr with
  | refl => exact ⟨ha, Heap.reachable.refl⟩
  | step p q _ hq ih =>
    obtain ⟨h1, h2⟩ := ih
    rw [hs p h1] at hq
    exact ⟨hc p h1 q hq, Heap.reachable.step p q h2 hq⟩

/-- The nodes reachable from a live node of a heap with consistent forward links are live
nodes of the heap, none of them higher than the node. -/
theorem reachable_live (W : Heap) (ht : Ptr → Nat) (D : Ptr → Prop) (n x : Nat)
    (hlk : linked W ht D) (hn : n < W.length) (hnD : ¬ D n) (hr : W.reachable n x) :
    x < W.length ∧ ¬ D x ∧ ht x ≤ ht n := by
  induction hr with
  | refl => exact ⟨hn, hnD, Nat.le_refl _⟩
  | step p q _ hq ih =>
    obtain ⟨h1, h2, h3⟩ := ih
    obtain ⟨a1, a2, _, a4⟩ := hlk.succ_ok p h1 h2 q hq
    exact ⟨a1, a2, by omega⟩

theorem stamped_update_id_any (h : Heap) (p k : Nat) :
    stamped h (h.update_id p k) k (k + 1) := by
  by_cases hp : p < h.length
  · exact stamped_update_id h p k hp
  · have e : h.update_id p k = h := by
      unfold Heap.update_id
      exact List.set_eq_of_length_le (by omega)
    rw [e]
    exact ⟨rfl, fun _ => ⟨rfl, rfl, rfl, rfl, rfl, rfl⟩, fun _ => Or.inl rfl, by omega⟩

/-- Whenever `recursive_update_ids` returns, it changed ids only, and the new ids are in
the range it consumed. -/
theorem stamp_ids_stamped : ∀ (fuel : Nat) (h : Heap) (p k : Nat) (h1 : Heap) (k1 : Nat),
    stamp_ids fuel h p k = .ok (h1, k1) → stamped h h1 k k1 ∧ k < k1 := by
  intro fuel
  induction fuel with
  | zero => intro h p k h1 k1 hr; simp [stamp_ids] at hr
  | succ fuel ih =>
    intro h p k h1 k1 hr
    have s0 := stamped_update_id_any h p k
    simp only [stamp_ids] at hr
    have first : ∀ (ha : Heap) (ka : Nat),
        (match (h.node p).next with
          | none => (.ok (h.update_id p k, k + 1) : Except Fault (Heap × Nat))
          | some q => stamp_ids fuel (h.update_id p k) q (k + 1)) = .ok (ha, ka) →
        stamped h ha k ka ∧ k < ka := by
      intro ha ka e
      cases hn : (h.node p).next with
      | none =>
        simp only [hn, Except.ok.injEq, Prod.mk.injEq] at e
        rw [← e.1, ← e.2]
        exact ⟨s0, by omega⟩
      | some q =>
        simp only [hn] at e
        obtain ⟨s1, m1⟩ := ih _ q (k + 1) ha ka e
        exact ⟨stamped_trans h _ ha k (k + 1) ka s0 s1, by omega⟩
    split at hr
    · cases hr
    · rename_i ha ka hfirst
      obtain ⟨sa, ma⟩ := first ha ka hfirst
      split at hr
      · split at hr
        · simp only [Except.ok.injEq, Prod.mk.injEq] at hr
          rw [← hr.1, ← hr.2]
          exact ⟨sa, ma⟩
        · rename_i q hq
          obtain ⟨sb, mb⟩ := ih ha q ka h1 k1 hr
          exact ⟨stamped_trans h ha h1 k ka k1 sa sb, by omega⟩
      · simp only [Except.ok.injEq, Prod.mk.injEq] at hr
        rw [← hr.1, ← hr.2]
        exact ⟨sa, ma⟩

/-- Whenever `recursive_update_ids` returns, every node reachable from its argument carries
one of the new ids. -/
theorem stamp_ids_range : ∀ (fuel : Nat) (h : Heap) (p k : Nat) (h1 : Heap) (k1 : Nat),
    stamp_ids fuel h p k = .ok (h1, k1) → (∀ x : Nat, h.reachable p x → x < h.length) →
    ∀ x : Nat, h.reachable p x → k ≤ (h1.node x).id ∧ (h1.node x).id < k1 := by
  intro fuel
  induction fuel with
  | zero => intro h p k h1 k1 hr; simp [stamp_ids] at hr
  | succ fuel ih =>
    intro h p k h1 k1 hr hin x hx
    have hp : p < h.length := hin p Heap.reachable.refl
    have s0 := stamped_update_id h p k hp
    have hid0 : ((h.update_id p k).node p).id = k := by
      rw [update_id_node h p p k hp]; simp
    have hs0 : ∀ y, (h.update_id p k).succs y = h.succs y := stamped_succs h _ k (k + 1) s0
    have hin0 : ∀ q : Nat, q ∈ h.succs p → ∀ y : Nat, (h.update_id p k).reachable q y →
        y < (h.update_id p k).length := by
      intro q hq y hy
      rw [s0.len]
      exact hin y (reachable_trans h p q y
        (Heap.reachable.step p q Heap.reachable.refl hq) (reachable_congr _ h q y hs0 hy))
    simp only [stamp_ids] at hr
    -- the first half: the node itself and what lies below `next`
    have first : ∀ (ha : Heap) (ka : Nat),
        (match (h.node p).next with
          | none => (.ok (h.update_id p k, k + 1) : Except Fault (Heap × Nat))
          | some q => stamp_ids fuel (h.update_id p k) q (k + 1)) = .ok (ha, ka) →
        stamped h ha k ka ∧ k < ka ∧ (ha.node p).id < ka ∧ k ≤ (ha.node p).id ∧
        ∀ q y : Nat, (h.node p).next = some q → h.reachable q y →
          k ≤ (ha.node y).id ∧ (ha.node y).id < ka := by
      intro ha ka e
      cases hn : (h.node p).next with
      | none =>
        simp only [hn, Except.ok.injEq, Prod.mk.injEq] at e
        rw [← e.1, ← e.2]
        refine ⟨s0, by omega, by rw [hid0]; omega, by rw [hid0], ?_⟩
        intro q y hq
        cases hq
      | some q =>
        simp only [hn] at e
        obtain ⟨s1, m1⟩ := stamp_ids_stamped fuel _ q (k + 1) ha ka e
        have hqs : q ∈ h.succs p := (mem_succs h p q).mpr (Or.inl hn)
        have r1 := ih _ q (k + 1) ha ka e (hin0 q hqs)
        refine ⟨stamped_trans h _ ha k (k + 1) ka s0 s1, by omega, ?_, ?_, ?_⟩
        · rcases s1.ids p with e1 | e1
          · rw [e1, hid0]; omega
          · omega
        · rcases s1.ids p with e1 | e1
          · rw [e1, hid0]
          · omega
        · intro q1 y hq1 hy
          have e2 : q = q1 := Option.some.inj hq1
          subst e2
          have := r1 y (reachable_congr h _ q y (fun z => (hs0 z).symm) hy)
          omega
    split at hr
    · cases hr
    · rename_i ha ka hfirst
      obtain ⟨sa, ma, pa1, pa2, ra⟩ := first ha ka hfirst
      have hsa : ∀ y, ha.succs y = h.succs y := stamped_succs h ha k ka sa
      -- the result for the nodes found in the first half, after the second half
      have keep : ∀ (hb : Heap) (kb : Nat), stamped ha hb ka kb → ∀ y : Nat,
          k ≤ (ha.node y).id ∧ (ha.node y).id < ka → k ≤ (hb.node y).id ∧ (hb.node y).id < kb := by
        intro hb kb sb y hy
        have := sb.mono
        rcases sb.ids y with e1 | e1
        · rw [e1]; omega
        · omega
      rcases reachable_head h p x hx with e | ⟨q, hq, hqx⟩
      · subst e
        split at hr
        · split at hr
          · simp only [Except.ok.injEq, Prod.mk.injEq] at hr
            rw [← hr.1, ← hr.2]
            exact ⟨pa2, pa1⟩
          · rename_i q hq
            obtain ⟨sb, mb⟩ := stamp_ids_stamped fuel ha q ka h1 k1 hr
            exact keep h1 k1 sb p ⟨pa2, pa1⟩
        · simp only [Except.ok.injEq, Prod.mk.injEq] at hr
          rw [← hr.1, ← hr.2]
          exact ⟨pa2, pa1⟩
      · rcases (mem_succs h p q).mp hq with e | ⟨hb, e⟩
        · have r1 := ra q x e hqx
          split at hr
          · split at hr
            · simp only [Except.ok.injEq, Prod.mk.injEq] at hr
              rw [← hr.1, ← hr.2]
              exact r1
            · rename_i q2 hq2
              obtain ⟨sb, mb⟩ := stamp_ids_stamped fuel ha q2 ka h1 k1 hr
              exact keep h1 k1 sb x r1
          · simp only [Except.ok.injEq, Prod.mk.injEq] at hr
            rw [← hr.1, ← hr.2]
            exact r1
        · simp only [hb, if_true, e] at hr
          have hinb : ∀ y : Nat, ha.reachable q y → y < ha.length := by
            intro y hy
            rw [sa.len]
            exact hin y (reachable_trans h p q y
              (Heap.reachable.step p q Heap.reachable.refl hq) (reachable_congr _ h q y hsa hy))
          have r2 := ih ha q ka h1 k1 hr hinb x
            (reachable_congr h ha q x (fun z => (hsa z).symm) hqx)
          omega




theorem spliced_link_mem (Z : Heap) (S : List Nat) (d : Bool) (q0 q : Nat)
    (h : spliced_link Z S d (some q0) = some q) :
    (q = q0 ∧ S.contains (Z.node q0).id = false) ∨
    (q ∈ Z.succs q0 ∧ S.contains (Z.node q0).id = true) := by
  simp only [spliced_link] at h
  by_cases hc : S.contains (Z.node q0).id = true
  · right
    refine ⟨?_, hc⟩
    simp only [hc, if_true] at h
    by_cases hb : (Z.node q0).type = NodeType.BRANCH
    · simp only [hb, if_true] at h
      cases d with
      | true =>
        simp only [if_true] at h
        exact (mem_succs Z q0 q).mpr (Or.inl h)
      | false =>
        simp only [Bool.false_eq_true, if_false] at h
        exact (mem_succs Z q0 q).mpr (Or.inr ⟨hb, h⟩)
    · simp only [hb, if_false] at h
      exact (mem_succs Z q0 q).mpr (Or.inl h)
  · left
    have hc2 : S.contains (Z.node q0).id = false := by
      cases hh : S.contains (Z.node q0).id with
      | true => exact absurd hh hc
      | false => rfl
    simp only [hc2, Bool.false_eq_true, if_false, Option.some.injEq] at h
    exact ⟨h.symm, hc2⟩

/-- Two heaps that agree at a node on id, type and links have the same spliced link to it. -/
theorem spliced_link_congr (Z Y : Heap) (S : List Nat) (d : Bool) (l : Option Ptr)
    (h : ∀ q0 : Nat, l = some q0 → (Z.node q0).id = (Y.node q0).id ∧
      (Z.node q0).type = (Y.node q0).type ∧ (Z.node q0).next = (Y.node q0).next ∧
      (Z.node q0).on_false = (Y.node q0).on_false) :
    spliced_link Z S d l = spliced_link Y S d l := by
  cases l with
  | none => rfl
  | some q0 =>
    obtain ⟨h1, h2, h3, h4⟩ := h q0 rfl
    simp only [spliced_link, h1, h2, h3, h4]

/-- After the sibling pass, every node below a child of the (visited, never written) node
`c` was visited and lies below the height of `c`. -/
theorem walk_reach_done (S : List Nat) (ht : Ptr → Nat) (h0 : Nat) (Z : Heap)
    (dec : Ptr → Bool) (W : Heap) (D1 Done1 : Ptr → Prop) (c r x : Nat)
    (J : splice_inv S ht h0 Z dec W Done1 []) (hlk : linked W ht D1)
    (hc : c < W.length) (hcD : ¬ D1 c) (hcDone : Done1 c) (hch : ht c ≤ h0)
    (hr : r ∈ W.succs c) (hx : W.reachable r x) :
    Done1 x ∧ ht x < h0 ∧ x < W.length ∧ ¬ D1 x := by
  induction hx with
  | refl =>
    obtain ⟨a1, a2, _, a4⟩ := hlk.succ_ok c hc hcD r hr
    rcases J.closed c hcDone r hr with hd | ⟨l, hl, _⟩
    · exact ⟨hd, by omega, a1, a2⟩
    · cases hl
  | step p q _ hq ih =>
    obtain ⟨i1, i2, i3, i4⟩ := ih
    obtain ⟨a1, a2, _, a4⟩ := hlk.succ_ok p i3 i4 q hq
    rcases J.closed p i1 q hq with hd | ⟨l, hl, _⟩
    · exact ⟨hd, by omega, a1, a2⟩
    · cases hl

/-- The links below `r` after the sibling pass, against a heap `G` that agrees below `r`
with the heap the pass started on: every node below `r` in the new heap is a node below `r`
in `G`, with the spliced links of `G`. -/
theorem spliced_below (S : List Nat) (d : Bool) (Z W G : Heap) (r : Nat)
    (hZG : ∀ x : Nat, G.reachable r x → (Z.node x).id = (G.node x).id ∧
      (Z.node x).type = (G.node x).type ∧ (Z.node x).next = (G.node x).next ∧
      (Z.node x).on_false = (G.node x).on_false)
    (hP : ∀ x : Nat, W.reachable r x → (W.node x).type = (Z.node x).type ∧
      (W.node x).next = spliced_link Z S d (Z.node x).next ∧
      ((Z.node x).type = NodeType.BRANCH →
        (W.node x).on_false = spliced_link Z S d (Z.node x).on_false)) :
    ∀ x : Nat, W.reachable r x → G.reachable r x ∧
      (W.node x).next = spliced_link G S d (G.node x).next ∧
      ((G.node x).type = NodeType.BRANCH →
        (W.node x).on_false = spliced_link G S d (G.node x).on_false) := by
  have hlink : ∀ x : Nat, G.reachable r x → ∀ l : Option Ptr,
      (l = (G.node x).next ∨ ((G.node x).type = NodeType.BRANCH ∧ l = (G.node x).on_false)) →
      spliced_link Z S d l = spliced_link G S d l := by
    intro x hx l hl
    apply spliced_link_congr
    intro q0 hq0
    have hq : q0 ∈ G.succs x := by
      rcases hl with e | ⟨hb, e⟩
      · exact (mem_succs G x q0).mpr (Or.inl (by rw [← e, hq0]))
      · exact (mem_succs G x q0).mpr (Or.inr ⟨hb, by rw [← e, hq0]⟩)
    exact hZG q0 (Heap.reachable.step x q0 hx hq)
  have hreach : ∀ x : Nat, W.reachable r x → G.reachable r x := by
    intro x hx
    induction hx with
    | refl => exact Heap.reachable.refl
    | step p q hp hq ih =>
      obtain ⟨p1, p2, p3⟩ := hP p hp
      obtain ⟨z1, z2, z3, z4⟩ := hZG p ih
      have key : ∀ l : Option Ptr,
          (l = (G.node p).next ∨ ((G.node p).type = NodeType.BRANCH ∧ l = (G.node p).on_false)) →
          spliced_link G S d l = some q → G.reachable r q := by
        intro l hl hs
        cases l with
        | none => simp [spliced_link] at hs
        | some q0 =>
          have hq0 : q0 ∈ G.succs p := by
            rcases hl with e | ⟨hb, e⟩
            · exact (mem_succs G p q0).mpr (Or.inl e.symm)
            · exact (mem_succs G p q0).mpr (Or.inr ⟨hb, e.symm⟩)
          have r0 : G.reachable r q0 := Heap.reachable.step p q0 ih hq0
          rcases spliced_link_mem G S d q0 q hs with ⟨e, _⟩ | ⟨e, _⟩
          · rw [e]; exact r0
          · exact Heap.reachable.step q0 q r0 e
      rcases (mem_succs W p q).mp hq with e | ⟨hb, e⟩
      · rw [p2, z3, hlink p ih _ (Or.inl rfl)] at e
        exact key _ (Or.inl rfl) e
      · have hbz : (Z.node p).type = NodeType.BRANCH := by rw [← p1]; exact hb
        have hbg : (G.node p).type = NodeType.BRANCH := by rw [← z2]; exact hbz
        rw [p3 hbz, z4, hlink p ih _ (Or.inr ⟨hbg, rfl⟩)] at e
        exact key _ (Or.inr ⟨hbg, rfl⟩) e
  intro x hx
  have hg := hreach x hx
  obtain ⟨p1, p2, p3⟩ := hP x hx
  obtain ⟨z1, z2, z3, z4⟩ := hZG x hg
  refine ⟨hg, ?_, ?_⟩
  · rw [p2, z3]
    exact hlink x hg _ (Or.inl rfl)
  · intro hb
    rw [p3 (by rw [z2]; exact hb), z4]
    exact hlink x hg _ (Or.inr ⟨hb, rfl⟩)

/-- When no node with a sibling id is the root `r` or follows a node with a sibling id, no
node with a sibling id is left below `r` after the sibling pass. -/
theorem spliced_clean (S : List Nat) (d : Bool) (W G : Heap) (r : Nat)
    (hP : ∀ x : Nat, W.reachable r x → G.reachable r x ∧ (W.node x).id = (G.node x).id ∧
      (W.node x).type = (G.node x).type ∧
      (W.node x).next = spliced_link G S d (G.node x).next ∧
      ((G.node x).type = NodeType.BRANCH →
        (W.node x).on_false = spliced_link G S d (G.node x).on_false))
    (hr : (G.node r).id ∉ S)
    (hH : ∀ s q : Nat, G.reachable r s → (G.node s).id ∈ S → q ∈ G.succs s →
      (G.node q).id ∉ S) :
    ∀ x : Nat, W.reachable r x → (W.node x).id ∉ S := by
  have key : ∀ x : Nat, W.reachable r x → (G.node x).id ∉ S := by
    intro x hx
    induction hx with
    | refl => exact hr
    | step p q hp hq ih =>
      obtain ⟨g1, g2, g3, g4, g5⟩ := hP p hp
      have fin : ∀ l : Option Ptr,
          (l = (G.node p).next ∨ ((G.node p).type = NodeType.BRANCH ∧ l = (G.node p).on_false)) →
          spliced_link G S d l = some q → (G.node q).id ∉ S := by
        intro l hl hs
        cases l with
        | none => simp [spliced_link] at hs
        | some q0 =>
          have hq0 : q0 ∈ G.succs p := by
            rcases hl with e | ⟨hb, e⟩
            · exact (mem_succs G p q0).mpr (Or.inl e.symm)
            · exact (mem_succs G p q0).mpr (Or.inr ⟨hb, e.symm⟩)
          have r0 : G.reachable r q0 := Heap.reachable.step p q0 g1 hq0
          rcases spliced_link_mem G S d q0 q hs with ⟨e, hc⟩ | ⟨e, hc⟩
          · rw [e]
            intro hm
            have : S.contains (G.node q0).id = true := by simpa using hm
            rw [hc] at this
            cases this
          · exact hH q0 q r0 (by simpa using hc) e
      rcases (mem_succs W p q).mp hq with e | ⟨hb, e⟩
      · rw [g4] at e
        exact fin _ (Or.inl rfl) e
      · have hbg : (G.node p).type = NodeType.BRANCH := by rw [← g3]; exact hb
        rw [g5 hbg] at e
        exact fin _ (Or.inr ⟨hbg, rfl⟩) e
  intro x hx
  rw [(hP x hx).2.1]
  exact key x hx




/-- On a well-formed decision graph, `reorder_bdd` with a Call candidate that carries a
guard `g` returns (given enough fuel) a graph in which `current.next` is a new Branch with
a fresh id and the condition `g`; its `on_true` side is a copy of the candidate followed by
the old successor `old_next` of `current`, below which the nodes of the old subtree are left
with the spliced links (no node with a sibling id is left when no sibling is `old_next` or
directly follows a sibling); its `on_false` side is a copy of the old subtree below
`old_next` made of new nodes with fresh ids, untouched by the sibling pass, which executes
like the old subtree for every input and every number of steps. -/
theorem reorder_bdd_guarded_call (bdd : BDD) (ht : Ptr → Nat) (node cand old_next : Nat)
    (C : candidate_t) (g : Expr) (hwf : well_formed bdd ht) (hnode : node < bdd.nodes.length)
    (hg : good_candidate bdd.nodes C) (hcn : C.node = some cand)
    (hcall : (bdd.nodes.node cand).type = NodeType.CALL)
    (hgC : C.extra_condition = some g)
    (hnext : (bdd.nodes.node node).next = some old_next) :
    ∃ fuel0, ∀ fuel, fuel0 ≤ fuel → ∃ (bdd1 : BDD) (B c oc : Nat),
      reorder_bdd fuel bdd node C = .ok bdd1 ∧
      guard_hoisted bdd node old_next cand C.siblings g bdd1 B c oc := by
  have hnext0 : (Heap.node (bdd.nodes ++ [bdd.nodes.node cand]) node).next = some old_next := by
    rw [node_append_lt _ _ _ hnode]; exact hnext
  obtain ⟨h1, oc, h2, id1, htX, hclone, hstamp, hid, hr, hgr, c1, c2, c3, c4⟩ :=
    ready_guard bdd.nodes ht node old_next cand g bdd.id hwf.lk hnode hnext
  obtain ⟨b1, b2, b3⟩ := hgr.bounds
  have hXl : (install_guard h2 id1 g node bdd.nodes.length oc).length = h2.length + 1 := by
    simp [install_guard]
  -- the fields of the heap with the guard installed
  have hfX := attach_guard_fields
    (h2 ++ [(⟨id1, NodeType.BRANCH, none, none, none, ⟨"", []⟩, g, [], []⟩ : Node)]) node
    h2.length bdd.nodes.length oc (by simp; omega) (by simp) (by simp; omega) (by simp; omega)
  simp only at hfX
  have hXe : install_guard h2 id1 g node bdd.nodes.length oc = ((((((h2 ++ [(⟨id1,
    NodeType.BRANCH, none, none, none, ⟨"", []⟩, g, [], []⟩ : Node)]).replace_next
    h2.length (some bdd.nodes.length)).replace_on_false h2.length (some oc)).replace_prev
    bdd.nodes.length (some h2.length)).replace_prev oc (some h2.length)).replace_next node
    (some h2.length)).replace_prev h2.length (some node) := rfl
  rw [← hXe] at hfX
  have hBid : ((install_guard h2 id1 g node bdd.nodes.length oc).node h2.length).id = id1 := by
    rw [(hfX h2.length).2.2.1, node_append_eq]
  have hreg : ∀ x : Nat, bdd.nodes.length < x → x < h2.length →
      ((install_guard h2 id1 g node bdd.nodes.length oc).node x).id = (h2.node x).id ∧
      (install_guard h2 id1 g node bdd.nodes.length oc).succs x = h2.succs x := by
    intro x hx1 hx2
    obtain ⟨_, f1, f2, _, _, f5, f6, _, _⟩ := hfX x
    have n1 : ¬ x = h2.length := by omega
    have n2 : ¬ x = node := by omega
    have e := node_append_lt h2 (⟨id1, NodeType.BRANCH, none, none, none, ⟨"", []⟩, g, [], []⟩ :
      Node) x hx2
    refine ⟨by rw [f2, e], ?_⟩
    apply succs_congr
    · rw [f6]; simp only [n1, n2, if_false, e]
    · rw [f5]; simp only [n1, if_false, e]
    · rw [f1, e]
  -- the new ids of the copy
  have hst0 : stamp_ids (oc + 1) h1 oc (bdd.id + 1) = .ok (h2, id1) := hstamp (oc + 1) (by omega)
  obtain ⟨st, _⟩ := stamp_ids_stamped (oc + 1) h1 oc (bdd.id + 1) h2 id1 hst0
  generalize hX : install_guard h2 id1 g node bdd.nodes.length oc = X
    at hr hgr c1 c2 c3 c4 hXl hBid hreg
  have hs1 : ∀ x : Nat, bdd.nodes.length < x ∧ x < h2.length → X.succs x = h1.succs x := by
    intro x hx
    rw [(hreg x hx.1 hx.2).2]
    exact stamped_succs h1 h2 _ _ st x
  have hclosed1 : ∀ x : Nat, bdd.nodes.length < x ∧ x < h2.length → ∀ q : Nat,
      q ∈ h1.succs x → bdd.nodes.length < q ∧ q < h2.length := by
    intro x hx q hq
    rw [← hs1 x hx] at hq
    exact hgr.closed x hx.1 hx.2 q hq
  have hin1 : ∀ x : Nat, h1.reachable oc x → x < h1.length := by
    intro x hx
    have hlt : x < h2.length :=
      (reachable_region h1 h1 (fun x => bdd.nodes.length < x ∧ x < h2.length) oc x
        ⟨b1, b2⟩ (fun _ _ => rfl) hclosed1 hx).1.2
    have hl := st.len
    omega
  have hrange := stamp_ids_range (oc + 1) h1 oc (bdd.id + 1) h2 id1 hst0 hin1
  -- the candidate and the sibling pass
  have hty := typed_ok_ready bdd ht C cand node old_next X htX hwf hg hcn hr c1 hgr.fresh
  have hT : (X.node bdd.nodes.length).type = NodeType.CALL := c1.trans hcall
  rw [hT] at hty
  have hd := hoist_call C.siblings bdd.nodes ht node old_next X htX bdd.nodes.length hr hty hT
  generalize hZ : (X.replace_next bdd.nodes.length (some old_next)).replace_prev old_next
    (some bdd.nodes.length) = Z at hd
  have hXlen := hr.len
  have holt := hr.on_lt
  have hcl : bdd.nodes.length < X.length := hXlen
  have J0 : splice_inv C.siblings htX (htX bdd.nodes.length) Z (fun _ => false) Z
      (fun x => x = bdd.nodes.length) [⟨some old_next, false, false⟩] := by
    refine ⟨fun _ => ⟨rfl, rfl⟩, fun _ _ => ⟨rfl, rfl⟩, ?_, ?_, ?_⟩
    · intro x hx hlt
      rw [hx] at hlt
      omega
    · intro x hx q hq
      rw [hx] at hq
      right
      have hnb : ¬ (Z.node bdd.nodes.length).type = NodeType.BRANCH := by
        rw [hd.cdata.1, hT]; intro e; cases e
      rcases (mem_succs Z _ q).mp hq with e | ⟨e, _⟩
      · rw [hd.cdata.2.2.2.2.2] at e
        exact ⟨_, List.mem_singleton.mpr rfl, by rw [← Option.some.inj e]⟩
      · exact absurd e hnb
    · intro l hl n hn
      simp only [List.mem_singleton] at hl
      rw [hl]
  refine ⟨3 ^ htX bdd.nodes.length + ht old_next + oc + 2, ?_⟩
  intro fuel hfuel
  have hpos : 0 < 3 ^ htX bdd.nodes.length := Nat.pow_pos (by omega)
  obtain ⟨W, D1, Done1, hloop, wp, J, hsub⟩ := dedup_loop_spliced C.siblings NodeType.CALL htX
    (htX bdd.nodes.length) Z (fun _ => false) (fun _ _ _ _ => rfl) fuel Z _ _ _ hd.winv J0
    (by have := hd.cost; omega)
  have hnb : ¬ (X.node bdd.nodes.length).type = NodeType.BRANCH := by
    rw [hT]; intro e; cases e
  have hWc := wp.frame bdd.nodes.length (Nat.le_refl _)
  have hWnb : ¬ (W.node bdd.nodes.length).type = NodeType.BRANCH := by
    rw [hWc, hd.cdata.1]; exact hnb
  have heq : reorder_bdd fuel bdd node C = .ok { bdd with nodes := W, id := id1 + 1 } := by
    rw [reorder_bdd_guard_eq fuel bdd node C cand old_next g h1 h2 oc id1 hcn hnext0 hgC
      (hclone fuel (by omega)) (hstamp fuel (by omega)), hX]
    unfold finish_block attach_block
    simp only [if_neg hnb, hZ, hloop, if_neg hWnb]
  -- the nodes the sibling pass does not write
  have hhigh : ∀ x : Nat, bdd.nodes.length ≤ x → x < X.length → x ≠ bdd.nodes.length →
      W.node x = X.node x := by
    intro x hx1 hx2 hx3
    rw [wp.frame x (hr.high x hx1 hx2), hd.frame x hx2 hx3 (by omega)]
  have hWB : W.node h2.length = X.node h2.length := hhigh h2.length (by omega) (by omega) (by omega)
  have hnn : W.node node = X.node node := by
    have h1n := hr.ht_node
    have h2n := hr.ht_on
    rw [wp.frame node (by omega), hd.frame node (by omega) (by omega)
      (by intro e; rw [e] at h1n; omega)]
  -- the copy on the `on_false` side
  have hWs : ∀ x : Nat, bdd.nodes.length < x ∧ x < h2.length → W.succs x = h1.succs x := by
    intro x hx
    rw [← hs1 x hx]
    unfold Heap.succs
    rw [hhigh x (by omega) (by omega) (by omega)]
  have hcopy : ∀ x : Nat, W.reachable oc x →
      (bdd.nodes.length < x ∧ x < h2.length) ∧ h1.reachable oc x :=
    fun x hx => reachable_region W h1 (fun x => bdd.nodes.length < x ∧ x < h2.length) oc x
      ⟨b1, b2⟩ hWs hclosed1 hx
  -- the old subtree on the `on_true` side
  have hcW : bdd.nodes.length < W.length := by have := hd.len; have := wp.len; omega
  have hcD : ¬ D1 bdd.nodes.length := by
    intro hD
    have := wp.dead_low _ hD
    omega
  have hWcn : (W.node bdd.nodes.length).next = some old_next := by
    rw [hWc]; exact hd.cdata.2.2.2.2.2
  have honW : old_next ∈ W.succs bdd.nodes.length :=
    (mem_succs W _ old_next).mpr (Or.inl hWcn)
  have hold : old_next ∈ bdd.nodes.succs node := (mem_succs _ node old_next).mpr (Or.inl hnext)
  obtain ⟨hol, _, _, hoh⟩ := hwf.lk.succ_ok node hnode (fun f => f) old_next hold
  have hZG : ∀ x : Nat, bdd.nodes.reachable old_next x →
      (Z.node x).id = (bdd.nodes.node x).id ∧ (Z.node x).type = (bdd.nodes.node x).type ∧
      (Z.node x).next = (bdd.nodes.node x).next ∧
      (Z.node x).on_false = (bdd.nodes.node x).on_false ∧
      (Z.node x).call = (bdd.nodes.node x).call ∧
      (Z.node x).condition = (bdd.nodes.node x).condition := by
    intro x hx
    obtain ⟨l1, _, l3⟩ := reachable_live bdd.nodes ht (fun _ => False) old_next x hwf.lk hol
      (fun f => f) hx
    have hxn : x ≠ node := by
      intro e; rw [e] at l3; omega
    obtain ⟨e1, e2, e3, e4, e5, e6⟩ := hd.exec x (by omega) (by omega)
    rw [e1, e2, e3, e4, e5, e6, hr.old x l1 hxn]
    exact ⟨rfl, rfl, rfl, rfl, rfl, rfl⟩
  have hPW : ∀ x : Nat, W.reachable old_next x → (W.node x).type = (Z.node x).type ∧
      (W.node x).next = spliced_link Z C.siblings false (Z.node x).next ∧
      ((Z.node x).type = NodeType.BRANCH →
        (W.node x).on_false = spliced_link Z C.siblings false (Z.node x).on_false) := by
    intro x hx
    obtain ⟨d1, d2, _, _⟩ := walk_reach_done C.siblings htX (htX bdd.nodes.length) Z
      (fun _ => false) W D1 Done1 bdd.nodes.length old_next x J wp.lk hcW hcD
      (hsub _ rfl) (Nat.le_refl _) honW hx
    obtain ⟨j1, j2⟩ := J.done x d1 d2
    exact ⟨(wp.same x).1, j1, j2⟩
  have hbelow := spliced_below C.siblings false Z W bdd.nodes old_next
    (fun x hx => ⟨(hZG x hx).1, (hZG x hx).2.1, (hZG x hx).2.2.1, (hZG x hx).2.2.2.1⟩) hPW
  have hontrue : ∀ x : Nat, W.reachable old_next x →
      bdd.nodes.reachable old_next x ∧
      (W.node x).type = (bdd.nodes.node x).type ∧
      (W.node x).id = (bdd.nodes.node x).id ∧
      (W.node x).call = (bdd.nodes.node x).call ∧
      (W.node x).condition = (bdd.nodes.node x).condition ∧
      (W.node x).next = spliced_link bdd.nodes C.siblings false (bdd.nodes.node x).next ∧
      ((bdd.nodes.node x).type = NodeType.BRANCH →
        (W.node x).on_false
          = spliced_link bdd.nodes C.siblings false (bdd.nodes.node x).on_false) := by
    intro x hx
    obtain ⟨g1, g2, g3⟩ := hbelow x hx
    obtain ⟨z1, z2, _, _, z5, z6⟩ := hZG x g1
    obtain ⟨w1, w2, w3, w4⟩ := wp.same x
    exact ⟨g1, w1.trans z2, w2.trans z1, w3.trans z5, w4.trans z6, g2, g3⟩
  refine ⟨{ bdd with nodes := W, id := id1 + 1 }, h2.length, bdd.nodes.length, oc, heq, ?_⟩
  constructor
  · exact ⟨Nat.le_refl _, by omega, by omega⟩
  · show (W.node node).next = some h2.length
    rw [hnn]; exact hgr.node_next
  · show (W.node h2.length).type = NodeType.BRANCH ∧ (W.node h2.length).condition = g ∧
      (W.node h2.length).next = some bdd.nodes.length ∧ (W.node h2.length).on_false = some oc
    rw [hWB]; exact hgr.b_data
  · show bdd.id < (W.node h2.length).id ∧
      (∀ x : Nat, x < bdd.nodes.length → (bdd.nodes.node x).id < (W.node h2.length).id) ∧
      id1 + 1 = (W.node h2.length).id + 1
    rw [hWB, hBid]
    refine ⟨hid, ?_, rfl⟩
    intro x hx
    have := hwf.counter x hx
    omega
  · show (W.node bdd.nodes.length).type = NodeType.CALL ∧
      (W.node bdd.nodes.length).call = (bdd.nodes.node cand).call ∧
      (W.node bdd.nodes.length).next = some old_next
    refine ⟨?_, ?_, hWcn⟩
    · rw [hWc, hd.cdata.1]; exact hT
    · rw [hWc, hd.cdata.2.1]; exact c3
  · exact hontrue
  · intro hro hH
    exact spliced_clean C.siblings false W bdd.nodes old_next
      (fun x hx => ⟨(hontrue x hx).1, (hontrue x hx).2.2.1, (hontrue x hx).2.1,
        (hontrue x hx).2.2.2.2.2.1, (hontrue x hx).2.2.2.2.2.2⟩) hro hH
  · intro input k
    show run W input k (some oc) = run bdd.nodes input k (some old_next)
    rw [← hgr.runs input k]
    apply run_agree X W input (fun x => bdd.nodes.length < x ∧ x < h2.length)
    · intro x hx
      rw [hhigh x (by omega) (by omega) (by omega)]
      exact ⟨rfl, rfl, rfl, rfl, rfl, fun q hq => hgr.closed x hx.1 hx.2 q hq⟩
    · exact ⟨b1, b2⟩
  · intro x hx
    obtain ⟨hxr, hx1⟩ := hcopy x hx
    have hr2 := hrange x hx1
    show bdd.nodes.length ≤ x ∧ bdd.id < (W.node x).id ∧ (W.node x).id < (W.node h2.length).id
    rw [hWB, hBid, hhigh x (by omega) (by omega) (by omega), (hreg x hxr.1 hxr.2).1]
    exact ⟨by omega, by omega, hr2.2⟩



/-- Example on `two_guards_heap`: hoisting the Call node 2 (sibling id 12, guarded by
the negation of `k1 = k2`) above node 1 meets every hypothesis of
`reorder_bdd_guarded_call`. -/
theorem reorder_bdd_guarded_call_witness :
    ∃ fuel0, ∀ fuel, fuel0 ≤ fuel → ∃ (bdd1 : BDD) (B c oc : Nat),
      reorder_bdd fuel ⟨two_guards_heap, 15, none, some 0⟩ 0
        ⟨some 2, [12], some (Expr.Not (Expr.Eq (sym "k1") (sym "k2"))), none⟩ = .ok bdd1 ∧
      guard_hoisted ⟨two_guards_heap, 15, none, some 0⟩ 0 1 2 [12]
        (Expr.Not (Expr.Eq (sym "k1") (sym "k2"))) bdd1 B c oc :=
  reorder_bdd_guarded_call ⟨two_guards_heap, 15, none, some 0⟩ (fun x => 10 - x) 0 2 1
    ⟨some 2, [12], some (Expr.Not (Expr.Eq (sym "k1") (sym "k2"))), none⟩
    (Expr.Not (Expr.Eq (sym "k1") (sym "k2"))) two_guards_heap_well_formed (by decide)
    (get_candidates_good example_toolbox two_guards_heap 20 0
      [⟨some 2, [12], some (Expr.Not (Expr.Eq (sym "k1") (sym "k2"))), none⟩,
       ⟨some 3, [13], some (Expr.And
          (Expr.Not (Expr.Eq (sym "k2") (Expr.Constant 7 32)))
          (Expr.Not (Expr.Eq (sym "k2") (Expr.Constant 7 32)))), none⟩]
      ⟨some 2, [12], some (Expr.Not (Expr.Eq (sym "k1") (sym "k2"))), none⟩
      (by decide) (by decide)).1
    rfl (by decide) rfl (by decide)



theorem update_id_other (h : Heap) (p x k : Nat) (hx : x ≠ p) :
    (h.update_id p k).node x = h.node x := by
  by_cases hp : p < h.length
  · rw [update_id_node h p x k hp, if_neg hx]
  · have e : h.update_id p k = h := by
      unfold Heap.update_id
      exact List.set_eq_of_length_le (by omega)
    rw [e]

/-- Whenever `recursive_update_ids` returns, the nodes that are not reachable from its
argument are untouched. -/
theorem stamp_ids_frame : ∀ (fuel : Nat) (h : Heap) (p k : Nat) (h1 : Heap) (k1 : Nat),
    stamp_ids fuel h p k = .ok (h1, k1) →
    ∀ x : Nat, ¬ h.reachable p x → h1.node x = h.node x := by
  intro fuel
  induction fuel with
  | zero => intro h p k h1 k1 hr; simp [stamp_ids] at hr
  | succ fuel ih =>
    intro h p k h1 k1 hr x hx
    have hxp : x ≠ p := by
      intro e; subst e; exact hx Heap.reachable.refl
    have s0 := stamped_update_id_any h p k
    have hs0 : ∀ y, (h.update_id p k).succs y = h.succs y := stamped_succs h _ k (k + 1) s0
    have e0 := update_id_other h p x k hxp
    have hsub : ∀ q : Nat, q ∈ h.succs p → ¬ h.reachable q x := by
      intro q hq hqx
      exact hx (reachable_trans h p q x (Heap.reachable.step p q Heap.reachable.refl hq) hqx)
    simp only [stamp_ids] at hr
    have first : ∀ (ha : Heap) (ka : Nat),
        (match (h.node p).next with
          | none => (.ok (h.update_id p k, k + 1) : Except Fault (Heap × Nat))
          | some q => stamp_ids fuel (h.update_id p k) q (k + 1)) = .ok (ha, ka) →
        stamped h ha k ka ∧ ha.node x = h.node x := by
      intro ha ka e
      cases hn : (h.node p).next with
      | none =>
        simp only [hn, Except.ok.injEq, Prod.mk.injEq] at e
        rw [← e.1, ← e.2]
        exact ⟨s0, e0⟩
      | some q =>
        simp only [hn] at e
        obtain ⟨s1, _⟩ := stamp_ids_stamped fuel _ q (k + 1) ha ka e
        have hqs : q ∈ h.succs p := (mem_succs h p q).mpr (Or.inl hn)
        have r1 := ih _ q (k + 1) ha ka e x
          (fun hy => hsub q hqs (reachable_congr _ h q x hs0 hy))
        exact ⟨stamped_trans h _ ha k (k + 1) ka s0 s1, r1.trans e0⟩
    split at hr
    · cases hr
    · rename_i ha ka hfirst
      obtain ⟨sa, ea⟩ := first ha ka hfirst
      have hsa : ∀ y, ha.succs y = h.succs y := stamped_succs h ha k ka sa
      by_cases hb : (h.node p).type = NodeType.BRANCH
      · simp only [hb, if_true] at hr
        cases hof : (h.node p).on_false with
        | none =>
          simp only [hof, Except.ok.injEq, Prod.mk.injEq] at hr
          rw [← hr.1]; exact ea
        | some q =>
          simp only [hof] at hr
          have hqs : q ∈ h.succs p := (mem_succs h p q).mpr (Or.inr ⟨hb, hof⟩)
          have r2 := ih ha q ka h1 k1 hr x
            (fun hy => hsub q hqs (reachable_congr _ h q x hsa hy))
          exact r2.trans ea
      · simp only [hb, if_false, Except.ok.injEq, Prod.mk.injEq] at hr
        rw [← hr.1]; exact ea

theorem replace_prev_of_fields (g : Heap) (c : Option Ptr) (p x : Nat) :
    ((g.replace_prev_of c p).node x).next = (g.node x).next ∧
    ((g.replace_prev_of c p).node x).on_false = (g.node x).on_false ∧
    ((g.replace_prev_of c p).node x).type = (g.node x).type ∧
    ((g.replace_prev_of c p).node x).id = (g.node x).id ∧
    ((g.replace_prev_of c p).node x).call = (g.node x).call ∧
    ((g.replace_prev_of c p).node x).condition = (g.node x).condition := by
  cases c with
  | none => exact ⟨rfl, rfl, rfl, rfl, rfl, rfl⟩
  | some q =>
    obtain ⟨a1, a2, a3, a4, a5, a6, _⟩ := replace_prev_fields g q x (some p)
    exact ⟨a1, a2, a3, a4, a5, a6⟩

theorem replace_prev_of_other (g : Heap) (c : Option Ptr) (p x : Nat)
    (hc : ∀ q : Nat, c = some q → x ≠ q) : (g.replace_prev_of c p).node x = g.node x := by
  cases c with
  | none => rfl
  | some q =>
    have hx := hc q rfl
    show (g.replace_prev q (some p)).node x = g.node x
    by_cases hq : q < g.length
    · rw [replace_prev_node g q x _ hq, if_neg hx]
    · have e : g.replace_prev q (some p) = g := by
        unfold Heap.replace_prev
        exact List.set_eq_of_length_le (Nat.le_of_not_lt hq)
      rw [e]

theorem option_map_congr (t s : Nat → Nat) (l : Option Nat)
    (h : ∀ q : Nat, l = some q → t q = s q) : l.map t = l.map s := by
  cases l with
  | none => rfl
  | some q => simp only [Option.map_some']; rw [h q rfl]

theorem copied_nil (h : Heap) (p : Nat) (g : Heap) (t : Nat → Nat) : copied h p g g t := by
  refine ⟨Nat.le_refl _, fun _ _ => rfl, ?_, ?_, ?_⟩
  · intro x h1 h2; omega
  · intro x h1 h2; omega
  · intro x h1 h2; omega

theorem copied_up (h : Heap) (p q : Nat) (g g1 : Heap) (t : Nat → Nat)
    (hc : copied h q g g1 t) (hq : h.reachable p q) : copied h p g g1 t := by
  refine ⟨hc.len, hc.old, ?_, hc.next, hc.on_false⟩
  intro x h1 h2
  obtain ⟨a1, a2⟩ := hc.data x h1 h2
  exact ⟨reachable_trans h p q _ hq a1, a2⟩

/-- Two consecutive groups of copies make one. -/
theorem copied_append (h : Heap) (p : Nat) (g g1 g2 : Heap) (t1 t2 t : Nat → Nat)
    (c1 : copied h p g g1 t1) (c2 : copied h p g1 g2 t2)
    (ht : ∀ x : Nat, t x = if x < g1.length then t1 x else t2 x) : copied h p g g2 t := by
  have l1 := c1.len
  have l2 := c2.len
  have hlo : ∀ x : Nat, x < g1.length → t x = t1 x := by
    intro x hx; rw [ht x, if_pos hx]
  have hhi : ∀ x : Nat, g1.length ≤ x → t x = t2 x := by
    intro x hx; rw [ht x, if_neg (by omega)]
  refine ⟨by omega, ?_, ?_, ?_, ?_⟩
  · intro x hx
    rw [c2.old x (by omega), c1.old x hx]
  · intro x h1 h2
    by_cases hx : x < g1.length
    · rw [hlo x hx, c2.old x hx]
      exact c1.data x h1 hx
    · rw [hhi x (by omega)]
      exact c2.data x (by omega) h2
  · intro x h1 h2
    by_cases hx : x < g1.length
    · rw [hlo x hx, c2.old x hx]
      obtain ⟨a1, a2⟩ := c1.next x h1 hx
      refine ⟨?_, ?_⟩
      · rw [← a1]
        exact option_map_congr t t1 _ (fun q hq => hlo q (a2 q hq).2)
      · intro q hq
        have := a2 q hq
        omega
    · rw [hhi x (by omega)]
      obtain ⟨a1, a2⟩ := c2.next x (by omega) h2
      refine ⟨?_, ?_⟩
      · rw [← a1]
        exact option_map_congr t t2 _ (fun q hq => hhi q (a2 q hq).1)
      · intro q hq
        have := a2 q hq
        omega
  · intro x h1 h2 hb
    by_cases hx : x < g1.length
    · rw [c2.old x hx] at hb
      rw [hlo x hx, c2.old x hx]
      obtain ⟨a1, a2⟩ := c1.on_false x h1 hx hb
      refine ⟨?_, ?_⟩
      · rw [← a1]
        exact option_map_congr t t1 _ (fun q hq => hlo q (a2 q hq).2)
      · intro q hq
        have := a2 q hq
        omega
    · rw [hhi x (by omega)]
      obtain ⟨a1, a2⟩ := c2.on_false x (by omega) h2 hb
      refine ⟨?_, ?_⟩
      · rw [← a1]
        exact option_map_congr t t2 _ (fun q hq => hhi q (a2 q hq).1)
      · intro q hq
        have := a2 q hq
        omega

/-- The copy of the root, allocated after the copies of its subtrees and linked to them. -/
theorem copied_root (h : Heap) (p : Nat) (g g2 g5 : Heap) (t t5 : Nat → Nat)
    (next1 on_false2 : Option Ptr) (hc : copied h p g g2 t)
    (hn1 : next1.map t = (h.node p).next ∧
      ∀ q : Nat, next1 = some q → g.length ≤ q ∧ q < g2.length)
    (hn2 : (h.node p).type = NodeType.BRANCH →
      on_false2.map t = (h.node p).on_false ∧
      ∀ q : Nat, on_false2 = some q → g.length ≤ q ∧ q < g2.length)
    (hlen : g5.length = g2.length + 1)
    (hfld : ∀ x : Nat,
      (g5.node x).next = (Heap.node (g2 ++ [clone_node (h.node p) next1 on_false2]) x).next ∧
      (g5.node x).on_false
        = (Heap.node (g2 ++ [clone_node (h.node p) next1 on_false2]) x).on_false ∧
      (g5.node x).type = (Heap.node (g2 ++ [clone_node (h.node p) next1 on_false2]) x).type ∧
      (g5.node x).id = (Heap.node (g2 ++ [clone_node (h.node p) next1 on_false2]) x).id ∧
      (g5.node x).call = (Heap.node (g2 ++ [clone_node (h.node p) next1 on_false2]) x).call ∧
      (g5.node x).condition
        = (Heap.node (g2 ++ [clone_node (h.node p) next1 on_false2]) x).condition)
    (hold : ∀ x : Nat, x < g.length → g5.node x = g2.node x)
    (ht5 : ∀ x : Nat, t5 x = if x < g2.length then t x else p) : copied h p g g5 t5 := by
  have l1 := hc.len
  have hlo : ∀ x : Nat, x < g2.length → t5 x = t x := by
    intro x hx; rw [ht5 x, if_pos hx]
  have hhi : ∀ x : Nat, g2.length ≤ x → t5 x = p := by
    intro x hx; rw [ht5 x, if_neg (by omega)]
  have hnew : Heap.node (g2 ++ [clone_node (h.node p) next1 on_false2]) g2.length
      = clone_node (h.node p) next1 on_false2 := node_append_eq g2 _
  refine ⟨by omega, ?_, ?_, ?_, ?_⟩
  · intro x hx
    rw [hold x hx, hc.old x hx]
  · intro x h1 h2
    obtain ⟨f1, f2, f3, f4, f5, f6⟩ := hfld x
    by_cases hx : x < g2.length
    · rw [f3, f4, f5, f6, node_append_lt g2 _ x hx, hlo x hx]
      exact hc.data x h1 hx
    · have e : x = g2.length := by omega
      rw [f3, f4, f5, f6, e, hnew, hhi g2.length (Nat.le_refl _)]
      exact ⟨Heap.reachable.refl, rfl, rfl, rfl, rfl⟩
  · intro x h1 h2
    obtain ⟨f1, f2, f3, f4, f5, f6⟩ := hfld x
    by_cases hx : x < g2.length
    · rw [f1, node_append_lt g2 _ x hx, hlo x hx]
      obtain ⟨a1, a2⟩ := hc.next x h1 hx
      refine ⟨?_, ?_⟩
      · rw [← a1]
        exact option_map_congr t5 t _ (fun q hq => hlo q (a2 q hq).2)
      · intro q hq
        have := a2 q hq
        omega
    · have e : x = g2.length := by omega
      rw [f1, e, hnew, hhi g2.length (Nat.le_refl _)]
      show next1.map t5 = (h.node p).next ∧ ∀ q : Nat, next1 = some q → _
      refine ⟨?_, ?_⟩
      · rw [← hn1.1]
        exact option_map_congr t5 t _ (fun q hq => hlo q (hn1.2 q hq).2)
      · intro q hq
        have := hn1.2 q hq
        omega
  · intro x h1 h2 hb
    obtain ⟨f1, f2, f3, f4, f5, f6⟩ := hfld x
    by_cases hx : x < g2.length
    · rw [f3, node_append_lt g2 _ x hx] at hb
      rw [f2, node_append_lt g2 _ x hx, hlo x hx]
      obtain ⟨a1, a2⟩ := hc.on_false x h1 hx hb
      refine ⟨?_, ?_⟩
      · rw [← a1]
        exact option_map_congr t5 t _ (fun q hq => hlo q (a2 q hq).2)
      · intro q hq
        have := a2 q hq
        omega
    · have e : x = g2.length := by omega
      rw [f3, e, hnew] at hb
      have hb1 : (h.node p).type = NodeType.BRANCH := hb
      obtain ⟨b1, b2⟩ := hn2 hb1
      rw [f2, e, hnew, hhi g2.length (Nat.le_refl _)]
      show on_false2.map t5 = (h.node p).on_false ∧ ∀ q : Nat, on_false2 = some q → _
      refine ⟨?_, ?_⟩
      · rw [← b1]
        exact option_map_congr t5 t _ (fun q hq => hlo q (b2 q hq).2)
      · intro q hq
        have := b2 q hq
        omega

/-- Whenever `clone(true)` returns, started below a node `p` of the heap `h` whose subtree
lies inside `h`, on a heap `g` that extends `h`, the nodes it allocated are the copies of
the nodes below `p`, node by node, and the last of them is the copy of `p`. -/
theorem clone_rec_copied (h : Heap) : ∀ (fuel : Nat) (g : Heap) (p : Nat) (g2 : Heap)
    (p1 : Nat), h.length ≤ g.length → (∀ x : Nat, x < h.length → g.node x = h.node x) →
    (∀ x : Nat, h.reachable p x → x < h.length) →
    clone_rec fuel g p = .ok (g2, p1) →
    ∃ t : Nat → Nat, copied h p g g2 t ∧ t p1 = p ∧ g.length ≤ p1 ∧ p1 + 1 = g2.length := by
  intro fuel
  induction fuel with
  | zero => intro g p g2 p1 _ _ _ hr; simp [clone_rec] at hr
  | succ fuel ih =>
    intro g p g2 p1 hlen hg hin hr
    have hp : p < h.length := hin p Heap.reachable.refl
    have hnp : g.node p = h.node p := hg p hp
    have hchild : ∀ q : Nat, q ∈ h.succs p → ∀ x : Nat, h.reachable q x → x < h.length :=
      fun q hq x hx => hin x (reachable_trans h p q x
        (Heap.reachable.step p q Heap.reachable.refl hq) hx)
    simp only [clone_rec] at hr
    have first : ∀ (ga : Heap) (l1 : Option Ptr),
        (match (g.node p).next with
          | none => (.ok (g, none) : Except Fault (Heap × Option Ptr))
          | some q =>
            match clone_rec fuel g q with
            | .error e => .error e
            | .ok (h1, q1) => .ok (h1, some q1)) = .ok (ga, l1) →
        ∃ t1 : Nat → Nat, copied h p g ga t1 ∧ l1.map t1 = (h.node p).next ∧
          ∀ q : Nat, l1 = some q → g.length ≤ q ∧ q < ga.length := by
      intro ga l1 e
      rw [hnp] at e
      cases hn : (h.node p).next with
      | none =>
        simp only [hn, Except.ok.injEq, Prod.mk.injEq] at e
        rw [← e.1, ← e.2]
        exact ⟨fun x => x, copied_nil h p g _, rfl, fun q hq => by cases hq⟩
      | some q =>
        simp only [hn] at e
        have hqs : q ∈ h.succs p := (mem_succs h p q).mpr (Or.inl hn)
        cases hc : clone_rec fuel g q with
        | error err => simp only [hc] at e; cases e
        | ok r =>
          obtain ⟨g1, q1⟩ := r
          simp only [hc, Except.ok.injEq, Prod.mk.injEq] at e
          obtain ⟨t1, c1, r1, b1, b2⟩ := ih g q g1 q1 hlen hg (hchild q hqs) hc
          rw [← e.1, ← e.2]
          refine ⟨t1, copied_up h p q g g1 t1 c1
            (Heap.reachable.step p q Heap.reachable.refl hqs), ?_, ?_⟩
          · simp only [Option.map_some', r1]
          · intro q2 hq2
            have e2 : q1 = q2 := Option.some.inj hq2
            subst e2
            omega
    have second : ∀ (ga gb : Heap) (l2 : Option Ptr),
        h.length ≤ ga.length → (∀ x : Nat, x < h.length → ga.node x = h.node x) →
        (if (g.node p).type = NodeType.BRANCH then
            match (g.node p).on_false with
            | none => (.ok (ga, none) : Except Fault (Heap × Option Ptr))
            | some q =>
              match clone_rec fuel ga q with
              | .error e => .error e
              | .ok (h2, q2) => .ok (h2, some q2)
          else .ok (ga, (g.node p).on_false)) = .ok (gb, l2) →
        ∃ t2 : Nat → Nat, copied h p ga gb t2 ∧ ((h.node p).type = NodeType.BRANCH →
          l2.map t2 = (h.node p).on_false ∧
          ∀ q : Nat, l2 = some q → ga.length ≤ q ∧ q < gb.length) := by
      intro ga gb l2 hla hga e
      rw [hnp] at e
      by_cases hb : (h.node p).type = NodeType.BRANCH
      · simp only [hb, if_true] at e
        cases hn : (h.node p).on_false with
        | none =>
          simp only [hn, Except.ok.injEq, Prod.mk.injEq] at e
          rw [← e.1, ← e.2]
          exact ⟨fun x => x, copied_nil h p ga _, fun _ => ⟨rfl, fun q hq => by cases hq⟩⟩
        | some q =>
          simp only [hn] at e
          have hqs : q ∈ h.succs p := (mem_succs h p q).mpr (Or.inr ⟨hb, hn⟩)
          cases hc : clone_rec fuel ga q with
          | error err => simp only [hc] at e; cases e
          | ok r =>
            obtain ⟨g1, q1⟩ := r
            simp only [hc, Except.ok.injEq, Prod.mk.injEq] at e
            obtain ⟨t1, c1, r1, b1, b2⟩ := ih ga q g1 q1 hla hga (hchild q hqs) hc
            rw [← e.1, ← e.2]
            refine ⟨t1, copied_up h p q ga g1 t1 c1
              (Heap.reachable.step p q Heap.reachable.refl hqs), fun _ => ⟨?_, ?_⟩⟩
            · simp only [Option.map_some', r1]
            · intro q2 hq2
              have e2 : q1 = q2 := Option.some.inj hq2
              subst e2
              omega
      · simp only [hb, if_false, Except.ok.injEq, Prod.mk.injEq] at e
        rw [← e.1]
        exact ⟨fun x => x, copied_nil h p ga _, fun hb1 => absurd hb1 hb⟩
    split at hr
    · cases hr
    · rename_i ga l1 h1st
      obtain ⟨t1, c1, m1, bd1⟩ := first ga l1 h1st
      have hla : h.length ≤ ga.length := le_trans hlen c1.len
      have hga : ∀ x : Nat, x < h.length → ga.node x = h.node x := by
        intro x hx
        rw [c1.old x (by omega)]
        exact hg x hx
      split at hr
      · cases hr
      · rename_i gb l2 h2nd
        obtain ⟨t2, c2, m2⟩ := second ga gb l2 hla hga h2nd
        simp only [Except.ok.injEq, Prod.mk.injEq] at hr
        obtain ⟨hr1, hr2⟩ := hr
        rw [hnp] at hr1
        have l1a := c1.len
        have l2a := c2.len
        have c12 := copied_append h p g ga gb t1 t2
          (fun x => if x < ga.length then t1 x else t2 x) c1 c2 (fun _ => rfl)
        have hlo : ∀ x : Nat, x < ga.length →
            (fun x => if x < ga.length then t1 x else t2 x) x = t1 x := by
          intro x hx; simp only [hx, if_true]
        have hhi : ∀ x : Nat, ga.length ≤ x →
            (fun x => if x < ga.length then t1 x else t2 x) x = t2 x := by
          intro x hx
          have : ¬ x < ga.length := by omega
          simp only [this, if_false]
        have hn1 : l1.map (fun x => if x < ga.length then t1 x else t2 x) = (h.node p).next ∧
            ∀ q : Nat, l1 = some q → g.length ≤ q ∧ q < gb.length := by
          refine ⟨?_, ?_⟩
          · rw [← m1]
            exact option_map_congr _ t1 l1 (fun q hq => hlo q (bd1 q hq).2)
          · intro q hq
            have := bd1 q hq
            omega
        have hn2 : (h.node p).type = NodeType.BRANCH →
            l2.map (fun x => if x < ga.length then t1 x else t2 x) = (h.node p).on_false ∧
            ∀ q : Nat, l2 = some q → g.length ≤ q ∧ q < gb.length := by
          intro hb
          obtain ⟨m3, bd2⟩ := m2 hb
          refine ⟨?_, ?_⟩
          · rw [← m3]
            exact option_map_congr _ t2 l2 (fun q hq => hhi q (bd2 q hq).1)
          · intro q hq
            have := bd2 q hq
            omega
        have hg5 : g2.length = gb.length + 1 ∧
            (∀ x : Nat,
              (g2.node x).next
                = (Heap.node (gb ++ [clone_node (h.node p) l1 l2]) x).next ∧
              (g2.node x).on_false
                = (Heap.node (gb ++ [clone_node (h.node p) l1 l2]) x).on_false ∧
              (g2.node x).type
                = (Heap.node (gb ++ [clone_node (h.node p) l1 l2]) x).type ∧
              (g2.node x).id = (Heap.node (gb ++ [clone_node (h.node p) l1 l2]) x).id ∧
              (g2.node x).call
                = (Heap.node (gb ++ [clone_node (h.node p) l1 l2]) x).call ∧
              (g2.node x).condition
                = (Heap.node (gb ++ [clone_node (h.node p) l1 l2]) x).condition) ∧
            ∀ x : Nat, x < g.length → g2.node x = gb.node x := by
          have ho1 : ∀ x : Nat, x < g.length → ∀ q : Nat, l1 = some q → x ≠ q := by
            intro x hx q hq
            have := hn1.2 q hq
            omega
          by_cases hb : (h.node p).type = NodeType.BRANCH
          · simp only [hb, if_true] at hr1
            have ho2 : ∀ x : Nat, x < g.length → ∀ q : Nat, l2 = some q → x ≠ q := by
              intro x hx q hq
              have := (hn2 hb).2 q hq
              omega
            rw [← hr1]
            refine ⟨by simp [replace_prev_of_length], ?_, ?_⟩
            · intro x
              obtain ⟨a1, a2, a3, a4, a5, a6⟩ := replace_prev_of_fields
                ((gb ++ [clone_node (h.node p) l1 l2]).replace_prev_of l1 gb.length) l2
                gb.length x
              obtain ⟨b1, b2, b3, b4, b5, b6⟩ := replace_prev_of_fields
                (gb ++ [clone_node (h.node p) l1 l2]) l1 gb.length x
              exact ⟨a1.trans b1, a2.trans b2, a3.trans b3, a4.trans b4, a5.trans b5,
                a6.trans b6⟩
            · intro x hx
              rw [replace_prev_of_other _ l2 gb.length x (ho2 x hx),
                replace_prev_of_other _ l1 gb.length x (ho1 x hx),
                node_append_lt gb _ x (Nat.lt_of_lt_of_le hx (le_trans l1a l2a))]
          · simp only [hb, if_false] at hr1
            rw [← hr1]
            refine ⟨by simp [replace_prev_of_length], ?_, ?_⟩
            · intro x
              exact replace_prev_of_fields (gb ++ [clone_node (h.node p) l1 l2]) l1 gb.length x
            · intro x hx
              rw [replace_prev_of_other _ l1 gb.length x (ho1 x hx),
                node_append_lt gb _ x (Nat.lt_of_lt_of_le hx (le_trans l1a l2a))]
        obtain ⟨g5l, g5f, g5o⟩ := hg5
        subst hr2
        refine ⟨fun x => if x < gb.length then (if x < ga.length then t1 x else t2 x) else p,
          ?_, ?_, le_trans l1a l2a, g5l.symm⟩
        · exact copied_root h p g gb g2 (fun x => if x < ga.length then t1 x else t2 x) _
            l1 l2 c12 hn1 hn2 g5l g5f g5o (fun _ => rfl)
        · simp

theorem succs_ge (Z : Heap) (x : Nat) (hx : Z.length ≤ x) : Z.succs x = [] := by
  unfold Heap.succs
  rw [node_ge Z x hx]
  rfl

/-- After the sibling pass, every node below a child `r` of the (visited, never written)
node `c` is on the side of `r`. -/
theorem walk_side (S : List Nat) (ht : Ptr → Nat) (h0 : Nat) (Z : Heap)
    (dec : Ptr → Bool) (W : Heap) (D1 Done1 : Ptr → Prop) (c r : Nat)
    (J : splice_inv S ht h0 Z dec W Done1 []) (hlk : linked W ht D1)
    (hlkZ : linked Z ht (fun _ => False))
    (hdec : ∀ x q : Nat, ht x < h0 → q ∈ Z.succs x → dec q = dec x)
    (hc : c < W.length) (hcD : ¬ D1 c) (hcDone : Done1 c) (hch : ht c ≤ h0)
    (hr : r ∈ W.succs c) : ∀ x : Nat, W.reachable r x → dec x = dec r := by
  intro x hx
  induction hx with
  | refl => rfl
  | step p q hp hq ih =>
    obtain ⟨d1, d2, _, _⟩ := walk_reach_done S ht h0 Z dec W D1 Done1 c r p J hlk hc hcD
      hcDone hch hr hp
    obtain ⟨j1, j2⟩ := J.done p d1 d2
    have key : ∀ l : Option Ptr,
        (l = (Z.node p).next ∨ ((Z.node p).type = NodeType.BRANCH ∧ l = (Z.node p).on_false)) →
        spliced_link Z S (dec p) l = some q → dec q = dec p := by
      intro l hl hs
      cases l with
      | none => simp [spliced_link] at hs
      | some q0 =>
        have hq0 : q0 ∈ Z.succs p := by
          rcases hl with e | ⟨hb, e⟩
          · exact (mem_succs Z p q0).mpr (Or.inl e.symm)
          · exact (mem_succs Z p q0).mpr (Or.inr ⟨hb, e.symm⟩)
        have hpZ : p < Z.length := by
          by_contra hge
          rw [succs_ge Z p (Nat.le_of_not_lt hge)] at hq0
          cases hq0
        obtain ⟨_, _, _, a4⟩ := hlkZ.succ_ok p hpZ (fun f => f) q0 hq0
        have e0 := hdec p q0 d2 hq0
        rcases spliced_link_mem Z S (dec p) q0 q hs with ⟨e, _⟩ | ⟨e, _⟩
        · rw [e]; exact e0
        · rw [hdec q0 q (by omega) e]; exact e0
    rw [← ih]
    rcases (mem_succs W p q).mp hq with e | ⟨hb, e⟩
    · rw [j1] at e
      exact key _ (Or.inl rfl) e
    · have hbz : (Z.node p).type = NodeType.BRANCH := by rw [← (J.data p).1]; exact hb
      rw [j2 hbz] at e
      exact key _ (Or.inr ⟨hbz, rfl⟩) e

/-- The spliced link of a copy leads to the copy of the spliced link of the original. -/
theorem spliced_link_map (Y G : Heap) (S : List Nat) (d : Bool) (t : Nat → Nat)
    (l : Option Ptr)
    (h : ∀ q0 : Nat, l = some q0 → (Y.node q0).id = (G.node (t q0)).id ∧
      (Y.node q0).type = (G.node (t q0)).type ∧
      (Y.node q0).next.map t = (G.node (t q0)).next ∧
      ((Y.node q0).type = NodeType.BRANCH →
        (Y.node q0).on_false.map t = (G.node (t q0)).on_false)) :
    (spliced_link Y S d l).map t = spliced_link G S d (l.map t) := by
  cases l with
  | none => rfl
  | some q0 =>
    obtain ⟨h1, h2, h3, h4⟩ := h q0 rfl
    simp only [spliced_link, Option.map_some', ← h1, ← h2]
    by_cases hc : S.contains (Y.node q0).id = true
    · simp only [hc, if_true]
      by_cases hb : (Y.node q0).type = NodeType.BRANCH
      · simp only [hb, if_true]
        cases d with
        | true => simp only [if_true]; exact h3
        | false => simp only [Bool.false_eq_true, if_false]; exact h4 hb
      · simp only [hb, if_false]
        exact h3
    · simp only [hc, Bool.false_eq_true, if_false, Option.map_some']

/-- The links below the copy `r0` of `r` after the sibling pass, against the heap `G` of
the originals: the node `x` below `r0` copies a node `t x` below `r`, and its links lead to
the copies of the spliced links of `t x`. -/
theorem twin_below (S : List Nat) (d : Bool) (W Y G : Heap) (R : Ptr → Prop)
    (t : Nat → Nat) (r0 r : Nat) (hR : R r0)
    (hcop : ∀ x : Nat, R x → G.reachable r (t x) ∧ (Y.node x).id = (G.node (t x)).id ∧
      (Y.node x).type = (G.node (t x)).type ∧
      (Y.node x).next.map t = (G.node (t x)).next ∧
      ((Y.node x).type = NodeType.BRANCH →
        (Y.node x).on_false.map t = (G.node (t x)).on_false) ∧
      ∀ q : Nat, q ∈ Y.succs x → R q)
    (hW : ∀ x : Nat, W.reachable r0 x → Y.reachable r0 x ∧
      (W.node x).next = spliced_link Y S d (Y.node x).next ∧
      ((Y.node x).type = NodeType.BRANCH →
        (W.node x).on_false = spliced_link Y S d (Y.node x).on_false)) :
    ∀ x : Nat, W.reachable r0 x → R x ∧ G.reachable r (t x) ∧
      (W.node x).next.map t = spliced_link G S d (G.node (t x)).next ∧
      ((G.node (t x)).type = NodeType.BRANCH →
        (W.node x).on_false.map t = spliced_link G S d (G.node (t x)).on_false) := by
  intro x hx
  obtain ⟨w1, w2, w3⟩ := hW x hx
  have hRx : R x := (reachable_region Y Y R r0 x hR (fun _ _ => rfl)
    (fun y hy q hq => (hcop y hy).2.2.2.2.2 q hq) w1).1
  obtain ⟨c1, c2, c3, c4, c5, c6⟩ := hcop x hRx
  have hsub : ∀ q0 : Nat, q0 ∈ Y.succs x → (Y.node q0).id = (G.node (t q0)).id ∧
      (Y.node q0).type = (G.node (t q0)).type ∧
      (Y.node q0).next.map t = (G.node (t q0)).next ∧
      ((Y.node q0).type = NodeType.BRANCH →
        (Y.node q0).on_false.map t = (G.node (t q0)).on_false) := by
    intro q0 hq0
    obtain ⟨_, e2, e3, e4, e5, _⟩ := hcop q0 (c6 q0 hq0)
    exact ⟨e2, e3, e4, e5⟩
  refine ⟨hRx, c1, ?_, ?_⟩
  · rw [w2, spliced_link_map Y G S d t _
      (fun q0 hq0 => hsub q0 ((mem_succs Y x q0).mpr (Or.inl hq0))), c4]
  · intro hb
    have hby : (Y.node x).type = NodeType.BRANCH := by rw [c3]; exact hb
    rw [w3 hby, spliced_link_map Y G S d t _
      (fun q0 hq0 => hsub q0 ((mem_succs Y x q0).mpr (Or.inr ⟨hby, hq0⟩))), c5 hby]

/-- When no node with a sibling id is the root `r` or follows a node with a sibling id, no
copy of a node with a sibling id is left below the copy `r0` of `r` after the sibling
pass. -/
theorem twin_clean (S : List Nat) (d : Bool) (W G : Heap) (t : Nat → Nat) (r0 r : Nat)
    (ht0 : t r0 = r)
    (hP : ∀ x : Nat, W.reachable r0 x → G.reachable r (t x) ∧
      (W.node x).type = (G.node (t x)).type ∧
      (W.node x).next.map t = spliced_link G S d (G.node (t x)).next ∧
      ((G.node (t x)).type = NodeType.BRANCH →
        (W.node x).on_false.map t = spliced_link G S d (G.node (t x)).on_false))
    (hr : (G.node r).id ∉ S)
    (hH : ∀ s q : Nat, G.reachable r s → (G.node s).id ∈ S → q ∈ G.succs s →
      (G.node q).id ∉ S) :
    ∀ x : Nat, W.reachable r0 x → (G.node (t x)).id ∉ S := by
  intro x hx
  induction hx with
  | refl => rw [ht0]; exact hr
  | step p q hp hq ih =>
    obtain ⟨g1, g3, g4, g5⟩ := hP p hp
    have fin : ∀ l : Option Ptr,
        (l = (G.node (t p)).next ∨
          ((G.node (t p)).type = NodeType.BRANCH ∧ l = (G.node (t p)).on_false)) →
        spliced_link G S d l = some (t q) → (G.node (t q)).id ∉ S := by
      intro l hl hs
      cases l with
      | none => simp [spliced_link] at hs
      | some q0 =>
        have hq0 : q0 ∈ G.succs (t p) := by
          rcases hl with e | ⟨hb, e⟩
          · exact (mem_succs G (t p) q0).mpr (Or.inl e.symm)
          · exact (mem_succs G (t p) q0).mpr (Or.inr ⟨hb, e.symm⟩)
        have r0 : G.reachable r q0 := Heap.reachable.step (t p) q0 g1 hq0
        rcases spliced_link_mem G S d q0 (t q) hs with ⟨e, hc⟩ | ⟨e, hc⟩
        · rw [e]
          intro hm
          have : S.contains (G.node q0).id = true := by simpa using hm
          rw [hc] at this
          cases this
        · exact hH q0 (t q) r0 (by simpa using hc) e
    rcases (mem_succs W p q).mp hq with e | ⟨hb, e⟩
    · have e2 : (W.node p).next.map t = some (t q) := by rw [e]; rfl
      rw [g4] at e2
      exact fin _ (Or.inl rfl) e2
    · have hbg : (G.node (t p)).type = NodeType.BRANCH := by rw [← g3]; exact hb
      have e2 : (W.node p).on_false.map t = some (t q) := by rw [e]; rfl
      rw [g5 hbg] at e2
      exact fin _ (Or.inr ⟨hbg, rfl⟩) e2

/-- What `reorder_bdd` does with a Branch candidate without a guard, on a well-formed
decision graph: it returns (given enough fuel) a graph in which `current.next` is a copy `c`
of the candidate Branch whose `on_true` side is the old successor `old_next` of `current`
and whose `on_false` side is a copy `oc` of it, made of new nodes.  Below `on_true` the
nodes of the old subtree are left with their links spliced on the `on_true` side: a link to
a node with a sibling id leads to the `on_true` child of that node.  Below `on_false` every
node is a new node, the copy of a node `twin x` of the old subtree, with an id above the id
counter at entry and below the new one, and its links lead to the copies of the old links
spliced on the `on_false` side.  On either side no node with a sibling id is left when no
sibling is `old_next` or directly follows a sibling. -/
theorem reorder_bdd_branch_candidate (bdd : BDD) (ht : Ptr → Nat) (node cand old_next : Nat)
    (C : candidate_t) (hwf : well_formed bdd ht) (hnode : node < bdd.nodes.length)
    (hg : good_candidate bdd.nodes C) (hcn : C.node = some cand)
    (hbr : (bdd.nodes.node cand).type = NodeType.BRANCH)
    (hgC : C.extra_condition = none)
    (hnext : (bdd.nodes.node node).next = some old_next) :
    ∃ fuel0, ∀ fuel, fuel0 ≤ fuel → ∃ (bdd1 : BDD) (c oc : Nat) (twin : Nat → Nat),
      reorder_bdd fuel bdd node C = .ok bdd1 ∧
      branch_hoisted bdd node old_next cand C.siblings bdd1 c oc twin := by
  have hnext0 : (Heap.node (bdd.nodes ++ [bdd.nodes.node cand]) node).next = some old_next := by
    rw [node_append_lt _ _ _ hnode]; exact hnext
  obtain ⟨htX, hr, c1, c2, c3, c4, hnn, hXl⟩ :=
    ready_plain bdd.nodes ht node old_next cand hwf.lk hnode hnext
  generalize hX : ((bdd.nodes ++ [bdd.nodes.node cand]).replace_next node
    (some bdd.nodes.length)).replace_prev bdd.nodes.length (some node) = X
    at hr c1 c2 c3 c4 hnn hXl
  have hty := typed_ok_ready bdd ht C cand node old_next X htX hwf hg hcn hr c1
    (fun x h1 h2 => by
      have h3 : x < bdd.nodes.length + 1 := by rw [← hXl]; exact h2
      have h4 : bdd.nodes.length < x := h1
      omega)
  have hT : (X.node bdd.nodes.length).type = NodeType.BRANCH := c1.trans hbr
  rw [hT] at hty
  obtain ⟨Y, oc, htZ, hclone, hd⟩ := hoist_branch C.siblings bdd.nodes ht node old_next X htX
    bdd.nodes.length hr hty hT
  have hol : old_next < bdd.nodes.length := hr.on_lt
  have holX : old_next < X.length := by omega
  have hcl : bdd.nodes.length < X.length := by omega
  have hold : old_next ∈ bdd.nodes.succs node := (mem_succs _ node old_next).mpr (Or.inl hnext)
  obtain ⟨_, _, _, hoh⟩ := hwf.lk.succ_ok node hnode (fun f => f) old_next hold
  -- the old subtree below `old_next`
  have hlkX := linked_but_below X htX bdd.nodes.length (htX old_next) hr.lb hr.ht_on
  have hinX : ∀ x : Nat, X.reachable old_next x → x < X.length := fun x hx =>
    (reachable_live X htX _ old_next x hlkX holX (Nat.lt_irrefl _) hx).1
  have hXG : ∀ x : Nat, bdd.nodes.reachable old_next x →
      x < bdd.nodes.length ∧ X.node x = bdd.nodes.node x := by
    intro x hx
    obtain ⟨l1, _, l3⟩ := reachable_live bdd.nodes ht (fun _ => False) old_next x hwf.lk hol
      (fun f => f) hx
    have hxn : x ≠ node := by
      intro e; rw [e] at l3; omega
    exact ⟨l1, hr.old x l1 hxn⟩
  have hXreach : ∀ x : Nat, X.reachable old_next x → bdd.nodes.reachable old_next x :=
    fun x hx => (reachable_region X bdd.nodes (fun y => bdd.nodes.reachable old_next y)
      old_next x Heap.reachable.refl
      (fun y hy => by unfold Heap.succs; rw [(hXG y hy).2])
      (fun y hy q hq => Heap.reachable.step y q hy hq) hx).2
  -- the copy
  obtain ⟨t, cp, troot, tlo, tlen⟩ := clone_rec_copied X (htX old_next + 1) X old_next Y oc
    (Nat.le_refl _) (fun _ _ => rfl) hinX (hclone _ (Nat.lt_succ_self _))
  have hYl : X.length < Y.length := by omega
  have hocY : oc < Y.length := by omega
  have hcopG : ∀ x : Nat, X.length ≤ x ∧ x < Y.length →
      bdd.nodes.reachable old_next (t x) ∧ (Y.node x).id = (bdd.nodes.node (t x)).id ∧
      (Y.node x).type = (bdd.nodes.node (t x)).type ∧
      (Y.node x).next.map t = (bdd.nodes.node (t x)).next ∧
      ((Y.node x).type = NodeType.BRANCH →
        (Y.node x).on_false.map t = (bdd.nodes.node (t x)).on_false) ∧
      ∀ q : Nat, q ∈ Y.succs x → X.length ≤ q ∧ q < Y.length := by
    intro x hx
    obtain ⟨d1, d2, d3, _, _⟩ := cp.data x hx.1 hx.2
    have hb := hXreach _ d1
    have e := (hXG _ hb).2
    obtain ⟨n1, n2⟩ := cp.next x hx.1 hx.2
    refine ⟨hb, by rw [d3, e], by rw [d2, e], by rw [n1, e], ?_, ?_⟩
    · intro hbr1
      rw [(cp.on_false x hx.1 hx.2 hbr1).1, e]
    · intro q hq
      rcases (mem_succs Y x q).mp hq with e1 | ⟨hbr1, e1⟩
      · exact n2 q e1
      · exact (cp.on_false x hx.1 hx.2 hbr1).2 q e1
  have hcopD : ∀ x : Nat, X.length ≤ x ∧ x < Y.length →
      (Y.node x).call = (bdd.nodes.node (t x)).call ∧
      (Y.node x).condition = (bdd.nodes.node (t x)).condition := by
    intro x hx
    obtain ⟨d1, _, _, d4, d5⟩ := cp.data x hx.1 hx.2
    have e := (hXG _ (hXreach _ d1)).2
    exact ⟨by rw [d4, e], by rw [d5, e]⟩
  -- the clone of the candidate with its two sides
  have hfZ := attach_branch_fields Y bdd.nodes.length old_next oc (by omega) (by omega)
    (by omega)
  simp only at hfZ
  generalize hZ : (((Y.replace_next bdd.nodes.length (some old_next)).replace_on_false
    bdd.nodes.length (some oc)).replace_prev old_next (some bdd.nodes.length)).replace_prev oc
    (some bdd.nodes.length) = Z at hd hfZ
  have hZl : Z.length = Y.length := by rw [← hZ]; simp
  have hZof : (Z.node bdd.nodes.length).on_false = some oc := by
    rw [(hfZ bdd.nodes.length).2.2.2.2.1]; simp
  have hZnx : (Z.node bdd.nodes.length).next = some old_next := hd.cdata.2.2.2.2.2
  have hZb : (Z.node bdd.nodes.length).type = NodeType.BRANCH := by rw [hd.cdata.1]; exact hT
  have hZY : ∀ x : Nat, x ≠ bdd.nodes.length → (Z.node x).id = (Y.node x).id ∧
      (Z.node x).type = (Y.node x).type ∧ (Z.node x).next = (Y.node x).next ∧
      (Z.node x).on_false = (Y.node x).on_false ∧ (Z.node x).call = (Y.node x).call ∧
      (Z.node x).condition = (Y.node x).condition := by
    intro x hx
    obtain ⟨f1, f2, f3, f4, f5, f6, _⟩ := hfZ x
    simp only [hx, if_false] at f5 f6
    exact ⟨f2, f1, f6, f5, f3, f4⟩
  have hZs : ∀ x : Nat, x ≠ bdd.nodes.length → Z.succs x = Y.succs x := by
    intro x hx
    obtain ⟨_, z2, z3, z4, _⟩ := hZY x hx
    unfold Heap.succs
    rw [z2, z3, z4]
  have hdec : ∀ x q : Nat, htZ x < htZ bdd.nodes.length → q ∈ Z.succs x →
      (fun y : Ptr => decide (y < X.length)) q = (fun y : Ptr => decide (y < X.length)) x := by
    intro x q hlow hq
    have hxL : x ≠ bdd.nodes.length := by
      intro e; rw [e] at hlow; exact Nat.lt_irrefl _ hlow
    rw [hZs x hxL] at hq
    show decide (q < X.length) = decide (x < X.length)
    by_cases hx : x < X.length
    · have hq1 : q ∈ X.succs x := by
        unfold Heap.succs
        rw [← cp.old x hx]
        exact hq
      have hq2 : q < X.length := (hr.lb.succ_ok x hx hxL q hq1).1
      rw [decide_eq_true hq2, decide_eq_true hx]
    · by_cases hx2 : x < Y.length
      · have hq2 := ((hcopG x ⟨Nat.le_of_not_lt hx, hx2⟩).2.2.2.2.2 q hq).1
        rw [decide_eq_false (Nat.not_lt.mpr hq2), decide_eq_false hx]
      · rw [succs_ge Y x (Nat.le_of_not_lt hx2)] at hq
        cases hq
  have J0 : splice_inv C.siblings htZ (htZ bdd.nodes.length) Z
      (fun y : Ptr => decide (y < X.length)) Z (fun x => x = bdd.nodes.length)
      [⟨some old_next, true, true⟩, ⟨some oc, false, true⟩] := by
    refine ⟨fun _ => ⟨rfl, rfl⟩, fun _ _ => ⟨rfl, rfl⟩, ?_, ?_, ?_⟩
    · intro x hx hlt
      rw [hx] at hlt
      exact absurd hlt (Nat.lt_irrefl _)
    · intro x hx q hq
      rw [hx] at hq
      right
      rcases (mem_succs Z _ q).mp hq with e | ⟨_, e⟩
      · rw [hZnx] at e
        exact ⟨_, List.mem_cons_self _ _, by rw [← Option.some.inj e]⟩
      · rw [hZof] at e
        exact ⟨_, List.mem_cons_of_mem _ (List.mem_singleton.mpr rfl),
          by rw [← Option.some.inj e]⟩
    · intro l hl n hn
      simp only [List.mem_cons, List.mem_singleton, List.not_mem_nil, or_false] at hl
      rcases hl with e | e
      · rw [e] at hn ⊢
        have e2 : old_next = n := Option.some.inj hn
        show true = decide (n < X.length)
        rw [← e2, decide_eq_true holX]
      · rw [e] at hn ⊢
        have e2 : oc = n := Option.some.inj hn
        show false = decide (n < X.length)
        rw [← e2, decide_eq_false (Nat.not_lt.mpr tlo)]
  refine ⟨3 ^ htZ bdd.nodes.length + htX old_next + htZ bdd.nodes.length + 2, ?_⟩
  intro fuel hfuel
  have hpos : 0 < 3 ^ htZ bdd.nodes.length := Nat.pow_pos (by omega)
  obtain ⟨W, D1, Done1, hloop, wp, J, hsub⟩ := dedup_loop_spliced C.siblings NodeType.BRANCH
    htZ (htZ bdd.nodes.length) Z (fun y : Ptr => decide (y < X.length)) hdec fuel Z _ _ _
    hd.winv J0 (by have := hd.cost; omega)
  have hWc := wp.frame bdd.nodes.length (Nat.le_refl _)
  have hWb : (W.node bdd.nodes.length).type = NodeType.BRANCH := by rw [hWc]; exact hZb
  have hWof : (W.node bdd.nodes.length).on_false = some oc := by rw [hWc]; exact hZof
  have hWnx : (W.node bdd.nodes.length).next = some old_next := by rw [hWc]; exact hZnx
  have hcW : bdd.nodes.length < W.length := by have := hd.len; have := wp.len; omega
  have hcD : ¬ D1 bdd.nodes.length := by
    intro hD
    have := wp.dead_low _ hD
    omega
  have hocW : oc ∈ W.succs bdd.nodes.length := (mem_succs W _ oc).mpr (Or.inr ⟨hWb, hWof⟩)
  have honW : old_next ∈ W.succs bdd.nodes.length := (mem_succs W _ old_next).mpr (Or.inl hWnx)
  obtain ⟨a1, a2, _, a4⟩ := wp.lk.succ_ok bdd.nodes.length hcW hcD oc hocW
  -- the new ids of the `on_false` side
  obtain ⟨W1, id2, hstamp, st, _⟩ := stamp_ids_total htZ (htZ oc + 1) W D1 oc (bdd.id + 1)
    wp.lk a1 a2 (by omega)
  have hst0 : stamp_ids fuel W oc (bdd.id + 1) = .ok (W1, id2) := hstamp fuel (by omega)
  have hst : recursive_update_ids fuel W oc bdd.id = .ok (W1, id2) := hst0
  have heq : reorder_bdd fuel bdd node C = .ok { bdd with nodes := W1, id := id2 } := by
    rw [reorder_bdd_plain_eq fuel bdd node C cand old_next hcn hnext0 hgC, hX]
    unfold finish_block attach_block
    simp only [if_pos hT, hclone fuel (by omega), hZ, hloop, if_pos hWb, hWof, hst]
  have hW1s : ∀ x, W1.succs x = W.succs x := stamped_succs W W1 _ _ st
  have hW1r : ∀ a b : Nat, W1.reachable a b → W.reachable a b :=
    fun a b hab => reachable_congr W1 W a b hW1s hab
  -- the two sides after the sibling pass
  have hdone : ∀ r : Nat, r ∈ W.succs bdd.nodes.length → ∀ x : Nat, W.reachable r x →
      (x < W.length ∧ decide (x < X.length) = decide (r < X.length)) ∧
      (W.node x).next = spliced_link Z C.siblings (decide (r < X.length)) (Z.node x).next ∧
      ((Z.node x).type = NodeType.BRANCH →
        (W.node x).on_false
          = spliced_link Z C.siblings (decide (r < X.length)) (Z.node x).on_false) := by
    intro r hrs x hx
    obtain ⟨d1, d2, d3, _⟩ := walk_reach_done C.siblings htZ (htZ bdd.nodes.length) Z
      _ W D1 Done1 bdd.nodes.length r x J wp.lk hcW hcD (hsub _ rfl) (Nat.le_refl _) hrs hx
    have hside := walk_side C.siblings htZ (htZ bdd.nodes.length) Z _ W D1 Done1
      bdd.nodes.length r J wp.lk hd.winv.lk hdec hcW hcD (hsub _ rfl) (Nat.le_refl _) hrs x hx
    have hside1 : decide (x < X.length) = decide (r < X.length) := hside
    obtain ⟨j1, j2⟩ := J.done x d1 d2
    have j1a : (W.node x).next
        = spliced_link Z C.siblings (decide (x < X.length)) (Z.node x).next := j1
    have j2a : (Z.node x).type = NodeType.BRANCH → (W.node x).on_false
        = spliced_link Z C.siblings (decide (x < X.length)) (Z.node x).on_false := j2
    rw [hside1] at j1a j2a
    exact ⟨⟨d3, hside1⟩, j1a, j2a⟩
  have hdt : decide (old_next < X.length) = true := decide_eq_true holX
  have hdf : decide (oc < X.length) = false := decide_eq_false (Nat.not_lt.mpr tlo)
  have hsep : ∀ x : Nat, W.reachable old_next x → ¬ W.reachable oc x := by
    intro x h1 h2
    have e1 := (hdone old_next honW x h1).1.2
    have e2 := (hdone oc hocW x h2).1.2
    rw [hdt] at e1
    rw [hdf, e1] at e2
    cases e2
  have hfr := stamp_ids_frame fuel W oc (bdd.id + 1) W1 id2 hst0
  have hrange := stamp_ids_range fuel W oc (bdd.id + 1) W1 id2 hst0
    (fun x hx => (hdone oc hocW x hx).1.1)
  have hcno : ¬ W.reachable oc bdd.nodes.length := by
    intro h2
    have e2 := (hdone oc hocW _ h2).1.2
    rw [hdf, decide_eq_true hcl] at e2
    cases e2
  -- the old subtree on the `on_true` side
  have hZG : ∀ x : Nat, bdd.nodes.reachable old_next x →
      (Z.node x).id = (bdd.nodes.node x).id ∧ (Z.node x).type = (bdd.nodes.node x).type ∧
      (Z.node x).next = (bdd.nodes.node x).next ∧
      (Z.node x).on_false = (bdd.nodes.node x).on_false ∧
      (Z.node x).call = (bdd.nodes.node x).call ∧
      (Z.node x).condition = (bdd.nodes.node x).condition := by
    intro x hx
    obtain ⟨l1, l2⟩ := hXG x hx
    have hxL : x ≠ bdd.nodes.length := by omega
    obtain ⟨z1, z2, z3, z4, z5, z6⟩ := hZY x hxL
    rw [z1, z2, z3, z4, z5, z6, cp.old x (by omega), l2]
    exact ⟨rfl, rfl, rfl, rfl, rfl, rfl⟩
  have hPW : ∀ x : Nat, W.reachable old_next x → (W.node x).type = (Z.node x).type ∧
      (W.node x).next = spliced_link Z C.siblings true (Z.node x).next ∧
      ((Z.node x).type = NodeType.BRANCH →
        (W.node x).on_false = spliced_link Z C.siblings true (Z.node x).on_false) := by
    intro x hx
    obtain ⟨_, j1, j2⟩ := hdone old_next honW x hx
    rw [hdt] at j1 j2
    exact ⟨(wp.same x).1, j1, j2⟩
  have hbelow := spliced_below C.siblings true Z W bdd.nodes old_next
    (fun x hx => ⟨(hZG x hx).1, (hZG x hx).2.1, (hZG x hx).2.2.1, (hZG x hx).2.2.2.1⟩) hPW
  have hontrue : ∀ x : Nat, W1.reachable old_next x →
      bdd.nodes.reachable old_next x ∧
      (W1.node x).type = (bdd.nodes.node x).type ∧
      (W1.node x).id = (bdd.nodes.node x).id ∧
      (W1.node x).call = (bdd.nodes.node x).call ∧
      (W1.node x).condition = (bdd.nodes.node x).condition ∧
      (W1.node x).next = spliced_link bdd.nodes C.siblings true (bdd.nodes.node x).next ∧
      ((bdd.nodes.node x).type = NodeType.BRANCH →
        (W1.node x).on_false
          = spliced_link bdd.nodes C.siblings true (bdd.nodes.node x).on_false) := by
    intro x hx1
    have hx := hW1r _ _ hx1
    obtain ⟨g1, g2, g3⟩ := hbelow x hx
    obtain ⟨z1, z2, _, _, z5, z6⟩ := hZG x g1
    obtain ⟨w1, w2, w3, w4⟩ := wp.same x
    rw [hfr x (hsep x hx)]
    exact ⟨g1, w1.trans z2, w2.trans z1, w3.trans z5, w4.trans z6, g2, g3⟩
  -- the copy on the `on_false` side
  have hYreg : ∀ x : Nat, Y.reachable oc x → X.length ≤ x ∧ x < Y.length := fun x hx =>
    (reachable_region Y Y (fun y => X.length ≤ y ∧ y < Y.length) oc x ⟨tlo, hocY⟩
      (fun _ _ => rfl) (fun y hy q hq => (hcopG y hy).2.2.2.2.2 q hq) hx).1
  have hPWf : ∀ x : Nat, W.reachable oc x → (W.node x).type = (Z.node x).type ∧
      (W.node x).next = spliced_link Z C.siblings false (Z.node x).next ∧
      ((Z.node x).type = NodeType.BRANCH →
        (W.node x).on_false = spliced_link Z C.siblings false (Z.node x).on_false) := by
    intro x hx
    obtain ⟨_, j1, j2⟩ := hdone oc hocW x hx
    rw [hdf] at j1 j2
    exact ⟨(wp.same x).1, j1, j2⟩
  have hbelowf := spliced_below C.siblings false Z W Y oc
    (fun x hx => by
      have hxL : x ≠ bdd.nodes.length := by
        have := (hYreg x hx).1
        omega
      exact ⟨(hZY x hxL).1, (hZY x hxL).2.1, (hZY x hxL).2.2.1, (hZY x hxL).2.2.2.1⟩) hPWf
  have htw := twin_below C.siblings false W Y bdd.nodes (fun y => X.length ≤ y ∧ y < Y.length)
    t oc old_next ⟨tlo, hocY⟩ hcopG hbelowf
  have honfalse : ∀ x : Nat, W1.reachable oc x →
      bdd.nodes.length < x ∧ bdd.nodes.reachable old_next (t x) ∧
      (W1.node x).type = (bdd.nodes.node (t x)).type ∧
      (W1.node x).call = (bdd.nodes.node (t x)).call ∧
      (W1.node x).condition = (bdd.nodes.node (t x)).condition ∧
      (W1.node x).next.map t
        = spliced_link bdd.nodes C.siblings false (bdd.nodes.node (t x)).next ∧
      ((bdd.nodes.node (t x)).type = NodeType.BRANCH →
        (W1.node x).on_false.map t
          = spliced_link bdd.nodes C.siblings false (bdd.nodes.node (t x)).on_false) := by
    intro x hx1
    have hx := hW1r _ _ hx1
    obtain ⟨r1, r2, r3, r4⟩ := htw x hx
    have hxL : x ≠ bdd.nodes.length := by
      have := r1.1
      omega
    obtain ⟨s1, s2, s3, _, s5, s6⟩ := st.same x
    obtain ⟨w1, _, w3, w4⟩ := wp.same x
    obtain ⟨_, z2, _, _, z5, z6⟩ := hZY x hxL
    obtain ⟨_, _, y3, _, _, _⟩ := hcopG x r1
    obtain ⟨y5, y6⟩ := hcopD x r1
    refine ⟨by have := r1.1; omega, r2, ?_, ?_, ?_, ?_, ?_⟩
    · rw [s1, w1, z2, y3]
    · rw [s5, w3, z5, y5]
    · rw [s6, w4, z6, y6]
    · rw [s2]; exact r3
    · rw [s3]; exact r4
  refine ⟨{ bdd with nodes := W1, id := id2 }, bdd.nodes.length, oc, t, heq, ?_⟩
  have hW1c : W1.node bdd.nodes.length = Z.node bdd.nodes.length := by
    rw [hfr _ hcno, hWc]
  constructor
  · exact ⟨Nat.le_refl _, by omega⟩
  · show (W1.node node).next = some bdd.nodes.length
    have hnX : node < X.length := by omega
    have hnL : node ≠ bdd.nodes.length := by omega
    have hno : node ≠ old_next := by
      intro e; rw [← e] at hoh; exact Nat.lt_irrefl _ hoh
    rw [(st.same node).2.1, wp.frame node
      (hd.mono_le bdd.nodes.length node hcl hnX (Nat.le_of_lt hr.ht_node)),
      hd.frame node hnX hnL hno]
    exact hnn
  · show (W1.node bdd.nodes.length).type = NodeType.BRANCH ∧
      (W1.node bdd.nodes.length).condition = (bdd.nodes.node cand).condition ∧
      (W1.node bdd.nodes.length).id = (bdd.nodes.node cand).id ∧
      (W1.node bdd.nodes.length).next = some old_next ∧
      (W1.node bdd.nodes.length).on_false = some oc
    rw [hW1c]
    refine ⟨hZb, ?_, ?_, hZnx, hZof⟩
    · rw [hd.cdata.2.2.1]; exact c4
    · rw [hd.cdata.2.2.2.1]; exact c2
  · exact hontrue
  · intro hro hH
    exact spliced_clean C.siblings true W1 bdd.nodes old_next
      (fun x hx => ⟨(hontrue x hx).1, (hontrue x hx).2.2.1, (hontrue x hx).2.1,
        (hontrue x hx).2.2.2.2.2.1, (hontrue x hx).2.2.2.2.2.2⟩) hro hH
  · exact troot
  · exact honfalse
  · intro hro hH
    exact twin_clean C.siblings false W1 bdd.nodes t oc old_next troot
      (fun x hx => ⟨(honfalse x hx).2.1, (honfalse x hx).2.2.1, (honfalse x hx).2.2.2.2.2.1,
        (honfalse x hx).2.2.2.2.2.2⟩) hro hH
  · intro x hx1
    have hx := hW1r _ _ hx1
    have := hrange x hx
    show bdd.id < (W1.node x).id ∧ (W1.node x).id < id2
    omega

theorem twin_branch_heap_well_formed :
    well_formed ⟨twin_branch_heap, 17, none, some 0⟩ (fun x => 10 - x) :=
  well_formed_of_checks _ _ (by decide) (by decide) (by decide) (by decide) (by decide)

/-- On `twin_branch_heap`, hoisting the Branch node 2 (sibling id 12), the first candidate
that `get_candidates` returns for node 0, meets every hypothesis of
`reorder_bdd_branch_candidate`. -/
theorem reorder_bdd_branch_candidate_witness :
    ∃ fuel0, ∀ fuel, fuel0 ≤ fuel → ∃ (bdd1 : BDD) (c oc : Nat) (twin : Nat → Nat),
      reorder_bdd fuel ⟨twin_branch_heap, 17, none, some 0⟩ 0 ⟨some 2, [12], none, none⟩
        = .ok bdd1 ∧
      branch_hoisted ⟨twin_branch_heap, 17, none, some 0⟩ 0 1 2 [12] bdd1 c oc twin :=
  reorder_bdd_branch_candidate ⟨twin_branch_heap, 17, none, some 0⟩ (fun x => 10 - x) 0 2 1
    ⟨some 2, [12], none, none⟩ twin_branch_heap_well_formed (by decide)
    (get_candidates_good example_toolbox twin_branch_heap 20 0
      [⟨some 2, [12], none, none⟩, ⟨some 3, [13, 12], none, some (sym "c")⟩]
      ⟨some 2, [12], none, none⟩ (by decide) (by decide)).1
    rfl (by decide) rfl (by decide)

/-- C27: the claim fails on the graph
`A → X → B1(c){ B2(c){ return; return }; return }`: `get_candidates(A)` returns the Branch
`B2` (node 3, id 13) without a guard and with the siblings `B2`, `B1`; after `reorder_bdd`
the successor of `A` is the clone of `B2` (node 7) with `X` (node 1) on its `on_true` side;
below it the sibling Branch `B1` (node 2, id 12) was replaced by its `on_true` child `B2`,
and `B2`, itself a sibling Branch, is left in place below `on_true`: the sibling pass linked
it without examining it. -/
theorem reorder_bdd_keeps_sibling_branch :
    well_formed ⟨twin_branch_heap, 17, none, some 0⟩ (fun x => 10 - x) ∧
    (⟨some 3, [13, 12], none, some (sym "c")⟩ : candidate_t) ∈
      (match get_candidates example_toolbox twin_branch_heap 20 0 with
       | .ok cs => cs
       | .error _ => []) ∧
    (twin_branch_heap.node 2).type = NodeType.BRANCH ∧
    (twin_branch_heap.node 2).id ∈ [13, 12] ∧
    (twin_branch_heap.node 2).next = some 3 ∧
    ∃ bdd1, reorder_bdd 20 ⟨twin_branch_heap, 17, none, some 0⟩ 0
        ⟨some 3, [13, 12], none, some (sym "c")⟩ = .ok bdd1 ∧
      (bdd1.nodes.node 0).next = some 7 ∧
      (bdd1.nodes.node 7).type = NodeType.BRANCH ∧
      (bdd1.nodes.node 7).next = some 1 ∧
      (bdd1.nodes.node 1).next = some 3 ∧
      bdd1.nodes.reachable 1 3 ∧
      (bdd1.nodes.node 3).type = NodeType.BRANCH ∧
      (bdd1.nodes.node 3).id ∈ [13, 12] := by
  refine ⟨twin_branch_heap_well_formed, by decide, by decide, by decide, by decide, ?_⟩
  have hm : (reorder_bdd 20 ⟨twin_branch_heap, 17, none, some 0⟩ 0
      ⟨some 3, [13, 12], none, some (sym "c")⟩).map
      (fun b => ((b.nodes.node 0).next, (b.nodes.node 7).type, (b.nodes.node 7).next,
        (b.nodes.node 1).next, (b.nodes.node 3).type, (b.nodes.node 3).id))
      = .ok (some 7, NodeType.BRANCH, some 1, some 3, NodeType.BRANCH, 13) := by decide
  cases hres : reorder_bdd 20 ⟨twin_branch_heap, 17, none, some 0⟩ 0
      ⟨some 3, [13, 12], none, some (sym "c")⟩ with
  | error e =>
    rw [hres] at hm
    cases hm
  | ok b =>
    rw [hres] at hm
    have hm2 : ((b.nodes.node 0).next, (b.nodes.node 7).type, (b.nodes.node 7).next,
        (b.nodes.node 1).next, (b.nodes.node 3).type, (b.nodes.node 3).id)
        = (some 7, NodeType.BRANCH, some 1, some 3, NodeType.BRANCH, 13) := Except.ok.inj hm
    simp only [Prod.mk.injEq] at hm2
    obtain ⟨e1, e2, e3, e4, e5, e6⟩ := hm2
    have r3 : b.nodes.reachable 1 3 :=
      Heap.reachable.step 1 3 Heap.reachable.refl ((mem_succs b.nodes 1 3).mpr (Or.inl e4))
    refine ⟨b, rfl, e1, e2, e3, e4, r3, e5, ?_⟩
    rw [e6]
    decide


theorem get_candidates_loop_two_below (tb : Toolbox) (h : Heap) (fuel0 : Nat) (current : Ptr) :
    ∀ (fuel : Nat) (queue viable : List candidate_t) (cfb : Bool) (cs : List candidate_t),
      get_candidates_loop tb h fuel0 current fuel queue viable cfb = .ok cs →
      (∀ c ∈ queue, two_below h current c) → (∀ c ∈ viable, two_below h current c) →
      ∀ c ∈ cs, two_below h current c := by
  intro fuel
  induction fuel with
  | zero => intro queue viable cfb cs hr; simp [get_candidates_loop] at hr
  | succ fuel ih =>
    intro queue viable cfb cs hr hq hv
    cases queue with
    | nil =>
      simp only [get_candidates_loop, Except.ok.injEq] at hr
      rw [← hr]
      exact hv
    | cons candidate rest =>
      simp only [get_candidates_loop] at hr
      cases hnode : candidate.node with
      | none => simp [hnode] at hr
      | some cn =>
        simp only [hnode] at hr
        obtain ⟨k, hk, hpath⟩ := hq candidate (List.mem_cons_self _ _) cn hnode
        have hchild : ∀ q : Ptr, q ∈ h.succs cn → ∃ k1 : Nat, 2 ≤ k1 ∧ h.steps current k1 q :=
          fun q hq1 => ⟨k + 1, by omega, Heap.steps.succ k cn q hpath hq1⟩
        have hq1 : ∀ c ∈ (if (h.node cn).type = NodeType.BRANCH then
              rest ++ [candidate_t.from_candidate_cond candidate (h.node cn).next
                  (h.node cn).condition false,
                candidate_t.from_candidate_cond candidate (h.node cn).on_false
                  (h.node cn).condition true]
            else
              match (h.node cn).next with
              | some q => rest ++ [candidate_t.from_candidate candidate (some q)]
              | none => rest), two_below h current c := by
          by_cases hb : (h.node cn).type = NodeType.BRANCH
          · simp only [hb, if_true]
            intro c hc
            rcases List.mem_append.mp hc with h1 | h1
            · exact hq c (List.mem_cons_of_mem _ h1)
            · simp only [List.mem_cons, List.mem_singleton, List.not_mem_nil, or_false] at h1
              intro q hcq
              rcases h1 with h1 | h1
              · rw [h1] at hcq
                have e : (h.node cn).next = some q := hcq
                exact hchild q ((mem_succs h cn q).mpr (Or.inl e))
              · rw [h1] at hcq
                have e : (h.node cn).on_false = some q := hcq
                exact hchild q ((mem_succs h cn q).mpr (Or.inr ⟨hb, e⟩))
          · simp only [hb, if_false]
            cases hnx : (h.node cn).next with
            | none => exact fun c hc => hq c (List.mem_cons_of_mem _ hc)
            | some q =>
              intro c hc
              rcases List.mem_append.mp hc with h1 | h1
              · exact hq c (List.mem_cons_of_mem _ h1)
              · simp only [List.mem_singleton] at h1
                rw [h1]
                intro q1 hcq
                have e : q = q1 := Option.some.inj hcq
                rw [← e]
                exact hchild q ((mem_succs h cn q).mpr (Or.inl hnx))
        split at hr
        · cases hr
        · exact ih _ _ _ _ hr hq1 hv
        · rename_i c hc
          refine ih _ _ _ _ hr hq1 ?_
          intro c1 hc1
          rcases List.mem_append.mp hc1 with h1 | h1
          · exact hv c1 h1
          · simp only [List.mem_singleton] at h1
            rw [h1]
            obtain ⟨g1, _, _⟩ := candidate_checks_flagged tb h fuel0 current candidate cn
              viable _ c hc
            intro cn1 hcn1
            rw [g1] at hcn1
            exact hq candidate (List.mem_cons_self _ _) cn1 hcn1

/-- Every candidate that `get_candidates(current)` returns lies at least two forward links
below `current`. -/
theorem get_candidates_deep (tb : Toolbox) (h : Heap) (fuel : Nat) (current : Ptr)
    (cs : List candidate_t) (hr : get_candidates tb h fuel current = .ok cs) :
    ∀ c ∈ cs, two_below h current c := by
  unfold get_candidates at hr
  cases hnx : (h.node current).next with
  | none =>
    simp only [hnx, Except.ok.injEq] at hr
    rw [← hr]
    intro c hc
    cases hc
  | some next =>
    simp only [hnx] at hr
    have h1 : h.steps current 1 next :=
      Heap.steps.succ 0 current next Heap.steps.zero ((mem_succs h current next).mpr (Or.inl hnx))
    split at hr
    · simp only [Except.ok.injEq] at hr
      rw [← hr]
      intro c hc
      cases hc
    · split at hr
      · rename_i hb
        refine get_candidates_loop_two_below tb h fuel current fuel _ _ _ cs hr ?_
          (fun c hc => by cases hc)
        intro c hc q hcq
        simp only [List.mem_cons, List.mem_singleton, List.not_mem_nil, or_false] at hc
        rcases hc with e1 | e1
        · rw [e1] at hcq
          have e : (h.node next).next = some q := hcq
          exact ⟨2, Nat.le_refl _, Heap.steps.succ 1 next q h1
            ((mem_succs h next q).mpr (Or.inl e))⟩
        · rw [e1] at hcq
          have e : (h.node next).on_false = some q := hcq
          exact ⟨2, Nat.le_refl _, Heap.steps.succ 1 next q h1
            ((mem_succs h next q).mpr (Or.inr ⟨hb, e⟩))⟩
      · refine get_candidates_loop_two_below tb h fuel current fuel _ _ _ cs hr ?_
          (fun c hc => by cases hc)
        intro c hc q hcq
        simp only [List.mem_singleton] at hc
        rw [hc] at hcq
        have e : (h.node next).next = some q := hcq
        exact ⟨2, Nat.le_refl _, Heap.steps.succ 1 next q h1
          ((mem_succs h next q).mpr (Or.inl e))⟩

/-- On a graph with consistent forward links, the nodes reached from a node of the graph
are nodes of the graph, lower by the number of links at least. -/
theorem steps_height (h : Heap) (ht : Ptr → Nat) (r : Nat)
    (hlk : linked h ht (fun _ => False)) (hr : r < h.length) :
    ∀ (k : Nat) (x : Nat), h.steps r k x → x < h.length ∧ ht x + k ≤ ht r := by
  intro k x hs
  induction hs with
  | zero => exact ⟨hr, Nat.le_refl _⟩
  | succ n p q _ hq ih =>
    obtain ⟨i1, i2⟩ := ih
    obtain ⟨a1, _, _, a4⟩ := hlk.succ_ok p i1 (fun f => f) q hq
    exact ⟨a1, by omega⟩

theorem steps_last (h : Heap) (r : Ptr) (k : Nat) (x : Ptr) (hs : h.steps r (k + 1) x) :
    ∃ p : Ptr, h.steps r k p ∧ x ∈ h.succs p := by
  cases hs with
  | succ n p q hp hq => exact ⟨p, hp, hq⟩

/-- C31: every candidate that `get_candidates(current)` returns is a Call or a Branch of
the graph (never a ReturnInit, ReturnProcess or ReturnRaw node) that lies at least two
forward links below `current`; on a graph with consistent forward links (a forest, as the
data model has it) it is neither `current` nor the immediate successor of `current`. -/
theorem get_candidates_two_below (tb : Toolbox) (h : Heap) (ht : Ptr → Nat) (fuel : Nat)
    (current : Nat) (cs : List candidate_t) (c : candidate_t)
    (hr : get_candidates tb h fuel current = .ok cs) (hc : c ∈ cs) :
    ∃ cn : Nat, c.node = some cn ∧ cn < h.length ∧
      ((h.node cn).type = NodeType.CALL ∨ (h.node cn).type = NodeType.BRANCH) ∧
      (h.node cn).type ≠ NodeType.RETURN_INIT ∧ (h.node cn).type ≠ NodeType.RETURN_PROCESS ∧
      (h.node cn).type ≠ NodeType.RETURN_RAW ∧
      (∃ k : Nat, 2 ≤ k ∧ h.steps current k cn) ∧
      (linked h ht (fun _ => False) →
        cn ≠ current ∧ (h.node current).next ≠ some cn ∧ cn ∉ h.succs current) := by
  obtain ⟨⟨cn, g1, g2, g3, _⟩, old_next, hnext⟩ := get_candidates_good tb h fuel current cs c hr hc
  obtain ⟨k, hk, hpath⟩ := get_candidates_deep tb h fuel current cs hr c hc cn g1
  have hcur : current < h.length := current_lt_of_next h current old_next hnext
  refine ⟨cn, g1, g2, g3, ?_, ?_, ?_, ⟨k, hk, hpath⟩, ?_⟩
  · intro e; rw [e] at g3; rcases g3 with g3 | g3 <;> cases g3
  · intro e; rw [e] at g3; rcases g3 with g3 | g3 <;> cases g3
  · intro e; rw [e] at g3; rcases g3 with g3 | g3 <;> cases g3
  · intro hlk
    have hh := (steps_height h ht current hlk hcur k cn hpath).2
    have hnot : cn ∉ h.succs current := by
      intro hm
      obtain ⟨k1, rfl⟩ : ∃ k1, k = k1 + 1 := ⟨k - 1, by omega⟩
      obtain ⟨p, hp, hq⟩ := steps_last h current k1 cn hpath
      obtain ⟨p1, p2⟩ := steps_height h ht current hlk hcur k1 p hp
      obtain ⟨_, _, a3, _⟩ := hlk.succ_ok p p1 (fun f => f) cn hq
      obtain ⟨_, _, b3, _⟩ := hlk.succ_ok current hcur (fun f => f) cn hm
      rw [a3] at b3
      have e : p = current := Option.some.inj b3
      rw [e] at p2
      omega
    refine ⟨?_, ?_, hnot⟩
    · intro e
      rw [e] at hh
      omega
    · intro e
      exact hnot ((mem_succs h current cn).mpr (Or.inl e))

/-- C31, witness: on `A → B → C → return` the one candidate of `A` is the Call `C`, two links
below `A`. -/
theorem get_candidates_two_below_witness :
    get_candidates example_toolbox swap_heap 20 0 = .ok [⟨some 2, [12], none, none⟩] ∧
    ∃ cn : Nat, (⟨some 2, [12], none, none⟩ : candidate_t).node = some cn ∧
      cn < swap_heap.length ∧
      ((swap_heap.node cn).type = NodeType.CALL ∨ (swap_heap.node cn).type = NodeType.BRANCH) ∧
      (swap_heap.node cn).type ≠ NodeType.RETURN_INIT ∧
      (swap_heap.node cn).type ≠ NodeType.RETURN_PROCESS ∧
      (swap_heap.node cn).type ≠ NodeType.RETURN_RAW ∧
      (∃ k : Nat, 2 ≤ k ∧ swap_heap.steps 0 k cn) ∧
      (linked swap_heap (fun x => 10 - x) (fun _ => False) →
        cn ≠ 0 ∧ (swap_heap.node 0).next ≠ some cn ∧ cn ∉ swap_heap.succs 0) :=
  ⟨by decide,
    get_candidates_two_below example_toolbox swap_heap (fun x => 10 - x) 20 0
      [⟨some 2, [12], none, none⟩] ⟨some 2, [12], none, none⟩ (by decide) (by decide)⟩


/-- C32: for every candidate `C` returned by `get_candidates(current)`, every id among the
siblings of `C` is the id of a node of the kind of `C` (a Call for a Call candidate, a Branch
for a Branch candidate); on a well-formed decision graph, where ids are pairwise distinct,
every node that carries a sibling id is of that kind, and `reorder_bdd(plan, current, C)`
returns (given enough fuel) a graph: no assertion of the sibling pass fails. -/
theorem get_candidates_siblings_same_kind (tb : Toolbox) (bdd : BDD) (ht : Ptr → Nat)
    (fuel : Nat) (current : Nat) (cs : List candidate_t) (C : candidate_t)
    (hr : get_candidates tb bdd.nodes fuel current = .ok cs) (hc : C ∈ cs) :
    ∃ cn : Nat, C.node = some cn ∧
      ((bdd.nodes.node cn).type = NodeType.CALL ∨ (bdd.nodes.node cn).type = NodeType.BRANCH) ∧
      (∀ i ∈ C.siblings, ∃ x : Nat, x < bdd.nodes.length ∧ (bdd.nodes.node x).id = i ∧
        (bdd.nodes.node x).type = (bdd.nodes.node cn).type) ∧
      (well_formed bdd ht →
        (∀ x : Nat, x < bdd.nodes.length → (bdd.nodes.node x).id ∈ C.siblings →
          (bdd.nodes.node x).type = (bdd.nodes.node cn).type) ∧
        ∃ fuel0, ∀ fuel1, fuel0 ≤ fuel1 →
          ∃ bdd1, reorder_bdd fuel1 bdd current C = .ok bdd1) := by
  obtain ⟨hg, old_next, hnext⟩ := get_candidates_good tb bdd.nodes fuel current cs C hr hc
  obtain ⟨cn, g1, g2, g3, g4⟩ := hg
  refine ⟨cn, g1, g3, g4, ?_⟩
  intro hwf
  have hgood : good_candidate bdd.nodes C := ⟨cn, g1, g2, g3, g4⟩
  refine ⟨typed_ok_of_good bdd ht C cn hwf hgood g1, ?_⟩
  obtain ⟨fuel0, hf⟩ := reorder_bdd_total bdd ht current cn old_next C hwf
    (current_lt_of_next bdd.nodes current old_next hnext) hgood g1 hnext
  refine ⟨fuel0, ?_⟩
  intro fuel1 hfuel
  obtain ⟨bdd1, h1, _⟩ := hf fuel1 hfuel
  exact ⟨bdd1, h1⟩

/-- C32, witness: on `A → X → B1(c){ B2(c){ return; return }; return }` the candidate `B2`
of `A` has the siblings 13 and 12, the ids of the two Branches. -/
theorem get_candidates_siblings_same_kind_witness :
    get_candidates example_toolbox twin_branch_heap 20 0
      = .ok [⟨some 2, [12], none, none⟩, ⟨some 3, [13, 12], none, some (sym "c")⟩] ∧
    ∃ cn : Nat, (⟨some 3, [13, 12], none, some (sym "c")⟩ : candidate_t).node = some cn ∧
      ((twin_branch_heap.node cn).type = NodeType.CALL ∨
        (twin_branch_heap.node cn).type = NodeType.BRANCH) ∧
      (∀ i ∈ [13, 12], ∃ x : Nat, x < twin_branch_heap.length ∧
        (twin_branch_heap.node x).id = i ∧
        (twin_branch_heap.node x).type = (twin_branch_heap.node cn).type) ∧
      (well_formed ⟨twin_branch_heap, 17, none, some 0⟩ (fun x => 10 - x) →
        (∀ x : Nat, x < twin_branch_heap.length → (twin_branch_heap.node x).id ∈ [13, 12] →
          (twin_branch_heap.node x).type = (twin_branch_heap.node cn).type) ∧
        ∃ fuel0, ∀ fuel1, fuel0 ≤ fuel1 →
          ∃ bdd1, reorder_bdd fuel1 ⟨twin_branch_heap, 17, none, some 0⟩ 0
            ⟨some 3, [13, 12], none, some (sym "c")⟩ = .ok bdd1) :=
  ⟨by decide,
    get_candidates_siblings_same_kind example_toolbox ⟨twin_branch_heap, 17, none, some 0⟩
      (fun x => 10 - x) 20 0
      [⟨some 2, [12], none, none⟩, ⟨some 3, [13, 12], none, some (sym "c")⟩]
      ⟨some 3, [13, 12], none, some (sym "c")⟩ (by decide) (by decide)⟩


theorem steps_reachable (h : Heap) (r : Ptr) (k : Nat) (x : Ptr) (hs : h.steps r k x) :
    h.reachable r x := by
  induction hs with
  | zero => exact Heap.reachable.refl
  | succ n p q _ hq ih => exact Heap.reachable.step p q ih hq

/-- The ids recorded by `is_called_in_all_future_branches` are ids of nodes reached from the
nodes of the work list. -/
theorem future_branches_reach (tb : Toolbox) (h : Heap) (target : Ptr) (R : Ptr → Prop)
    (hR : ∀ p q : Ptr, R p → q ∈ h.succs p → R q) :
    ∀ (fuel : Nat) (nodes : List (Option Ptr)) (sib : List Nat) (b : Bool) (sib1 : List Nat),
      future_branches_loop tb h target fuel nodes sib = .ok (b, sib1) →
      (∀ n : Ptr, some n ∈ nodes → R n) →
      ∀ i ∈ sib1, i ∈ sib ∨ ∃ x : Ptr, R x ∧ (h.node x).id = i := by
  intro fuel
  induction fuel with
  | zero => intro nodes sib b sib1 hr; simp [future_branches_loop] at hr
  | succ fuel ih =>
    intro nodes sib b sib1 hr hn i hi
    cases nodes with
    | nil =>
      simp only [future_branches_loop, Except.ok.injEq, Prod.mk.injEq] at hr
      rw [← hr.2] at hi
      exact Or.inl hi
    | cons o rest =>
      cases o with
      | none =>
        simp only [future_branches_loop, Except.ok.injEq, Prod.mk.injEq] at hr
        rw [← hr.2] at hi
        exact Or.inl hi
      | some node =>
        have hnode : R node := hn node (List.mem_cons_self _ _)
        have hrest : ∀ n : Ptr, some n ∈ rest → R n :=
          fun n hm => hn n (List.mem_cons_of_mem _ hm)
        simp only [future_branches_loop] at hr
        split at hr
        · rcases ih _ _ _ _ hr hrest i hi with h1 | h1
          · rcases List.mem_insert_iff.mp h1 with h2 | h2
            · exact Or.inr ⟨node, hnode, h2.symm⟩
            · exact Or.inl h2
          · exact Or.inr h1
        · split at hr
          · rcases ih _ _ _ _ hr hrest i hi with h1 | h1
            · rcases List.mem_insert_iff.mp h1 with h2 | h2
              · exact Or.inr ⟨node, hnode, h2.symm⟩
              · exact Or.inl h2
            · exact Or.inr h1
          · split at hr
            · rename_i hb
              refine ih _ _ _ _ hr ?_ i hi
              intro n hm
              rcases List.mem_append.mp hm with h1 | h1
              · exact hrest n h1
              · simp only [List.mem_cons, List.mem_singleton, List.not_mem_nil, or_false] at h1
                rcases h1 with h1 | h1
                · exact hR node n hnode ((mem_succs h node n).mpr (Or.inl h1.symm))
                · exact hR node n hnode ((mem_succs h node n).mpr (Or.inr ⟨hb, h1.symm⟩))
            · refine ih _ _ _ _ hr ?_ i hi
              intro n hm
              rcases List.mem_cons.mp hm with h1 | h1
              · exact hR node n hnode ((mem_succs h node n).mpr (Or.inl h1.symm))
              · exact hrest n h1

/-- The siblings of a candidate accepted by the checks of `get_candidates` are its own id
and ids of nodes reachable from `current`. -/
theorem candidate_checks_reach (tb : Toolbox) (h : Heap) (fuel : Nat) (current_node : Ptr)
    (candidate : candidate_t) (cn : Ptr) (viable : List candidate_t) (cfb : Bool)
    (c : candidate_t) (hsib : candidate.siblings = [])
    (hr : candidate_checks tb h fuel current_node candidate cn viable cfb = .ok (some c)) :
    ∀ i ∈ c.siblings, i = (h.node cn).id ∨
      ∃ x : Ptr, h.reachable current_node x ∧ (h.node x).id = i := by
  unfold candidate_checks at hr
  simp only at hr
  split at hr
  · cases hr
  · split at hr
    · cases hr
    · cases hr
    · split at hr
      · cases hr
      · cases hr
      · rename_i candidate1 hc1
        have hc1facts : candidate1.siblings = [] := by
          split at hc1
          · split at hc1
            · cases hc1
            · split at hc1
              · cases hc1
              · cases hc1
              · simp only [Except.ok.injEq, Option.some.injEq] at hc1
                rw [← hc1]
                exact hsib
          · simp only [Except.ok.injEq, Option.some.injEq] at hc1
            rw [← hc1]
            exact hsib
        split at hr
        · cases hr
        · cases hr
        · rename_i siblings hs
          simp only [Except.ok.injEq, Option.some.injEq] at hr
          rw [← hr]
          intro i hi
          simp only at hi
          rcases List.mem_insert_iff.mp hi with h2 | h2
          · exact Or.inl h2
          · right
            have hfrom : ∀ j ∈ siblings, j ∈ candidate1.siblings ∨
                ∃ x : Ptr, h.reachable current_node x ∧ (h.node x).id = j := by
              intro j hj
              split at hs
              · simp only [Except.ok.injEq, Prod.mk.injEq] at hs
                rw [← hs.2] at hj
                exact Or.inl hj
              · split at hs
                · cases hs
                · simp only [Except.ok.injEq, Prod.mk.injEq] at hs
                  rw [← hs.2] at hj
                  exact Or.inl hj
                · refine future_branches_reach tb h cn (fun x => h.reachable current_node x)
                    (fun p q hp hq => Heap.reachable.step p q hp hq) fuel _ _ _ _ hs ?_ j hj
                  intro n hm
                  simp only [List.mem_singleton, Option.some.injEq] at hm
                  rw [hm]
                  exact Heap.reachable.refl
            rcases hfrom i h2 with h3 | h3
            · rw [hc1facts] at h3
              cases h3
            · exact h3

theorem get_candidates_loop_reach (tb : Toolbox) (h : Heap) (fuel0 : Nat) (current : Ptr)
    (P : candidate_t → Prop)
    (hP : ∀ (candidate : candidate_t) (cn : Ptr) (viable : List candidate_t) (cfb : Bool)
      (c : candidate_t), candidate.node = some cn → candidate.siblings = [] →
      candidate_checks tb h fuel0 current candidate cn viable cfb = .ok (some c) → P c) :
    ∀ (fuel : Nat) (queue viable : List candidate_t) (cfb : Bool) (cs : List candidate_t),
      get_candidates_loop tb h fuel0 current fuel queue viable cfb = .ok cs →
      queue_ok queue cfb → (∀ c ∈ viable, P c) → ∀ c ∈ cs, P c := by
  intro fuel queue viable cfb cs hr hq hv
  have key : ∀ c ∈ cs, (c ∈ viable ∨ ∃ (candidate : candidate_t) (cn : Ptr)
      (viable1 : List candidate_t) (cfb1 : Bool), candidate.node = some cn ∧
      candidate.siblings = [] ∧
      candidate_checks tb h fuel0 current candidate cn viable1 cfb1 = .ok (some c)) := by
    clear hv
    induction fuel generalizing queue viable cfb with
    | zero => simp [get_candidates_loop] at hr
    | succ fuel ih =>
      cases queue with
      | nil =>
        simp only [get_candidates_loop, Except.ok.injEq] at hr
        rw [← hr]
        exact fun c hc => Or.inl hc
      | cons candidate rest =>
        simp only [get_candidates_loop] at hr
        cases hnode : candidate.node with
        | none => simp [hnode] at hr
        | some cn =>
          simp only [hnode] at hr
          have hsib0 : candidate.siblings = [] := hq.1 candidate (List.mem_cons_self _ _)
          have hq1 : queue_ok
              (if (h.node cn).type = NodeType.BRANCH then
                rest ++ [candidate_t.from_candidate_cond candidate (h.node cn).next
                    (h.node cn).condition false,
                  candidate_t.from_candidate_cond candidate (h.node cn).on_false
                    (h.node cn).condition true]
              else
                match (h.node cn).next with
                | some q => rest ++ [candidate_t.from_candidate candidate (some q)]
                | none => rest)
              (if (h.node cn).type = NodeType.BRANCH then true else cfb) := by
            by_cases hb : (h.node cn).type = NodeType.BRANCH
            · simp only [hb, if_true]
              refine ⟨?_, fun hf => by cases hf⟩
              intro c hc
              rcases List.mem_append.mp hc with h1 | h1
              · exact hq.1 c (List.mem_cons_of_mem _ h1)
              · simp only [List.mem_cons, List.mem_singleton, List.not_mem_nil, or_false] at h1
                rcases h1 with h1 | h1 <;> rw [h1] <;> rfl
            · simp only [hb, if_false]
              cases hnx : (h.node cn).next with
              | none =>
                exact ⟨fun c hc => hq.1 c (List.mem_cons_of_mem _ hc),
                  fun hf c hc => hq.2 hf c (List.mem_cons_of_mem _ hc)⟩
              | some q =>
                refine ⟨?_, ?_⟩
                · intro c hc
                  rcases List.mem_append.mp hc with h1 | h1
                  · exact hq.1 c (List.mem_cons_of_mem _ h1)
                  · simp only [List.mem_singleton] at h1
                    rw [h1]; rfl
                · intro hf c hc
                  rcases List.mem_append.mp hc with h1 | h1
                  · exact hq.2 hf c (List.mem_cons_of_mem _ h1)
                  · simp only [List.mem_singleton] at h1
                    rw [h1]
                    exact hq.2 hf candidate (List.mem_cons_self _ _)
          split at hr
          · cases hr
          · exact ih _ _ _ hr hq1
          · rename_i c0 hc0
            intro c hc
            rcases ih _ _ _ hr hq1 c hc with h1 | h1
            · rcases List.mem_append.mp h1 with h2 | h2
              · exact Or.inl h2
              · simp only [List.mem_singleton] at h2
                rw [h2]
                exact Or.inr ⟨candidate, cn, viable, _, hnode, hsib0, hc0⟩
            · exact Or.inr h1
  intro c hc
  rcases key c hc with h1 | ⟨candidate, cn, viable1, cfb1, e1, e2, e3⟩
  · exact hv c h1
  · exact hP candidate cn viable1 cfb1 c e1 e2 e3

/-- Every id among the siblings of a candidate that `get_candidates(current)` returns is
the id of a node reachable from `current` (`current` itself included). -/
theorem get_candidates_siblings_reachable (tb : Toolbox) (h : Heap) (fuel : Nat)
    (current : Ptr) (cs : List candidate_t) (c : candidate_t)
    (hr : get_candidates tb h fuel current = .ok cs) (hc : c ∈ cs) :
    ∀ i ∈ c.siblings, ∃ x : Ptr, h.reachable current x ∧ (h.node x).id = i := by
  have hdeep := get_candidates_deep tb h fuel current cs hr c hc
  have key : ∀ c ∈ cs, ∀ cn : Ptr, c.node = some cn → ∀ i ∈ c.siblings,
      i = (h.node cn).id ∨ ∃ x : Ptr, h.reachable current x ∧ (h.node x).id = i := by
    have hP : ∀ (candidate : candidate_t) (cn : Ptr) (viable : List candidate_t) (cfb : Bool)
        (c : candidate_t), candidate.node = some cn → candidate.siblings = [] →
        candidate_checks tb h fuel current candidate cn viable cfb = .ok (some c) →
        ∀ cn1 : Ptr, c.node = some cn1 → ∀ i ∈ c.siblings,
          i = (h.node cn1).id ∨ ∃ x : Ptr, h.reachable current x ∧ (h.node x).id = i := by
      intro candidate cn viable cfb c e1 e2 e3 cn1 hcn1 i hi
      obtain ⟨g1, _, _⟩ := candidate_checks_flagged tb h fuel current candidate cn viable cfb
        c e3
      rw [g1, e1] at hcn1
      have e : cn = cn1 := Option.some.inj hcn1
      rw [← e]
      exact candidate_checks_reach tb h fuel current candidate cn viable cfb c e2 e3 i hi
    unfold get_candidates at hr
    cases hnx : (h.node current).next with
    | none =>
      simp only [hnx, Except.ok.injEq] at hr
      rw [← hr]
      intro c hc
      cases hc
    | some next =>
      simp only [hnx] at hr
      split at hr
      · simp only [Except.ok.injEq] at hr
        rw [← hr]
        intro c hc
        cases hc
      · split at hr
        · refine get_candidates_loop_reach tb h fuel current _ hP fuel _ _ _ cs hr ?_
            (fun c hc => by cases hc)
          refine ⟨?_, fun hf => by cases hf⟩
          intro c hc
          simp only [List.mem_cons, List.mem_singleton, List.not_mem_nil, or_false] at hc
          rcases hc with h1 | h1 <;> rw [h1] <;> rfl
        · refine get_candidates_loop_reach tb h fuel current _ hP fuel _ _ _ cs hr ?_
            (fun c hc => by cases hc)
          refine ⟨?_, ?_⟩
          · intro c hc
            simp only [List.mem_singleton] at hc
            rw [hc]; rfl
          · intro _ c hc
            simp only [List.mem_singleton] at hc
            rw [hc]; rfl
  obtain ⟨⟨cn, g1, _⟩, _⟩ := get_candidates_good tb h fuel current cs c hr hc
  obtain ⟨k, _, hpath⟩ := hdeep cn g1
  intro i hi
  rcases key c hc cn g1 i hi with e | e
  · exact ⟨cn, steps_reachable h current k cn hpath, e.symm⟩
  · exact e

theorem echo_call_heap_well_formed :
    well_formed ⟨echo_call_heap, 15, none, some 0⟩ (fun x => 10 - x) :=
  well_formed_of_checks _ _ (by decide) (by decide) (by decide) (by decide) (by decide)

/-- C33: the claim fails on the graph `A → Br(c){ P → return; return }` of two equal calls
`A` and `P`: `get_candidates(A)` returns `P` with the siblings 12 and 10, the id of `P` and
the id of `current` itself: `is_called_in_all_future_branches(A, P)` starts at `A`, finds it
equal to `P` and returns true with the id of `A`, without looking at any future branch,
while started at the successor of `A` it returns false, the `on_false` side of the Branch
never making the call; no node below `A` carries the id 10. -/
theorem get_candidates_records_current :
    well_formed ⟨echo_call_heap, 15, none, some 0⟩ (fun x => 10 - x) ∧
    get_candidates example_toolbox echo_call_heap 20 0
      = .ok [⟨some 2, [12, 10], none, some (sym "c")⟩] ∧
    (echo_call_heap.node 0).id = 10 ∧
    (echo_call_heap.node 0).next = some 1 ∧
    is_called_in_all_future_branches example_toolbox echo_call_heap 20 0 2 []
      = .ok (true, [10]) ∧
    is_called_in_all_future_branches example_toolbox echo_call_heap 20 1 2 []
      = .ok (false, [12]) ∧
    ∀ x : Nat, echo_call_heap.reachable 1 x → (echo_call_heap.node x).id ≠ 10 := by
  refine ⟨echo_call_heap_well_formed, by decide, by decide, by decide, by decide, by decide, ?_⟩
  intro x hx hid
  have hwf := echo_call_heap_well_formed
  obtain ⟨l1, _, l3⟩ := reachable_live echo_call_heap (fun x => 10 - x) (fun _ => False) 1 x
    hwf.lk (by decide) (fun f => f) hx
  have e : x = 0 := hwf.ids x 0 l1 (by decide) hid
  rw [e] at l3
  revert l3
  decide


theorem map_can_reorder_unknown_fn (tb : Toolbox) (h : Heap) (current before after : Ptr)
    (condition : Option Expr)
    (hfn : fn_has_side_effects (h.node before).call.function_name = .error .assertion) :
    map_can_reorder tb h current before after condition = .error .assertion ∨
    map_can_reorder tb h current before after condition = .ok (true, condition) := by
  unfold map_can_reorder
  simp only
  split
  · exact Or.inr rfl
  · split
    · split
      · split
        · exact Or.inr rfl
        · rw [hfn]
          exact Or.inl rfl
      · exact Or.inl rfl
    · exact Or.inr rfl

theorem dchain_can_reorder_unknown_fn (tb : Toolbox) (h : Heap) (current before after : Ptr)
    (condition : Option Expr) (hb : (h.node before).type = NodeType.CALL)
    (ha : (h.node after).type = NodeType.CALL)
    (hfn : fn_has_side_effects (h.node before).call.function_name = .error .assertion) :
    dchain_can_reorder tb h current before after condition = .error .assertion := by
  unfold dchain_can_reorder
  simp only [hb, ha, ne_eq, not_true_eq_false, or_self, if_false, hfn]

/-- A Call whose function has no entry in the side-effect table, right above the Call
`after`, makes `are_rw_dependencies_met` fail on the assertion of `fn_has_side_effects`. -/
theorem are_rw_dependencies_met_unknown_fn (tb : Toolbox) (h : Heap)
    (current before after : Ptr) (condition : Option Expr)
    (hb : (h.node before).type = NodeType.CALL) (ha : (h.node after).type = NodeType.CALL)
    (hprev : (h.node after).prev = some before)
    (hid : (h.node before).id ≠ (h.node current).id)
    (hfn : fn_has_side_effects (h.node before).call.function_name = .error .assertion) :
    are_rw_dependencies_met tb h current after condition = .error .assertion := by
  unfold are_rw_dependencies_met
  rw [hprev]
  simp only [rw_hazard_loop, hid, if_false]
  rcases map_can_reorder_unknown_fn tb h current before after none hfn with e | e
  · rw [e]
  · rw [e]
    simp only [dchain_can_reorder_unknown_fn tb h current before after none hb ha hfn]

/-- C34: the claim fails for `nf_set_rte_ipv4_udptcp_checksum`, which is in the
cannot-reorder set and has no entry in the side-effect table (`current_time` and
`packet_return_chunk` have one): on `A → S → N → return`, where `S` is a call of
`nf_set_rte_ipv4_udptcp_checksum` between `A` and the Call `N`, whatever the arguments of `S`
and the function and arguments of `N`, `are_rw_dependencies_met(A, N)` fails on the
assertion of `fn_has_side_effects`, and so does `get_candidates(A)` for a `map_get` `N`. -/
theorem are_rw_dependencies_met_checksum_aborts (tb : Toolbox)
    (sargs : List (String × arg_t)) (fn : String) (nargs : List (String × arg_t))
    (condition : Option Expr) :
    fn_cannot_reorder_lookup
      = ["current_time", "packet_return_chunk", "nf_set_rte_ipv4_udptcp_checksum"] ∧
    fn_has_side_effects "current_time" = .ok true ∧
    fn_has_side_effects "packet_return_chunk" = .ok true ∧
    fn_has_side_effects_lookup.lookup "nf_set_rte_ipv4_udptcp_checksum" = none ∧
    fn_has_side_effects "nf_set_rte_ipv4_udptcp_checksum" = .error .assertion ∧
    are_rw_dependencies_met tb (checksum_heap sargs fn nargs) 0 2 condition
      = .error .assertion ∧
    get_candidates example_toolbox
      (checksum_heap [("ip_header", value_arg 5), ("l4_header", value_arg 6)] "map_get"
        [("map", value_arg 2)]) 20 0 = .error .assertion := by
  refine ⟨rfl, by decide, by decide, by decide, by decide, ?_, by decide⟩
  exact are_rw_dependencies_met_unknown_fn tb (checksum_heap sargs fn nargs) 0 1 2 condition
    rfl rfl rfl (by show (11 : Nat) ≠ 10; decide)
    (by show fn_has_side_effects "nf_set_rte_ipv4_udptcp_checksum" = .error .assertion; decide)



theorem guarded_put_heap_well_formed :
    well_formed ⟨guarded_put_heap, 17, none, some 0⟩ (fun x => 10 - x) :=
  well_formed_of_checks _ _ (by decide) (by decide) (by decide) (by decide) (by decide)

/-- C26: the claim fails on the graph `A → Br(c){ G1 → N → return; G3 → return }` of a
`map_get` and three equal `map_put` calls without path constraints: `get_candidates(A)`
returns `N` with the guard `Not (Eq key key)` and the siblings `N`, `G3`, `G1`; after
`reorder_bdd` the successor of `A` is a new Branch (node 14) with the fresh id 24 and the
guard as its condition, whose `on_true` side is the clone of `N` (node 7) followed by the old
successor of `A` (node 1), and whose `on_false` side is a new node with a fresh id; but below
`on_true` the candidate `N` itself (node 3, id 13, one of the siblings) is still there: the
sibling pass linked it in place of the spliced-out `G1` without examining it. -/
theorem reorder_bdd_guarded_keeps_sibling :
    well_formed ⟨guarded_put_heap, 17, none, some 0⟩ (fun x => 10 - x) ∧
    (guarded_put_heap.node 0).next = some 1 ∧
    (⟨some 3, [13, 15, 12],
        some (Expr.Not (Expr.Eq (Expr.Constant 5 32) (Expr.Constant 5 32))),
        some (sym "c")⟩ : candidate_t) ∈
      (match get_candidates example_toolbox guarded_put_heap 20 0 with
       | .ok cs => cs
       | .error _ => []) ∧
    ∃ bdd1, reorder_bdd 20 ⟨guarded_put_heap, 17, none, some 0⟩ 0
        ⟨some 3, [13, 15, 12],
          some (Expr.Not (Expr.Eq (Expr.Constant 5 32) (Expr.Constant 5 32))),
          some (sym "c")⟩ = .ok bdd1 ∧
      (bdd1.nodes.node 0).next = some 14 ∧
      (bdd1.nodes.node 14).type = NodeType.BRANCH ∧
      (bdd1.nodes.node 14).id = 24 ∧
      (bdd1.nodes.node 14).condition
        = Expr.Not (Expr.Eq (Expr.Constant 5 32) (Expr.Constant 5 32)) ∧
      (bdd1.nodes.node 14).next = some 7 ∧
      (bdd1.nodes.node 14).on_false = some 13 ∧
      (bdd1.nodes.node 13).id = 18 ∧
      (bdd1.nodes.node 7).call = (guarded_put_heap.node 3).call ∧
      (bdd1.nodes.node 7).next = some 1 ∧
      bdd1.nodes.reachable 1 3 ∧
      (bdd1.nodes.node 3).id ∈ [13, 15, 12] := by
  refine ⟨guarded_put_heap_well_formed, by decide, by decide, ?_⟩
  have hm : (reorder_bdd 20 ⟨guarded_put_heap, 17, none, some 0⟩ 0
      ⟨some 3, [13, 15, 12],
        some (Expr.Not (Expr.Eq (Expr.Constant 5 32) (Expr.Constant 5 32))),
        some (sym "c")⟩).map
      (fun b => decide ((b.nodes.node 0).next = some 14 ∧
        (b.nodes.node 14).type = NodeType.BRANCH ∧
        (b.nodes.node 14).id = 24 ∧
        (b.nodes.node 14).condition
          = Expr.Not (Expr.Eq (Expr.Constant 5 32) (Expr.Constant 5 32)) ∧
        (b.nodes.node 14).next = some 7 ∧
        (b.nodes.node 14).on_false = some 13 ∧
        (b.nodes.node 13).id = 18 ∧
        (b.nodes.node 7).call = (guarded_put_heap.node 3).call ∧
        (b.nodes.node 7).next = some 1 ∧
        3 ∈ b.nodes.succs 1 ∧
        (b.nodes.node 3).id = 13))
      = .ok true := by decide
  cases hres : reorder_bdd 20 ⟨guarded_put_heap, 17, none, some 0⟩ 0
      ⟨some 3, [13, 15, 12],
        some (Expr.Not (Expr.Eq (Expr.Constant 5 32) (Expr.Constant 5 32))),
        some (sym "c")⟩ with
  | error e =>
    rw [hres] at hm
    cases hm
  | ok b =>
    rw [hres] at hm
    obtain ⟨e1, e2, e3, e4, e5, e6, e7, e8, e9, e10, e11⟩ :=
      of_decide_eq_true (Except.ok.inj hm)
    refine ⟨b, rfl, e1, e2, e3, e4, e5, e6, e7, e8, e9,
      Heap.reachable.step 1 3 Heap.reachable.refl e10, ?_⟩
    rw [e11]
    decide



end Synapse
